import Mathlib

/-!
# umath: wide integers and fixed-point decimals

A shallow embedding of `include/umath/ExtendedInt.h` and `include/umath/Numeric.h`.

* A `uint64_t` is a natural number below `2^64`; `uint128` and `int128` keep the two
  64-bit words `hi_`, `lo_` of the source, `uint256` and `int256` keep two `uint128` halves.
* The 128-bit operators follow the `__SIZEOF_INT128__` branch: both operands are widened
  (`to_wide`), the operation is done on the wide value and the result is narrowed again
  (`from_wide`), which keeps the low 128 bits.  For the signed operators this is also the
  result of the portable branch, which works on the unsigned bit patterns.
* Template parameters `P` and `S` are ordinary arguments.
* A `std::string_view` is a `List Char`; the `unsigned` digit counters of the parsers wrap
  modulo `2^32`.
* Loops with an early `return` are recursive functions that stop with the returned value;
  the shift-and-subtract loop of `uint256::div_mod` runs on a counter that exceeds its at most
  256 iterations.
* The arbitrary-precision `Numeric` keeps its limb vector as a `List Nat`, least significant
  limb first; a member function that changes the object returns the changed object, together
  with the returned flag where it has one.
-/

namespace umath

/-- Error codes, `enum class Err`. -/
inductive Err where
  | None
  | Invalid
  | Overflow
  | DivByZero
deriving DecidableEq, Repr

/-- Rounding modes, `enum class Rounding`. -/
inductive Rounding where
  | Trunc
  | HalfUp
deriving DecidableEq, Repr

/-- Scan of the top `n` bits of a 64-bit word, most significant first: the number of
zero bits met before the first set bit among bits `n-1, ..., 0`. -/
def countl_zero_aux (x : Nat) : Nat → Nat
  | 0 => 0
  | n + 1 => if x / 2 ^ n % 2 = 1 then 0 else countl_zero_aux x n + 1

/-- The function `std::countl_zero` on a `uint64_t`: number of leading zero bits, 64 for 0. -/
def countl_zero (x : Nat) : Nat := countl_zero_aux x 64

/-- The cast `static_cast<uint64_t>` of a signed 64-bit value. -/
def to_u64 (x : Int) : Nat := (x % 2 ^ 64).toNat

/-- The cast `static_cast<int64_t>` of an unsigned 64-bit value. -/
def to_i64 (x : Nat) : Int := if x < 2 ^ 63 then (x : Int) else (x : Int) - 2 ^ 64

/-! ## uint128 -/

/-- The class `uint128`: two 64-bit words. -/
structure uint128 where
  hi_ : Nat
  lo_ : Nat
deriving DecidableEq, Repr

namespace uint128

/-- Both words are 64-bit values. -/
def WF (v : uint128) : Prop := v.hi_ < 2 ^ 64 ∧ v.lo_ < 2 ^ 64

instance (v : uint128) : Decidable (WF v) := by
  unfold WF
  infer_instance

/-- Accessor `high()`. -/
def high (v : uint128) : Nat := v.hi_

/-- Accessor `low()`. -/
def low (v : uint128) : Nat := v.lo_

/-- Widening `to_wide`: `(hi << 64) | lo` as an `unsigned __int128`. -/
def to_wide (v : uint128) : Nat := v.hi_ * 2 ^ 64 + v.lo_

/-- Narrowing `from_wide`: the low word and the word above it. -/
def from_wide (w : Nat) : uint128 := ⟨w / 2 ^ 64 % 2 ^ 64, w % 2 ^ 64⟩

/-- Operator `+` (wraps modulo `2^128`). -/
def add (a b : uint128) : uint128 := from_wide ((to_wide a + to_wide b) % 2 ^ 128)

/-- Operator `-` (wraps modulo `2^128`). -/
def sub (a b : uint128) : uint128 :=
  from_wide ((to_wide a + (2 ^ 128 - to_wide b % 2 ^ 128)) % 2 ^ 128)

/-- Operator `*` (wraps modulo `2^128`). -/
def mul (a b : uint128) : uint128 := from_wide (to_wide a * to_wide b % 2 ^ 128)

/-- Operator `/`; the divisor is non-zero at every call site. -/
def div (a b : uint128) : uint128 := from_wide (to_wide a / to_wide b)

/-- Operator `%`; the divisor is non-zero at every call site. -/
def mod (a b : uint128) : uint128 := from_wide (to_wide a % to_wide b)

/-- Defaulted `operator<=>`, less-than: lexicographic on `(hi_, lo_)`. -/
def lt (a b : uint128) : Bool := decide (a.hi_ < b.hi_ ∨ (a.hi_ = b.hi_ ∧ a.lo_ < b.lo_))

/-- Defaulted `operator<=>`, greater-or-equal. -/
def ge (a b : uint128) : Bool := !lt a b

end uint128

/-! ## int128 -/

/-- The class `int128`: the same two words, read in two's complement. -/
structure int128 where
  hi_ : Nat
  lo_ : Nat
deriving DecidableEq, Repr

namespace int128

/-- Both words are 64-bit values. -/
def WF (v : int128) : Prop := v.hi_ < 2 ^ 64 ∧ v.lo_ < 2 ^ 64

instance (v : int128) : Decidable (WF v) := by
  unfold WF
  infer_instance

/-- Accessor `high()`: the high word as an `int64_t`. -/
def high (v : int128) : Int := to_i64 v.hi_

/-- Accessor `low()`. -/
def low (v : int128) : Nat := v.lo_

/-- Constructor `int128(int64_t v)`: sign extension. -/
def of_int64 (v : Int) : int128 := ⟨to_u64 (if v < 0 then -1 else 0), to_u64 v⟩

/-- Constructor `explicit int128(uint128 u)`: same words. -/
def of_uint128 (u : uint128) : int128 := ⟨u.high, u.low⟩

/-- Widening `to_wide`: `(int64(hi) << 64) | lo` as an `__int128`, the signed value. -/
def to_wide (v : int128) : Int := to_i64 v.hi_ * 2 ^ 64 + (v.lo_ : Int)

/-- Narrowing `from_wide`: the low word and the word above it (arithmetic shift). -/
def from_wide (w : Int) : int128 := ⟨to_u64 (w / 2 ^ 64), to_u64 w⟩

/-- Operator `+`. -/
def add (a b : int128) : int128 := from_wide (to_wide a + to_wide b)

/-- Operator `-`. -/
def sub (a b : int128) : int128 := from_wide (to_wide a - to_wide b)

/-- Operator `*`. -/
def mul (a b : int128) : int128 := from_wide (to_wide a * to_wide b)

/-- Operator `/`: truncates toward zero. -/
def div (a b : int128) : int128 := from_wide (Int.tdiv (to_wide a) (to_wide b))

/-- Operator `%`: remainder with the sign of the dividend. -/
def mod (a b : int128) : int128 := from_wide (Int.tmod (to_wide a) (to_wide b))

/-- Unary operator `-`. -/
def neg (a : int128) : int128 := from_wide (-to_wide a)

end int128

namespace detail

/-- Function `detail::pow10_u`: `k` multiplications by ten starting from one. -/
def pow10_u : Nat → uint128
  | 0 => ⟨0, 1⟩
  | k + 1 => uint128.mul (pow10_u k) ⟨0, 10⟩

/-- Function `detail::pow10_i`. -/
def pow10_i (k : Nat) : int128 := int128.of_uint128 (pow10_u k)

/-- Function `detail::abs_u`. -/
def abs_u (v : int128) : uint128 :=
  if v.high < 0 then
    let nv := int128.neg v
    ⟨to_u64 nv.high, nv.low⟩
  else
    ⟨to_u64 v.high, v.low⟩

/-- Function `detail::msb_u`: index of the highest set bit, `-1` for zero. -/
def msb_u (v : uint128) : Int :=
  if v.high ≠ 0 then 64 + (63 - (countl_zero v.high : Int))
  else if v.low ≠ 0 then 63 - (countl_zero v.low : Int)
  else -1

/-- Function `detail::fits_precision`. -/
def fits_precision (raw : int128) (P : Int) : Bool :=
  if P ≤ 0 then false
  else if raw.high = 0 ∧ raw.low = 0 then true
  else
    let a := abs_u raw
    let lim := pow10_u P.toNat
    uint128.lt a lim

/-- Function `detail::safe_mul_128`. -/
def safe_mul_128 (a b : int128) : Bool :=
  let ua := abs_u a
  let ub := abs_u b
  let ma := msb_u ua
  let mb := msb_u ub
  if ma < 0 ∨ mb < 0 then true
  else decide (ma + mb < 127)

/-- Function `detail::div_u`: quotient and remainder. -/
def div_u (num den : uint128) : uint128 × uint128 :=
  (uint128.div num den, uint128.mod num den)

/-- Function `detail::apply_sign`. -/
def apply_sign (mag : uint128) (neg : Bool) : int128 :=
  let r := int128.of_uint128 mag
  if neg then int128.neg r else r

end detail

/-! ## Numeric128 -/

/-- The class `Numeric128<P,S>`: the members `raw_` and `err_`. -/
structure Numeric128 where
  raw_ : int128 := ⟨0, 0⟩
  err_ : Err := Err.None
deriving DecidableEq, Repr

namespace Numeric128

/-- Member `ok()`. -/
def ok (x : Numeric128) : Bool := decide (x.err_ = Err.None)

/-- Member `init_error`. -/
def init_error (e : Err) : Numeric128 := ⟨int128.of_int64 0, e⟩

/-- Member `init_from_raw`. -/
def init_from_raw (P : Nat) (r : int128) : Numeric128 :=
  if !detail.fits_precision r P then init_error Err.Overflow
  else ⟨r, Err.None⟩

/-- Member `init_from_int64`. -/
def init_from_int64 (P S : Nat) (v : Int) : Numeric128 :=
  init_from_raw P (int128.mul (int128.of_int64 v) (detail.pow10_i S))

/-- Member `mul`. -/
def mul (P S : Nat) (a b : Numeric128) (rnd : Rounding) : Numeric128 :=
  if !a.ok then a
  else if !b.ok then b
  else if !detail.safe_mul_128 a.raw_ b.raw_ then { err_ := Err.Overflow }
  else
    let prod := int128.mul a.raw_ b.raw_
    let divv := detail.pow10_i S
    let q := int128.div prod divv
    let r := int128.mod prod divv
    let q :=
      if rnd = Rounding.HalfUp then
        let ar := detail.abs_u r
        let ad := detail.abs_u divv
        let two_ar := uint128.add ar ar
        if uint128.ge two_ar ad then
          int128.add q (if prod.high < 0 then int128.of_int64 (-1) else int128.of_int64 1)
        else q
      else q
    init_from_raw P q

/-- Member `div`. -/
def div (P S : Nat) (a b : Numeric128) (rnd : Rounding) : Numeric128 :=
  if !a.ok then a
  else if !b.ok then b
  else if b.raw_ = int128.of_int64 0 then { err_ := Err.DivByZero }
  else
    let mult := detail.pow10_i S
    if !detail.safe_mul_128 a.raw_ mult then { err_ := Err.Overflow }
    else
      let num := int128.mul a.raw_ mult
      let q := int128.div num b.raw_
      let r := int128.mod num b.raw_
      let q :=
        if rnd = Rounding.HalfUp then
          let ar := detail.abs_u r
          let ab := detail.abs_u b.raw_
          let two_ar := uint128.add ar ar
          if uint128.ge two_ar ab then
            let neg := xor (decide (num.high < 0)) (decide (b.raw_.high < 0))
            int128.add q (if neg then int128.of_int64 (-1) else int128.of_int64 1)
          else q
        else q
      init_from_raw P q

/-- Member `add`. -/
def add (P : Nat) (a b : Numeric128) : Numeric128 :=
  if !a.ok then a
  else if !b.ok then b
  else init_from_raw P (int128.add a.raw_ b.raw_)

/-- Member `sub`. -/
def sub (P : Nat) (a b : Numeric128) : Numeric128 :=
  if !a.ok then a
  else if !b.ok then b
  else init_from_raw P (int128.sub a.raw_ b.raw_)

/-- The lambda `is_digit` of `init_parse`. -/
def is_digit (c : Char) : Bool := decide ('0'.toNat ≤ c.toNat ∧ c.toNat ≤ '9'.toNat)

/-- Local variables of the character loop of `init_parse`; `frac_len` is an `unsigned`
(32-bit) counter. -/
structure ParseState where
  int_part : uint128 := ⟨0, 0⟩
  frac_part : uint128 := ⟨0, 0⟩
  frac_len : Nat := 0
  seen_dot : Bool := false
deriving DecidableEq, Repr

/-- The character loop of `init_parse`; `none` is the early return with `Err::Invalid`. -/
def parse_loop : List Char → ParseState → Option ParseState
  | [], st => some st
  | c :: cs, st =>
    if c = '.' then
      if st.seen_dot then none
      else parse_loop cs { st with seen_dot := true }
    else if !is_digit c then none
    else
      let d : uint128 := ⟨0, c.toNat - '0'.toNat⟩
      if !st.seen_dot then
        parse_loop cs { st with int_part := uint128.add (uint128.mul st.int_part ⟨0, 10⟩) d }
      else if st.frac_len < 64 then
        parse_loop cs { st with
          frac_part := uint128.add (uint128.mul st.frac_part ⟨0, 10⟩) d
          frac_len := (st.frac_len + 1) % 2 ^ 32 }
      else
        parse_loop cs { st with frac_len := (st.frac_len + 1) % 2 ^ 32 }

/-- The end of `init_parse`: optional increment of the magnitude, sign, precision check. -/
def parse_round (P : Nat) (neg : Bool) (raw_mag : uint128) (round_up : Bool) : Numeric128 :=
  let raw_mag := if round_up then uint128.add raw_mag ⟨0, 1⟩ else raw_mag
  init_from_raw P (detail.apply_sign raw_mag neg)

/-- The part of `init_parse` after the character loop. -/
def parse_finish (P S : Nat) (neg : Bool) (rnd : Rounding) (st : ParseState) : Numeric128 :=
  let raw_mag := uint128.mul st.int_part (detail.pow10_u S)
  if S = 0 then
    if 0 < st.frac_len ∧ rnd = Rounding.HalfUp then
      if st.frac_len ≤ 64 then
        let p := detail.pow10_u (st.frac_len - 1)
        let first := uint128.div st.frac_part p
        parse_round P neg raw_mag (decide (5 ≤ first.low))
      else init_error Err.Invalid
    else parse_round P neg raw_mag false
  else
    if st.frac_len = 0 then parse_round P neg raw_mag false
    else if st.frac_len ≤ S then
      let mult := detail.pow10_u (S - st.frac_len)
      parse_round P neg (uint128.add raw_mag (uint128.mul st.frac_part mult)) false
    else
      let cut := st.frac_len - S
      if 64 < st.frac_len then init_error Err.Invalid
      else
        let divv := detail.pow10_u cut
        let qr := detail.div_u st.frac_part divv
        let round_up :=
          if rnd = Rounding.HalfUp then uint128.ge (uint128.add qr.2 qr.2) divv else false
        parse_round P neg (uint128.add raw_mag qr.1) round_up

/-- Member `init_parse`. -/
def init_parse (P S : Nat) (s : List Char) (rnd : Rounding) : Numeric128 :=
  match s with
  | [] => init_error Err.Invalid
  | c :: rest =>
    let neg := decide (c = '-')
    let s := if c = '+' ∨ c = '-' then rest else s
    match s with
    | [] => init_error Err.Invalid
    | _ :: _ =>
      match parse_loop s {} with
      | none => init_error Err.Invalid
      | some st => parse_finish P S neg rnd st

end Numeric128

/-! ## uint256 -/

namespace uint128

/-- Shift of a `uint64_t` to the left by `s < 64` bits. -/
def shl64 (x s : Nat) : Nat := x * 2 ^ s % 2 ^ 64

/-- Operator `<<` with an `int` shift count. -/
def shl (v : uint128) (shift : Int) : uint128 :=
  if shift ≤ 0 then v
  else if 128 ≤ shift then ⟨0, 0⟩
  else if 64 ≤ shift then ⟨shl64 v.lo_ (shift - 64).toNat, 0⟩
  else
    ⟨shl64 v.hi_ shift.toNat ||| v.lo_ / 2 ^ (64 - shift).toNat, shl64 v.lo_ shift.toNat⟩

/-- Operator `>>` with an `int` shift count. -/
def shr (v : uint128) (shift : Int) : uint128 :=
  if shift ≤ 0 then v
  else if 128 ≤ shift then ⟨0, 0⟩
  else if 64 ≤ shift then ⟨0, v.hi_ / 2 ^ (shift - 64).toNat⟩
  else
    ⟨v.hi_ / 2 ^ shift.toNat, v.lo_ / 2 ^ shift.toNat ||| shl64 v.hi_ (64 - shift).toNat⟩

/-- Operator `|`. -/
def or (a b : uint128) : uint128 := ⟨a.hi_ ||| b.hi_, a.lo_ ||| b.lo_⟩

end uint128

/-- The class `uint256`: two 128-bit halves. -/
structure uint256 where
  hi_ : uint128
  lo_ : uint128
deriving DecidableEq, Repr

namespace uint256

/-- All four words are 64-bit values. -/
def WF (v : uint256) : Prop := v.hi_.WF ∧ v.lo_.WF

instance (v : uint256) : Decidable (WF v) := by
  unfold WF
  infer_instance

/-- The integer a `uint256` stands for. -/
def toNat (v : uint256) : Nat := v.hi_.to_wide * 2 ^ 128 + v.lo_.to_wide

/-- Accessor `high()`. -/
def high (v : uint256) : uint128 := v.hi_

/-- Accessor `low()`. -/
def low (v : uint256) : uint128 := v.lo_

/-- Constructor from an unsigned built-in integer of at most 64 bits. -/
def of_u64 (v : Nat) : uint256 := ⟨⟨0, 0⟩, ⟨0, v % 2 ^ 64⟩⟩

/-- Conversion `explicit operator uint64_t`. -/
def to_uint64 (v : uint256) : Nat := v.lo_.low

/-- Defaulted `operator<=>`, less-than: lexicographic on `(hi_, lo_)`. -/
def lt (a b : uint256) : Bool := uint128.lt a.hi_ b.hi_ || (a.hi_ = b.hi_ && uint128.lt a.lo_ b.lo_)

/-- Defaulted `operator<=>`, greater-or-equal. -/
def ge (a b : uint256) : Bool := !lt a b

/-- Defaulted `operator<=>`, greater-than. -/
def gt (a b : uint256) : Bool := lt b a

/-- Operator `+`: the low halves are added, the carry goes into the high half. -/
def add (a b : uint256) : uint256 :=
  let lo := uint128.add a.lo_ b.lo_
  let carry := uint128.lt lo a.lo_
  let hi := uint128.add (uint128.add a.hi_ b.hi_) ⟨0, if carry then 1 else 0⟩
  ⟨hi, lo⟩

/-- Operator `-`: the low halves are subtracted, the borrow is taken from the high half. -/
def sub (a b : uint256) : uint256 :=
  let borrow := uint128.lt a.lo_ b.lo_
  let lo := uint128.sub a.lo_ b.lo_
  let hi := uint128.sub (uint128.sub a.hi_ b.hi_) ⟨0, if borrow then 1 else 0⟩
  ⟨hi, lo⟩

/-- The lambda `add_prod` of `operator*`: adds `x * y` and the incoming carry into limb `k`
of the accumulator `R`; returns the accumulator and the outgoing carry. -/
def add_prod (k x y : Nat) (st : List Nat × Nat) : List Nat × Nat :=
  let R := st.1
  let carry := st.2
  let prod := x * y % 2 ^ 128
  let acc := (prod + R.getD k 0) % 2 ^ 128
  let of1 := decide (acc < prod)
  let acc2 := (acc + carry) % 2 ^ 128
  let of2 := decide (acc2 < acc)
  let c := acc2 / 2 ^ 64
  let c := if of1 || of2 then (c + 2 ^ 64) % 2 ^ 128 else c
  (R.set k (acc2 % 2 ^ 64), c)

/-- The inner loop of `operator*` for a fixed `i`: `j` runs over `0 .. 4 - i - 1`. -/
def mul_row (A B : List Nat) (i : Nat) (R : List Nat) : List Nat :=
  ((List.range (4 - i)).foldl
    (fun st j => add_prod (i + j) (A.getD i 0) (B.getD j 0) st) (R, 0)).1

/-- Operator `*`: schoolbook product of the 64-bit limbs, kept to four limbs. -/
def mul (a b : uint256) : uint256 :=
  let A := [a.lo_.low, a.lo_.high, a.hi_.low, a.hi_.high]
  let B := [b.lo_.low, b.lo_.high, b.hi_.low, b.hi_.high]
  let R := (List.range 4).foldl (fun R i => mul_row A B i R) [0, 0, 0, 0]
  ⟨⟨R.getD 3 0, R.getD 2 0⟩, ⟨R.getD 1 0, R.getD 0 0⟩⟩

/-- Operator `<<` with an `int` shift count. -/
def shl (v : uint256) (shift : Int) : uint256 :=
  if shift ≤ 0 then v
  else if 256 ≤ shift then ⟨⟨0, 0⟩, ⟨0, 0⟩⟩
  else if 128 ≤ shift then ⟨uint128.shl v.lo_ (shift - 128), ⟨0, 0⟩⟩
  else
    ⟨uint128.or (uint128.shl v.hi_ shift) (uint128.shr v.lo_ (128 - shift)),
     uint128.shl v.lo_ shift⟩

/-- Operator `>>` with an `int` shift count. -/
def shr (v : uint256) (shift : Int) : uint256 :=
  if shift ≤ 0 then v
  else if 256 ≤ shift then ⟨⟨0, 0⟩, ⟨0, 0⟩⟩
  else if 128 ≤ shift then ⟨⟨0, 0⟩, uint128.shr v.hi_ (shift - 128)⟩
  else
    ⟨uint128.shr v.hi_ shift,
     uint128.or (uint128.shr v.lo_ shift) (uint128.shl v.hi_ (128 - shift))⟩

/-- Operator `|`. -/
def or (a b : uint256) : uint256 := ⟨uint128.or a.hi_ b.hi_, uint128.or a.lo_ b.lo_⟩

/-- Private `msb128`. -/
def msb128 (v : uint128) : Int :=
  if v.high ≠ 0 then 64 + (63 - (countl_zero v.high : Int))
  else if v.low ≠ 0 then 63 - (countl_zero v.low : Int)
  else -1

/-- Private `msb`. -/
def msb (v : uint256) : Int :=
  let mh := msb128 v.hi_
  if 0 ≤ mh then 128 + mh else msb128 v.lo_

/-- The `while (shift >= 0)` loop of `div_mod`; returns `(q, dividend)`.  The first
argument bounds the number of iterations: `shift` is at most 255 on entry. -/
def div_mod_loop : Nat → uint256 → uint256 → uint256 → Int → uint256 × uint256
  | 0, dividend, _, q, _ => (q, dividend)
  | fuel + 1, dividend, denom, q, shift =>
    if shift < 0 then (q, dividend)
    else
      let one : uint256 := ⟨⟨0, 0⟩, ⟨0, 1⟩⟩
      if ge dividend denom then
        div_mod_loop fuel (sub dividend denom) (shr denom 1) (or q (shl one shift)) (shift - 1)
      else
        div_mod_loop fuel dividend (shr denom 1) q (shift - 1)

/-- Private `div_mod`; returns `(q, r)`. -/
def div_mod (dividend divisor : uint256) : uint256 × uint256 :=
  let zero : uint256 := ⟨⟨0, 0⟩, ⟨0, 0⟩⟩
  if divisor = zero then (zero, zero)
  else if lt dividend divisor then (zero, dividend)
  else if dividend = divisor then (⟨⟨0, 0⟩, ⟨0, 1⟩⟩, zero)
  else
    let shift := msb dividend - msb divisor
    let denom := shl divisor shift
    div_mod_loop 257 dividend denom zero shift

/-- Operator `/`. -/
def div (a b : uint256) : uint256 := (div_mod a b).1

/-- Operator `%`. -/
def mod (a b : uint256) : uint256 := (div_mod a b).2

end uint256

/-! ## int256 -/

/-- The class `int256`: the same two halves, read in two's complement. -/
structure int256 where
  hi_ : uint128
  lo_ : uint128
deriving DecidableEq, Repr

namespace int256

/-- All four words are 64-bit values. -/
def WF (v : int256) : Prop := v.hi_.WF ∧ v.lo_.WF

instance (v : int256) : Decidable (WF v) := by
  unfold WF
  infer_instance

/-- Member `is_negative()`: the top bit of the top word. -/
def is_negative (v : int256) : Bool := decide (v.hi_.high / 2 ^ 63 ≠ 0)

/-- Accessor `high()`. -/
def high (v : int256) : uint128 := v.hi_

/-- Accessor `low()`. -/
def low (v : int256) : uint128 := v.lo_

/-- The signed integer an `int256` stands for. -/
def toInt (v : int256) : Int :=
  let u : uint256 := ⟨v.hi_, v.lo_⟩
  if u.toNat < 2 ^ 255 then (u.toNat : Int) else (u.toNat : Int) - 2 ^ 256

/-- Unary operator `-`: zero minus the bit pattern. -/
def neg (v : int256) : int256 :=
  let u : uint256 := ⟨v.hi_, v.lo_⟩
  let n := uint256.sub ⟨⟨0, 0⟩, ⟨0, 0⟩⟩ u
  ⟨n.high, n.low⟩

end int256

namespace detail

/-- Function `detail::msb_u256`. -/
def msb_u256 (v : uint256) : Int :=
  let hi := v.high
  if hi.high ≠ 0 then 192 + (63 - (countl_zero hi.high : Int))
  else if hi.low ≠ 0 then 128 + (63 - (countl_zero hi.low : Int))
  else
    let lo := v.low
    if lo.high ≠ 0 then 64 + (63 - (countl_zero lo.high : Int))
    else if lo.low ≠ 0 then 63 - (countl_zero lo.low : Int)
    else -1

/-- Function `detail::pow10_u256`: `k` multiplications by ten starting from one. -/
def pow10_u256 : Nat → uint256
  | 0 => uint256.of_u64 1
  | k + 1 => uint256.mul (pow10_u256 k) (uint256.of_u64 10)

/-- Function `detail::abs_u256`. -/
def abs_u256 (v : int256) : uint256 :=
  let u : uint256 := ⟨v.high, v.low⟩
  if !v.is_negative then u
  else uint256.sub (uint256.of_u64 0) u

/-- Function `detail::fits_precision_i256`. -/
def fits_precision_i256 (raw : int256) (P : Int) : Bool :=
  if P ≤ 0 then false
  else if raw.high = ⟨0, 0⟩ ∧ raw.low = ⟨0, 0⟩ then true
  else
    let a := abs_u256 raw
    let lim := pow10_u256 P.toNat
    uint256.lt a lim

/-- Function `detail::safe_mul_256`. -/
def safe_mul_256 (a b : uint256) : Bool :=
  let ma := msb_u256 a
  let mb := msb_u256 b
  if ma < 0 ∨ mb < 0 then true
  else decide (ma + mb < 256)

/-- Function `detail::div_u256`: quotient and remainder. -/
def div_u256 (num den : uint256) : uint256 × uint256 :=
  (uint256.div num den, uint256.mod num den)

/-- Function `detail::apply_sign_u256`. -/
def apply_sign_u256 (mag : uint256) (neg : Bool) : int256 :=
  let r : int256 := ⟨mag.high, mag.low⟩
  if neg then int256.neg r else r

/-- Function `detail::safe_mul_i256`. -/
def safe_mul_i256 (a b : int256) : Bool :=
  let ua := abs_u256 a
  let ub := abs_u256 b
  let ma := msb_u256 ua
  let mb := msb_u256 ub
  if ma < 0 ∨ mb < 0 then true
  else decide (ma + mb < 255)

end detail

/-! ## Numeric256 -/

/-- The class `Numeric256<P,S>`: the members `raw_` and `err_`. -/
structure Numeric256 where
  raw_ : int256 := ⟨⟨0, 0⟩, ⟨0, 0⟩⟩
  err_ : Err := Err.None
deriving DecidableEq, Repr

namespace Numeric256

/-- Member `ok()`. -/
def ok (x : Numeric256) : Bool := decide (x.err_ = Err.None)

/-- Member `init_error`. -/
def init_error (e : Err) : Numeric256 := ⟨⟨⟨0, 0⟩, ⟨0, 0⟩⟩, e⟩

/-- Member `init_from_raw`. -/
def init_from_raw (P : Nat) (r : int256) : Numeric256 :=
  if !detail.fits_precision_i256 r P then init_error Err.Overflow
  else ⟨r, Err.None⟩

/-- Member `add`. -/
def add (P : Nat) (a b : Numeric256) : Numeric256 :=
  if !a.ok then a
  else if !b.ok then b
  else
    let an := a.raw_.is_negative
    let bn := b.raw_.is_negative
    let ua := detail.abs_u256 a.raw_
    let ub := detail.abs_u256 b.raw_
    if ua = uint256.of_u64 0 then init_from_raw P b.raw_
    else if ub = uint256.of_u64 0 then init_from_raw P a.raw_
    else if an = bn then
      let sum := uint256.add ua ub
      if uint256.lt sum ua then init_error Err.Overflow
      else init_from_raw P (detail.apply_sign_u256 sum an)
    else if ua = ub then ⟨⟨⟨0, 0⟩, ⟨0, 0⟩⟩, Err.None⟩
    else if uint256.gt ua ub then
      init_from_raw P (detail.apply_sign_u256 (uint256.sub ua ub) an)
    else
      init_from_raw P (detail.apply_sign_u256 (uint256.sub ub ua) bn)

/-- Member `sub`. -/
def sub (P : Nat) (a b : Numeric256) : Numeric256 :=
  if !a.ok then a
  else if !b.ok then b
  else add P a { b with raw_ := int256.neg b.raw_ }

/-- Member `mul`. -/
def mul (P S : Nat) (a b : Numeric256) (rnd : Rounding) : Numeric256 :=
  if !a.ok then a
  else if !b.ok then b
  else if !detail.safe_mul_i256 a.raw_ b.raw_ then init_error Err.Overflow
  else
    let neg := xor a.raw_.is_negative b.raw_.is_negative
    let ua := detail.abs_u256 a.raw_
    let ub := detail.abs_u256 b.raw_
    let prod := uint256.mul ua ub
    let divv := detail.pow10_u256 S
    let qr := detail.div_u256 prod divv
    let q := qr.1
    let r := qr.2
    if rnd = Rounding.HalfUp ∧ uint256.ge (uint256.add r r) divv then
      let qq := uint256.add q (uint256.of_u64 1)
      if uint256.lt qq q then init_error Err.Overflow
      else init_from_raw P (detail.apply_sign_u256 qq neg)
    else init_from_raw P (detail.apply_sign_u256 q neg)

/-- Member `div`. -/
def div (P S : Nat) (a b : Numeric256) (rnd : Rounding) : Numeric256 :=
  if !a.ok then a
  else if !b.ok then b
  else if b.raw_ = ⟨⟨0, 0⟩, ⟨0, 0⟩⟩ then init_error Err.DivByZero
  else
    let neg := xor a.raw_.is_negative b.raw_.is_negative
    let ua := detail.abs_u256 a.raw_
    let ub := detail.abs_u256 b.raw_
    let mult := detail.pow10_u256 S
    if !detail.safe_mul_256 ua mult then init_error Err.Overflow
    else
      let num := uint256.mul ua mult
      let qr := detail.div_u256 num ub
      let q := qr.1
      let r := qr.2
      if rnd = Rounding.HalfUp ∧ uint256.ge (uint256.add r r) ub then
        let qq := uint256.add q (uint256.of_u64 1)
        if uint256.lt qq q then init_error Err.Overflow
        else init_from_raw P (detail.apply_sign_u256 qq neg)
      else init_from_raw P (detail.apply_sign_u256 q neg)

/-- Member `init_from_int64`. -/
def init_from_int64 (P S : Nat) (v : Int) : Numeric256 :=
  let neg := decide (v < 0)
  let av : Nat := if neg then (2 ^ 64 - 1 - to_u64 v + 1) % 2 ^ 64 else to_u64 v
  let mult := detail.pow10_u256 S
  let uav := uint256.of_u64 av
  if !detail.safe_mul_256 uav mult then init_error Err.Overflow
  else init_from_raw P (detail.apply_sign_u256 (uint256.mul uav mult) neg)

/-- Local variables of the character loop of `init_parse`; the two lengths are `unsigned`
(32-bit) counters, and `frac_keep_len` never exceeds `S + 1`. -/
structure ParseState where
  int_part : uint256 := uint256.of_u64 0
  frac_keep : uint256 := uint256.of_u64 0
  frac_keep_len : Nat := 0
  frac_len_total : Nat := 0
  seen_dot : Bool := false
  any : Bool := false
deriving DecidableEq, Repr

/-- The steps `x * 10 + d` of `init_parse` with their two overflow checks. -/
def mul10_add_checked (x : uint256) (d : Nat) : Option uint256 :=
  if !detail.safe_mul_256 x (uint256.of_u64 10) then none
  else
    let next := uint256.add (uint256.mul x (uint256.of_u64 10)) (uint256.of_u64 d)
    if uint256.lt next x then none else some next

/-- The character loop of `init_parse`; an exception is the early return with that error. -/
def parse_loop (S : Nat) : List Char → ParseState → Except Err ParseState
  | [], st => Except.ok st
  | c :: cs, st =>
    if c = '.' then
      if st.seen_dot then Except.error Err.Invalid
      else parse_loop S cs { st with seen_dot := true }
    else if !Numeric128.is_digit c then Except.error Err.Invalid
    else
      let d := c.toNat - '0'.toNat
      if !st.seen_dot then
        match mul10_add_checked st.int_part d with
        | none => Except.error Err.Overflow
        | some next => parse_loop S cs { st with any := true, int_part := next }
      else if st.frac_keep_len < S + 1 then
        match mul10_add_checked st.frac_keep d with
        | none => Except.error Err.Overflow
        | some next =>
          parse_loop S cs { st with
            any := true
            frac_len_total := (st.frac_len_total + 1) % 2 ^ 32
            frac_keep := next
            frac_keep_len := st.frac_keep_len + 1 }
      else
        parse_loop S cs { st with
          any := true
          frac_len_total := (st.frac_len_total + 1) % 2 ^ 32 }

/-- The end of `init_parse`: optional increment of the magnitude, sign, precision check. -/
def parse_round (P : Nat) (neg : Bool) (raw_mag : uint256) (round_up : Bool) : Numeric256 :=
  if round_up then
    let next := uint256.add raw_mag (uint256.of_u64 1)
    if uint256.lt next raw_mag then init_error Err.Overflow
    else init_from_raw P (detail.apply_sign_u256 next neg)
  else init_from_raw P (detail.apply_sign_u256 raw_mag neg)

/-- The part of `init_parse` after the character loop. -/
def parse_finish (P S : Nat) (neg : Bool) (rnd : Rounding) (st : ParseState) : Numeric256 :=
  if !st.any then init_error Err.Invalid
  else
    let p10s := detail.pow10_u256 S
    if !detail.safe_mul_256 st.int_part p10s then init_error Err.Overflow
    else
      let raw_mag := uint256.mul st.int_part p10s
      if S = 0 then
        if 0 < st.frac_len_total ∧ rnd = Rounding.HalfUp ∧ st.frac_keep_len ≠ 0 then
          let divv := detail.pow10_u256 (st.frac_keep_len - 1)
          let first := uint256.div st.frac_keep divv
          parse_round P neg raw_mag (decide (5 ≤ first.to_uint64 % 2 ^ 32))
        else parse_round P neg raw_mag false
      else
        if st.frac_len_total = 0 then parse_round P neg raw_mag false
        else if st.frac_len_total ≤ S then
          let add_zeros := S - st.frac_len_total
          let mult := detail.pow10_u256 add_zeros
          if !detail.safe_mul_256 st.frac_keep mult then init_error Err.Overflow
          else
            let add := uint256.mul st.frac_keep mult
            let sum := uint256.add raw_mag add
            if uint256.lt sum raw_mag then init_error Err.Overflow
            else parse_round P neg sum false
        else
          if st.frac_keep_len < S + 1 then init_error Err.Invalid
          else
            let qr := detail.div_u256 st.frac_keep (uint256.of_u64 10)
            let round_up := decide (rnd = Rounding.HalfUp ∧ 5 ≤ qr.2.to_uint64)
            let sum := uint256.add raw_mag qr.1
            if uint256.lt sum raw_mag then init_error Err.Overflow
            else parse_round P neg sum round_up

/-- Member `init_parse`. -/
def init_parse (P S : Nat) (s : List Char) (rnd : Rounding) : Numeric256 :=
  match s with
  | [] => init_error Err.Invalid
  | c :: rest =>
    let neg := decide (c = '-')
    let s := if c = '+' ∨ c = '-' then rest else s
    match s with
    | [] => init_error Err.Invalid
    | _ :: _ =>
      match parse_loop S s {} with
      | Except.error e => init_error e
      | Except.ok st => parse_finish P S neg rnd st

end Numeric256

/-! ## Comparison, unary minus and string conversion of the fixed-point types -/

namespace uint128

/-- Defaulted `operator<=>` as a three-way result: `hi_` first, then `lo_`. -/
def cmp (a b : uint128) : Ordering :=
  if a.hi_ < b.hi_ then Ordering.lt
  else if b.hi_ < a.hi_ then Ordering.gt
  else if a.lo_ < b.lo_ then Ordering.lt
  else if b.lo_ < a.lo_ then Ordering.gt
  else Ordering.eq

/-- The `while` loop of `to_string`: the decimal digits of `tmp`, least significant first,
are pushed onto `res`.  The counter exceeds the at most 39 iterations (`2^128 < 10^39`). -/
def to_string_loop : Nat → uint128 → List Char → List Char
  | 0, _, res => res
  | fuel + 1, tmp, res =>
    if tmp.hi_ ≠ 0 ∨ tmp.lo_ ≠ 0 then
      let digit := (uint128.mod tmp ⟨0, 10⟩).low
      to_string_loop fuel (uint128.div tmp ⟨0, 10⟩) (res ++ [Char.ofNat ('0'.toNat + digit)])
    else res

/-- Member `to_string`. -/
def to_string (v : uint128) : List Char :=
  if v.hi_ = 0 ∧ v.lo_ = 0 then ['0']
  else (to_string_loop 40 v []).reverse

end uint128

namespace int128

/-- Defaulted `operator<=>`: member-wise on the two `uint64_t` members `hi_`, `lo_`. -/
def cmp (a b : int128) : Ordering :=
  if a.hi_ < b.hi_ then Ordering.lt
  else if b.hi_ < a.hi_ then Ordering.gt
  else if a.lo_ < b.lo_ then Ordering.lt
  else if b.lo_ < a.lo_ then Ordering.gt
  else Ordering.eq

end int128

namespace uint256

/-- Defaulted `operator<=>` as a three-way result: `hi_` first, then `lo_`. -/
def cmp (a b : uint256) : Ordering :=
  match uint128.cmp a.hi_ b.hi_ with
  | Ordering.lt => Ordering.lt
  | Ordering.gt => Ordering.gt
  | Ordering.eq => uint128.cmp a.lo_ b.lo_

end uint256

namespace int256

/-- The friend `operator<=>` of `int256`. -/
def cmp (a b : int256) : Ordering :=
  let an := a.is_negative
  let bn := b.is_negative
  if an ≠ bn then (if an then Ordering.lt else Ordering.gt)
  else
    let ua : uint256 := ⟨a.hi_, a.lo_⟩
    let ub : uint256 := ⟨b.hi_, b.lo_⟩
    if !an then uint256.cmp ua ub
    else
      match uint256.cmp ua ub with
      | Ordering.lt => Ordering.gt
      | Ordering.gt => Ordering.lt
      | Ordering.eq => Ordering.eq

end int256

namespace Numeric128

/-- The friend `operator<=>`. -/
def cmp (a b : Numeric128) : Ordering := int128.cmp a.raw_ b.raw_

/-- The comparison `a < b` derived from `operator<=>`. -/
def lt (a b : Numeric128) : Bool := decide (cmp a b = Ordering.lt)

/-- The friend `operator==`. -/
def eq (a b : Numeric128) : Bool :=
  if !a.ok || !b.ok then false
  else decide (a.raw_ = b.raw_)

/-- The friend unary `operator-`. -/
def neg (P : Nat) (v : Numeric128) : Numeric128 :=
  if !v.ok then v
  else init_from_raw P (int128.neg v.raw_)

/-- Static member `from_raw_checked`: the value on success, the error otherwise. -/
def from_raw_checked (P : Nat) (r : int128) : Except Err Numeric128 :=
  let out := init_from_raw P r
  if !out.ok then Except.error out.err_ else Except.ok out

/-- Member `to_string`. -/
def to_string (S : Nat) (x : Numeric128) : List Char :=
  if !x.ok then "<err>".toList
  else
    let neg := decide (x.raw_.high < 0)
    let mag := detail.abs_u x.raw_
    let div := detail.pow10_u S
    let int_mag := uint128.div mag div
    let frac_mag := uint128.mod mag div
    let is := int_mag.to_string
    if S = 0 then (if neg then '-' :: is else is)
    else
      let fs := frac_mag.to_string
      let fs := if fs.length < S then List.replicate (S - fs.length) '0' ++ fs else fs
      (if neg then ['-'] else []) ++ is ++ ['.'] ++ fs

end Numeric128

namespace Numeric256

/-- The friend `operator<=>`. -/
def cmp (a b : Numeric256) : Ordering := int256.cmp a.raw_ b.raw_

/-- The comparison `a < b` derived from `operator<=>`. -/
def lt (a b : Numeric256) : Bool := decide (cmp a b = Ordering.lt)

/-- The friend `operator==`. -/
def eq (a b : Numeric256) : Bool :=
  if !a.ok || !b.ok then false
  else decide (a.raw_ = b.raw_)

/-- The friend unary `operator-`. -/
def neg (P : Nat) (v : Numeric256) : Numeric256 :=
  if !v.ok then v
  else init_from_raw P (int256.neg v.raw_)

/-- Static member `from_raw_checked`: the value on success, the error otherwise. -/
def from_raw_checked (P : Nat) (r : int256) : Except Err Numeric256 :=
  let out := init_from_raw P r
  if !out.ok then Except.error out.err_ else Except.ok out

end Numeric256

/-! ## Numeric: arbitrary precision, limbs in base `10^9`

A `std::vector<std::uint32_t>` is a `List Nat`, least significant limb first.  The `int`
members and parameters are integers; a `uint32_t` store keeps the value modulo `2^32`, a
`uint64_t` computation the value modulo `2^64`. -/

/-- The cast `static_cast<uint32_t>` of an unsigned value. -/
def to_u32 (x : Nat) : Nat := x % 2 ^ 32

/-- The loop `while (!v.empty() && v.back() == 0U) v.pop_back();`. -/
def pop_back_zeros (v : List Nat) : List Nat :=
  (v.reverse.dropWhile (fun x => decide (x = 0))).reverse

/-- The conversion loop of `std::to_string` on an unsigned value: the decimal digits, least
significant first. -/
def std_to_string_loop : Nat → Nat → List Char
  | 0, _ => []
  | fuel + 1, x => if x = 0 then [] else Char.ofNat ('0'.toNat + x % 10) :: std_to_string_loop fuel (x / 10)

/-- The library function `std::to_string` on a `uint32_t`: the decimal numeral, `"0"` for
zero; the counter exceeds the at most ten digits. -/
def std_to_string (x : Nat) : List Char :=
  if x = 0 then ['0'] else (std_to_string_loop 10 x).reverse

/-- The class `Numeric`: limbs `mag_`, `scale_`, `neg_` and `err_`. -/
structure Numeric where
  mag_ : List Nat := []
  scale_ : Int := 0
  neg_ : Bool := false
  err_ : Err := Err.None
deriving DecidableEq, Repr

namespace Numeric

/-- Constant `max_int_digits`. -/
def max_int_digits : Int := 131072

/-- Constant `max_frac_digits`. -/
def max_frac_digits : Int := 16383

/-- Constant `base`. -/
def base : Nat := 1000000000

/-- Constant `base_digits`. -/
def base_digits : Int := 9

/-- Member `ok()`. -/
def ok (x : Numeric) : Bool := decide (x.err_ = Err.None)

/-- Member `set_error_`. -/
def set_error_ (x : Numeric) (e : Err) : Numeric :=
  { x with mag_ := [], scale_ := 0, neg_ := false, err_ := e }

/-- Member `is_zero_`. -/
def is_zero_ (x : Numeric) : Bool := x.mag_.all (fun v => decide (v = 0))

/-- Member `normalize_`. -/
def normalize_ (x : Numeric) : Numeric :=
  let mag := pop_back_zeros x.mag_
  if mag.isEmpty then { x with mag_ := mag, neg_ := false, scale_ := 0 }
  else { x with mag_ := mag }

/-- Static member `dec_digits_u32_`. -/
def dec_digits_u32_ (x : Nat) : Int :=
  if x ≥ 100000000 then 9
  else if x ≥ 10000000 then 8
  else if x ≥ 1000000 then 7
  else if x ≥ 100000 then 6
  else if x ≥ 10000 then 5
  else if x ≥ 1000 then 4
  else if x ≥ 100 then 3
  else if x ≥ 10 then 2
  else 1

/-- Member `decimal_digits_`. -/
def decimal_digits_ (x : Numeric) : Int :=
  if x.mag_.isEmpty then 1
  else ((x.mag_.length : Int) - 1) * base_digits + dec_digits_u32_ (x.mag_.getLastD 0)

/-- Member `check_limits_`. -/
def check_limits_ (x : Numeric) : Bool :=
  if x.scale_ < 0 ∨ x.scale_ > max_frac_digits then false
  else if x.mag_.isEmpty then true
  else
    let digs := decimal_digits_ x
    let before := max 0 (digs - x.scale_)
    decide (before ≤ max_int_digits)

/-- The loop of `pow10_u32_` run `k` times. -/
def pow10_u32_loop : Nat → Nat → Nat
  | 0, p => p
  | k + 1, p => pow10_u32_loop k (to_u32 (p * 10))

/-- Static member `pow10_u32_`. -/
def pow10_u32_ (k : Int) : Nat := pow10_u32_loop k.toNat 1

/-- The loop of `add_one_`: the limbs after the loop and the carry left; the loop stops
at the first limb that absorbs the carry. -/
def add_one_loop : List Nat → Nat → List Nat × Nat
  | [], carry => ([], carry)
  | i :: rest, carry =>
    let cur := (i + carry) % 2 ^ 64
    let carry := cur / base
    if carry = 0 then (to_u32 (cur % base) :: rest, carry)
    else
      let res := add_one_loop rest carry
      (to_u32 (cur % base) :: res.1, res.2)

/-- Static member `add_one_`. -/
def add_one_ (v : List Nat) : List Nat :=
  let res := add_one_loop v 1
  if res.2 ≠ 0 then res.1 ++ [to_u32 res.2] else res.1

/-- The loop of `cmp_abs_` on two vectors of the same size, given most significant limb
first. -/
def cmp_abs_loop : List Nat → List Nat → Int
  | x :: xs, y :: ys => if x ≠ y then (if x < y then -1 else 1) else cmp_abs_loop xs ys
  | _, _ => 0

/-- Static member `cmp_abs_`. -/
def cmp_abs_ (a b : List Nat) : Int :=
  if a.length ≠ b.length then (if a.length < b.length then -1 else 1)
  else cmp_abs_loop a.reverse b.reverse

/-- The loop of `add_abs_` from index `i` on: the remaining limbs of `a` and `b` (a vector
that has ended contributes `0`) and the carry; the last carry is pushed when non-zero. -/
def add_abs_loop : List Nat → List Nat → Nat → List Nat
  | [], [], carry => if carry ≠ 0 then [to_u32 carry] else []
  | av :: a, [], carry =>
    let s := (av + 0 + carry) % 2 ^ 64
    to_u32 (s % base) :: add_abs_loop a [] (s / base)
  | [], bv :: b, carry =>
    let s := (0 + bv + carry) % 2 ^ 64
    to_u32 (s % base) :: add_abs_loop [] b (s / base)
  | av :: a, bv :: b, carry =>
    let s := (av + bv + carry) % 2 ^ 64
    to_u32 (s % base) :: add_abs_loop a b (s / base)

/-- Static member `add_abs_`. -/
def add_abs_ (a b : List Nat) : List Nat := pop_back_zeros (add_abs_loop a b 0)

/-- The loop of `sub_abs_` from index `i` on: the remaining limbs of `r` and `b` and the
borrow, computed in `int64_t` and stored as `uint32_t`. -/
def sub_abs_loop : List Nat → List Nat → Int → List Nat
  | [], _, _ => []
  | av :: r, b, carry =>
    let bv : Int := (b.headD 0 : Nat)
    let cur : Int := (av : Int) - bv - carry
    if cur < 0 then ((cur + (base : Int)) % 2 ^ 32).toNat :: sub_abs_loop r b.tail 1
    else (cur % 2 ^ 32).toNat :: sub_abs_loop r b.tail 0

/-- Static member `sub_abs_`. -/
def sub_abs_ (a b : List Nat) : List Nat := pop_back_zeros (sub_abs_loop a b 0)

/-- The inner loop of `mul_abs_` for the limb `ai` of `a` at index `i`: `j` runs over the
limbs of `b`, `tmp` is updated in place, the carry is returned. -/
def mul_abs_inner (ai : Nat) (i : Nat) : List Nat → Nat → List Nat → Nat → List Nat × Nat
  | [], _, tmp, carry => (tmp, carry)
  | bj :: b, j, tmp, carry =>
    let cur := (tmp.getD (i + j) 0 + ai * bj + carry) % 2 ^ 64
    mul_abs_inner ai i b (j + 1) (tmp.set (i + j) (cur % base)) (cur / base)

/-- The outer loop of `mul_abs_`: `i` runs over the limbs of `a`. -/
def mul_abs_outer (b : List Nat) : List Nat → Nat → List Nat → List Nat
  | [], _, tmp => tmp
  | ai :: a, i, tmp =>
    let res := mul_abs_inner ai i b 0 tmp 0
    let k := i + b.length
    mul_abs_outer b a (i + 1) (res.1.set k ((res.1.getD k 0 + res.2) % 2 ^ 64))

/-- Static member `mul_abs_`. -/
def mul_abs_ (a b : List Nat) : List Nat :=
  if a.isEmpty ∨ b.isEmpty then []
  else
    let tmp := mul_abs_outer b a 0 (List.replicate (a.length + b.length) 0)
    pop_back_zeros (tmp.map to_u32)

/-- The first loop of `mul_small_`: the limbs and the carry left. -/
def mul_small_loop (m : Nat) : List Nat → Nat → List Nat × Nat
  | [], carry => ([], carry)
  | i :: rest, carry =>
    let cur := (i * m + carry) % 2 ^ 64
    let res := mul_small_loop m rest (cur / base)
    (to_u32 (cur % base) :: res.1, res.2)

/-- The second loop of `mul_small_`, `while (carry != 0)`: the limbs pushed; the counter
exceeds the at most three limbs of a 64-bit carry. -/
def mul_small_carry : Nat → Nat → List Nat
  | 0, _ => []
  | fuel + 1, carry =>
    if carry ≠ 0 then to_u32 (carry % base) :: mul_small_carry fuel (carry / base) else []

/-- Static member `mul_small_`: the returned flag and the vector `v` afterwards. -/
def mul_small_ (v : List Nat) (m : Nat) : Bool × List Nat :=
  if v.isEmpty ∨ m = 1 then (true, v)
  else if m = 0 then (true, [])
  else
    let res := mul_small_loop m v 0
    (true, res.1 ++ mul_small_carry 8 res.2)

/-- The loop of `div_small_`, limbs given most significant first: the quotient limbs in
the same order and the remainder. -/
def div_small_loop (d : Nat) : List Nat → Nat → List Nat × Nat
  | [], r => ([], r)
  | vi :: rest, r =>
    let cur := (vi + r * base) % 2 ^ 64
    let res := div_small_loop d rest (cur % d)
    (to_u32 (cur / d) :: res.1, res.2)

/-- Static member `div_small_`: the returned flag, the vector `v` and `rem` afterwards. -/
def div_small_ (v : List Nat) (d : Nat) (rem : Nat) : Bool × List Nat × Nat :=
  if d = 0 then (false, v, rem)
  else
    let res := div_small_loop d v.reverse 0
    (true, pop_back_zeros res.1.reverse, to_u32 res.2)

/-- Static member `mul_pow10_`: the returned flag and the vector `v` afterwards. -/
def mul_pow10_ (v : List Nat) (k : Int) : Bool × List Nat :=
  if k < 0 then (false, v)
  else if v.isEmpty ∨ k = 0 then (true, v)
  else
    let limb_shift := Int.tdiv k base_digits
    let rem := Int.tmod k base_digits
    let v := if limb_shift > 0 then List.replicate limb_shift.toNat 0 ++ v else v
    if rem > 0 then mul_small_ v (pow10_u32_ rem)
    else (true, v)

end Numeric

namespace Numeric

/-- The loop `while (!bd.empty() && cmp_abs_(r, bd) < 0)` of `div_mod_abs_`: the digit `d`
and the product `bd` afterwards.  Each round decrements `d`, and `bd` is empty once `d` is
`0`, so the counter is the digit itself. -/
def div_mod_adjust (b r : List Nat) : Nat → Nat → List Nat → Nat × List Nat
  | 0, d, bd => (d, bd)
  | fuel + 1, d, bd =>
    if !bd.isEmpty ∧ cmp_abs_ r bd < 0 then
      let d := (d + 2 ^ 64 - 1) % 2 ^ 64
      div_mod_adjust b r fuel d (mul_small_ b (to_u32 d)).2
    else (d, bd)

/-- The main loop of `div_mod_abs_`, the limbs of `a` given most significant first: the
quotient limbs in the same order and the remainder `r`. -/
def div_mod_loop (b : List Nat) : List Nat → List Nat → List Nat × List Nat
  | [], r => ([], r)
  | ai :: rest, r =>
    let r := if !r.isEmpty ∨ ai ≠ 0 then ai :: r else 0 :: r
    let r := pop_back_zeros r
    let s1 := if r.length > b.length then r.getD b.length 0 else 0
    let s0 := if r.length > b.length - 1 then r.getD (b.length - 1) 0 else 0
    let d := (s1 * base + s0) % 2 ^ 64 / b.getLastD 0
    let d := if d ≥ base then base - 1 else d
    let bd := if d ≠ 0 then (mul_small_ b (to_u32 d)).2 else []
    let adj := div_mod_adjust b r d d bd
    let r := if !adj.2.isEmpty then sub_abs_ r adj.2 else r
    let res := div_mod_loop b rest r
    (to_u32 adj.1 :: res.1, res.2)

/-- Static member `div_mod_abs_`: quotient and remainder. -/
def div_mod_abs_ (a b : List Nat) : List Nat × List Nat :=
  let a := pop_back_zeros a
  let b := pop_back_zeros b
  if b.isEmpty then ([], [])
  else if a.isEmpty then ([], [])
  else if cmp_abs_ a b < 0 then ([], a)
  else
    let f := to_u32 (base / ((b.getLastD 0 + 1) % 2 ^ 64))
    let a := if f ≠ 1 then (mul_small_ a f).2 else a
    let b := if f ≠ 1 then (mul_small_ b f).2 else b
    let res := div_mod_loop b a.reverse []
    let q := pop_back_zeros res.1.reverse
    let r := if f ≠ 1 ∧ !res.2.isEmpty then (div_small_ res.2 f 0).2.1 else res.2
    (q, r)

/-- Member `rescale_up_`: the returned flag and the object afterwards. -/
def rescale_up_ (x : Numeric) (new_scale : Int) : Bool × Numeric :=
  if new_scale < x.scale_ then (false, x)
  else if new_scale > max_frac_digits then (false, x)
  else
    let add := new_scale - x.scale_
    if add = 0 then (true, x)
    else
      let res := mul_pow10_ x.mag_ add
      if !res.1 then (false, { x with mag_ := res.2 })
      else
        let x := normalize_ { x with mag_ := res.2, scale_ := new_scale }
        (check_limits_ x, x)

/-- Member `rescale_`: the returned flag and the object afterwards. -/
def rescale_ (x : Numeric) (new_scale : Int) (rnd : Rounding) : Bool × Numeric :=
  if new_scale < 0 ∨ new_scale > max_frac_digits then (false, x)
  else if new_scale = x.scale_ then (true, x)
  else if new_scale > x.scale_ then rescale_up_ x new_scale
  else
    let cut := x.scale_ - new_scale
    let m := Int.tdiv cut base_digits
    let r := Int.tmod cut base_digits
    let guard : Nat :=
      if rnd = Rounding.HalfUp then
        if r = 0 then
          if m > 0 ∧ m.toNat ≤ x.mag_.length then
            let limb := x.mag_.getD (m - 1).toNat 0
            limb / 100000000
          else 0
        else
          if m.toNat < x.mag_.length then
            let limb := x.mag_.getD m.toNat 0
            let p := pow10_u32_ r
            let rem := limb % p
            rem / pow10_u32_ (r - 1) % 10
          else 0
      else 0
    let mag :=
      if m > 0 then (if m.toNat ≥ x.mag_.length then [] else x.mag_.drop m.toNat)
      else x.mag_
    let mag := if r > 0 ∧ !mag.isEmpty then (div_small_ mag (pow10_u32_ r) 0).2.1 else mag
    let mag := pop_back_zeros mag
    let mag :=
      if rnd = Rounding.HalfUp ∧ guard ≥ 5 then pop_back_zeros (add_one_ mag) else mag
    let x : Numeric :=
      if mag.isEmpty then { x with mag_ := mag, neg_ := false, scale_ := 0 }
      else { x with mag_ := mag, scale_ := new_scale }
    (check_limits_ x, x)

/-- The loop `while (x != 0)` of `init_from_int64`: the limbs pushed; the counter exceeds
the at most three limbs of a 64-bit value. -/
def init_from_int64_loop : Nat → Nat → List Nat
  | 0, _ => []
  | fuel + 1, x =>
    if x ≠ 0 then to_u32 (x % base) :: init_from_int64_loop fuel (x / base) else []

/-- Member `init_from_int64`. -/
def init_from_int64 (v : Int) : Numeric :=
  let neg := decide (v < 0)
  let x := to_u64 (if neg then -v else v)
  if x = 0 then { mag_ := [], scale_ := 0, neg_ := false, err_ := Err.None }
  else
    let out : Numeric :=
      normalize_ { mag_ := init_from_int64_loop 8 x, scale_ := 0, neg_ := neg, err_ := Err.None }
    if !check_limits_ out then set_error_ out Err.Overflow else out

/-- The loop of `mul10_add_`: the limbs and the carry left. -/
def mul10_add_loop : List Nat → Nat → List Nat × Nat
  | [], carry => ([], carry)
  | i :: rest, carry =>
    let cur := (i * 10 + carry) % 2 ^ 64
    let res := mul10_add_loop rest (cur / base)
    (to_u32 (cur % base) :: res.1, res.2)

/-- Member `mul10_add_`, on the vector `mag_`. -/
def mul10_add_ (mag : List Nat) (digit : Nat) : List Nat :=
  let res := mul10_add_loop mag digit
  if res.2 ≠ 0 then res.1 ++ [to_u32 res.2] else res.1

/-- Local variables of the character loop of `init_parse`, with the members `mag_` and
`scale_` it updates. -/
structure ParseState where
  mag_ : List Nat := []
  scale_ : Int := 0
  seen_dot : Bool := false
  any : Bool := false
deriving DecidableEq, Repr

/-- The character loop of `init_parse`: the state after the last character, or the error
set by the `return` that left the loop. -/
def parse_loop : List Char → ParseState → Except Err ParseState
  | [], st => Except.ok st
  | c :: cs, st =>
    if c = '.' then
      if st.seen_dot then Except.error Err.Invalid
      else parse_loop cs { st with seen_dot := true }
    else if c.toNat < '0'.toNat ∨ c.toNat > '9'.toNat then Except.error Err.Invalid
    else
      let mag := mul10_add_ st.mag_ (to_u32 (c.toNat - '0'.toNat))
      if st.seen_dot then
        let scale := st.scale_ + 1
        if scale > max_frac_digits then Except.error Err.Overflow
        else parse_loop cs { st with mag_ := mag, scale_ := scale, any := true }
      else parse_loop cs { st with mag_ := mag, any := true }

/-- The part of `init_parse` after the character loop. -/
def parse_finish (neg : Bool) (st : ParseState) : Numeric :=
  if !st.any then set_error_ { neg_ := neg } Err.Invalid
  else
    let out : Numeric :=
      normalize_ { mag_ := st.mag_, scale_ := st.scale_, neg_ := neg, err_ := Err.None }
    let out := if is_zero_ out then { out with neg_ := false, scale_ := 0 } else out
    if !check_limits_ out then set_error_ out Err.Overflow else out

/-- Member `init_parse`; the rounding argument is unused. -/
def init_parse (s : List Char) (_rnd : Rounding) : Numeric :=
  match s with
  | [] => set_error_ {} Err.Invalid
  | c :: rest =>
    let neg := decide (c = '-')
    let s := if c = '+' ∨ c = '-' then rest else s
    match s with
    | [] => set_error_ { neg_ := neg } Err.Invalid
    | _ :: _ =>
      match parse_loop s {} with
      | Except.error e => set_error_ { neg_ := neg } e
      | Except.ok st => parse_finish neg st

/-- The loop of `mag_to_decimal_` over the limbs below the top one, given most significant
first: each block is padded with zeros to `base_digits` characters. -/
def mag_to_decimal_loop : List Nat → List Char
  | [] => []
  | limb :: rest =>
    let block := std_to_string limb
    let pad := if block.length < base_digits.toNat
      then List.replicate (base_digits.toNat - block.length) '0' else []
    pad ++ block ++ mag_to_decimal_loop rest

/-- Member `mag_to_decimal_`. -/
def mag_to_decimal_ (x : Numeric) : List Char :=
  match x.mag_.reverse with
  | [] => ['0']
  | top :: rest => std_to_string top ++ mag_to_decimal_loop rest

/-- Member `to_string`. -/
def to_string (x : Numeric) : List Char :=
  if !x.ok then "<err>".toList
  else if is_zero_ x then ['0']
  else
    let digits := mag_to_decimal_ x
    if x.scale_ = 0 then (if x.neg_ then '-' :: digits else digits)
    else if (digits.length : Int) ≤ x.scale_ then
      (if x.neg_ then ['-'] else []) ++ "0.".toList
        ++ List.replicate (x.scale_ - (digits.length : Int)).toNat '0' ++ digits
    else
      let p := digits.length - x.scale_.toNat
      (if x.neg_ then ['-'] else []) ++ digits.take p ++ ['.'] ++ digits.drop p

/-- The friend `operator==`. -/
def eq (a b : Numeric) : Bool :=
  if !a.ok || !b.ok then false
  else if is_zero_ a && is_zero_ b then true
  else decide (a.neg_ = b.neg_) && decide (a.scale_ = b.scale_) && decide (a.mag_ = b.mag_)

/-- Static member `add`. -/
def add (a b : Numeric) : Numeric :=
  if !a.ok then a
  else if !b.ok then b
  else
    let res_scale := max a.scale_ b.scale_
    let rx := rescale_up_ a res_scale
    if !rx.1 then set_error_ {} Err.Overflow
    else
      let ry := rescale_up_ b res_scale
      if !ry.1 then set_error_ {} Err.Overflow
      else
        let x := rx.2
        let y := ry.2
        if is_zero_ x then y
        else if is_zero_ y then x
        else
          let out : Numeric :=
            if x.neg_ = y.neg_ then
              { mag_ := add_abs_ x.mag_ y.mag_, scale_ := res_scale, neg_ := x.neg_ }
            else
              let c := cmp_abs_ x.mag_ y.mag_
              if c = 0 then { mag_ := [], scale_ := 0, neg_ := false }
              else if c > 0 then
                { mag_ := sub_abs_ x.mag_ y.mag_, scale_ := res_scale, neg_ := x.neg_ }
              else { mag_ := sub_abs_ y.mag_ x.mag_, scale_ := res_scale, neg_ := y.neg_ }
          let out := normalize_ out
          if !check_limits_ out then set_error_ out Err.Overflow else out

/-- Static member `sub`. -/
def sub (a b : Numeric) : Numeric :=
  if !a.ok then a
  else if !b.ok then b
  else
    let nb := if !is_zero_ b then { b with neg_ := !b.neg_ } else b
    add a nb

/-- Static member `mul`. -/
def mul (a b : Numeric) (target_scale : Int) (rnd : Rounding) : Numeric :=
  if !a.ok then a
  else if !b.ok then b
  else if target_scale < 0 ∨ target_scale > max_frac_digits then set_error_ {} Err.Overflow
  else if is_zero_ a ∨ is_zero_ b then
    { mag_ := [], neg_ := false, scale_ := 0, err_ := Err.None }
  else
    let out : Numeric :=
      normalize_ { mag_ := mul_abs_ a.mag_ b.mag_, neg_ := xor a.neg_ b.neg_,
                   scale_ := a.scale_ + b.scale_, err_ := Err.None }
    let res := rescale_ out target_scale rnd
    if !res.1 then set_error_ res.2 Err.Overflow
    else if !check_limits_ res.2 then set_error_ res.2 Err.Overflow
    else res.2

/-- Static member `div`. -/
def div (a b : Numeric) (target_scale : Int) (rnd : Rounding) : Numeric :=
  if !a.ok then a
  else if !b.ok then b
  else if target_scale < 0 ∨ target_scale > max_frac_digits then set_error_ {} Err.Overflow
  else if is_zero_ b then set_error_ {} Err.DivByZero
  else if is_zero_ a then { mag_ := [], neg_ := false, scale_ := 0, err_ := Err.None }
  else
    let extra : Int := if rnd = Rounding.HalfUp then 1 else 0
    let k := target_scale + extra + b.scale_ - a.scale_
    let num := if k ≥ 0 then mul_pow10_ a.mag_ k else (true, a.mag_)
    let den := if k ≥ 0 then (true, b.mag_) else mul_pow10_ b.mag_ (-k)
    if !num.1 ∨ !den.1 then set_error_ {} Err.Overflow
    else
      let qr := div_mod_abs_ num.2 den.2
      let mag := pop_back_zeros qr.1
      let neg := xor a.neg_ b.neg_
      let out : Numeric :=
        if extra = 0 then
          if mag.isEmpty then { mag_ := mag, neg_ := false, scale_ := 0, err_ := Err.None }
          else { mag_ := mag, neg_ := neg, scale_ := target_scale + extra, err_ := Err.None }
        else
          let ds := div_small_ mag 10 0
          let mag := pop_back_zeros ds.2.1
          let mag := if ds.2.2 ≥ 5 then pop_back_zeros (add_one_ mag) else mag
          if mag.isEmpty then { mag_ := mag, neg_ := false, scale_ := 0, err_ := Err.None }
          else { mag_ := mag, neg_ := neg, scale_ := target_scale, err_ := Err.None }
      if !check_limits_ out then set_error_ out Err.Overflow else out

/-- The friend `operator*`. -/
def op_mul (a b : Numeric) : Numeric := mul a b (max a.scale_ b.scale_) Rounding.HalfUp

/-- The friend `operator/`. -/
def op_div (a b : Numeric) : Numeric := div a b (max a.scale_ b.scale_) Rounding.HalfUp

/-- Member `rescale`: the returned flag and the object afterwards. -/
def rescale (x : Numeric) (new_scale : Int) (rnd : Rounding) : Bool × Numeric :=
  if !x.ok then (false, x)
  else if new_scale < 0 ∨ new_scale > max_frac_digits then (false, x)
  else rescale_ x new_scale rnd

end Numeric

/-! ## Further operators of the wide integers -/

namespace int128

/-- The comparison `a < b` derived from the defaulted `operator<=>`. -/
def lt (a b : int128) : Bool := decide (cmp a b = Ordering.lt)

end int128

namespace uint128

/-- Operator `~`: the complement of both 64-bit words. -/
def not (x : uint128) : uint128 := ⟨2 ^ 64 - 1 - x.hi_, 2 ^ 64 - 1 - x.lo_⟩

end uint128

namespace uint256

/-- Operator `~`: the complement of both halves. -/
def not (x : uint256) : uint256 := ⟨uint128.not x.hi_, uint128.not x.lo_⟩

end uint256

namespace int256

/-- Constructor `int256(int64_t v)`: sign extension. -/
def of_int64 (v : Int) : int256 :=
  ⟨if v < 0 then ⟨2 ^ 64 - 1, 2 ^ 64 - 1⟩ else ⟨0, 0⟩,
   if v < 0 then ⟨2 ^ 64 - 1, to_u64 v⟩ else ⟨0, to_u64 v⟩⟩

/-- Private `unsigned_abs`. -/
def unsigned_abs (v : int256) : uint256 :=
  if !v.is_negative then ⟨v.hi_, v.lo_⟩
  else uint256.sub ⟨⟨0, 0⟩, ⟨0, 0⟩⟩ ⟨v.hi_, v.lo_⟩

/-- Operator `+`: the sum of the bit patterns. -/
def add (a b : int256) : int256 :=
  let ur := uint256.add ⟨a.hi_, a.lo_⟩ ⟨b.hi_, b.lo_⟩
  ⟨ur.high, ur.low⟩

/-- Operator `-`: the difference of the bit patterns. -/
def sub (a b : int256) : int256 :=
  let ur := uint256.sub ⟨a.hi_, a.lo_⟩ ⟨b.hi_, b.lo_⟩
  ⟨ur.high, ur.low⟩

/-- Operator `*`: the product of the bit patterns. -/
def mul (a b : int256) : int256 :=
  let ur := uint256.mul ⟨a.hi_, a.lo_⟩ ⟨b.hi_, b.lo_⟩
  ⟨ur.high, ur.low⟩

/-- Operator `/`: unsigned division of the absolute values, then the sign. -/
def div (a b : int256) : int256 :=
  let neg := xor a.is_negative b.is_negative
  let ua := unsigned_abs a
  let ub := unsigned_abs b
  let uq := (uint256.div_mod ua ub).1
  if neg then
    let tmp := uint256.sub ⟨⟨0, 0⟩, ⟨0, 0⟩⟩ uq
    ⟨tmp.high, tmp.low⟩
  else ⟨uq.high, uq.low⟩

/-- Operator `%`: unsigned remainder of the absolute values, with the sign of the dividend. -/
def mod (a b : int256) : int256 :=
  let neg := a.is_negative
  let ua := unsigned_abs a
  let ub := unsigned_abs b
  let ur := (uint256.div_mod ua ub).2
  if neg then
    let tmp := uint256.sub ⟨⟨0, 0⟩, ⟨0, 0⟩⟩ ur
    ⟨tmp.high, tmp.low⟩
  else ⟨ur.high, ur.low⟩

/-- Operator `>>` with an `int` shift count. -/
def shr (v : int256) (shift : Int) : int256 :=
  if shift ≤ 0 then v
  else if 256 ≤ shift then
    (if v.is_negative then ⟨⟨2 ^ 64 - 1, 2 ^ 64 - 1⟩, ⟨2 ^ 64 - 1, 2 ^ 64 - 1⟩⟩
     else ⟨⟨0, 0⟩, ⟨0, 0⟩⟩)
  else
    let neg := v.is_negative
    let u : uint256 := ⟨v.hi_, v.lo_⟩
    let r := uint256.shr u shift
    let r :=
      if neg then
        let fill := uint256.shl (uint256.not (uint256.of_u64 0)) (256 - shift)
        uint256.or ⟨r.high, r.low⟩ fill
      else r
    ⟨r.high, r.low⟩

end int256

/-! ## Portable branches, mixed comparisons, string conversion and limits of the wide integers -/

namespace uint128

/-- Static member `mul_64_64_128`: the product of two 64-bit words as `(hi, lo)`, from four
32-bit partial products. -/
def mul_64_64_128 (x y : Nat) : Nat × Nat :=
  let x0 := x &&& 0xffffffff
  let x1 := x >>> 32
  let y0 := y &&& 0xffffffff
  let y1 := y >>> 32
  let p0 := x0 * y0 % 2 ^ 64
  let p1 := x0 * y1 % 2 ^ 64
  let p2 := x1 * y0 % 2 ^ 64
  let p3 := x1 * y1 % 2 ^ 64
  let mid := ((p0 >>> 32) + (p1 &&& 0xffffffff) + (p2 &&& 0xffffffff)) % 2 ^ 64
  let hi := (p3 + (p1 >>> 32) + (p2 >>> 32) + (mid >>> 32)) % 2 ^ 64
  let lo := (mid <<< 32) % 2 ^ 64 ||| (p0 &&& 0xffffffff)
  (hi, lo)

/-- Operator `*`, the `#else` branch compiled when `__SIZEOF_INT128__` is not defined. -/
def mul_portable (a b : uint128) : uint128 :=
  let lo := mul_64_64_128 a.lo_ b.lo_
  let cross1 := mul_64_64_128 a.hi_ b.lo_
  let cross2 := mul_64_64_128 a.lo_ b.hi_
  let hi := a.hi_ * b.hi_ % 2 ^ 64
  let tmp_lo := (lo.1 + cross1.2) % 2 ^ 64
  let carry := if tmp_lo < lo.1 then 1 else 0
  let tmp_lo := (tmp_lo + cross2.2) % 2 ^ 64
  let carry := if tmp_lo < cross2.2 then (carry + 1) % 2 ^ 64 else carry
  let hi := (hi + (cross1.1 + cross2.1 + carry) % 2 ^ 64) % 2 ^ 64
  ⟨hi, lo.2⟩

/-- Operator `-`, the `#else` branch compiled when `__SIZEOF_INT128__` is not defined. -/
def sub_portable (a b : uint128) : uint128 :=
  let borrow : Int := if a.lo_ < b.lo_ then 1 else 0
  let lo := to_u64 ((a.lo_ : Int) - (b.lo_ : Int))
  let hi := to_u64 ((a.hi_ : Int) - (b.hi_ : Int) - borrow)
  ⟨hi, lo⟩

end uint128

namespace int128

/-- Operator `>>`, the `__SIZEOF_INT128__` branch: the shift of the signed wide value, which
is arithmetic. -/
def shr (v : int128) (shift : Int) : int128 :=
  if shift ≤ 0 then v
  else if shift ≥ 128 then from_wide (if to_wide v < 0 then -1 else 0)
  else from_wide (to_wide v / 2 ^ shift.toNat)

/-- Operator `>>`, the `#else` branch compiled when `__SIZEOF_INT128__` is not defined: the
value is negated, shifted as an unsigned value and negated back. -/
def shr_portable (v : int128) (shift : Int) : int128 :=
  let neg := decide (v.high < 0)
  let u : uint128 := ⟨v.hi_, v.lo_⟩
  let u := if neg then uint128.sub_portable ⟨0, 0⟩ u else u
  let u := uint128.shr u shift
  if neg then
    let tmp := uint128.sub_portable ⟨0, 0⟩ u
    ⟨tmp.high, tmp.low⟩
  else ⟨u.high, u.low⟩

end int128

namespace uint256

/-- Converting constructor `uint256(const int256&)`: the same two halves. -/
def of_int256 (v : int256) : uint256 := ⟨v.high, v.low⟩

/-- The free `operator==(const uint256&, const int256&)`. -/
def eq_int256 (a : uint256) (b : int256) : Bool :=
  if b.is_negative then false else decide (a = of_int256 b)

/-- The free `operator<=>(const uint256&, const int256&)`. -/
def cmp_int256 (a : uint256) (b : int256) : Ordering :=
  if b.is_negative then Ordering.gt else cmp a (of_int256 b)

/-- The `while` loop of `to_string`: the decimal digits of `tmp`, least significant first,
are pushed onto `res`.  The counter exceeds the at most 78 iterations (`2^256 < 10^78`). -/
def to_string_loop : Nat → uint256 → List Char → List Char
  | 0, _, res => res
  | fuel + 1, tmp, res =>
    if tmp.hi_ ≠ ⟨0, 0⟩ ∨ tmp.lo_ ≠ ⟨0, 0⟩ then
      let digit := mod tmp ⟨⟨0, 0⟩, ⟨0, 10⟩⟩
      to_string_loop fuel (div tmp ⟨⟨0, 0⟩, ⟨0, 10⟩⟩)
        (res ++ [Char.ofNat ('0'.toNat + digit.lo_.low % 2 ^ 32)])
    else res

/-- Member `to_string`. -/
def to_string (v : uint256) : List Char :=
  if v.hi_ = ⟨0, 0⟩ ∧ v.lo_ = ⟨0, 0⟩ then ['0']
  else (to_string_loop 80 v []).reverse

end uint256

namespace int256

/-- The comparison `a < b` derived from `operator<=>`. -/
def lt (a b : int256) : Bool := decide (cmp a b = Ordering.lt)

/-- The free `operator==(const int256&, const uint256&)`. -/
def eq_uint256 (a : int256) (b : uint256) : Bool := uint256.eq_int256 b a

/-- The free `operator<=>(const int256&, const uint256&)`: the reversed result of the
comparison with the operands swapped. -/
def cmp_uint256 (a : int256) (b : uint256) : Ordering :=
  match uint256.cmp_int256 b a with
  | Ordering.lt => Ordering.gt
  | Ordering.gt => Ordering.lt
  | Ordering.eq => Ordering.eq

/-- Member `to_string`; its digit loop is the loop of `uint256::to_string`, written with
the accessors `high()`, `low()`. -/
def to_string (v : int256) : List Char :=
  if v.hi_ = ⟨0, 0⟩ ∧ v.lo_ = ⟨0, 0⟩ then ['0']
  else
    let neg := v.is_negative
    let tmp : uint256 := if neg then unsigned_abs v else ⟨v.hi_, v.lo_⟩
    let res := uint256.to_string_loop 80 tmp []
    let res := if neg then res ++ ['-'] else res
    res.reverse

end int256

namespace numeric_limits_uint256

/-- Member `max()` of `std::numeric_limits<uint256>`. -/
def max : uint256 := ⟨⟨2 ^ 64 - 1, 2 ^ 64 - 1⟩, ⟨2 ^ 64 - 1, 2 ^ 64 - 1⟩⟩

end numeric_limits_uint256

namespace numeric_limits_int256

/-- Member `min()` of `std::numeric_limits<int256>`. -/
def min : int256 := ⟨⟨2 ^ 64 - 1, 2 ^ 64 - 1⟩, ⟨0, 0⟩⟩

/-- Member `max()` of `std::numeric_limits<int256>`. -/
def max : int256 := ⟨⟨(2 ^ 64 - 1) >>> 1, 2 ^ 64 - 1⟩, ⟨2 ^ 64 - 1, 2 ^ 64 - 1⟩⟩

end numeric_limits_int256

/-! ## Representation invariants -/

/-- The representation invariant of `Numeric128<P,S>`: the words of `raw_` are 64-bit
values, an ok value has fewer than `P + 1` digits, an error value has `raw_ = 0`. -/
def Numeric128.Inv (P : Nat) (x : Numeric128) : Prop :=
  x.raw_.WF ∧ (if x.ok then |x.raw_.to_wide| < 10 ^ P else x.raw_ = ⟨0, 0⟩)

instance (P : Nat) (x : Numeric128) : Decidable (Numeric128.Inv P x) := by
  unfold Numeric128.Inv
  infer_instance

/-- The representation invariant of `Numeric256<P,S>`. -/
def Numeric256.Inv (P : Nat) (x : Numeric256) : Prop :=
  x.raw_.WF ∧ (if x.ok then |x.raw_.toInt| < 10 ^ P else x.raw_ = ⟨⟨0, 0⟩, ⟨0, 0⟩⟩)

instance (P : Nat) (x : Numeric256) : Decidable (Numeric256.Inv P x) := by
  unfold Numeric256.Inv
  infer_instance

/-- The values of `Numeric128<P,S>` obtainable from the public constructors (default,
`int64_t`, string, `from_raw_checked`) and operations (unary minus, `add`, `sub`, `mul`,
`div`).  An `int64_t` argument is a 64-bit value and the words of an `int128` argument are
64-bit words. -/
inductive Numeric128.Obtainable (P S : Nat) : Numeric128 → Prop
  | default : Numeric128.Obtainable P S {}
  | of_int64 (v : Int) : -2 ^ 63 ≤ v → v < 2 ^ 63 →
      Numeric128.Obtainable P S (Numeric128.init_from_int64 P S v)
  | of_string (s : List Char) (rnd : Rounding) :
      Numeric128.Obtainable P S (Numeric128.init_parse P S s rnd)
  | of_raw (r : int128) (x : Numeric128) : r.WF →
      Numeric128.from_raw_checked P r = Except.ok x → Numeric128.Obtainable P S x
  | neg (x : Numeric128) : Numeric128.Obtainable P S x →
      Numeric128.Obtainable P S (Numeric128.neg P x)
  | add (x y : Numeric128) : Numeric128.Obtainable P S x → Numeric128.Obtainable P S y →
      Numeric128.Obtainable P S (Numeric128.add P x y)
  | sub (x y : Numeric128) : Numeric128.Obtainable P S x → Numeric128.Obtainable P S y →
      Numeric128.Obtainable P S (Numeric128.sub P x y)
  | mul (x y : Numeric128) (rnd : Rounding) : Numeric128.Obtainable P S x →
      Numeric128.Obtainable P S y → Numeric128.Obtainable P S (Numeric128.mul P S x y rnd)
  | div (x y : Numeric128) (rnd : Rounding) : Numeric128.Obtainable P S x →
      Numeric128.Obtainable P S y → Numeric128.Obtainable P S (Numeric128.div P S x y rnd)

/-- The values of `Numeric256<P,S>` obtainable from the public constructors and operations,
as for `Numeric128<P,S>`. -/
inductive Numeric256.Obtainable (P S : Nat) : Numeric256 → Prop
  | default : Numeric256.Obtainable P S {}
  | of_int64 (v : Int) : -2 ^ 63 ≤ v → v < 2 ^ 63 →
      Numeric256.Obtainable P S (Numeric256.init_from_int64 P S v)
  | of_string (s : List Char) (rnd : Rounding) :
      Numeric256.Obtainable P S (Numeric256.init_parse P S s rnd)
  | of_raw (r : int256) (x : Numeric256) : r.WF →
      Numeric256.from_raw_checked P r = Except.ok x → Numeric256.Obtainable P S x
  | neg (x : Numeric256) : Numeric256.Obtainable P S x →
      Numeric256.Obtainable P S (Numeric256.neg P x)
  | add (x y : Numeric256) : Numeric256.Obtainable P S x → Numeric256.Obtainable P S y →
      Numeric256.Obtainable P S (Numeric256.add P x y)
  | sub (x y : Numeric256) : Numeric256.Obtainable P S x → Numeric256.Obtainable P S y →
      Numeric256.Obtainable P S (Numeric256.sub P x y)
  | mul (x y : Numeric256) (rnd : Rounding) : Numeric256.Obtainable P S x →
      Numeric256.Obtainable P S y → Numeric256.Obtainable P S (Numeric256.mul P S x y rnd)
  | div (x y : Numeric256) (rnd : Rounding) : Numeric256.Obtainable P S x →
      Numeric256.Obtainable P S y → Numeric256.Obtainable P S (Numeric256.div P S x y rnd)

/-- The values of the arbitrary-precision `Numeric` that the public interface produces: the
default value, the constructors from `int64_t` and from a string, `add`, `sub`, `mul`, `div`
on such values, and a `rescale` that returned true. -/
inductive Numeric.Obtainable : Numeric → Prop
  | default : Numeric.Obtainable {}
  | of_int64 (v : Int) : -2 ^ 63 ≤ v → v < 2 ^ 63 →
      Numeric.Obtainable (Numeric.init_from_int64 v)
  | of_string (s : List Char) (rnd : Rounding) : Numeric.Obtainable (Numeric.init_parse s rnd)
  | add (x y : Numeric) : Numeric.Obtainable x → Numeric.Obtainable y →
      Numeric.Obtainable (Numeric.add x y)
  | sub (x y : Numeric) : Numeric.Obtainable x → Numeric.Obtainable y →
      Numeric.Obtainable (Numeric.sub x y)
  | mul (x y : Numeric) (t : Int) (rnd : Rounding) : Numeric.Obtainable x →
      Numeric.Obtainable y → Numeric.Obtainable (Numeric.mul x y t rnd)
  | div (x y : Numeric) (t : Int) (rnd : Rounding) : Numeric.Obtainable x →
      Numeric.Obtainable y → Numeric.Obtainable (Numeric.div x y t rnd)
  | rescale (x : Numeric) (n : Int) (rnd : Rounding) : Numeric.Obtainable x →
      (Numeric.rescale x n rnd).1 = true → Numeric.Obtainable (Numeric.rescale x n rnd).2

/-! ## Reference results over unbounded integers

These follow the wording of the specification, not the code; the code is compared
with them. -/

/-- The exact quotient `n / d` over the integers, truncated toward zero for `Trunc` and
rounded half away from zero for `HalfUp`. -/
def spec_round_div (n d : Int) (rnd : Rounding) : Int :=
  match rnd with
  | Rounding.Trunc => Int.tdiv n d
  | Rounding.HalfUp =>
    Int.sign n * Int.sign d * (((2 * n.natAbs + d.natAbs) / (2 * d.natAbs) : Nat) : Int)

/-- The number a string of decimal digits denotes. -/
def digits_value (ds : List Char) : Nat :=
  ds.foldl (fun n c => 10 * n + (c.toNat - '0'.toNat)) 0

/-- A string of decimal digits. -/
def is_digit_string (ds : List Char) : Prop := ∀ c ∈ ds, Numeric128.is_digit c = true

instance (ds : List Char) : Decidable (is_digit_string ds) := by
  unfold is_digit_string
  infer_instance

/-- A well-formed decimal literal: a sign (possibly empty), the integer digits and, when
there is a decimal point, the fractional digits after it. -/
def decimal_literal (sgn ip : List Char) (frac : Option (List Char)) : List Char :=
  sgn ++ (ip ++ (match frac with
    | none => []
    | some fp => '.' :: fp))

/-- The parts of a well-formed decimal literal: the sign is empty, `+` or `-`, and the
integer and fractional parts are strings of digits. -/
def well_formed_literal (sgn ip : List Char) (frac : Option (List Char)) : Prop :=
  (sgn = [] ∨ sgn = ['+'] ∨ sgn = ['-']) ∧ is_digit_string ip ∧
    (match frac with
      | none => True
      | some fp => is_digit_string fp)

instance (sgn ip : List Char) (frac : Option (List Char)) :
    Decidable (well_formed_literal sgn ip frac) := by
  unfold well_formed_literal
  cases frac <;> infer_instance

/-- The number of fractional digits of a literal. -/
def frac_digits (frac : Option (List Char)) : Nat :=
  match frac with
  | none => 0
  | some fp => fp.length

/-- The magnitude of the raw value of the literal `ip.fp` at scale `S`: the exact value is
`v = digits_value (ip ++ fp) / 10 ^ fp.length`, and the magnitude is `floor (v * 10^S)` for
`Trunc` and `floor (v * 10^S + 1/2)` for `HalfUp`. -/
def spec_parse_mag (S : Nat) (ip fp : List Char) (rnd : Rounding) : Nat :=
  let n := digits_value (ip ++ fp)
  let den := 10 ^ fp.length
  match rnd with
  | Rounding.Trunc => n * 10 ^ S / den
  | Rounding.HalfUp => (2 * n * 10 ^ S + den) / (2 * den)

/-- The grammar of decimal strings, `[+-]?digits*(.digits*)?` with at least one digit. -/
def matches_grammar (s : List Char) : Prop :=
  ∃ sgn ip frac, well_formed_literal sgn ip frac ∧ (ip ≠ [] ∨ frac_digits frac ≠ 0) ∧
    s = decimal_literal sgn ip frac

/-- A string that begins with an optional sign, digits, a decimal point and `n` further
digits; anything may follow. -/
def begins_with_fraction (n : Nat) (s : List Char) : Prop :=
  ∃ sgn ip fp rest, (sgn = [] ∨ sgn = ['+'] ∨ sgn = ['-']) ∧ is_digit_string ip ∧
    is_digit_string fp ∧ fp.length = n ∧ s = sgn ++ (ip ++ '.' :: (fp ++ rest))

/-- The decimal numeral of `n` without leading zeros: a non-empty string of digits that
denotes `n` and starts with `0` only if it is `"0"`. -/
def is_decimal_numeral (ds : List Char) (n : Nat) : Prop :=
  ds ≠ [] ∧ is_digit_string ds ∧ digits_value ds = n ∧ (ds.head? = some '0' → ds = ['0'])

/-- The integer a limb vector stands for: limb `i` counts `base ^ i`. -/
def Numeric.limbs_value : List Nat → Nat
  | [] => 0
  | l :: ls => l + Numeric.base * Numeric.limbs_value ls

/-- The representation invariant of an ok `Numeric`: every limb is below `10^9`, the most
significant limb is not zero, zero has no sign and scale 0, and the limits hold (scale in
`[0, 16383]`, at most 131072 integer digits). -/
def Numeric.Inv (x : Numeric) : Prop :=
  (∀ l ∈ x.mag_, l < Numeric.base) ∧ x.mag_.getLast? ≠ some 0 ∧
  (x.mag_ = [] → x.neg_ = false ∧ x.scale_ = 0) ∧ Numeric.check_limits_ x = true

/-- The limbs after the character loop of `Numeric::init_parse` has read the digits `ds`
starting from the limbs `mag`. -/
def Numeric.parse_digits (mag : List Nat) (ds : List Char) : List Nat :=
  ds.foldl (fun m c => Numeric.mul10_add_ m (to_u32 (c.toNat - '0'.toNat))) mag

instance (x : Numeric) : Decidable (Numeric.Inv x) := by
  unfold Numeric.Inv
  infer_instance

/-- The signed magnitude of a `Numeric`: the integer `±m` of which the value is
`±m / 10^scale`. -/
def Numeric.signed_mag (x : Numeric) : Int :=
  if x.neg_ = true then -(Numeric.limbs_value x.mag_ : Int) else (Numeric.limbs_value x.mag_ : Int)

/-! ## Lemmas: the wide integers compute the integers they stand for -/

theorem to_u64_lt (x : Int) : to_u64 x < 2 ^ 64 := by
  unfold to_u64
  omega

theorem to_u64_to_i64 (x : Nat) (h : x < 2 ^ 64) : to_u64 (to_i64 x) = x := by
  unfold to_u64 to_i64
  split <;> omega

theorem to_i64_neg_iff (x : Nat) (h : x < 2 ^ 64) : to_i64 x < 0 ↔ 2 ^ 63 ≤ x := by
  unfold to_i64
  split <;> omega

namespace uint128

theorem from_wide_wf (w : Nat) : (from_wide w).WF := by
  unfold from_wide WF
  constructor <;> simp only <;> omega

theorem to_wide_from_wide_mod (w : Nat) : (from_wide w).to_wide = w % 2 ^ 128 := by
  unfold from_wide to_wide
  simp only
  omega

theorem to_wide_lt (v : uint128) (h : v.WF) : v.to_wide < 2 ^ 128 := by
  unfold WF at h
  unfold to_wide
  omega

theorem lt_iff_to_wide (a b : uint128) (ha : a.WF) (hb : b.WF) :
    lt a b = true ↔ a.to_wide < b.to_wide := by
  unfold WF at ha hb
  unfold lt to_wide
  simp only [decide_eq_true_eq]
  omega

theorem eq_iff_to_wide (a b : uint128) (ha : a.WF) (hb : b.WF) :
    a = b ↔ a.to_wide = b.to_wide := by
  unfold WF at ha hb
  constructor
  · intro h
    rw [h]
  · intro h
    unfold to_wide at h
    cases a
    cases b
    simp only at ha hb h
    simp only [mk.injEq]
    omega

end uint128

namespace int128

theorem from_wide_wf_signed (w : Int) : (from_wide w).WF := by
  unfold from_wide WF
  exact ⟨to_u64_lt _, to_u64_lt _⟩

theorem to_wide_from_wide_wrap (w : Int) :
    (from_wide w).to_wide = (w + 2 ^ 127) % 2 ^ 128 - 2 ^ 127 := by
  unfold from_wide to_wide to_i64 to_u64
  simp only
  split <;> omega

theorem to_wide_range (v : int128) (h : v.WF) :
    -2 ^ 127 ≤ v.to_wide ∧ v.to_wide < 2 ^ 127 := by
  unfold WF at h
  unfold to_wide to_i64
  split <;> omega

end int128

namespace detail

theorem abs_u_to_wide (v : int128) (h : v.WF) :
    ((abs_u v).to_wide : Int) = |v.to_wide| := by
  have hr := int128.to_wide_range v h
  unfold int128.WF at h
  unfold abs_u
  split
  · rename_i hneg
    have hw := int128.to_wide_from_wide_wrap (-v.to_wide)
    have hwf := int128.from_wide_wf_signed (-v.to_wide)
    unfold int128.neg
    generalize int128.from_wide (-v.to_wide) = n at hw hwf
    unfold int128.WF at hwf
    unfold int128.high at hneg
    have hv : v.to_wide < 0 := by
      unfold int128.to_wide
      omega
    rw [abs_of_neg hv]
    unfold uint128.to_wide int128.high int128.low
    simp only
    rw [to_u64_to_i64 _ hwf.1]
    unfold int128.to_wide to_i64 at hw
    unfold int128.to_wide to_i64 at hr hv
    unfold int128.to_wide to_i64
    push_cast
    split at hw <;> split <;> omega
  · rename_i hneg
    unfold int128.high at hneg
    have hv : 0 ≤ v.to_wide := by
      unfold int128.to_wide
      omega
    rw [abs_of_nonneg hv]
    unfold uint128.to_wide int128.high int128.low
    simp only
    rw [to_u64_to_i64 _ h.1]
    unfold int128.to_wide to_i64
    unfold to_i64 at hneg
    push_cast
    split <;> omega

theorem abs_u_WF (v : int128) (h : v.WF) : (abs_u v).WF := by
  unfold abs_u
  split
  · exact ⟨to_u64_lt _, (int128.from_wide_wf_signed _).2⟩
  · exact ⟨to_u64_lt _, h.2⟩

theorem pow10_u_spec (k : Nat) : (pow10_u k).to_wide = 10 ^ k % 2 ^ 128 ∧ (pow10_u k).WF := by
  induction k with
  | zero => exact ⟨by decide, by decide⟩
  | succ k ih =>
    unfold pow10_u
    unfold uint128.mul
    refine ⟨?_, uint128.from_wide_wf _⟩
    rw [uint128.to_wide_from_wide_mod, ih.1]
    have : (⟨0, 10⟩ : uint128).to_wide = 10 := by decide
    rw [this, Nat.mod_mod, Nat.mod_mul_mod]
    rfl

theorem pow10_le (P : Nat) (h : P ≤ 38) : 10 ^ P ≤ 10 ^ 38 :=
  Nat.pow_le_pow_right (by decide) h

theorem pow10_u_small (P : Nat) (h : P ≤ 38) : (pow10_u P).to_wide = 10 ^ P := by
  rw [(pow10_u_spec P).1]
  have := pow10_le P h
  apply Nat.mod_eq_of_lt
  omega

theorem fits_precision_iff (raw : int128) (h : raw.WF) (P : Nat) (h1 : 1 ≤ P) (h38 : P ≤ 38) :
    fits_precision raw P = true ↔ |raw.to_wide| < 10 ^ P := by
  have habs := abs_u_to_wide raw h
  have hlt := uint128.lt_iff_to_wide (abs_u raw) (pow10_u P) (abs_u_WF raw h) (pow10_u_spec P).2
  rw [pow10_u_small P h38] at hlt
  have hpos : 0 < 10 ^ P := Nat.pos_pow_of_pos P (by decide)
  unfold fits_precision
  have hP : ¬ ((P : Int) ≤ 0) := by omega
  simp only [hP, if_false, Int.toNat_ofNat]
  split
  · rename_i hz
    unfold int128.high int128.low at hz
    have : raw.to_wide = 0 := by
      unfold int128.to_wide
      omega
    rw [this]
    simp
  · rw [hlt, ← habs]
    norm_cast

end detail

namespace Numeric128

theorem init_from_raw_fits128 (P : Nat) (h1 : 1 ≤ P) (h38 : P ≤ 38) (r : int128) (h : r.WF)
    (hf : |r.to_wide| < 10 ^ P) : init_from_raw P r = ⟨r, Err.None⟩ := by
  unfold init_from_raw
  rw [(detail.fits_precision_iff r h P h1 h38).2 hf]
  rfl

theorem init_from_raw_overflow128 (P : Nat) (h1 : 1 ≤ P) (h38 : P ≤ 38) (r : int128) (h : r.WF)
    (hf : 10 ^ P ≤ |r.to_wide|) : init_from_raw P r = init_error Err.Overflow := by
  unfold init_from_raw
  have : detail.fits_precision r P = false := by
    rw [← Bool.not_eq_true, detail.fits_precision_iff r h P h1 h38]
    omega
  rw [this]
  rfl

theorem add_spec128 (P : Nat) (h1 : 1 ≤ P) (h38 : P ≤ 38) (a b : Numeric128)
    (ha : Inv P a) (hb : Inv P b) (hao : a.ok = true) (hbo : b.ok = true) :
    (|a.raw_.to_wide + b.raw_.to_wide| < 10 ^ P →
        add P a b = ⟨int128.add a.raw_ b.raw_, Err.None⟩ ∧
        (int128.add a.raw_ b.raw_).to_wide = a.raw_.to_wide + b.raw_.to_wide) ∧
    (10 ^ P ≤ |a.raw_.to_wide + b.raw_.to_wide| → add P a b = init_error Err.Overflow) := by
  have hA := ha.2
  have hB := hb.2
  rw [hao] at hA
  rw [hbo] at hB
  simp only [if_true] at hA hB
  have hp := detail.pow10_le P h38
  have hp' : ((10 : Int) ^ P) ≤ 10 ^ 38 := by exact_mod_cast hp
  have hw := int128.to_wide_from_wide_wrap (a.raw_.to_wide + b.raw_.to_wide)
  have hwf := int128.from_wide_wf_signed (a.raw_.to_wide + b.raw_.to_wide)
  rw [abs_lt] at hA hB
  have hadd : add P a b = init_from_raw P (int128.add a.raw_ b.raw_) := by
    unfold add
    simp [hao, hbo]
  rw [hadd]
  unfold int128.add
  generalize a.raw_.to_wide = x at *
  generalize b.raw_.to_wide = y at *
  constructor
  · intro hs
    rw [abs_lt] at hs
    have heq : (int128.from_wide (x + y)).to_wide = x + y := by omega
    refine ⟨init_from_raw_fits128 P h1 h38 _ hwf ?_, heq⟩
    rw [heq, abs_lt]
    exact hs
  · intro hs
    apply init_from_raw_overflow128 P h1 h38 _ hwf
    rw [le_abs] at hs ⊢
    omega

theorem sub_spec128 (P : Nat) (h1 : 1 ≤ P) (h38 : P ≤ 38) (a b : Numeric128)
    (ha : Inv P a) (hb : Inv P b) (hao : a.ok = true) (hbo : b.ok = true) :
    (|a.raw_.to_wide - b.raw_.to_wide| < 10 ^ P →
        sub P a b = ⟨int128.sub a.raw_ b.raw_, Err.None⟩ ∧
        (int128.sub a.raw_ b.raw_).to_wide = a.raw_.to_wide - b.raw_.to_wide) ∧
    (10 ^ P ≤ |a.raw_.to_wide - b.raw_.to_wide| → sub P a b = init_error Err.Overflow) := by
  have hA := ha.2
  have hB := hb.2
  rw [hao] at hA
  rw [hbo] at hB
  simp only [if_true] at hA hB
  have hp := detail.pow10_le P h38
  have hp' : ((10 : Int) ^ P) ≤ 10 ^ 38 := by exact_mod_cast hp
  have hw := int128.to_wide_from_wide_wrap (a.raw_.to_wide - b.raw_.to_wide)
  have hwf := int128.from_wide_wf_signed (a.raw_.to_wide - b.raw_.to_wide)
  rw [abs_lt] at hA hB
  have hsub : sub P a b = init_from_raw P (int128.sub a.raw_ b.raw_) := by
    unfold sub
    simp [hao, hbo]
  rw [hsub]
  unfold int128.sub
  generalize a.raw_.to_wide = x at *
  generalize b.raw_.to_wide = y at *
  constructor
  · intro hs
    rw [abs_lt] at hs
    have heq : (int128.from_wide (x - y)).to_wide = x - y := by omega
    refine ⟨init_from_raw_fits128 P h1 h38 _ hwf ?_, heq⟩
    rw [heq, abs_lt]
    exact hs
  · intro hs
    apply init_from_raw_overflow128 P h1 h38 _ hwf
    rw [le_abs] at hs ⊢
    omega

end Numeric128

namespace uint128

theorem add_to_wide (a b : uint128) :
    (add a b).to_wide = (a.to_wide + b.to_wide) % 2 ^ 128 := by
  unfold add
  rw [to_wide_from_wide_mod, Nat.mod_mod]

theorem sub_to_wide (a b : uint128) (hb : b.WF) :
    (sub a b).to_wide = (a.to_wide + (2 ^ 128 - b.to_wide)) % 2 ^ 128 := by
  have := to_wide_lt b hb
  unfold sub
  rw [to_wide_from_wide_mod, Nat.mod_mod, Nat.mod_eq_of_lt this]

end uint128

namespace uint256

theorem toNat_lt (v : uint256) (h : v.WF) : v.toNat < 2 ^ 256 := by
  have h1 := uint128.to_wide_lt _ h.1
  have h2 := uint128.to_wide_lt _ h.2
  unfold toNat
  omega

theorem eq_iff_toNat (a b : uint256) (ha : a.WF) (hb : b.WF) : a = b ↔ a.toNat = b.toNat := by
  constructor
  · intro h
    rw [h]
  · intro h
    obtain ⟨ah, al⟩ := a
    obtain ⟨bh, bl⟩ := b
    have h1 := uint128.to_wide_lt _ ha.1
    have h2 := uint128.to_wide_lt _ ha.2
    have h3 := uint128.to_wide_lt _ hb.1
    have h4 := uint128.to_wide_lt _ hb.2
    unfold toNat at h
    simp only at h h1 h2 h3 h4
    simp only [mk.injEq]
    rw [uint128.eq_iff_to_wide _ _ ha.1 hb.1, uint128.eq_iff_to_wide _ _ ha.2 hb.2]
    simp only
    omega

theorem lt_iff_toNat (a b : uint256) (ha : a.WF) (hb : b.WF) :
    lt a b = true ↔ a.toNat < b.toNat := by
  have h1 := uint128.to_wide_lt _ ha.1
  have h2 := uint128.to_wide_lt _ ha.2
  have h3 := uint128.to_wide_lt _ hb.1
  have h4 := uint128.to_wide_lt _ hb.2
  unfold lt toNat
  simp only [Bool.or_eq_true, Bool.and_eq_true, decide_eq_true_eq]
  rw [uint128.lt_iff_to_wide _ _ ha.1 hb.1, uint128.lt_iff_to_wide _ _ ha.2 hb.2, uint128.eq_iff_to_wide _ _ ha.1 hb.1]
  omega

theorem carry_to_wide (c : Bool) :
    (⟨0, if c = true then 1 else 0⟩ : uint128).to_wide = if c = true then 1 else 0 := by
  cases c <;> rfl

theorem carry_WF (c : Bool) : (⟨0, if c = true then 1 else 0⟩ : uint128).WF := by
  cases c <;> decide

theorem add_toNat (a b : uint256) (ha : a.WF) (hb : b.WF) :
    (add a b).toNat = (a.toNat + b.toNat) % 2 ^ 256 ∧ (add a b).WF := by
  have h1 := uint128.to_wide_lt _ ha.1
  have h2 := uint128.to_wide_lt _ ha.2
  have h3 := uint128.to_wide_lt _ hb.1
  have h4 := uint128.to_wide_lt _ hb.2
  have hlt := uint128.lt_iff_to_wide (uint128.add a.lo_ b.lo_) a.lo_ (uint128.from_wide_wf _) ha.2
  rw [uint128.add_to_wide] at hlt
  unfold add
  simp only
  refine ⟨?_, uint128.from_wide_wf _, uint128.from_wide_wf _⟩
  unfold toNat
  simp only
  rw [uint128.add_to_wide, uint128.add_to_wide, uint128.add_to_wide, carry_to_wide]
  generalize uint128.lt (uint128.add a.lo_ b.lo_) a.lo_ = c at hlt ⊢
  cases c
  · simp only [Bool.false_eq_true, false_iff, if_false] at hlt ⊢
    omega
  · simp only [true_iff, if_true] at hlt ⊢
    omega

theorem sub_toNat (a b : uint256) (ha : a.WF) (hb : b.WF) :
    (sub a b).toNat = (a.toNat + (2 ^ 256 - b.toNat)) % 2 ^ 256 ∧ (sub a b).WF := by
  have h1 := uint128.to_wide_lt _ ha.1
  have h2 := uint128.to_wide_lt _ ha.2
  have h3 := uint128.to_wide_lt _ hb.1
  have h4 := uint128.to_wide_lt _ hb.2
  have hlt := uint128.lt_iff_to_wide a.lo_ b.lo_ ha.2 hb.2
  unfold sub
  simp only
  refine ⟨?_, uint128.from_wide_wf _, uint128.from_wide_wf _⟩
  unfold toNat
  simp only
  rw [uint128.sub_to_wide _ _ (carry_WF _), uint128.sub_to_wide _ _ hb.1,
    uint128.sub_to_wide _ _ hb.2, carry_to_wide]
  generalize uint128.lt a.lo_ b.lo_ = c at hlt ⊢
  cases c
  · simp only [Bool.false_eq_true, false_iff, if_false] at hlt ⊢
    omega
  · simp only [true_iff, if_true] at hlt ⊢
    omega

end uint256

namespace int256

theorem is_negative_iff (v : int256) (h : v.WF) :
    v.is_negative = true ↔ 2 ^ 255 ≤ (⟨v.hi_, v.lo_⟩ : uint256).toNat := by
  have h1 := h.1.1
  have h2 := h.1.2
  have h3 := h.2.1
  have h4 := h.2.2
  unfold is_negative uint256.toNat uint128.to_wide uint128.high
  simp only [decide_eq_true_eq]
  omega

theorem toInt_neg_iff (v : int256) (h : v.WF) : v.is_negative = true ↔ v.toInt < 0 := by
  rw [is_negative_iff v h]
  have := uint256.toNat_lt ⟨v.hi_, v.lo_⟩ h
  unfold toInt
  simp only
  split <;> omega

theorem neg_spec (v : int256) (h : v.WF) :
    (neg v).WF ∧ (neg v).toInt = if v.toInt = -2 ^ 255 then -2 ^ 255 else -v.toInt := by
  have hlt := uint256.toNat_lt ⟨v.hi_, v.lo_⟩ h
  have hs := uint256.sub_toNat ⟨⟨0, 0⟩, ⟨0, 0⟩⟩ ⟨v.hi_, v.lo_⟩ (by decide) h
  have hz : (⟨⟨0, 0⟩, ⟨0, 0⟩⟩ : uint256).toNat = 0 := by decide
  rw [hz] at hs
  unfold neg
  simp only
  refine ⟨hs.2, ?_⟩
  have hs1 := hs.1
  unfold toInt
  simp only
  unfold uint256.high uint256.low
  generalize uint256.sub ⟨⟨0, 0⟩, ⟨0, 0⟩⟩ ⟨v.hi_, v.lo_⟩ = n at hs1 ⊢
  obtain ⟨nh, nl⟩ := n
  simp only
  generalize (⟨nh, nl⟩ : uint256).toNat = x at hs1 ⊢
  generalize (⟨v.hi_, v.lo_⟩ : uint256).toNat = y at hs1 hlt ⊢
  subst hs1
  split <;> split <;> split <;> omega

end int256

namespace detail

theorem abs_u256_spec (v : int256) (h : v.WF) :
    (abs_u256 v).WF ∧ ((abs_u256 v).toNat : Int) = |v.toInt| := by
  have hlt := uint256.toNat_lt ⟨v.hi_, v.lo_⟩ h
  have hs := uint256.sub_toNat (uint256.of_u64 0) ⟨v.hi_, v.lo_⟩ (by decide) h
  have hz : (uint256.of_u64 0).toNat = 0 := by decide
  rw [hz] at hs
  have hneg := int256.is_negative_iff v h
  have hneg' := int256.toInt_neg_iff v h
  unfold abs_u256
  simp only
  unfold int256.high int256.low
  cases hn : v.is_negative
  · rw [hn] at hneg hneg'
    simp only [Bool.false_eq_true, false_iff, not_le, not_lt] at hneg hneg'
    simp only [Bool.not_false, if_true]
    refine ⟨h, ?_⟩
    rw [abs_of_nonneg hneg']
    unfold int256.toInt
    simp only
    split <;> omega
  · rw [hn] at hneg hneg'
    simp only [true_iff] at hneg hneg'
    simp only [Bool.not_true, Bool.false_eq_true, if_false]
    refine ⟨hs.2, ?_⟩
    rw [abs_of_neg hneg', hs.1]
    unfold int256.toInt
    simp only
    split <;> omega

theorem pow10_u256_table :
    ∀ k, k < 77 → (pow10_u256 k).toNat = 10 ^ k ∧ (pow10_u256 k).WF := by
  decide!

theorem pow10_le76 (P : Nat) (h : P ≤ 76) : 10 ^ P ≤ 10 ^ 76 :=
  Nat.pow_le_pow_right (by decide) h

theorem fits_precision_i256_iff (raw : int256) (h : raw.WF) (P : Nat) (h1 : 1 ≤ P)
    (h76 : P ≤ 76) : fits_precision_i256 raw P = true ↔ |raw.toInt| < 10 ^ P := by
  have habs := abs_u256_spec raw h
  have hpow := pow10_u256_table P (by omega)
  have hlt := uint256.lt_iff_toNat (abs_u256 raw) (pow10_u256 P) habs.1 hpow.2
  rw [hpow.1] at hlt
  unfold fits_precision_i256
  have hP : ¬ ((P : Int) ≤ 0) := by omega
  simp only [hP, if_false, Int.toNat_ofNat]
  split
  · rename_i hz
    unfold int256.high int256.low at hz
    have : raw.toInt = 0 := by
      unfold int256.toInt
      rw [hz.1, hz.2]
      decide
    rw [this]
    simp
  · rw [hlt, ← habs.2]
    norm_cast

theorem apply_sign_u256_spec (mag : uint256) (h : mag.WF) (hm : mag.toNat < 2 ^ 255)
    (neg : Bool) :
    (apply_sign_u256 mag neg).WF ∧
    (apply_sign_u256 mag neg).toInt = if neg = true then -(mag.toNat : Int) else mag.toNat := by
  have hr : (⟨mag.high, mag.low⟩ : int256).toInt = mag.toNat := by
    unfold int256.toInt uint256.high uint256.low
    simp only
    obtain ⟨mh, ml⟩ := mag
    simp only at hm ⊢
    rw [if_pos hm]
  have hwf : (⟨mag.high, mag.low⟩ : int256).WF := h
  unfold apply_sign_u256
  simp only
  cases neg
  · simp only [Bool.false_eq_true, if_false]
    exact ⟨hwf, hr⟩
  · simp only [if_true]
    have hn := int256.neg_spec _ hwf
    refine ⟨hn.1, ?_⟩
    rw [hn.2, hr]
    split <;> omega

end detail

namespace Numeric256

theorem init_from_raw_fits256 (P : Nat) (h1 : 1 ≤ P) (h76 : P ≤ 76) (r : int256) (h : r.WF)
    (hf : |r.toInt| < 10 ^ P) : init_from_raw P r = ⟨r, Err.None⟩ := by
  unfold init_from_raw
  rw [(detail.fits_precision_i256_iff r h P h1 h76).2 hf]
  rfl

theorem init_from_raw_overflow256 (P : Nat) (h1 : 1 ≤ P) (h76 : P ≤ 76) (r : int256) (h : r.WF)
    (hf : 10 ^ P ≤ |r.toInt|) : init_from_raw P r = init_error Err.Overflow := by
  unfold init_from_raw
  have : detail.fits_precision_i256 r P = false := by
    rw [← Bool.not_eq_true, detail.fits_precision_i256_iff r h P h1 h76]
    omega
  rw [this]
  rfl

/-- Outcome of committing the signed magnitude `(mag, neg)` when it stands for `s`. -/
theorem init_from_mag (P : Nat) (h1 : 1 ≤ P) (h76 : P ≤ 76) (mag : uint256) (h : mag.WF)
    (hm : mag.toNat < 2 ^ 255) (neg : Bool) (s : Int)
    (hs : s = if neg = true then -(mag.toNat : Int) else mag.toNat) :
    (|s| < 10 ^ P →
      (init_from_raw P (detail.apply_sign_u256 mag neg)).err_ = Err.None ∧
      (init_from_raw P (detail.apply_sign_u256 mag neg)).raw_.toInt = s) ∧
    (10 ^ P ≤ |s| →
      init_from_raw P (detail.apply_sign_u256 mag neg) = init_error Err.Overflow) := by
  have hsp := detail.apply_sign_u256_spec mag h hm neg
  rw [← hs] at hsp
  constructor
  · intro hlt
    rw [init_from_raw_fits256 P h1 h76 _ hsp.1 (by rw [hsp.2]; exact hlt)]
    exact ⟨rfl, hsp.2⟩
  · intro hge
    exact init_from_raw_overflow256 P h1 h76 _ hsp.1 (by rw [hsp.2]; exact hge)

theorem add_core (P : Nat) (h1 : 1 ≤ P) (h76 : P ≤ 76) (a b : Numeric256)
    (hao : a.ok = true) (hbo : b.ok = true) (haw : a.raw_.WF) (hbw : b.raw_.WF)
    (hA : |a.raw_.toInt| < 10 ^ P) (hB : |b.raw_.toInt| < 10 ^ P) :
    (|a.raw_.toInt + b.raw_.toInt| < 10 ^ P →
      (add P a b).err_ = Err.None ∧
      (add P a b).raw_.toInt = a.raw_.toInt + b.raw_.toInt) ∧
    (10 ^ P ≤ |a.raw_.toInt + b.raw_.toInt| → add P a b = init_error Err.Overflow) := by
  have hua := detail.abs_u256_spec a.raw_ haw
  have hub := detail.abs_u256_spec b.raw_ hbw
  have han := int256.toInt_neg_iff a.raw_ haw
  have hbn := int256.toInt_neg_iff b.raw_ hbw
  have hp : ((10 : Int) ^ P) ≤ 10 ^ 76 := by exact_mod_cast detail.pow10_le76 P h76
  have hz : (uint256.of_u64 0).toNat = 0 := by decide
  have hzwf : (uint256.of_u64 0).WF := by decide
  unfold add
  simp only [hao, hbo, Bool.not_true, Bool.false_eq_true, if_false]
  generalize detail.abs_u256 a.raw_ = ua at hua ⊢
  generalize detail.abs_u256 b.raw_ = ub at hub ⊢
  obtain ⟨huaw, hua⟩ := hua
  obtain ⟨hubw, hub⟩ := hub
  split
  · rename_i h0
    rw [uint256.eq_iff_toNat _ _ huaw hzwf, hz] at h0
    have hA0 : a.raw_.toInt = 0 := by
      rw [h0] at hua
      exact abs_eq_zero.mp hua.symm
    rw [hA0, zero_add]
    constructor
    · intro _
      rw [init_from_raw_fits256 P h1 h76 _ hbw hB]
      exact ⟨rfl, rfl⟩
    · intro hs
      omega
  split
  · rename_i h0a h0
    rw [uint256.eq_iff_toNat _ _ hubw hzwf, hz] at h0
    have hB0 : b.raw_.toInt = 0 := by
      rw [h0] at hub
      exact abs_eq_zero.mp hub.symm
    rw [hB0, add_zero]
    constructor
    · intro _
      rw [init_from_raw_fits256 P h1 h76 _ haw hA]
      exact ⟨rfl, rfl⟩
    · intro hs
      omega
  rename_i h0a h0b
  rw [Int.abs_eq_natAbs] at hA hB hua hub
  split
  · rename_i hsame
    have hsum := uint256.add_toNat ua ub huaw hubw
    have hnlt : uint256.lt (uint256.add ua ub) ua = false := by
      rw [← Bool.not_eq_true, uint256.lt_iff_toNat _ _ hsum.2 huaw, hsum.1]
      omega
    rw [hnlt]
    simp only [Bool.false_eq_true, if_false]
    apply init_from_mag P h1 h76 _ hsum.2
    · rw [hsum.1]
      omega
    · rw [hsum.1]
      generalize a.raw_.is_negative = an at han hsame ⊢
      generalize b.raw_.is_negative = bn at hbn hsame
      subst hsame
      cases an
      · simp only [Bool.false_eq_true, false_iff, not_lt, if_false] at han hbn ⊢
        omega
      · simp only [true_iff, if_true] at han hbn ⊢
        omega
  rename_i hdiff
  split
  · rename_i heq
    rw [uint256.eq_iff_toNat _ _ huaw hubw] at heq
    have hsum0 : a.raw_.toInt + b.raw_.toInt = 0 := by
      generalize a.raw_.is_negative = an at han hdiff
      generalize b.raw_.is_negative = bn at hbn hdiff
      cases an <;> cases bn <;> simp at han hbn hdiff <;> omega
    rw [hsum0]
    constructor
    · intro _
      exact ⟨rfl, by decide⟩
    · intro hs
      have : (0 : Int) < 10 ^ P := by positivity
      simp at hs
      omega
  rename_i hne
  rw [uint256.eq_iff_toNat _ _ huaw hubw] at hne
  split
  · rename_i hgt
    unfold uint256.gt at hgt
    rw [uint256.lt_iff_toNat _ _ hubw huaw] at hgt
    have hsub := uint256.sub_toNat ua ub huaw hubw
    apply init_from_mag P h1 h76 _ hsub.2
    · rw [hsub.1]
      omega
    · rw [hsub.1]
      generalize a.raw_.is_negative = an at han hdiff ⊢
      generalize b.raw_.is_negative = bn at hbn hdiff
      cases an <;> cases bn <;> simp at han hbn hdiff ⊢ <;> omega
  · rename_i hgt
    unfold uint256.gt at hgt
    rw [uint256.lt_iff_toNat _ _ hubw huaw] at hgt
    have hsub := uint256.sub_toNat ub ua hubw huaw
    apply init_from_mag P h1 h76 _ hsub.2
    · rw [hsub.1]
      omega
    · rw [hsub.1]
      generalize a.raw_.is_negative = an at han hdiff
      generalize b.raw_.is_negative = bn at hbn hdiff ⊢
      cases an <;> cases bn <;> simp at han hbn hdiff ⊢ <;> omega

theorem sub_core (P : Nat) (h1 : 1 ≤ P) (h76 : P ≤ 76) (a b : Numeric256)
    (hao : a.ok = true) (hbo : b.ok = true) (haw : a.raw_.WF) (hbw : b.raw_.WF)
    (hA : |a.raw_.toInt| < 10 ^ P) (hB : |b.raw_.toInt| < 10 ^ P) :
    (|a.raw_.toInt - b.raw_.toInt| < 10 ^ P →
      (sub P a b).err_ = Err.None ∧
      (sub P a b).raw_.toInt = a.raw_.toInt - b.raw_.toInt) ∧
    (10 ^ P ≤ |a.raw_.toInt - b.raw_.toInt| → sub P a b = init_error Err.Overflow) := by
  have hp : ((10 : Int) ^ P) ≤ 10 ^ 76 := by exact_mod_cast detail.pow10_le76 P h76
  have hn := int256.neg_spec b.raw_ hbw
  have hnv : (int256.neg b.raw_).toInt = -b.raw_.toInt := by
    rw [hn.2]
    rw [abs_lt] at hB
    split <;> omega
  have hsub : sub P a b = add P a { b with raw_ := int256.neg b.raw_ } := by
    unfold sub
    simp only [hao, hbo, Bool.not_true, Bool.false_eq_true, if_false]
  have hnb : |(int256.neg b.raw_).toInt| < 10 ^ P := by
    rw [hnv, abs_neg]
    exact hB
  have hcore := add_core P h1 h76 a { b with raw_ := int256.neg b.raw_ } hao hbo haw hn.1 hA hnb
  rw [hsub]
  simp only [hnv, ← sub_eq_add_neg] at hcore
  exact hcore

end Numeric256

/-! ## Lemmas: the character loop of `Numeric128::init_parse` -/

namespace Numeric128

theorem is_digit_bounds (c : Char) (h : is_digit c = true) :
    48 ≤ c.toNat ∧ c.toNat ≤ 57 := by
  unfold is_digit at h
  simpa using h

theorem is_digit_ne (c : Char) (h : is_digit c = true) :
    c ≠ '.' ∧ c ≠ '+' ∧ c ≠ '-' := by
  have hb := is_digit_bounds c h
  refine ⟨?_, ?_, ?_⟩ <;> intro hc <;> subst hc <;> simp at hb

/-- One accumulation step `x * 10 + d` of the character loop. -/
theorem mul10_add_to_wide (x : uint128) (c : Char) :
    (uint128.add (uint128.mul x ⟨0, 10⟩) ⟨0, c.toNat - '0'.toNat⟩).to_wide
      = (x.to_wide * 10 + (c.toNat - '0'.toNat)) % 2 ^ 128 := by
  rw [uint128.add_to_wide]
  unfold uint128.mul
  rw [uint128.to_wide_from_wide_mod]
  have h10 : (⟨0, 10⟩ : uint128).to_wide = 10 := by decide
  have hd : (⟨0, c.toNat - '0'.toNat⟩ : uint128).to_wide = c.toNat - '0'.toNat := by
    unfold uint128.to_wide
    simp
  rw [h10, hd, Nat.mod_mod]
  omega

theorem mul10_add_WF (x : uint128) (c : Char) :
    (uint128.add (uint128.mul x ⟨0, 10⟩) ⟨0, c.toNat - '0'.toNat⟩).WF :=
  uint128.from_wide_wf _

/-- The integer digits only change `int_part`, by the accumulation fold. -/
theorem parse_loop_int_digits (ds rest : List Char) (st : ParseState)
    (hds : is_digit_string ds) (hst : st.seen_dot = false) :
    parse_loop (ds ++ rest) st = parse_loop rest { st with
      int_part := ds.foldl
        (fun x c => uint128.add (uint128.mul x ⟨0, 10⟩) ⟨0, c.toNat - '0'.toNat⟩)
        st.int_part } := by
  induction ds generalizing st with
  | nil => rfl
  | cons c cs ih =>
    have hc : is_digit c = true := hds c (List.mem_cons_self _ _)
    have hcs : is_digit_string cs := fun d hd => hds d (List.mem_cons_of_mem _ hd)
    have hne := (is_digit_ne c hc).1
    rw [List.cons_append, parse_loop]
    simp only [hne, if_false, hc, Bool.not_true, Bool.false_eq_true, hst, Bool.not_false,
      if_true]
    rw [ih _ hcs rfl]
    simp only [List.foldl_cons, hst]

theorem digits_value_fold (ds : List Char) (m : Nat) :
    ds.foldl (fun n c => 10 * n + (c.toNat - '0'.toNat)) m
      = m * 10 ^ ds.length + digits_value ds := by
  unfold digits_value
  induction ds generalizing m with
  | nil => simp
  | cons c cs ih =>
    simp only [List.foldl_cons, List.length_cons]
    rw [ih (10 * m + (c.toNat - '0'.toNat)), ih (10 * 0 + (c.toNat - '0'.toNat))]
    ring

theorem int_fold_to_wide (ds : List Char) (x : uint128) (m : Nat)
    (hx : x.to_wide = m % 2 ^ 128) (hwf : x.WF) :
    (ds.foldl (fun x c => uint128.add (uint128.mul x ⟨0, 10⟩) ⟨0, c.toNat - '0'.toNat⟩)
        x).to_wide
      = (ds.foldl (fun n c => 10 * n + (c.toNat - '0'.toNat)) m) % 2 ^ 128 ∧
    (ds.foldl (fun x c => uint128.add (uint128.mul x ⟨0, 10⟩) ⟨0, c.toNat - '0'.toNat⟩)
        x).WF := by
  induction ds generalizing x m with
  | nil => exact ⟨hx, hwf⟩
  | cons c cs ih =>
    simp only [List.foldl_cons]
    apply ih
    · rw [mul10_add_to_wide, hx]
      omega
    · exact mul10_add_WF x c

/-- The fractional digits leave `int_part` alone and count into `frac_len` (modulo `2^32`);
up to 38 of them are accumulated without wrapping. -/
theorem parse_loop_frac_digits (fp : List Char) (st : ParseState)
    (hfp : is_digit_string fp) (hst : st.seen_dot = true) (hwf : st.frac_part.WF)
    (hlen32 : st.frac_len < 2 ^ 32) :
    ∃ st', parse_loop fp st = some st' ∧ st'.int_part = st.int_part ∧
      st'.frac_len = (st.frac_len + fp.length) % 2 ^ 32 ∧ st'.frac_part.WF ∧
      (st.frac_part.to_wide < 10 ^ st.frac_len → st.frac_len + fp.length ≤ 38 →
        st'.frac_part.to_wide < 10 ^ st'.frac_len) := by
  induction fp generalizing st with
  | nil =>
    refine ⟨st, rfl, rfl, ?_, hwf, fun h _ => h⟩
    simp only [List.length_nil, Nat.add_zero]
    exact (Nat.mod_eq_of_lt hlen32).symm
  | cons c cs ih =>
    have hc : is_digit c = true := hfp c (List.mem_cons_self _ _)
    have hcs : is_digit_string cs := fun d hd => hfp d (List.mem_cons_of_mem _ hd)
    have hne := (is_digit_ne c hc).1
    have hb := is_digit_bounds c hc
    have h0 : '0'.toNat = 48 := by decide
    obtain ⟨ipart, fpart, flen, sdot⟩ := st
    simp only at hst hwf hlen32
    subst hst
    have hmod : (flen + 1) % 2 ^ 32 < 2 ^ 32 := Nat.mod_lt _ (by decide)
    rw [parse_loop]
    simp only [hne, if_false, hc, Bool.not_true, Bool.false_eq_true]
    by_cases h64 : flen < 64
    · simp only [h64, if_true]
      obtain ⟨st', h1, h2, h3, h4, h5⟩ := ih
        ⟨ipart, uint128.add (uint128.mul fpart ⟨0, 10⟩) ⟨0, c.toNat - '0'.toNat⟩,
          (flen + 1) % 2 ^ 32, true⟩ hcs rfl (mul10_add_WF _ c) hmod
      simp only at h2 h3 h5
      have hsmall : (flen + 1) % 2 ^ 32 = flen + 1 := Nat.mod_eq_of_lt (by omega)
      rw [hsmall] at h3 h5
      refine ⟨st', h1, h2, ?_, h4, ?_⟩
      · rw [h3]
        simp only [List.length_cons]
        congr 1
        omega
      · intro hlt hlen
        simp only [List.length_cons] at hlen
        apply h5
        · rw [mul10_add_to_wide, h0, @Nat.pow_succ 10 flen]
          have hp : 10 ^ flen * 10 ≤ 10 ^ 38 := by
            rw [← pow_succ]
            exact Nat.pow_le_pow_right (by decide) (by omega)
          generalize 10 ^ flen = t at hlt hp ⊢
          omega
        · omega
    · simp only [h64, if_false]
      obtain ⟨st', h1, h2, h3, h4, _⟩ := ih ⟨ipart, fpart, (flen + 1) % 2 ^ 32, true⟩ hcs rfl
        hwf hmod
      simp only at h2 h3
      refine ⟨st', h1, h2, ?_, h4, ?_⟩
      · rw [h3]
        simp only [List.length_cons]
        omega
      · intro _ hlen
        simp only [List.length_cons] at hlen
        omega

/-- The character loop on the body of a well-formed literal. -/
theorem parse_loop_literal (ip : List Char) (frac : Option (List Char))
    (hip : is_digit_string ip)
    (hfrac : match frac with
      | none => True
      | some fp => is_digit_string fp) :
    ∃ st, parse_loop (ip ++ (match frac with
        | none => []
        | some fp => '.' :: fp)) {} = some st ∧
      st.int_part.to_wide = digits_value ip % 2 ^ 128 ∧ st.int_part.WF ∧
      st.frac_part.WF ∧ st.frac_len = frac_digits frac % 2 ^ 32 ∧
      (frac_digits frac ≤ 38 → st.frac_part.to_wide < 10 ^ st.frac_len) := by
  have hfold := int_fold_to_wide ip ⟨0, 0⟩ 0 (by decide) (by decide)
  rw [digits_value_fold, Nat.zero_mul, Nat.zero_add] at hfold
  rw [parse_loop_int_digits ip _ {} hip rfl]
  cases frac with
  | none =>
    refine ⟨_, rfl, hfold.1, hfold.2, ?_, rfl, ?_⟩
    · show (⟨0, 0⟩ : uint128).WF
      decide
    · intro _
      show (⟨0, 0⟩ : uint128).to_wide < 10 ^ 0
      decide
  | some fp =>
    have hfp : is_digit_string fp := hfrac
    rw [parse_loop]
    simp only [if_true, Bool.false_eq_true, if_false]
    obtain ⟨st', h1, h2, h3, h4, h5⟩ := parse_loop_frac_digits fp
      ⟨ip.foldl
          (fun x c => uint128.add (uint128.mul x ⟨0, 10⟩) ⟨0, c.toNat - '0'.toNat⟩)
          ⟨0, 0⟩, ⟨0, 0⟩, 0, true⟩ hfp rfl (by show (⟨0, 0⟩ : uint128).WF; decide)
      (by show 0 < 2 ^ 32; decide)
    simp only at h2 h3 h5
    refine ⟨st', h1, ?_, ?_, h4, ?_, ?_⟩
    · rw [h2]
      exact hfold.1
    · rw [h2]
      exact hfold.2
    · rw [h3]
      unfold frac_digits
      simp
    · intro hlen
      unfold frac_digits at hlen
      simp only at hlen
      apply h5
      · show (⟨0, 0⟩ : uint128).to_wide < 10 ^ 0
        decide
      · omega

/-- A magnitude of at most `2^127` keeps its absolute value under `apply_sign`. -/
theorem apply_sign_abs (mag : uint128) (h : mag.WF) (hm : mag.to_wide ≤ 2 ^ 127)
    (neg : Bool) :
    (detail.apply_sign mag neg).WF ∧
    |(detail.apply_sign mag neg).to_wide| = (mag.to_wide : Int) := by
  have hr : (int128.of_uint128 mag).WF := h
  have hv : (int128.of_uint128 mag).to_wide
      = if mag.to_wide < 2 ^ 127 then (mag.to_wide : Int) else (mag.to_wide : Int) - 2 ^ 128 := by
    unfold uint128.WF at h
    unfold int128.of_uint128 int128.to_wide uint128.to_wide uint128.high uint128.low to_i64
    unfold uint128.to_wide at hm
    simp only
    push_cast
    split <;> split <;> omega
  unfold detail.apply_sign
  simp only
  cases neg
  · simp only [Bool.false_eq_true, if_false]
    refine ⟨hr, ?_⟩
    rw [hv, Int.abs_eq_natAbs]
    split <;> omega
  · simp only [if_true]
    unfold int128.neg
    refine ⟨int128.from_wide_wf_signed _, ?_⟩
    rw [int128.to_wide_from_wide_wrap, hv, Int.abs_eq_natAbs]
    split <;> omega

/-- A magnitude below `2^127` gets the requested sign. -/
theorem apply_sign_to_wide (mag : uint128) (h : mag.WF) (hm : mag.to_wide < 2 ^ 127)
    (neg : Bool) :
    (detail.apply_sign mag neg).to_wide
      = if neg = true then -(mag.to_wide : Int) else (mag.to_wide : Int) := by
  have hv : (int128.of_uint128 mag).to_wide = (mag.to_wide : Int) := by
    unfold uint128.WF at h
    unfold int128.of_uint128 int128.to_wide uint128.to_wide uint128.high uint128.low to_i64
    unfold uint128.to_wide at hm
    simp only
    push_cast
    split <;> omega
  unfold detail.apply_sign
  simp only
  cases neg
  · simp only [Bool.false_eq_true, if_false]
    exact hv
  · simp only [if_true]
    unfold int128.neg
    rw [int128.to_wide_from_wide_wrap, hv]
    omega

theorem round_up_to_wide (mag : uint128) (h : mag.WF) (ru : Bool)
    (hm : mag.to_wide + (if ru = true then 1 else 0) ≤ 2 ^ 127) :
    (if ru = true then uint128.add mag ⟨0, 1⟩ else mag).WF ∧
    (if ru = true then uint128.add mag ⟨0, 1⟩ else mag).to_wide
      = mag.to_wide + (if ru = true then 1 else 0) := by
  cases ru
  · simp only [Bool.false_eq_true, if_false]
    exact ⟨h, (Nat.add_zero _).symm⟩
  · simp only [if_true] at hm ⊢
    refine ⟨uint128.from_wide_wf _, ?_⟩
    rw [uint128.add_to_wide]
    have : (⟨0, 1⟩ : uint128).to_wide = 1 := by decide
    rw [this]
    omega

/-- The final commit rejects every magnitude between `10^P` and `2^127`. -/
theorem parse_round_overflow (P : Nat) (h1 : 1 ≤ P) (h38 : P ≤ 38) (neg : Bool)
    (mag : uint128) (h : mag.WF) (ru : Bool)
    (hlo : 10 ^ P ≤ mag.to_wide + (if ru = true then 1 else 0))
    (hhi : mag.to_wide + (if ru = true then 1 else 0) ≤ 2 ^ 127) :
    parse_round P neg mag ru = init_error Err.Overflow := by
  have hr := round_up_to_wide mag h ru hhi
  unfold parse_round
  simp only
  generalize (if ru = true then uint128.add mag ⟨0, 1⟩ else mag) = m at hr ⊢
  have ha := apply_sign_abs m hr.1 (by rw [hr.2]; exact hhi) neg
  apply init_from_raw_overflow128 P h1 h38 _ ha.1
  rw [ha.2, hr.2]
  exact_mod_cast hlo

/-- The final commit accepts every magnitude below `10^P`, with the sign asked for. -/
theorem parse_round_fits (P : Nat) (h1 : 1 ≤ P) (h38 : P ≤ 38) (neg : Bool)
    (mag : uint128) (h : mag.WF) (ru : Bool)
    (hlt : mag.to_wide + (if ru = true then 1 else 0) < 10 ^ P) :
    (parse_round P neg mag ru).err_ = Err.None ∧
    (parse_round P neg mag ru).raw_.to_wide
      = if neg = true then -((mag.to_wide + (if ru = true then 1 else 0) : Nat) : Int)
        else ((mag.to_wide + (if ru = true then 1 else 0) : Nat) : Int) := by
  have hp := detail.pow10_le P h38
  have hr := round_up_to_wide mag h ru (by omega)
  unfold parse_round
  simp only
  generalize (if ru = true then uint128.add mag ⟨0, 1⟩ else mag) = m at hr ⊢
  have ha := apply_sign_abs m hr.1 (by rw [hr.2]; omega) neg
  have hv := apply_sign_to_wide m hr.1 (by rw [hr.2]; omega) neg
  rw [init_from_raw_fits128 P h1 h38 _ ha.1 (by rw [ha.2, hr.2]; exact_mod_cast hlt)]
  refine ⟨rfl, ?_⟩
  show (detail.apply_sign m neg).to_wide = _
  rw [hv, hr.2]

/-- More than 64 fractional digits are rejected as `Invalid`, unless `S = 0` and the
rounding is `Trunc`. -/
theorem parse_finish_invalid (P S : Nat) (rnd : Rounding) (neg : Bool) (st : ParseState)
    (hS : S ≤ 38) (h64 : 64 < st.frac_len) (hmode : S ≠ 0 ∨ rnd = Rounding.HalfUp) :
    parse_finish P S neg rnd st = init_error Err.Invalid := by
  unfold parse_finish
  simp only
  by_cases hS0 : S = 0
  · have hr : rnd = Rounding.HalfUp := by
      cases hmode with
      | inl h => exact absurd hS0 h
      | inr h => exact h
    have h1 : 0 < st.frac_len ∧ rnd = Rounding.HalfUp := ⟨by omega, hr⟩
    have h2 : ¬ st.frac_len ≤ 64 := by omega
    rw [if_pos hS0, if_pos h1, if_neg h2]
  · have h1 : ¬ st.frac_len = 0 := by omega
    have h2 : ¬ st.frac_len ≤ S := by omega
    rw [if_neg hS0, if_neg h1, if_neg h2, if_pos h64]

theorem add_WF128 (a b : uint128) : (uint128.add a b).WF :=
  uint128.from_wide_wf _

theorem mul_pow10_to_wide (x : uint128) (k : Nat) (hk : k ≤ 38)
    (hfit : x.to_wide * 10 ^ k < 2 ^ 128) :
    (uint128.mul x (detail.pow10_u k)).to_wide = x.to_wide * 10 ^ k ∧
    (uint128.mul x (detail.pow10_u k)).WF := by
  refine ⟨?_, uint128.from_wide_wf _⟩
  unfold uint128.mul
  rw [uint128.to_wide_from_wide_mod, Nat.mod_mod, detail.pow10_u_small k hk]
  exact Nat.mod_eq_of_lt hfit

/-- Any magnitude in `[A, A + T)` with `10^P ≤ A` and `A + T ≤ 2^127` is rejected. -/
theorem parse_round_overflow_between (P : Nat) (h1 : 1 ≤ P) (h38 : P ≤ 38) (neg : Bool)
    (mag : uint128) (h : mag.WF) (ru : Bool) (A T : Nat)
    (hlow : 10 ^ P ≤ A) (hfit : A + T ≤ 2 ^ 127)
    (hge : A ≤ mag.to_wide) (hlt : mag.to_wide < A + T) :
    parse_round P neg mag ru = init_error Err.Overflow := by
  apply parse_round_overflow P h1 h38 neg mag h ru
  · cases ru <;> simp <;> omega
  · cases ru <;> simp <;> omega

/-- With an integer part `n` such that `10^P ≤ n * 10^S` and `(n + 1) * 10^S ≤ 2^127`, and a
fraction that was accumulated without wrapping, the result is `Overflow`. -/
theorem parse_finish_overflow (P S : Nat) (rnd : Rounding) (neg : Bool) (st : ParseState)
    (n : Nat) (h1 : 1 ≤ P) (h38 : P ≤ 38) (hS : S ≤ P)
    (hint : st.int_part.to_wide = n)
    (hlow : 10 ^ P ≤ n * 10 ^ S) (hfit : (n + 1) * 10 ^ S ≤ 2 ^ 127)
    (hfrac : (st.frac_len ≤ 38 ∧ st.frac_part.to_wide < 10 ^ st.frac_len) ∨
      (S = 0 ∧ rnd = Rounding.Trunc)) :
    parse_finish P S neg rnd st = init_error Err.Overflow := by
  have hT : 0 < 10 ^ S := Nat.pos_pow_of_pos S (by decide)
  have hAT : (n + 1) * 10 ^ S = n * 10 ^ S + 10 ^ S := by ring
  rw [hAT] at hfit
  have hraw := mul_pow10_to_wide st.int_part S (by omega) (by rw [hint]; omega)
  rw [hint] at hraw
  unfold parse_finish
  simp only
  generalize uint128.mul st.int_part (detail.pow10_u S) = raw_mag at hraw ⊢
  obtain ⟨hrv, hrwf⟩ := hraw
  have base : ∀ ru, parse_round P neg raw_mag ru = init_error Err.Overflow := fun ru =>
    parse_round_overflow_between P h1 h38 neg raw_mag hrwf ru _ _ hlow hfit
      (by omega) (by omega)
  by_cases hS0 : S = 0
  · rw [if_pos hS0]
    split
    · split
      · exact base _
      · rename_i hc h64
        cases hfrac with
        | inl h => omega
        | inr h =>
          rw [h.2] at hc
          exact absurd hc.2 (by decide)
    · exact base _
  · rw [if_neg hS0]
    have hfr : st.frac_len ≤ 38 ∧ st.frac_part.to_wide < 10 ^ st.frac_len := by
      cases hfrac with
      | inl h => exact h
      | inr h => exact absurd h.1 hS0
    obtain ⟨hL, hf⟩ := hfr
    split
    · exact base _
    split
    · rename_i hL0 hLS
      have hm := mul_pow10_to_wide st.frac_part (S - st.frac_len) (by omega) (by
        have : st.frac_part.to_wide * 10 ^ (S - st.frac_len) < 10 ^ st.frac_len * 10 ^ (S - st.frac_len) :=
          Nat.mul_lt_mul_of_pos_right hf (Nat.pos_pow_of_pos _ (by decide))
        rw [← pow_add, Nat.add_sub_cancel' hLS] at this
        have := detail.pow10_le S (by omega)
        omega)
      have hlt : st.frac_part.to_wide * 10 ^ (S - st.frac_len) < 10 ^ S := by
        have : st.frac_part.to_wide * 10 ^ (S - st.frac_len) < 10 ^ st.frac_len * 10 ^ (S - st.frac_len) :=
          Nat.mul_lt_mul_of_pos_right hf (Nat.pos_pow_of_pos _ (by decide))
        rw [← pow_add, Nat.add_sub_cancel' hLS] at this
        exact this
      apply parse_round_overflow_between P h1 h38 neg _ (add_WF128 _ _) _ _ _ hlow hfit
      · rw [uint128.add_to_wide, hrv, hm.1]
        omega
      · rw [uint128.add_to_wide, hrv, hm.1]
        omega
    · rename_i hL0 hLS
      have h64 : ¬ 64 < st.frac_len := by omega
      rw [if_neg h64]
      have hd := detail.pow10_u_small (st.frac_len - S) (by omega)
      have hq : (detail.div_u st.frac_part (detail.pow10_u (st.frac_len - S))).1.to_wide < 10 ^ S := by
        unfold detail.div_u uint128.div
        simp only
        rw [uint128.to_wide_from_wide_mod, hd]
        have hlt : st.frac_part.to_wide / 10 ^ (st.frac_len - S) < 10 ^ S := by
          rw [Nat.div_lt_iff_lt_mul (Nat.pos_pow_of_pos _ (by decide)), ← pow_add]
          have : S + (st.frac_len - S) = st.frac_len := by omega
          rw [this]
          exact hf
        have := Nat.mod_le (st.frac_part.to_wide / 10 ^ (st.frac_len - S)) (2 ^ 128)
        omega
      apply parse_round_overflow_between P h1 h38 neg _ (add_WF128 _ _) _ _ _ hlow hfit
      · rw [uint128.add_to_wide, hrv]
        omega
      · rw [uint128.add_to_wide, hrv]
        omega

/-- On a well-formed literal with at least one integer digit, `init_parse` strips the sign,
runs the character loop on the rest and finishes with the state it returns. -/
theorem init_parse_literal (P S : Nat) (rnd : Rounding) (sgn ip : List Char)
    (frac : Option (List Char)) (hsgn : sgn = [] ∨ sgn = ['+'] ∨ sgn = ['-'])
    (hip : is_digit_string ip) (hne : ip ≠ []) :
    init_parse P S (decimal_literal sgn ip frac) rnd =
      match parse_loop (ip ++ (match frac with
        | none => []
        | some fp => '.' :: fp)) {} with
      | none => init_error Err.Invalid
      | some st => parse_finish P S (decide (sgn = ['-'])) rnd st := by
  obtain ⟨c, cs, rfl⟩ := List.exists_cons_of_ne_nil hne
  have hc : is_digit c = true := hip c (List.mem_cons_self _ _)
  obtain ⟨_, hplus, hminus⟩ := is_digit_ne c hc
  unfold decimal_literal
  rcases hsgn with h | h | h <;> subst h
  · simp only [List.nil_append, List.cons_append]
    unfold init_parse
    simp only [hplus, hminus, or_self, if_false, decide_False]
    rfl
  · simp only [List.cons_append, List.nil_append]
    unfold init_parse
    simp
  · simp only [List.cons_append, List.nil_append]
    unfold init_parse
    simp

end Numeric128

/-! ## Lemmas: error codes of the operations -/

namespace Numeric128

theorem init_from_raw_err128 (P : Nat) (r : int128) :
    (init_from_raw P r).err_ = Err.None ∨ (init_from_raw P r).err_ = Err.Overflow := by
  unfold init_from_raw init_error
  split
  · right; rfl
  · left; rfl

theorem div_zero_iff128 (P S : Nat) (a b : Numeric128) (rnd : Rounding)
    (ha : a.ok = true) (hb : b.ok = true) :
    (div P S a b rnd).err_ = Err.DivByZero ↔ b.raw_ = ⟨0, 0⟩ := by
  have hz : int128.of_int64 0 = ⟨0, 0⟩ := by decide
  unfold div
  rw [ha, hb, hz]
  by_cases h : b.raw_ = ⟨0, 0⟩
  · simp [h]
  · simp only [Bool.not_true, Bool.false_eq_true, if_false, h, iff_false]
    split
    · simp
    · rcases init_from_raw_err128 P _ with h1 | h1 <;> rw [h1] <;> simp

end Numeric128

namespace Numeric256

theorem init_from_raw_err256 (P : Nat) (r : int256) :
    (init_from_raw P r).err_ = Err.None ∨ (init_from_raw P r).err_ = Err.Overflow := by
  unfold init_from_raw init_error
  split
  · right; rfl
  · left; rfl

theorem div_zero_iff256 (P S : Nat) (a b : Numeric256) (rnd : Rounding)
    (ha : a.ok = true) (hb : b.ok = true) :
    (div P S a b rnd).err_ = Err.DivByZero ↔ b.raw_ = ⟨⟨0, 0⟩, ⟨0, 0⟩⟩ := by
  unfold div
  rw [ha, hb]
  by_cases h : b.raw_ = ⟨⟨0, 0⟩, ⟨0, 0⟩⟩
  · simp [h, init_error]
  · simp only [Bool.not_true, Bool.false_eq_true, if_false, h, iff_false]
    split
    · simp [init_error]
    · split
      · split
        · simp [init_error]
        · rcases init_from_raw_err256 P (detail.apply_sign_u256 _ _) with h1 | h1 <;>
            rw [h1] <;> simp
      · rcases init_from_raw_err256 P (detail.apply_sign_u256 _ _) with h1 | h1 <;>
          rw [h1] <;> simp

end Numeric256

namespace int128

theorem to_wide_eq_zero_iff (v : int128) (h : v.WF) : v.to_wide = 0 ↔ v = ⟨0, 0⟩ := by
  obtain ⟨hi, lo⟩ := v
  unfold WF at h
  simp only at h
  constructor
  · intro hv
    unfold to_wide to_i64 at hv
    simp only at hv
    have : hi = 0 ∧ lo = 0 := by
      split at hv <;> omega
    rw [this.1, this.2]
  · intro hv
    rw [hv]
    decide

end int128

namespace int256

theorem toInt_eq_zero_iff (v : int256) (h : v.WF) :
    v.toInt = 0 ↔ v = ⟨⟨0, 0⟩, ⟨0, 0⟩⟩ := by
  obtain ⟨⟨a, b⟩, ⟨c, d⟩⟩ := v
  have h1 := h.1.1
  have h2 := h.1.2
  have h3 := h.2.1
  have h4 := h.2.2
  simp only at h1 h2 h3 h4
  constructor
  · intro hv
    unfold toInt uint256.toNat uint128.to_wide at hv
    simp only at hv
    have : a = 0 ∧ b = 0 ∧ c = 0 ∧ d = 0 := by
      split at hv <;> omega
    rw [this.1, this.2.1, this.2.2.1, this.2.2.2]
  · intro hv
    rw [hv]
    decide

end int256

namespace Numeric128

theorem parse_finish_no_digits (P S : Nat) (h1 : 1 ≤ P) (h38 : P ≤ 38) (hS : S ≤ 38)
    (neg : Bool) (rnd : Rounding) :
    (parse_finish P S neg rnd { seen_dot := true }).err_ = Err.None ∧
    (parse_finish P S neg rnd { seen_dot := true }).raw_.to_wide = 0 := by
  have hm := mul_pow10_to_wide ⟨0, 0⟩ S hS (by
    have : (⟨0, 0⟩ : uint128).to_wide = 0 := by decide
    rw [this]; simp)
  have h0 : (⟨0, 0⟩ : uint128).to_wide = 0 := by decide
  rw [h0, Nat.zero_mul] at hm
  have hP : 0 < 10 ^ P := Nat.pos_pow_of_pos P (by decide)
  have hf := parse_round_fits P h1 h38 neg (uint128.mul ⟨0, 0⟩ (detail.pow10_u S)) hm.2 false
    (by rw [hm.1]; simp)
  rw [hm.1] at hf
  have hfin : parse_finish P S neg rnd { seen_dot := true }
      = parse_round P neg (uint128.mul ⟨0, 0⟩ (detail.pow10_u S)) false := by
    unfold parse_finish
    by_cases hS0 : S = 0 <;> simp [hS0]
  rw [hfin]
  refine ⟨hf.1, ?_⟩
  rw [hf.2]
  cases neg <;> simp

end Numeric128

/-! ## Lemmas: the character loop of `Numeric::init_parse` -/

namespace Numeric

theorem parse_loop_int (ds : List Char) (hds : is_digit_string ds) :
    ∀ (st : ParseState) (rest : List Char), st.seen_dot = false →
      ∃ st2, parse_loop (ds ++ rest) st = parse_loop rest st2 ∧ st2.seen_dot = false ∧
        st2.scale_ = st.scale_ ∧ st2.any = (st.any || !ds.isEmpty) := by
  induction ds with
  | nil =>
    intro st rest hst
    exact ⟨st, rfl, hst, rfl, by simp⟩
  | cons c cs ih =>
    intro st rest hst
    have hc := Numeric128.is_digit_bounds c (hds c (List.mem_cons_self _ _))
    have hne := Numeric128.is_digit_ne c (hds c (List.mem_cons_self _ _))
    have hcs : is_digit_string cs := fun x hx => hds x (List.mem_cons_of_mem _ hx)
    obtain ⟨st2, h1, h2, h3, h4⟩ := ih hcs
      { st with mag_ := mul10_add_ st.mag_ (to_u32 (c.toNat - '0'.toNat)), any := true }
      rest hst
    refine ⟨st2, ?_, h2, h3, ?_⟩
    · rw [← h1]
      show parse_loop (c :: (cs ++ rest)) st = _
      rw [parse_loop]
      have hnd : ¬ (c.toNat < '0'.toNat ∨ c.toNat > '9'.toNat) := by
        have h0 : '0'.toNat = 48 := rfl
        have h9 : '9'.toNat = 57 := rfl
        omega
      simp only [hne, hnd, if_false, hst, Bool.false_eq_true]
    · rw [h4]
      simp

theorem parse_loop_frac (ds : List Char) (hds : is_digit_string ds) :
    ∀ (st : ParseState) (rest : List Char), st.seen_dot = true →
      st.scale_ + ds.length ≤ max_frac_digits →
      ∃ st2, parse_loop (ds ++ rest) st = parse_loop rest st2 ∧ st2.seen_dot = true ∧
        st2.scale_ = st.scale_ + ds.length ∧ st2.any = (st.any || !ds.isEmpty) := by
  induction ds with
  | nil =>
    intro st rest hst _
    exact ⟨st, rfl, hst, by simp, by simp⟩
  | cons c cs ih =>
    intro st rest hst hlen
    have hc := Numeric128.is_digit_bounds c (hds c (List.mem_cons_self _ _))
    have hne := Numeric128.is_digit_ne c (hds c (List.mem_cons_self _ _))
    have hcs : is_digit_string cs := fun x hx => hds x (List.mem_cons_of_mem _ hx)
    simp only [List.length_cons, Nat.cast_add, Nat.cast_one] at hlen
    obtain ⟨st2, h1, h2, h3, h4⟩ := ih hcs
      { st with mag_ := mul10_add_ st.mag_ (to_u32 (c.toNat - '0'.toNat)),
                scale_ := st.scale_ + 1, any := true }
      rest hst (by simp only; omega)
    have hm : max_frac_digits = 16383 := rfl
    refine ⟨st2, ?_, h2, ?_, ?_⟩
    · rw [← h1]
      show parse_loop (c :: (cs ++ rest)) st = _
      rw [parse_loop]
      have hnd : ¬ (c.toNat < '0'.toNat ∨ c.toNat > '9'.toNat) := by
        have h0 : '0'.toNat = 48 := rfl
        have h9 : '9'.toNat = 57 := rfl
        omega
      have hsc : ¬ (st.scale_ + 1 > max_frac_digits) := by omega
      simp only [hne, hnd, if_false, hst, if_true, hsc]
    · rw [h3]
      simp only [List.length_cons, Nat.cast_add, Nat.cast_one]
      omega
    · rw [h4]
      simp

theorem parse_loop_frac_overflow (ds : List Char) (hds : is_digit_string ds) :
    ∀ (st : ParseState) (rest : List Char), st.seen_dot = true →
      st.scale_ ≤ max_frac_digits → st.scale_ + ds.length > max_frac_digits →
      parse_loop (ds ++ rest) st = Except.error Err.Overflow := by
  induction ds with
  | nil =>
    intro st rest _ h1 h2
    simp at h2
    omega
  | cons c cs ih =>
    intro st rest hst hle hlen
    have hc := Numeric128.is_digit_bounds c (hds c (List.mem_cons_self _ _))
    have hne := Numeric128.is_digit_ne c (hds c (List.mem_cons_self _ _))
    have hcs : is_digit_string cs := fun x hx => hds x (List.mem_cons_of_mem _ hx)
    simp only [List.length_cons, Nat.cast_add, Nat.cast_one] at hlen
    show parse_loop (c :: (cs ++ rest)) st = _
    rw [parse_loop]
    have hnd : ¬ (c.toNat < '0'.toNat ∨ c.toNat > '9'.toNat) := by
      have h0 : '0'.toNat = 48 := rfl
      have h9 : '9'.toNat = 57 := rfl
      omega
    simp only [hne, hnd, if_false, hst, if_true]
    by_cases hsc : st.scale_ + 1 > max_frac_digits
    · simp only [hsc, if_true]
    · simp only [hsc, if_false]
      exact ih hcs _ rest rfl (by simp only; omega) (by simp only; omega)

end Numeric

namespace Numeric

theorem dropWhile_head_not (p : Char → Bool) :
    ∀ (l : List Char) (c : Char) (r : List Char), l.dropWhile p = c :: r → p c = false := by
  intro l
  induction l with
  | nil => intro c r h; simp at h
  | cons x xs ih =>
    intro c r h
    rw [List.dropWhile_cons] at h
    by_cases hx : p x = true
    · rw [if_pos hx] at h
      exact ih c r h
    · rw [if_neg hx] at h
      injection h with h1 _
      rw [← h1]
      simpa using hx

theorem takeWhile_digits (l : List Char) :
    is_digit_string (l.takeWhile Numeric128.is_digit) := by
  intro c hc
  exact List.mem_takeWhile_imp hc

theorem parse_loop_non_digit (c : Char) (cs : List Char) (st : ParseState)
    (hd : Numeric128.is_digit c = false) (hdot : c = '.' → st.seen_dot = true) :
    parse_loop (c :: cs) st = Except.error Err.Invalid := by
  rw [parse_loop]
  by_cases h : c = '.'
  · simp only [h, if_true, hdot h]
  · have hnd : c.toNat < '0'.toNat ∨ c.toNat > '9'.toNat := by
      unfold Numeric128.is_digit at hd
      simp only [decide_eq_false_iff_not, not_and, not_le] at hd
      omega
    simp only [h, if_false, hnd, if_true]

/-- The three outcomes of the character loop on a non-empty string that carries no sign:
the string follows the grammar, or it begins with digits, a point and 16384 further
digits, or the loop ends with `Invalid` or without having read a digit. -/
theorem parse_loop_cases (body : List Char) (hne : body ≠ []) :
    (∃ ip frac, well_formed_literal [] ip frac ∧ (ip ≠ [] ∨ frac_digits frac ≠ 0) ∧
        body = decimal_literal [] ip frac) ∨
    (∃ ip fp rest, is_digit_string ip ∧ is_digit_string fp ∧ fp.length = 16384 ∧
        body = ip ++ '.' :: (fp ++ rest)) ∨
    (parse_loop body {} = Except.error Err.Invalid ∨
      ∃ st, parse_loop body {} = Except.ok st ∧ st.any = false) := by
  have hsplit : body = body.takeWhile Numeric128.is_digit ++ body.dropWhile Numeric128.is_digit :=
    (List.takeWhile_append_dropWhile _ _).symm
  have hip := takeWhile_digits body
  generalize body.takeWhile Numeric128.is_digit = ip at hsplit hip
  have hhead := dropWhile_head_not Numeric128.is_digit body
  generalize body.dropWhile Numeric128.is_digit = r1 at hsplit hhead
  obtain ⟨st2, e2, d2, s2, a2⟩ := parse_loop_int ip hip {} r1 rfl
  rw [← hsplit] at e2
  cases r1 with
  | nil =>
    left
    refine ⟨ip, none, ⟨Or.inl rfl, hip, trivial⟩, Or.inl ?_, ?_⟩
    · intro h
      rw [h] at hsplit
      exact hne hsplit
    · rw [hsplit]
      simp [decimal_literal]
  | cons c r2 =>
    have hc := hhead c r2 rfl
    by_cases hdot : c = '.'
    · have hsplit2 : r2 = r2.takeWhile Numeric128.is_digit ++ r2.dropWhile Numeric128.is_digit :=
        (List.takeWhile_append_dropWhile _ _).symm
      have hfp := takeWhile_digits r2
      generalize r2.takeWhile Numeric128.is_digit = fp at hsplit2 hfp
      have hhead2 := dropWhile_head_not Numeric128.is_digit r2
      generalize r2.dropWhile Numeric128.is_digit = r3 at hsplit2 hhead2
      by_cases hlen : 16384 ≤ fp.length
      · right; left
        refine ⟨ip, fp.take 16384, fp.drop 16384 ++ r3, hip, ?_, ?_, ?_⟩
        · intro x hx
          exact hfp x (List.mem_of_mem_take hx)
        · simp [List.length_take]
          omega
        · rw [hsplit, hdot, hsplit2, ← List.append_assoc (fp.take 16384),
            List.take_append_drop]
      · have estep : parse_loop (c :: r2) st2 = parse_loop r2 { st2 with seen_dot := true } := by
          rw [parse_loop]
          simp only [hdot, if_true, d2, Bool.false_eq_true, if_false]
        have hm : max_frac_digits = 16383 := rfl
        obtain ⟨st4, e4, d4, _, a4⟩ := parse_loop_frac fp hfp { st2 with seen_dot := true } r3 rfl
          (by simp only [s2]; show (0 : Int) + _ ≤ _; omega)
        rw [← hsplit2] at e4
        cases r3 with
        | nil =>
          have eok : parse_loop body {} = Except.ok st4 := by
            rw [e2, estep, e4]
            rfl
          by_cases hany : st4.any = true
          · left
            refine ⟨ip, some fp, ⟨Or.inl rfl, hip, hfp⟩, ?_, ?_⟩
            · rw [a4, a2] at hany
              simp only [frac_digits]
              by_cases h1 : ip = []
              · right
                rw [h1] at hany
                intro h2
                have : fp = [] := List.length_eq_zero.mp h2
                rw [this] at hany
                simp at hany
              · left; exact h1
            · rw [hsplit, hdot, hsplit2]
              simp [decimal_literal]
          · right; right; right
            exact ⟨st4, eok, by simpa using hany⟩
        | cons c3 r4 =>
          right; right; left
          rw [e2, estep, e4]
          exact parse_loop_non_digit c3 r4 st4 (hhead2 c3 r4 rfl) (fun _ => d4)
    · right; right; left
      rw [e2]
      exact parse_loop_non_digit c r2 st2 hc (fun h => absurd h hdot)

theorem parse_finish_no_digit (neg : Bool) (st : ParseState) (h : st.any = false) :
    (parse_finish neg st).err_ = Err.Invalid := by
  unfold parse_finish
  rw [h]
  rfl

theorem init_parse_unsigned (c : Char) (cs : List Char) (rnd : Rounding)
    (hp : c ≠ '+') (hm : c ≠ '-') :
    init_parse (c :: cs) rnd
      = match parse_loop (c :: cs) {} with
        | Except.error e => set_error_ { neg_ := false } e
        | Except.ok st => parse_finish false st := by
  unfold init_parse
  simp [hp, hm]

theorem init_parse_signed (c d : Char) (cs : List Char) (rnd : Rounding)
    (hs : c = '+' ∨ c = '-') :
    init_parse (c :: d :: cs) rnd
      = match parse_loop (d :: cs) {} with
        | Except.error e => set_error_ { neg_ := decide (c = '-') } e
        | Except.ok st => parse_finish (decide (c = '-')) st := by
  unfold init_parse
  simp [hs]

end Numeric

namespace Numeric

theorem parse_loop_long_fraction (ip fp rest : List Char) (hip : is_digit_string ip)
    (hfp : is_digit_string fp) (hlen : fp.length = 16384) :
    parse_loop (ip ++ '.' :: (fp ++ rest)) {} = Except.error Err.Overflow := by
  obtain ⟨st2, e2, d2, s2, _⟩ := parse_loop_int ip hip {} ('.' :: (fp ++ rest)) rfl
  rw [e2, parse_loop]
  simp only [if_true, d2, Bool.false_eq_true, if_false]
  have hm : max_frac_digits = 16383 := rfl
  apply parse_loop_frac_overflow fp hfp _ rest rfl
  · simp only [s2]
    show (0 : Int) ≤ _
    omega
  · simp only [s2]
    show (0 : Int) + _ > _
    omega

theorem body_head (ip tl : List Char) (hip : is_digit_string ip) :
    ∃ d cs, ip ++ '.' :: tl = d :: cs ∧ d ≠ '+' ∧ d ≠ '-' := by
  cases ip with
  | nil => exact ⟨'.', tl, rfl, by decide, by decide⟩
  | cons x xs =>
    have hx := Numeric128.is_digit_ne x (hip x (List.mem_cons_self _ _))
    exact ⟨x, xs ++ '.' :: tl, rfl, hx.2.1, hx.2.2⟩

/-- A string that begins with an optional sign, digits, a point and 16384 further digits
gives `Overflow`, whatever follows. -/
theorem init_parse_long_fraction (s : List Char) (rnd : Rounding)
    (h : begins_with_fraction 16384 s) : (init_parse s rnd).err_ = Err.Overflow := by
  obtain ⟨sgn, ip, fp, rest, hs, hip, hfp, hlen, rfl⟩ := h
  have hov := parse_loop_long_fraction ip fp rest hip hfp hlen
  obtain ⟨d, cs, hb, hp, hm⟩ := body_head ip (fp ++ rest) hip
  rw [hb] at hov ⊢
  rcases hs with hs | hs | hs <;> rw [hs]
  · show (init_parse (d :: cs) rnd).err_ = _
    rw [init_parse_unsigned d cs rnd hp hm, hov]
    rfl
  · show (init_parse ('+' :: d :: cs) rnd).err_ = _
    rw [init_parse_signed '+' d cs rnd (Or.inl rfl), hov]
    rfl
  · show (init_parse ('-' :: d :: cs) rnd).err_ = _
    rw [init_parse_signed '-' d cs rnd (Or.inr rfl), hov]
    rfl

/-- A string outside the grammar gives `Invalid`, unless it begins with an optional sign,
digits, a point and 16384 further digits. -/
theorem init_parse_not_grammar (s : List Char) (rnd : Rounding) (h : ¬ matches_grammar s) :
    (init_parse s rnd).err_ = Err.Invalid ∨ begins_with_fraction 16384 s := by
  cases s with
  | nil => left; rfl
  | cons c cs =>
    by_cases hs : c = '+' ∨ c = '-'
    · cases cs with
      | nil =>
        left
        unfold init_parse
        simp [hs]
        rfl
      | cons d ds =>
        rw [init_parse_signed c d ds rnd hs]
        have hsg : ([c] : List Char) = [] ∨ [c] = ['+'] ∨ [c] = ['-'] := by
          rcases hs with hs | hs <;> rw [hs] <;> simp
        rcases parse_loop_cases (d :: ds) (by simp) with hg | hl | hi | hn
        · exfalso
          obtain ⟨ip, frac, hw, hd, hb⟩ := hg
          exact h ⟨[c], ip, frac, ⟨hsg, hw.2.1, hw.2.2⟩, hd, by
            rw [hb]; simp [decimal_literal]⟩
        · right
          obtain ⟨ip, fp, rest, hip, hfp, hlen, hb⟩ := hl
          exact ⟨[c], ip, fp, rest, hsg, hip, hfp, hlen, by rw [hb]; rfl⟩
        · left
          rw [hi]
          rfl
        · left
          obtain ⟨st, hst, hany⟩ := hn
          rw [hst]
          exact parse_finish_no_digit _ st hany
    · have hp : c ≠ '+' := fun hc => hs (Or.inl hc)
      have hm : c ≠ '-' := fun hc => hs (Or.inr hc)
      rw [init_parse_unsigned c cs rnd hp hm]
      rcases parse_loop_cases (c :: cs) (by simp) with hg | hl | hi | hn
      · exfalso
        obtain ⟨ip, frac, hw, hd, hb⟩ := hg
        exact h ⟨[], ip, frac, hw, hd, hb⟩
      · right
        obtain ⟨ip, fp, rest, hip, hfp, hlen, hb⟩ := hl
        exact ⟨[], ip, fp, rest, Or.inl rfl, hip, hfp, hlen, by rw [hb]; rfl⟩
      · left
        rw [hi]
        rfl
      · left
        obtain ⟨st, hst, hany⟩ := hn
        rw [hst]
        exact parse_finish_no_digit _ st hany

/-- Every character of a string of the grammar is a digit, a point or a sign. -/
theorem grammar_chars (s : List Char) (h : matches_grammar s) :
    ∀ c ∈ s, Numeric128.is_digit c = true ∨ c = '.' ∨ c = '+' ∨ c = '-' := by
  obtain ⟨sgn, ip, frac, ⟨hs, hip, hfr⟩, _, rfl⟩ := h
  intro c hc
  unfold decimal_literal at hc
  rw [List.mem_append, List.mem_append] at hc
  rcases hc with hc | hc | hc
  · rcases hs with hs | hs | hs <;> rw [hs] at hc <;> simp at hc
    · right; right; left; exact hc
    · right; right; right; exact hc
  · left; exact hip c hc
  · cases frac with
    | none => simp at hc
    | some fp =>
      simp only [List.mem_cons] at hc
      rcases hc with hc | hc
      · right; left; exact hc
      · left; exact hfr c hc

end Numeric

/-! ## Lemmas: the representation invariant is kept by every operation -/

namespace detail

theorem apply_sign_WF (mag : uint128) (h : mag.WF) (neg : Bool) :
    (apply_sign mag neg).WF := by
  unfold apply_sign
  cases neg
  · exact h
  · exact int128.from_wide_wf_signed _

end detail

namespace Numeric128

theorem init_from_raw_inv128 (P : Nat) (h1 : 1 ≤ P) (h38 : P ≤ 38) (r : int128)
    (h : r.WF) : Inv P (init_from_raw P r) := by
  by_cases hf : |r.to_wide| < 10 ^ P
  · rw [init_from_raw_fits128 P h1 h38 r h hf]
    unfold Inv
    refine ⟨h, ?_⟩
    have : (⟨r, Err.None⟩ : Numeric128).ok = true := rfl
    rw [if_pos this]
    exact hf
  · rw [init_from_raw_overflow128 P h1 h38 r h (not_lt.mp hf)]
    unfold Inv
    exact ⟨by decide, by
      have : (init_error Err.Overflow).ok = false := rfl
      rw [this]
      rfl⟩

theorem init_error_inv128 (P : Nat) (e : Err) : Inv P (init_error e) := by
  unfold Inv
  refine ⟨?_, ?_⟩
  · show (int128.of_int64 0).WF
    decide
  · split
    · show |(int128.of_int64 0).to_wide| < 10 ^ P
      have : (int128.of_int64 0).to_wide = 0 := by decide
      rw [this]
      simp
    · rfl

theorem default_err_inv128 (P : Nat) (e : Err) : Inv P { err_ := e } :=
  init_error_inv128 P e

theorem parse_round_inv128 (P : Nat) (h1 : 1 ≤ P) (h38 : P ≤ 38) (neg : Bool)
    (mag : uint128) (h : mag.WF) (ru : Bool) : Inv P (parse_round P neg mag ru) := by
  unfold parse_round
  apply init_from_raw_inv128 P h1 h38
  apply detail.apply_sign_WF
  cases ru
  · exact h
  · exact uint128.from_wide_wf _

theorem parse_finish_inv128 (P S : Nat) (h1 : 1 ≤ P) (h38 : P ≤ 38) (neg : Bool)
    (rnd : Rounding) (st : ParseState) : Inv P (parse_finish P S neg rnd st) := by
  unfold parse_finish
  simp only
  repeat' split
  all_goals first
    | exact init_error_inv128 P _
    | exact parse_round_inv128 P h1 h38 _ _ (uint128.from_wide_wf _) _

theorem init_parse_inv128 (P S : Nat) (h1 : 1 ≤ P) (h38 : P ≤ 38) (s : List Char)
    (rnd : Rounding) : Inv P (init_parse P S s rnd) := by
  cases s with
  | nil => exact init_error_inv128 P _
  | cons c rest =>
    unfold init_parse
    simp only
    generalize (if c = '+' ∨ c = '-' then rest else c :: rest) = s2
    cases s2 with
    | nil => exact init_error_inv128 P _
    | cons d ds =>
      simp only
      cases parse_loop (d :: ds) {} with
      | none => exact init_error_inv128 P _
      | some st => exact parse_finish_inv128 P S h1 h38 _ _ _

theorem add_inv128 (P : Nat) (h1 : 1 ≤ P) (h38 : P ≤ 38) (a b : Numeric128)
    (ha : Inv P a) (hb : Inv P b) : Inv P (add P a b) := by
  unfold add
  repeat' split
  all_goals first
    | exact ha
    | exact hb
    | exact init_from_raw_inv128 P h1 h38 _ (int128.from_wide_wf_signed _)

theorem sub_inv128 (P : Nat) (h1 : 1 ≤ P) (h38 : P ≤ 38) (a b : Numeric128)
    (ha : Inv P a) (hb : Inv P b) : Inv P (sub P a b) := by
  unfold sub
  repeat' split
  all_goals first
    | exact ha
    | exact hb
    | exact init_from_raw_inv128 P h1 h38 _ (int128.from_wide_wf_signed _)

theorem mul_inv128 (P S : Nat) (h1 : 1 ≤ P) (h38 : P ≤ 38) (a b : Numeric128)
    (rnd : Rounding) (ha : Inv P a) (hb : Inv P b) : Inv P (mul P S a b rnd) := by
  unfold mul
  simp only
  repeat' split
  all_goals first
    | exact ha
    | exact hb
    | exact default_err_inv128 P _
    | exact init_from_raw_inv128 P h1 h38 _ (int128.from_wide_wf_signed _)

theorem div_inv128 (P S : Nat) (h1 : 1 ≤ P) (h38 : P ≤ 38) (a b : Numeric128)
    (rnd : Rounding) (ha : Inv P a) (hb : Inv P b) : Inv P (div P S a b rnd) := by
  unfold div
  simp only
  repeat' split
  all_goals first
    | exact ha
    | exact hb
    | exact default_err_inv128 P _
    | exact init_from_raw_inv128 P h1 h38 _ (int128.from_wide_wf_signed _)

theorem neg_inv128 (P : Nat) (h1 : 1 ≤ P) (h38 : P ≤ 38) (a : Numeric128)
    (ha : Inv P a) : Inv P (neg P a) := by
  unfold neg
  split
  · exact ha
  · exact init_from_raw_inv128 P h1 h38 _ (int128.from_wide_wf_signed _)

theorem obtainable_inv128 (P S : Nat) (h1 : 1 ≤ P) (h38 : P ≤ 38) (x : Numeric128)
    (h : Obtainable P S x) : Inv P x := by
  induction h with
  | default => exact default_err_inv128 P _
  | of_int64 v _ _ =>
    exact init_from_raw_inv128 P h1 h38 _ (int128.from_wide_wf_signed _)
  | of_string s rnd => exact init_parse_inv128 P S h1 h38 s rnd
  | of_raw r x hr hx =>
    unfold from_raw_checked at hx
    simp only at hx
    split at hx
    · cases hx
    · injection hx with hx
      rw [← hx]
      exact init_from_raw_inv128 P h1 h38 r hr
  | neg x _ ih => exact neg_inv128 P h1 h38 x ih
  | add x y _ _ ihx ihy => exact add_inv128 P h1 h38 x y ihx ihy
  | sub x y _ _ ihx ihy => exact sub_inv128 P h1 h38 x y ihx ihy
  | mul x y rnd _ _ ihx ihy => exact mul_inv128 P S h1 h38 x y rnd ihx ihy
  | div x y rnd _ _ ihx ihy => exact div_inv128 P S h1 h38 x y rnd ihx ihy

end Numeric128

namespace uint128

theorem shl64_lt (x s : Nat) : shl64 x s < 2 ^ 64 := by
  unfold shl64
  exact Nat.mod_lt _ (by decide)

theorem shl_WF (v : uint128) (h : v.WF) (shift : Int) : (shl v shift).WF := by
  unfold WF at h
  unfold shl
  repeat' split
  · exact h
  · exact ⟨Nat.two_pow_pos 64, Nat.two_pow_pos 64⟩
  · exact ⟨shl64_lt _ _, Nat.two_pow_pos 64⟩
  · refine ⟨Nat.or_lt_two_pow (shl64_lt _ _) ?_, shl64_lt _ _⟩
    exact lt_of_le_of_lt (Nat.div_le_self _ _) h.2

theorem shr_WF (v : uint128) (h : v.WF) (shift : Int) : (shr v shift).WF := by
  unfold WF at h
  unfold shr
  repeat' split
  · exact h
  · exact ⟨Nat.two_pow_pos 64, Nat.two_pow_pos 64⟩
  · exact ⟨Nat.two_pow_pos 64, lt_of_le_of_lt (Nat.div_le_self _ _) h.1⟩
  · exact ⟨lt_of_le_of_lt (Nat.div_le_self _ _) h.1,
      Nat.or_lt_two_pow (lt_of_le_of_lt (Nat.div_le_self _ _) h.2) (shl64_lt _ _)⟩

theorem or_WF (a b : uint128) (ha : a.WF) (hb : b.WF) : (or a b).WF :=
  ⟨Nat.or_lt_two_pow ha.1 hb.1, Nat.or_lt_two_pow ha.2 hb.2⟩

end uint128

namespace uint256

theorem add_WF (a b : uint256) : (add a b).WF :=
  ⟨uint128.from_wide_wf _, uint128.from_wide_wf _⟩

theorem sub_WF (a b : uint256) : (sub a b).WF :=
  ⟨uint128.from_wide_wf _, uint128.from_wide_wf _⟩

theorem of_u64_WF (v : Nat) : (of_u64 v).WF :=
  ⟨⟨Nat.two_pow_pos 64, Nat.two_pow_pos 64⟩, Nat.two_pow_pos 64, Nat.mod_lt _ (by decide)⟩

theorem shl_WF256 (v : uint256) (h : v.WF) (shift : Int) : (shl v shift).WF := by
  unfold shl
  repeat' split
  · exact h
  · exact ⟨⟨Nat.two_pow_pos 64, Nat.two_pow_pos 64⟩, Nat.two_pow_pos 64, Nat.two_pow_pos 64⟩
  · exact ⟨uint128.shl_WF _ h.2 _, Nat.two_pow_pos 64, Nat.two_pow_pos 64⟩
  · exact ⟨uint128.or_WF _ _ (uint128.shl_WF _ h.1 _) (uint128.shr_WF _ h.2 _),
      uint128.shl_WF _ h.2 _⟩

theorem or_WF256 (a b : uint256) (ha : a.WF) (hb : b.WF) : (or a b).WF :=
  ⟨uint128.or_WF _ _ ha.1 hb.1, uint128.or_WF _ _ ha.2 hb.2⟩

/-- All limbs of an accumulator are 64-bit values. -/
theorem getD_lt_of_all (R : List Nat) (h : ∀ x ∈ R, x < 2 ^ 64) (i : Nat) :
    R.getD i 0 < 2 ^ 64 := by
  rw [List.getD_eq_getElem?_getD]
  cases hi : R[i]? with
  | none => simp
  | some v =>
    simp only [Option.getD_some]
    exact h v (List.mem_iff_getElem?.mpr ⟨i, hi⟩)

theorem add_prod_limbs (k x y : Nat) (st : List Nat × Nat) (h : ∀ v ∈ st.1, v < 2 ^ 64) :
    ∀ v ∈ (add_prod k x y st).1, v < 2 ^ 64 := by
  intro v hv
  unfold add_prod at hv
  simp only at hv
  rcases List.mem_or_eq_of_mem_set hv with hv | hv
  · exact h v hv
  · rw [hv]
    exact Nat.mod_lt _ (by decide)

theorem foldl_add_prod_limbs (A B : List Nat) (i : Nat) (js : List Nat) :
    ∀ (st : List Nat × Nat), (∀ v ∈ st.1, v < 2 ^ 64) →
      ∀ v ∈ (js.foldl (fun st j => add_prod (i + j) (A.getD i 0) (B.getD j 0) st) st).1,
        v < 2 ^ 64 := by
  induction js with
  | nil => intro st h; exact h
  | cons j js ih =>
    intro st h
    rw [List.foldl_cons]
    exact ih _ (add_prod_limbs _ _ _ st h)

theorem mul_row_limbs (A B : List Nat) (i : Nat) (R : List Nat) (h : ∀ v ∈ R, v < 2 ^ 64) :
    ∀ v ∈ mul_row A B i R, v < 2 ^ 64 :=
  foldl_add_prod_limbs A B i _ (R, 0) h

theorem foldl_mul_row_limbs (A B : List Nat) (is : List Nat) :
    ∀ (R : List Nat), (∀ v ∈ R, v < 2 ^ 64) →
      ∀ v ∈ is.foldl (fun R i => mul_row A B i R) R, v < 2 ^ 64 := by
  induction is with
  | nil => intro R h; exact h
  | cons i is ih =>
    intro R h
    rw [List.foldl_cons]
    exact ih _ (mul_row_limbs A B i R h)

theorem mul_WF (a b : uint256) : (mul a b).WF := by
  have h := foldl_mul_row_limbs
    [a.lo_.low, a.lo_.high, a.hi_.low, a.hi_.high]
    [b.lo_.low, b.lo_.high, b.hi_.low, b.hi_.high] (List.range 4) [0, 0, 0, 0]
    (by decide)
  generalize hR : List.foldl
    (fun R i => mul_row [a.lo_.low, a.lo_.high, a.hi_.low, a.hi_.high]
      [b.lo_.low, b.lo_.high, b.hi_.low, b.hi_.high] i R) [0, 0, 0, 0] (List.range 4) = R at h
  have e : mul a b = ⟨⟨R.getD 3 0, R.getD 2 0⟩, ⟨R.getD 1 0, R.getD 0 0⟩⟩ := by
    unfold mul
    simp only [hR]
  rw [e]
  exact ⟨⟨getD_lt_of_all _ h 3, getD_lt_of_all _ h 2⟩,
    ⟨getD_lt_of_all _ h 1, getD_lt_of_all _ h 0⟩⟩

theorem div_mod_loop_WF : ∀ (fuel : Nat) (dividend denom q : uint256) (shift : Int),
    q.WF → (div_mod_loop fuel dividend denom q shift).1.WF := by
  intro fuel
  induction fuel with
  | zero => intro _ _ q _ h; exact h
  | succ n ih =>
    intro dividend denom q shift h
    unfold div_mod_loop
    repeat' split
    · exact h
    · exact ih _ _ _ _ (or_WF256 _ _ h (shl_WF256 _ (by decide) _))
    · exact ih _ _ _ _ h

theorem div_WF (a b : uint256) : (div a b).WF := by
  have hz : (⟨⟨0, 0⟩, ⟨0, 0⟩⟩ : uint256).WF := by decide
  have ho : (⟨⟨0, 0⟩, ⟨0, 1⟩⟩ : uint256).WF := by decide
  unfold div div_mod
  simp only
  repeat' split
  · exact hz
  · exact hz
  · exact ho
  · exact div_mod_loop_WF _ _ _ _ _ hz

end uint256

namespace detail

theorem apply_sign_u256_WF (mag : uint256) (h : mag.WF) (neg : Bool) :
    (apply_sign_u256 mag neg).WF := by
  unfold apply_sign_u256
  cases neg
  · exact h
  · exact uint256.sub_WF _ _

end detail

namespace Numeric256

theorem init_from_raw_inv256 (P : Nat) (h1 : 1 ≤ P) (h76 : P ≤ 76) (r : int256)
    (h : r.WF) : Inv P (init_from_raw P r) := by
  by_cases hf : |r.toInt| < 10 ^ P
  · rw [init_from_raw_fits256 P h1 h76 r h hf]
    unfold Inv
    refine ⟨h, ?_⟩
    have : (⟨r, Err.None⟩ : Numeric256).ok = true := rfl
    rw [if_pos this]
    exact hf
  · rw [init_from_raw_overflow256 P h1 h76 r h (not_lt.mp hf)]
    unfold Inv
    exact ⟨by decide, by
      have : (init_error Err.Overflow).ok = false := rfl
      rw [this]
      rfl⟩

theorem init_error_inv256 (P : Nat) (e : Err) : Inv P (init_error e) := by
  unfold Inv
  refine ⟨?_, ?_⟩
  · show (⟨⟨0, 0⟩, ⟨0, 0⟩⟩ : int256).WF
    decide
  · split
    · show |(⟨⟨0, 0⟩, ⟨0, 0⟩⟩ : int256).toInt| < 10 ^ P
      have : (⟨⟨0, 0⟩, ⟨0, 0⟩⟩ : int256).toInt = 0 := by decide
      rw [this]
      simp
    · rfl

theorem from_mag_inv256 (P : Nat) (h1 : 1 ≤ P) (h76 : P ≤ 76) (mag : uint256)
    (h : mag.WF) (neg : Bool) : Inv P (init_from_raw P (detail.apply_sign_u256 mag neg)) :=
  init_from_raw_inv256 P h1 h76 _ (detail.apply_sign_u256_WF mag h neg)

theorem parse_round_inv256 (P : Nat) (h1 : 1 ≤ P) (h76 : P ≤ 76) (neg : Bool)
    (mag : uint256) (h : mag.WF) (ru : Bool) : Inv P (parse_round P neg mag ru) := by
  unfold parse_round
  simp only
  split
  · split
    · exact init_error_inv256 P _
    · apply from_mag_inv256 P h1 h76
      exact uint256.add_WF _ _
  · exact from_mag_inv256 P h1 h76 _ h _

theorem parse_finish_inv256 (P S : Nat) (h1 : 1 ≤ P) (h76 : P ≤ 76) (neg : Bool)
    (rnd : Rounding) (st : ParseState) : Inv P (parse_finish P S neg rnd st) := by
  have hr : ∀ (m : uint256) (up : Bool), m.WF → Inv P (parse_round P neg m up) :=
    fun m up hm => parse_round_inv256 P h1 h76 neg m hm up
  unfold parse_finish
  simp only
  split
  · exact init_error_inv256 P _
  split
  · exact init_error_inv256 P _
  split
  · split
    · exact hr _ _ (uint256.mul_WF _ _)
    · exact hr _ _ (uint256.mul_WF _ _)
  split
  · exact hr _ _ (uint256.mul_WF _ _)
  split
  · split
    · exact init_error_inv256 P _
    split
    · exact init_error_inv256 P _
    · exact hr _ _ (uint256.add_WF _ _)
  split
  · exact init_error_inv256 P _
  split
  · exact init_error_inv256 P _
  · exact hr _ _ (uint256.add_WF _ _)

theorem init_parse_inv256 (P S : Nat) (h1 : 1 ≤ P) (h76 : P ≤ 76) (s : List Char)
    (rnd : Rounding) : Inv P (init_parse P S s rnd) := by
  cases s with
  | nil => exact init_error_inv256 P _
  | cons c rest =>
    unfold init_parse
    simp only
    generalize (if c = '+' ∨ c = '-' then rest else c :: rest) = s2
    cases s2 with
    | nil => exact init_error_inv256 P _
    | cons d ds =>
      simp only
      cases parse_loop S (d :: ds) {} with
      | error e => exact init_error_inv256 P _
      | ok st => exact parse_finish_inv256 P S h1 h76 _ _ _

theorem add_inv256 (P : Nat) (h1 : 1 ≤ P) (h76 : P ≤ 76) (a b : Numeric256)
    (ha : Inv P a) (hbw : b.raw_.WF) (hb : b.ok = false → Inv P b) : Inv P (add P a b) := by
  unfold add
  simp only
  repeat' split
  all_goals first
    | exact ha
    | exact hb (by simp_all)
    | exact init_error_inv256 P _
    | exact init_error_inv256 P Err.None
    | (apply init_from_raw_inv256 P h1 h76
       first | exact hbw | exact ha.1)
    | (apply from_mag_inv256 P h1 h76
       simp only [uint256.add_WF, uint256.sub_WF])

theorem sub_inv256 (P : Nat) (h1 : 1 ≤ P) (h76 : P ≤ 76) (a b : Numeric256)
    (ha : Inv P a) (hb : Inv P b) : Inv P (sub P a b) := by
  unfold sub
  repeat' split
  · exact ha
  · exact hb
  · rename_i h2
    apply add_inv256 P h1 h76 a _ ha
    · exact uint256.sub_WF _ _
    · intro h
      have : b.ok = false := h
      simp [this] at h2

theorem mul_inv256 (P S : Nat) (h1 : 1 ≤ P) (h76 : P ≤ 76) (a b : Numeric256)
    (rnd : Rounding) (ha : Inv P a) (hb : Inv P b) : Inv P (mul P S a b rnd) := by
  unfold mul detail.div_u256
  simp only
  repeat' split
  all_goals first
    | exact ha
    | exact hb
    | exact init_error_inv256 P _
    | (apply from_mag_inv256 P h1 h76
       simp only [uint256.add_WF, uint256.div_WF])

theorem div_inv256 (P S : Nat) (h1 : 1 ≤ P) (h76 : P ≤ 76) (a b : Numeric256)
    (rnd : Rounding) (ha : Inv P a) (hb : Inv P b) : Inv P (div P S a b rnd) := by
  unfold div detail.div_u256
  simp only
  repeat' split
  all_goals first
    | exact ha
    | exact hb
    | exact init_error_inv256 P _
    | (apply from_mag_inv256 P h1 h76
       simp only [uint256.add_WF, uint256.div_WF])

theorem neg_inv256 (P : Nat) (h1 : 1 ≤ P) (h76 : P ≤ 76) (a : Numeric256)
    (ha : Inv P a) : Inv P (neg P a) := by
  unfold neg
  split
  · exact ha
  · exact init_from_raw_inv256 P h1 h76 _ (uint256.sub_WF _ _)

theorem init_from_int64_inv256 (P S : Nat) (h1 : 1 ≤ P) (h76 : P ≤ 76) (v : Int) :
    Inv P (init_from_int64 P S v) := by
  unfold init_from_int64
  simp only
  repeat' split
  all_goals first
    | exact init_error_inv256 P _
    | (apply from_mag_inv256 P h1 h76
       exact uint256.mul_WF _ _)

theorem obtainable_inv256 (P S : Nat) (h1 : 1 ≤ P) (h76 : P ≤ 76) (x : Numeric256)
    (h : Obtainable P S x) : Inv P x := by
  induction h with
  | default => exact init_error_inv256 P Err.None
  | of_int64 v _ _ => exact init_from_int64_inv256 P S h1 h76 v
  | of_string s rnd => exact init_parse_inv256 P S h1 h76 s rnd
  | of_raw r x hr hx =>
    unfold from_raw_checked at hx
    simp only at hx
    split at hx
    · cases hx
    · injection hx with hx
      rw [← hx]
      exact init_from_raw_inv256 P h1 h76 r hr
  | neg x _ ih => exact neg_inv256 P h1 h76 x ih
  | add x y _ _ ihx ihy => exact add_inv256 P h1 h76 x y ihx ihy.1 (fun _ => ihy)
  | sub x y _ _ ihx ihy => exact sub_inv256 P h1 h76 x y ihx ihy
  | mul x y rnd _ _ ihx ihy => exact mul_inv256 P S h1 h76 x y rnd ihx ihy
  | div x y rnd _ _ ihx ihy => exact div_inv256 P S h1 h76 x y rnd ihx ihy

end Numeric256

/-! ## Lemmas: decimal numerals -/

theorem digit_char (d : Nat) (h : d < 10) :
    Numeric128.is_digit (Char.ofNat ('0'.toNat + d)) = true ∧
    (Char.ofNat ('0'.toNat + d)).toNat - '0'.toNat = d ∧
    (Char.ofNat ('0'.toNat + d) = '0' → d = 0) := by
  interval_cases d <;> decide

theorem digits_value_snoc (ds : List Char) (c : Char) :
    digits_value (ds ++ [c]) = 10 * digits_value ds + (c.toNat - '0'.toNat) := by
  unfold digits_value
  rw [List.foldl_append]
  rfl

theorem digits_value_append (ds es : List Char) :
    digits_value (ds ++ es) = digits_value ds * 10 ^ es.length + digits_value es := by
  have h := Numeric128.digits_value_fold es (digits_value ds)
  unfold digits_value at h ⊢
  rw [List.foldl_append]
  exact h

theorem digits_value_zeros (k : Nat) : digits_value (List.replicate k '0') = 0 := by
  induction k with
  | zero => rfl
  | succ k ih =>
    rw [List.replicate_succ', digits_value_snoc, ih]
    rfl

theorem digits_value_lt (ds : List Char) (h : is_digit_string ds) :
    digits_value ds < 10 ^ ds.length := by
  induction ds using List.reverseRecOn with
  | nil => simp [digits_value]
  | append_singleton ds c ih =>
    have hc := Numeric128.is_digit_bounds c (h c (by simp))
    have hds : is_digit_string ds := fun x hx => h x (by simp [hx])
    have := ih hds
    rw [digits_value_snoc, List.length_append, List.length_singleton, Nat.pow_succ]
    have h0 : '0'.toNat = 48 := rfl
    omega

theorem std_loop_digits (fuel : Nat) : ∀ n, is_digit_string (std_to_string_loop fuel n) := by
  induction fuel with
  | zero => intro n c hc; simp [std_to_string_loop] at hc
  | succ f ih =>
    intro n c hc
    unfold std_to_string_loop at hc
    split at hc
    · simp at hc
    · rcases List.mem_cons.mp hc with hc | hc
      · rw [hc]
        exact (digit_char (n % 10) (Nat.mod_lt _ (by decide))).1
      · exact ih _ c hc

theorem std_loop_value (fuel : Nat) :
    ∀ n, n < 10 ^ fuel → digits_value (std_to_string_loop fuel n).reverse = n := by
  induction fuel with
  | zero =>
    intro n h
    have : n = 0 := by simpa using h
    rw [this]
    rfl
  | succ f ih =>
    intro n h
    unfold std_to_string_loop
    split
    · rename_i h0
      rw [h0]
      rfl
    · rw [List.reverse_cons, digits_value_snoc,
        ih (n / 10) (by rw [Nat.pow_succ] at h; omega),
        (digit_char (n % 10) (Nat.mod_lt _ (by decide))).2.1]
      omega

theorem std_loop_length (fuel : Nat) :
    ∀ n k, n < 10 ^ k → (std_to_string_loop fuel n).length ≤ k := by
  induction fuel with
  | zero => intro n k _; simp [std_to_string_loop]
  | succ f ih =>
    intro n k h
    unfold std_to_string_loop
    split
    · simp
    · rename_i h0
      cases k with
      | zero => simp at h; omega
      | succ k =>
        rw [List.length_cons]
        have := ih (n / 10) k (by rw [Nat.pow_succ] at h; omega)
        omega

theorem std_loop_nonempty (fuel : Nat) (n : Nat) (h : n ≠ 0) :
    std_to_string_loop (fuel + 1) n ≠ [] := by
  unfold std_to_string_loop
  simp [h]

theorem std_loop_last (fuel : Nat) :
    ∀ n, n < 10 ^ fuel → ∀ c, (std_to_string_loop fuel n).getLast? = some c → c ≠ '0' := by
  induction fuel with
  | zero => intro n _ c hc; simp [std_to_string_loop] at hc
  | succ f ih =>
    intro n h c hc
    unfold std_to_string_loop at hc
    split at hc
    · simp at hc
    · rename_i h0
      have hlt : n / 10 < 10 ^ f := by rw [Nat.pow_succ] at h; omega
      by_cases hq : n / 10 = 0
      · have hnil : std_to_string_loop f (n / 10) = [] := by
          rw [hq]
          cases f <;> simp [std_to_string_loop]
        rw [hnil] at hc
        simp only [List.getLast?_singleton, Option.some.injEq] at hc
        intro hz
        rw [← hc] at hz
        have := (digit_char (n % 10) (Nat.mod_lt _ (by decide))).2.2 hz
        omega
      · cases f with
        | zero => simp at hlt; omega
        | succ f =>
          have hne := std_loop_nonempty f (n / 10) hq
          obtain ⟨y, ys, hy⟩ := List.exists_cons_of_ne_nil hne
          rw [hy, List.getLast?_cons_cons, ← hy] at hc
          exact ih _ hlt c hc

/-- The numeral produced by the digit loop followed by `reverse`, for `n ≠ 0`. -/
theorem std_loop_numeral (fuel : Nat) (n : Nat) (h0 : n ≠ 0) (h : n < 10 ^ (fuel + 1)) :
    is_decimal_numeral (std_to_string_loop (fuel + 1) n).reverse n := by
  refine ⟨?_, ?_, std_loop_value _ n h, ?_⟩
  · intro hr
    exact std_loop_nonempty fuel n h0 (List.reverse_eq_nil_iff.mp hr)
  · intro c hc
    exact std_loop_digits _ n c (List.mem_reverse.mp hc)
  · intro hh
    exfalso
    rw [List.head?_reverse] at hh
    exact std_loop_last _ n h '0' hh rfl

theorem zero_numeral : is_decimal_numeral ['0'] 0 :=
  ⟨by simp, by decide, rfl, fun _ => rfl⟩

namespace uint128

theorem to_wide_eq_zero (v : uint128) : (v.hi_ = 0 ∧ v.lo_ = 0) ↔ v.to_wide = 0 := by
  unfold to_wide
  omega

theorem div10_to_wide (v : uint128) (h : v.WF) :
    (div v ⟨0, 10⟩).to_wide = v.to_wide / 10 ∧ (div v ⟨0, 10⟩).WF ∧
    (mod v ⟨0, 10⟩).low = v.to_wide % 10 := by
  have hlt := to_wide_lt v h
  have h10 : (⟨0, 10⟩ : uint128).to_wide = 10 := by decide
  refine ⟨?_, from_wide_wf _, ?_⟩
  · unfold div
    rw [to_wide_from_wide_mod, h10]
    omega
  · unfold mod low from_wide
    rw [h10]
    simp only
    omega

theorem to_string_loop_eq (fuel : Nat) : ∀ (v : uint128) (res : List Char), v.WF →
    to_string_loop fuel v res = res ++ std_to_string_loop fuel v.to_wide := by
  induction fuel with
  | zero => intro v res _; simp [to_string_loop, std_to_string_loop]
  | succ f ih =>
    intro v res h
    obtain ⟨hd, hw, hm⟩ := div10_to_wide v h
    unfold to_string_loop std_to_string_loop
    by_cases hz : v.to_wide = 0
    · have := (to_wide_eq_zero v).mpr hz
      simp [this, hz]
    · have hnz : v.hi_ ≠ 0 ∨ v.lo_ ≠ 0 := by
        by_contra hc
        push_neg at hc
        exact hz ((to_wide_eq_zero v).mp hc)
      simp only [hnz, if_true, hz, if_false]
      rw [ih _ _ hw, hd, hm]
      simp

/-- Member `to_string` gives the decimal numeral of the value. -/
theorem to_string_numeral (v : uint128) (h : v.WF) :
    is_decimal_numeral v.to_string v.to_wide := by
  unfold to_string
  by_cases hz : v.to_wide = 0
  · have := (to_wide_eq_zero v).mpr hz
    rw [if_pos this, hz]
    exact zero_numeral
  · have hnz : ¬ (v.hi_ = 0 ∧ v.lo_ = 0) := fun hc => hz ((to_wide_eq_zero v).mp hc)
    rw [if_neg hnz, to_string_loop_eq 40 v [] h, List.nil_append]
    have hlt := to_wide_lt v h
    exact std_loop_numeral 39 _ hz (by
      have : (2 : Nat) ^ 128 < 10 ^ 40 := by decide
      omega)

theorem to_string_length (v : uint128) (h : v.WF) (k : Nat) (hk : 1 ≤ k)
    (hv : v.to_wide < 10 ^ k) : v.to_string.length ≤ k := by
  unfold to_string
  split
  · simpa using hk
  · rw [to_string_loop_eq 40 v [] h, List.nil_append, List.length_reverse]
    exact std_loop_length _ _ _ hv

end uint128

namespace int128

theorem high_neg_iff (v : int128) (h : v.WF) : v.high < 0 ↔ v.to_wide < 0 := by
  unfold WF at h
  unfold high to_wide
  omega

theorem eq_of_to_wide (a b : int128) (ha : a.WF) (hb : b.WF) (h : a.to_wide = b.to_wide) :
    a = b := by
  obtain ⟨a1, a2⟩ := a
  obtain ⟨b1, b2⟩ := b
  unfold WF at ha hb
  unfold to_wide to_i64 at h
  simp only at ha hb h
  have : a1 = b1 ∧ a2 = b2 := by
    split at h <;> split at h <;> omega
  rw [this.1, this.2]

end int128

namespace Numeric128

theorem is_digit_string_append (a b : List Char) (ha : is_digit_string a)
    (hb : is_digit_string b) : is_digit_string (a ++ b) := by
  intro c hc
  rcases List.mem_append.mp hc with h | h
  · exact ha c h
  · exact hb c h

theorem is_digit_string_zeros (k : Nat) : is_digit_string (List.replicate k '0') := by
  intro c hc
  rw [List.eq_of_mem_replicate hc]
  decide

/-- The magnitude split of `to_string`: quotient and remainder by `10^S`. -/
theorem to_string_split (S : Nat) (hS : S ≤ 38) (r : int128) (h : r.WF) :
    (uint128.div (detail.abs_u r) (detail.pow10_u S)).WF ∧
    (uint128.div (detail.abs_u r) (detail.pow10_u S)).to_wide = r.to_wide.natAbs / 10 ^ S ∧
    (uint128.mod (detail.abs_u r) (detail.pow10_u S)).WF ∧
    (uint128.mod (detail.abs_u r) (detail.pow10_u S)).to_wide = r.to_wide.natAbs % 10 ^ S := by
  have habs := detail.abs_u_to_wide r h
  have hm : (detail.abs_u r).to_wide = r.to_wide.natAbs := by
    have : ((detail.abs_u r).to_wide : Int) = (r.to_wide.natAbs : Int) := by
      rw [habs, Int.natCast_natAbs]
    exact_mod_cast this
  have hlt := uint128.to_wide_lt _ (detail.abs_u_WF r h)
  have hpos : 0 < 10 ^ S := Nat.pos_pow_of_pos S (by decide)
  refine ⟨uint128.from_wide_wf _, ?_, uint128.from_wide_wf _, ?_⟩
  · unfold uint128.div
    rw [uint128.to_wide_from_wide_mod, detail.pow10_u_small S hS, hm]
    apply Nat.mod_eq_of_lt
    rw [hm] at hlt
    exact lt_of_le_of_lt (Nat.div_le_self _ _) hlt
  · unfold uint128.mod
    rw [uint128.to_wide_from_wide_mod, detail.pow10_u_small S hS, hm]
    apply Nat.mod_eq_of_lt
    rw [hm] at hlt
    exact lt_of_le_of_lt (Nat.mod_le _ _) hlt

/-- The parts of the string of an ok value: sign, integer numeral and, for `S > 0`, the
point and `S` fractional digits. -/
theorem to_string_parts (S : Nat) (hS : S ≤ 38) (x : Numeric128) (h : x.raw_.WF)
    (hok : x.ok = true) :
    ∃ ip fp,
      to_string S x = (if x.raw_.to_wide < 0 then ['-'] else []) ++ (ip ++
        (if 0 < S then '.' :: fp else [])) ∧
      is_decimal_numeral ip (x.raw_.to_wide.natAbs / 10 ^ S) ∧
      is_digit_string fp ∧ fp.length = S ∧
      digits_value fp = x.raw_.to_wide.natAbs % 10 ^ S := by
  obtain ⟨hqw, hq, hrw, hr⟩ := to_string_split S hS x.raw_ h
  have hip := uint128.to_string_numeral _ hqw
  rw [hq] at hip
  have hfp := uint128.to_string_numeral _ hrw
  rw [hr] at hfp
  have hneg := int128.high_neg_iff x.raw_ h
  unfold to_string
  simp only [hok, Bool.not_true, Bool.false_eq_true, if_false]
  by_cases hS0 : S = 0
  · refine ⟨_, [], ?_, hip, by intro c hc; simp at hc, by simp [hS0], ?_⟩
    · simp only [hS0, if_true, lt_irrefl, if_false, List.append_nil]
      by_cases hn : x.raw_.high < 0
      · simp [hn, hneg.mp hn]
      · have : ¬ x.raw_.to_wide < 0 := fun hc => hn (hneg.mpr hc)
        simp [hn, this]
    · rw [hS0, Nat.pow_zero, Nat.mod_one]
      rfl
  · have hSpos : 0 < S := Nat.pos_of_ne_zero hS0
    have hlen := uint128.to_string_length _ hrw S hSpos (by
      rw [hr]
      exact Nat.mod_lt _ (Nat.pos_pow_of_pos S (by decide)))
    generalize (uint128.mod (detail.abs_u x.raw_) (detail.pow10_u S)).to_string = fs
      at hfp hlen
    refine ⟨_, List.replicate (S - fs.length) '0' ++ fs, ?_,
      hip, is_digit_string_append _ _ (is_digit_string_zeros _) hfp.2.1, ?_, ?_⟩
    · simp only [hS0, if_false, hSpos, if_true]
      have hpad : (if fs.length < S then List.replicate (S - fs.length) '0' ++ fs else fs)
          = List.replicate (S - fs.length) '0' ++ fs := by
        split
        · rfl
        · have : S - fs.length = 0 := by omega
          rw [this]
          rfl
      rw [hpad]
      by_cases hn : x.raw_.high < 0
      · simp [hn, hneg.mp hn]
      · have : ¬ x.raw_.to_wide < 0 := fun hc => hn (hneg.mpr hc)
        simp [hn, this]
    · rw [List.length_append, List.length_replicate]
      omega
    · rw [digits_value_append, digits_value_zeros, hfp.2.2.1]
      simp

end Numeric128

namespace Numeric128

/-- Up to 64 fractional digits are all accumulated, and counted without wrapping. -/
theorem parse_loop_frac_value (fp : List Char) (hfp : is_digit_string fp) :
    ∀ (st : ParseState), st.seen_dot = true → st.frac_len + fp.length ≤ 64 →
      parse_loop fp st = some { st with
        frac_part := fp.foldl
          (fun x c => uint128.add (uint128.mul x ⟨0, 10⟩) ⟨0, c.toNat - '0'.toNat⟩)
          st.frac_part
        frac_len := st.frac_len + fp.length } := by
  induction fp with
  | nil => intro st _ _; rfl
  | cons c cs ih =>
    intro st hst hlen
    have hc : is_digit c = true := hfp c (List.mem_cons_self _ _)
    have hcs : is_digit_string cs := fun d hd => hfp d (List.mem_cons_of_mem _ hd)
    have hne := (is_digit_ne c hc).1
    simp only [List.length_cons] at hlen
    have h64 : st.frac_len < 64 := by omega
    have hsmall : (st.frac_len + 1) % 2 ^ 32 = st.frac_len + 1 := Nat.mod_eq_of_lt (by omega)
    rw [parse_loop]
    simp only [hne, if_false, hc, Bool.not_true, Bool.false_eq_true, hst, h64, if_true]
    rw [ih hcs _ rfl (by simp only [hsmall]; omega)]
    simp only [hsmall, List.foldl_cons, List.length_cons, Option.some.injEq,
      ParseState.mk.injEq, true_and, and_true]
    omega

/-- The character loop on the string `ip.fp` produced by `to_string`: both parts are
accumulated exactly and the count of fractional digits is `S`. -/
theorem parse_loop_rendered (S : Nat) (hS : S ≤ 38) (ip fp : List Char)
    (hip : is_digit_string ip) (hfp : is_digit_string fp) (hlen : fp.length = S) :
    ∃ st, parse_loop (ip ++ (if 0 < S then '.' :: fp else [])) {} = some st ∧
      st.int_part.WF ∧ st.int_part.to_wide = digits_value ip % 2 ^ 128 ∧
      st.frac_part.WF ∧ st.frac_part.to_wide = digits_value fp % 2 ^ 128 ∧
      st.frac_len = S := by
  have hI := int_fold_to_wide ip ⟨0, 0⟩ 0 (by decide) (by decide)
  rw [digits_value_fold, Nat.zero_mul, Nat.zero_add] at hI
  have hF := int_fold_to_wide fp ⟨0, 0⟩ 0 (by decide) (by decide)
  rw [digits_value_fold, Nat.zero_mul, Nat.zero_add] at hF
  rw [parse_loop_int_digits ip _ {} hip rfl]
  by_cases hS0 : 0 < S
  · rw [if_pos hS0, parse_loop]
    simp only [if_true, Bool.false_eq_true, if_false]
    rw [parse_loop_frac_value fp hfp _ rfl (by simp only; omega)]
    refine ⟨_, rfl, hI.2, hI.1, hF.2, hF.1, ?_⟩
    simp only
    omega
  · rw [if_neg hS0]
    have hnil : fp = [] := List.length_eq_zero.mp (by omega)
    refine ⟨_, rfl, hI.2, hI.1, ?_, ?_, ?_⟩
    · show (⟨0, 0⟩ : uint128).WF
      decide
    · rw [hnil]
      show (⟨0, 0⟩ : uint128).to_wide = digits_value [] % 2 ^ 128
      decide
    · show 0 = S
      omega

/-- The end of `init_parse` when the integer part is `m / 10^S`, the fraction is
`m mod 10^S` on `S` digits and `m` has at most `P` digits: the raw value is `m` with the
sign. -/
theorem parse_finish_exact (P S : Nat) (h1 : 1 ≤ P) (h38 : P ≤ 38) (hS : S ≤ 38)
    (neg : Bool) (rnd : Rounding) (st : ParseState) (m : Nat) (hm : m < 10 ^ P)
    (hI : st.int_part.to_wide = m / 10 ^ S) (hF : st.frac_part.to_wide = m % 10 ^ S)
    (hlen : st.frac_len = S) :
    (parse_finish P S neg rnd st).err_ = Err.None ∧
    (parse_finish P S neg rnd st).raw_.to_wide = (if neg = true then -(m : Int) else (m : Int)) := by
  have hp := detail.pow10_le P h38
  have hdm := Nat.div_add_mod m (10 ^ S)
  have hq : m / 10 ^ S * 10 ^ S ≤ m := Nat.div_mul_le_self m (10 ^ S)
  have hraw := mul_pow10_to_wide st.int_part S hS (by rw [hI]; omega)
  rw [hI] at hraw
  have key : ∀ mag : uint128, mag.WF → mag.to_wide = m →
      (parse_round P neg mag false).err_ = Err.None ∧
      (parse_round P neg mag false).raw_.to_wide
        = (if neg = true then -(m : Int) else (m : Int)) := by
    intro mag hw hv
    have := parse_round_fits P h1 h38 neg mag hw false (by rw [hv]; simpa using hm)
    rw [hv] at this
    simpa using this
  unfold parse_finish
  simp only
  by_cases hS0 : S = 0
  · subst hS0
    have hcond : ¬ (0 < st.frac_len ∧ rnd = Rounding.HalfUp) := by
      rw [hlen]
      simp
    simp only [if_true, hcond, if_false]
    apply key _ hraw.2
    rw [hraw.1]
    simp
  · have hlen0 : st.frac_len ≠ 0 := by rw [hlen]; exact hS0
    have hle : st.frac_len ≤ S := by rw [hlen]
    simp only [hS0, if_false, hlen0, hle, if_true]
    apply key _ (add_WF128 _ _)
    have hmult := mul_pow10_to_wide st.frac_part (S - st.frac_len) (by omega) (by
      rw [hlen, Nat.sub_self, hF]
      have : m % 10 ^ S ≤ m := Nat.mod_le _ _
      omega)
    rw [uint128.add_to_wide, hraw.1, hmult.1, hlen, Nat.sub_self, hF]
    rw [Nat.mul_comm] at hdm
    simp only [Nat.pow_zero, Nat.mul_one]
    rw [hdm]
    exact Nat.mod_eq_of_lt (by omega)

/-- Parsing the string of an ok value that satisfies the invariant gives the value back. -/
theorem init_parse_to_string (P S : Nat) (h1 : 1 ≤ P) (h38 : P ≤ 38) (hS : S ≤ P)
    (x : Numeric128) (hx : Inv P x) (hok : x.ok = true) (rnd : Rounding) :
    init_parse P S (to_string S x) rnd = ⟨x.raw_, Err.None⟩ := by
  have hwf := hx.1
  have habs : |x.raw_.to_wide| < 10 ^ P := by
    have := hx.2
    rwa [if_pos hok] at this
  have hm : x.raw_.to_wide.natAbs < 10 ^ P := by
    rw [Int.abs_eq_natAbs] at habs
    exact_mod_cast habs
  obtain ⟨ip, fp, hs, hip, hfp, hlen, hfv⟩ := to_string_parts S (by omega) x hwf hok
  obtain ⟨hne, hipd, hipv, _⟩ := hip
  obtain ⟨st, hst, hIw, hI, hFw, hF, hfl⟩ := parse_loop_rendered S (by omega) ip fp hipd hfp hlen
  have hp := detail.pow10_le P h38
  have hq : x.raw_.to_wide.natAbs / 10 ^ S ≤ x.raw_.to_wide.natAbs := Nat.div_le_self _ _
  have hr : x.raw_.to_wide.natAbs % 10 ^ S ≤ x.raw_.to_wide.natAbs := Nat.mod_le _ _
  rw [hipv, Nat.mod_eq_of_lt (by omega)] at hI
  rw [hfv, Nat.mod_eq_of_lt (by omega)] at hF
  have hfin := parse_finish_exact P S h1 h38 (by omega)
    (decide ((if x.raw_.to_wide < 0 then ['-'] else []) = ['-'])) rnd st _ hm hI hF hfl
  have hinv := parse_finish_inv128 P S h1 h38
    (decide ((if x.raw_.to_wide < 0 then ['-'] else []) = ['-'])) rnd st
  have hres : parse_finish P S
      (decide ((if x.raw_.to_wide < 0 then ['-'] else []) = ['-'])) rnd st
        = ⟨x.raw_, Err.None⟩ := by
    generalize parse_finish P S
      (decide ((if x.raw_.to_wide < 0 then ['-'] else []) = ['-'])) rnd st = y at hfin hinv
    obtain ⟨yr, ye⟩ := y
    simp only at hfin
    have hyw : yr.WF := hinv.1
    have hval : yr.to_wide = x.raw_.to_wide := by
      rw [hfin.2]
      by_cases hn : x.raw_.to_wide < 0
      · simp only [hn, if_true, decide_True]
        omega
      · simp only [hn, if_false]
        have : ¬ (([] : List Char) = ['-']) := by simp
        simp only [this, decide_False, Bool.false_eq_true, if_false]
        omega
    rw [int128.eq_of_to_wide yr x.raw_ hyw hwf hval, hfin.1]
  have hsgn : (if x.raw_.to_wide < 0 then ['-'] else ([] : List Char)) = [] ∨
      (if x.raw_.to_wide < 0 then ['-'] else ([] : List Char)) = ['+'] ∨
      (if x.raw_.to_wide < 0 then ['-'] else ([] : List Char)) = ['-'] := by
    split <;> simp
  by_cases h0 : 0 < S
  · rw [if_pos h0] at hst hs
    have hlit : to_string S x = decimal_literal (if x.raw_.to_wide < 0 then ['-'] else []) ip
        (some fp) := by
      rw [hs]
      rfl
    rw [hlit, init_parse_literal P S rnd _ ip _ hsgn hipd hne]
    simp only
    rw [hst]
    exact hres
  · rw [if_neg h0] at hst hs
    have hlit : to_string S x = decimal_literal (if x.raw_.to_wide < 0 then ['-'] else []) ip
        none := by
      rw [hs]
      rfl
    rw [hlit, init_parse_literal P S rnd _ ip _ hsgn hipd hne]
    simp only
    rw [hst]
    exact hres

end Numeric128

namespace Numeric256

/-- Once `S + 1` fractional digits are kept, further zeros only count, modulo `2^32`. -/
theorem parse_loop_zeros (S : Nat) (k : Nat) :
    ∀ (st : ParseState) (rest : List Char), st.seen_dot = true → st.any = true →
      ¬ st.frac_keep_len < S + 1 → st.frac_len_total < 2 ^ 32 →
      parse_loop S (List.replicate k '0' ++ rest) st
        = parse_loop S rest { st with frac_len_total := (st.frac_len_total + k) % 2 ^ 32 } := by
  induction k with
  | zero =>
    intro st rest _ _ _ ht
    rw [List.replicate_zero, List.nil_append, Nat.add_zero, Nat.mod_eq_of_lt ht]
  | succ k ih =>
    intro st rest hd ha hk _
    rw [List.replicate_succ, List.cons_append, parse_loop]
    have h1 : ¬ ('0' = '.') := by decide
    have h2 : Numeric128.is_digit '0' = true := by decide
    simp only [h1, if_false, h2, Bool.not_true, Bool.false_eq_true, hd, hk]
    have hlt : (st.frac_len_total + 1) % 2 ^ 32 < 2 ^ 32 := Nat.mod_lt _ (by decide)
    rw [ih ⟨st.int_part, st.frac_keep, st.frac_keep_len, (st.frac_len_total + 1) % 2 ^ 32,
      true, true⟩ rest rfl rfl hk hlt]
    have : ((st.frac_len_total + 1) % 2 ^ 32 + k) % 2 ^ 32
        = (st.frac_len_total + (k + 1)) % 2 ^ 32 := by omega
    simp only [this, ha]

/-- The first four characters of `0.50...`, for `S = 1`: the two kept digits are `50`. -/
theorem parse_loop_head (rest : List Char) :
    parse_loop 1 ('0' :: '.' :: '5' :: '0' :: rest) {}
      = parse_loop 1 rest
          { int_part := uint256.of_u64 0, frac_keep := uint256.of_u64 50, frac_keep_len := 2,
            frac_len_total := 2, seen_dot := true, any := true } := by
  have e1 : mul10_add_checked (uint256.of_u64 0) 0 = some (uint256.of_u64 0) := by decide!
  have e2 : mul10_add_checked (uint256.of_u64 0) 5 = some (uint256.of_u64 5) := by decide!
  have e3 : mul10_add_checked (uint256.of_u64 5) 0 = some (uint256.of_u64 50) := by decide!
  have d0 : '0'.toNat - '0'.toNat = 0 := by decide
  have d5 : '5'.toNat - '0'.toNat = 5 := by decide
  have h0 : Numeric128.is_digit '0' = true := by decide
  have h5 : Numeric128.is_digit '5' = true := by decide
  have n0 : ¬ ('0' = '.') := by decide
  have n5 : ¬ ('5' = '.') := by decide
  rw [parse_loop]
  simp only [n0, if_false, h0, Bool.not_true, Bool.false_eq_true, Bool.not_false, if_true, d0]
  rw [e1]
  simp only
  rw [parse_loop]
  simp only [if_true, Bool.false_eq_true, if_false]
  rw [parse_loop]
  simp only [n5, if_false, h5, Bool.not_true, Bool.false_eq_true, d5]
  have l1 : (0 : Nat) < 1 + 1 := by decide
  simp only [l1, if_true]
  rw [e2]
  simp only
  rw [parse_loop]
  simp only [n0, if_false, h0, Bool.not_true, Bool.false_eq_true, d0]
  have l2 : (0 + 1 : Nat) < 1 + 1 := by decide
  simp only [l2, if_true]
  rw [e3]
  rfl

/-- The string `0.50` followed by `k` zeros, when its count `k + 2` of fractional digits
is a multiple of `2^32`, is read by `Numeric256<P,1>` as a value without fraction. -/
theorem init_parse_wrapped_count (P : Nat) (rnd : Rounding) (k : Nat)
    (hk : (2 + k) % 2 ^ 32 = 0) :
    init_parse P 1 ('0' :: '.' :: '5' :: '0' :: List.replicate k '0') rnd
      = parse_finish P 1 false rnd
          { int_part := uint256.of_u64 0, frac_keep := uint256.of_u64 50, frac_keep_len := 2,
            frac_len_total := 0, seen_dot := true, any := true } := by
  have hl := parse_loop_head (List.replicate k '0' ++ [])
  rw [parse_loop_zeros 1 k _ [] rfl rfl (by decide) (by decide)] at hl
  simp only [hk] at hl
  rw [List.append_nil] at hl
  unfold init_parse
  have n1 : ¬ ('0' = '+' ∨ '0' = '-') := by decide
  simp only [n1, if_false]
  rw [hl]
  rfl

end Numeric256

theorem half_literal_wf (k : Nat) :
    well_formed_literal [] ['0'] (some ('5' :: '0' :: List.replicate k '0')) := by
  refine ⟨Or.inl rfl, by decide, ?_⟩
  intro c hc
  rcases List.mem_cons.mp hc with h | h
  · rw [h]; decide
  · rcases List.mem_cons.mp h with h | h
    · rw [h]; decide
    · exact Numeric128.is_digit_string_zeros k c h

/-- At scale 1 the literal `0.50` followed by `k` zeros has magnitude 5 in both modes. -/
theorem half_literal_mag (k : Nat) (rnd : Rounding) :
    spec_parse_mag 1 ['0'] ('5' :: '0' :: List.replicate k '0') rnd = 5 := by
  have hv : digits_value (['0'] ++ ('5' :: '0' :: List.replicate k '0')) = 50 * 10 ^ k := by
    have : ['0'] ++ ('5' :: '0' :: List.replicate k '0')
        = ['0', '5', '0'] ++ List.replicate k '0' := rfl
    rw [this, digits_value_append, digits_value_zeros, List.length_replicate]
    have : digits_value ['0', '5', '0'] = 50 := by decide
    rw [this, Nat.add_zero]
  have hlen : ('5' :: '0' :: List.replicate k '0').length = k + 2 := by
    simp only [List.length_cons, List.length_replicate]
  have hpos : 0 < 10 ^ k := Nat.pos_pow_of_pos _ (by decide)
  unfold spec_parse_mag
  simp only
  rw [hv, hlen, Nat.pow_add]
  generalize 10 ^ k = t at hpos
  cases rnd with
  | Trunc =>
    simp only
    have : 50 * t * 10 ^ 1 = 5 * (t * 10 ^ 2) := by ring
    rw [this]
    exact Nat.mul_div_cancel _ (by positivity)
  | HalfUp =>
    simp only
    have : 2 * (50 * t) * 10 ^ 1 + t * 10 ^ 2 = 11 * (t * 100) := by ring
    have h2 : 2 * (t * 10 ^ 2) = 2 * (t * 100) := by ring
    rw [this, h2, Nat.mul_div_mul_right _ _ (by omega)]

/-! ## Lemmas: limb vectors of `Numeric` -/

namespace Numeric

theorem limbs_value_append (a b : List Nat) :
    limbs_value (a ++ b) = limbs_value a + base ^ a.length * limbs_value b := by
  induction a with
  | nil => simp [limbs_value]
  | cons x xs ih =>
    show x + base * limbs_value (xs ++ b) = x + base * limbs_value xs + _
    rw [ih, List.length_cons, Nat.pow_succ]
    ring

theorem limbs_value_lt (v : List Nat) (h : ∀ l ∈ v, l < base) :
    limbs_value v < base ^ v.length := by
  induction v with
  | nil => simp [limbs_value]
  | cons x xs ih =>
    have hx := h x (List.mem_cons_self _ _)
    have := ih (fun l hl => h l (List.mem_cons_of_mem _ hl))
    simp only [limbs_value, List.length_cons, Nat.pow_succ]
    have hb : base = 1000000000 := rfl
    generalize base ^ xs.length = t at this ⊢
    generalize limbs_value xs = w at this ⊢
    rw [hb] at hx ⊢
    omega

theorem pop_back_zeros_snoc (v : List Nat) (x : Nat) :
    pop_back_zeros (v ++ [x]) = if x = 0 then pop_back_zeros v else v ++ [x] := by
  unfold pop_back_zeros
  rw [List.reverse_append, List.reverse_singleton, List.singleton_append, List.dropWhile_cons]
  by_cases hx : x = 0
  · simp [hx]
  · simp [hx]

theorem pop_back_zeros_value (v : List Nat) :
    limbs_value (pop_back_zeros v) = limbs_value v := by
  induction v using List.reverseRecOn with
  | nil => rfl
  | append_singleton v x ih =>
    rw [pop_back_zeros_snoc]
    split
    · rename_i hx
      rw [ih, limbs_value_append, hx]
      simp [limbs_value]
    · rfl

theorem pop_back_zeros_mem (v : List Nat) : ∀ l ∈ pop_back_zeros v, l ∈ v := by
  induction v using List.reverseRecOn with
  | nil => intro l hl; exact hl
  | append_singleton v x ih =>
    intro l hl
    rw [pop_back_zeros_snoc] at hl
    split at hl
    · exact List.mem_append_left _ (ih l hl)
    · exact hl

theorem pop_back_zeros_last (v : List Nat) : (pop_back_zeros v).getLast? ≠ some 0 := by
  induction v using List.reverseRecOn with
  | nil => simp [pop_back_zeros]
  | append_singleton v x ih =>
    rw [pop_back_zeros_snoc]
    split
    · exact ih
    · rename_i hx
      rw [List.getLast?_append, List.getLast?_singleton]
      simpa using hx

theorem pop_back_zeros_id (v : List Nat) (h : v.getLast? ≠ some 0) : pop_back_zeros v = v := by
  induction v using List.reverseRecOn with
  | nil => rfl
  | append_singleton v x _ =>
    rw [pop_back_zeros_snoc]
    have hx : x ≠ 0 := by
      intro hx
      apply h
      rw [List.getLast?_append, List.getLast?_singleton, hx]
      rfl
    rw [if_neg hx]

theorem last_of_cons (x : Nat) (xs : List Nat) (hne : xs ≠ [])
    (h : (x :: xs).getLast? ≠ some 0) : xs.getLast? ≠ some 0 := by
  obtain ⟨y, ys, hy⟩ := List.exists_cons_of_ne_nil hne
  rw [hy, List.getLast?_cons_cons, ← hy] at h
  exact h

/-- A vector with a non-zero top limb stands for a positive number. -/
theorem limbs_value_pos (v : List Nat) (hne : v ≠ []) (h : v.getLast? ≠ some 0) :
    0 < limbs_value v := by
  induction v with
  | nil => exact absurd rfl hne
  | cons x xs ih =>
    by_cases hxs : xs = []
    · rw [hxs] at h ⊢
      have : x ≠ 0 := by
        intro hx
        apply h
        rw [hx]
        rfl
      simp only [limbs_value]
      omega
    · have := ih hxs (last_of_cons x xs hxs h)
      simp only [limbs_value]
      have hb : base = 1000000000 := rfl
      rw [hb]
      generalize limbs_value xs = w at this
      omega

/-- Two vectors of limbs below `base` with non-zero top limbs and the same value are equal. -/
theorem limbs_unique (a : List Nat) : ∀ (b : List Nat),
    (∀ l ∈ a, l < base) → (∀ l ∈ b, l < base) → a.getLast? ≠ some 0 → b.getLast? ≠ some 0 →
    limbs_value a = limbs_value b → a = b := by
  have hb : base = 1000000000 := rfl
  induction a with
  | nil =>
    intro b _ _ _ hlb hv
    cases b with
    | nil => rfl
    | cons y ys =>
      have := limbs_value_pos (y :: ys) (by simp) hlb
      rw [← hv] at this
      simp [limbs_value] at this
  | cons x xs ih =>
    intro b ha hbb hla hlb hv
    cases b with
    | nil =>
      have := limbs_value_pos (x :: xs) (by simp) hla
      rw [hv] at this
      simp [limbs_value] at this
    | cons y ys =>
      have hx := ha x (List.mem_cons_self _ _)
      have hy := hbb y (List.mem_cons_self _ _)
      simp only [limbs_value] at hv
      rw [hb] at hx hy hv
      have hxy : x = y ∧ limbs_value xs = limbs_value ys := by
        generalize limbs_value xs = p at hv
        generalize limbs_value ys = q at hv
        omega
      have hxs : ∀ l ∈ xs, l < base := fun l hl => ha l (List.mem_cons_of_mem _ hl)
      have hys : ∀ l ∈ ys, l < base := fun l hl => hbb l (List.mem_cons_of_mem _ hl)
      rw [hxy.1]
      congr 1
      by_cases h1 : xs = []
      · rw [h1] at hxy ⊢
        by_cases h2 : ys = []
        · rw [h2]
        · have := limbs_value_pos ys h2 (last_of_cons y ys h2 hlb)
          rw [← hxy.2] at this
          simp [limbs_value] at this
      · by_cases h2 : ys = []
        · have := limbs_value_pos xs h1 (last_of_cons x xs h1 hla)
          rw [hxy.2, h2] at this
          simp [limbs_value] at this
        · exact ih ys hxs hys (last_of_cons x xs h1 hla) (last_of_cons y ys h2 hlb) hxy.2

end Numeric

namespace Numeric

theorem base_eq : base = 1000000000 := rfl

theorem to_u32_small (x : Nat) (h : x < 2 ^ 32) : to_u32 x = x := Nat.mod_eq_of_lt h

theorem mul10_add_loop_spec (v : List Nat) : ∀ (carry : Nat), (∀ l ∈ v, l < base) →
    carry < 10 →
    (∀ l ∈ (mul10_add_loop v carry).1, l < base) ∧ (mul10_add_loop v carry).2 < 10 ∧
    (mul10_add_loop v carry).1.length = v.length ∧
    limbs_value (mul10_add_loop v carry).1 + base ^ v.length * (mul10_add_loop v carry).2
      = 10 * limbs_value v + carry := by
  induction v with
  | nil =>
    intro carry _ hc
    exact ⟨fun l hl => by simp [mul10_add_loop] at hl, hc, rfl, by simp [mul10_add_loop, limbs_value]⟩
  | cons x xs ih =>
    intro carry h hc
    have hx := h x (List.mem_cons_self _ _)
    rw [base_eq] at hx
    have hcur : (x * 10 + carry) % 2 ^ 64 = x * 10 + carry := Nat.mod_eq_of_lt (by omega)
    have hq : (x * 10 + carry) / base < 10 := by rw [base_eq]; omega
    have hm : (x * 10 + carry) % base < base := Nat.mod_lt _ (by rw [base_eq]; decide)
    obtain ⟨i1, i2, i3, i4⟩ := ih ((x * 10 + carry) / base)
      (fun l hl => h l (List.mem_cons_of_mem _ hl)) hq
    have hm32 : (x * 10 + carry) % base < 2 ^ 32 := lt_trans hm (by rw [base_eq]; decide)
    unfold mul10_add_loop
    simp only [hcur]
    rw [to_u32_small _ hm32]
    refine ⟨?_, i2, by simp [i3], ?_⟩
    · intro l hl
      rcases List.mem_cons.mp hl with hl | hl
      · rw [hl]; exact hm
      · exact i1 l hl
    · have hdm := Nat.div_add_mod (x * 10 + carry) base
      generalize (x * 10 + carry) / base = q at *
      generalize (x * 10 + carry) % base = m at *
      calc limbs_value (m :: (mul10_add_loop xs q).1)
            + base ^ (x :: xs).length * (mul10_add_loop xs q).2
          = m + base * (limbs_value (mul10_add_loop xs q).1
              + base ^ xs.length * (mul10_add_loop xs q).2) := by
            simp only [limbs_value, List.length_cons, Nat.pow_succ]
            ring
        _ = m + base * (10 * limbs_value xs + q) := by rw [i4]
        _ = 10 * limbs_value (x :: xs) + carry := by
            simp only [limbs_value]
            rw [base_eq] at hdm ⊢
            omega

/-- One step `mag * 10 + digit` of the parser on limbs below `base`. -/
theorem mul10_add_spec (v : List Nat) (d : Nat) (h : ∀ l ∈ v, l < base) (hd : d < 10) :
    (∀ l ∈ mul10_add_ v d, l < base) ∧ limbs_value (mul10_add_ v d) = 10 * limbs_value v + d := by
  obtain ⟨i1, i2, i3, i4⟩ := mul10_add_loop_spec v d h hd
  unfold mul10_add_
  simp only
  split
  · have hc : to_u32 (mul10_add_loop v d).2 = (mul10_add_loop v d).2 := to_u32_small _ (by omega)
    rw [hc]
    refine ⟨?_, ?_⟩
    · intro l hl
      rcases List.mem_append.mp hl with hl | hl
      · exact i1 l hl
      · rw [List.mem_singleton.mp hl, base_eq]
        omega
    · rw [limbs_value_append, i3]
      simp only [limbs_value, Nat.mul_zero, Nat.add_zero]
      exact i4
  · rename_i hz
    have hz2 : (mul10_add_loop v d).2 = 0 := by simpa using hz
    rw [hz2] at i4
    exact ⟨i1, by simpa using i4⟩

theorem digit_to_u32 (c : Char) (hc : Numeric128.is_digit c = true) :
    to_u32 (c.toNat - '0'.toNat) = c.toNat - '0'.toNat ∧ c.toNat - '0'.toNat < 10 := by
  have hb := Numeric128.is_digit_bounds c hc
  have h0 : '0'.toNat = 48 := rfl
  rw [h0]
  exact ⟨to_u32_small _ (by omega), by omega⟩

/-- Reading the digits `ds` multiplies the value by `10 ^ ds.length` and adds their value. -/
theorem parse_digits_spec (ds : List Char) (hds : is_digit_string ds) :
    ∀ (mag : List Nat), (∀ l ∈ mag, l < base) →
      (∀ l ∈ parse_digits mag ds, l < base) ∧
      limbs_value (parse_digits mag ds) = limbs_value mag * 10 ^ ds.length + digits_value ds := by
  induction ds with
  | nil =>
    intro mag h
    exact ⟨h, by simp [parse_digits, digits_value]⟩
  | cons c cs ih =>
    intro mag h
    have hc := hds c (List.mem_cons_self _ _)
    have hcs : is_digit_string cs := fun x hx => hds x (List.mem_cons_of_mem _ hx)
    obtain ⟨d1, d2⟩ := digit_to_u32 c hc
    obtain ⟨m1, m2⟩ := mul10_add_spec mag (c.toNat - '0'.toNat) h d2
    have hstep : parse_digits mag (c :: cs)
        = parse_digits (mul10_add_ mag (c.toNat - '0'.toNat)) cs := by
      unfold parse_digits
      rw [List.foldl_cons, d1]
    obtain ⟨r1, r2⟩ := ih hcs _ m1
    rw [hstep]
    refine ⟨r1, ?_⟩
    rw [r2, m2]
    have hv : digits_value (c :: cs)
        = (c.toNat - '0'.toNat) * 10 ^ cs.length + digits_value cs := by
      have h1 : digits_value [c] = c.toNat - '0'.toNat := by simp [digits_value]
      have := digits_value_append [c] cs
      rw [h1] at this
      exact this
    rw [hv, List.length_cons, Nat.pow_succ]
    ring

theorem parse_digits_append (mag : List Nat) (a b : List Char) :
    parse_digits mag (a ++ b) = parse_digits (parse_digits mag a) b := by
  unfold parse_digits
  rw [List.foldl_append]

/-- The integer digits update the limbs by `parse_digits`. -/
theorem parse_loop_int_eq (ds : List Char) (hds : is_digit_string ds) :
    ∀ (st : ParseState) (rest : List Char), st.seen_dot = false →
      parse_loop (ds ++ rest) st = parse_loop rest { st with
        mag_ := parse_digits st.mag_ ds, any := st.any || !ds.isEmpty } := by
  induction ds with
  | nil =>
    intro st rest _
    simp [parse_digits]
  | cons c cs ih =>
    intro st rest hst
    have hc := Numeric128.is_digit_bounds c (hds c (List.mem_cons_self _ _))
    have hne := Numeric128.is_digit_ne c (hds c (List.mem_cons_self _ _))
    have hcs : is_digit_string cs := fun x hx => hds x (List.mem_cons_of_mem _ hx)
    have hnd : ¬ (c.toNat < '0'.toNat ∨ c.toNat > '9'.toNat) := by
      have h0 : '0'.toNat = 48 := rfl
      have h9 : '9'.toNat = 57 := rfl
      omega
    show parse_loop (c :: (cs ++ rest)) st = _
    rw [parse_loop]
    simp only [hne, hnd, if_false, hst, Bool.false_eq_true]
    rw [ih hcs _ rest rfl]
    simp [parse_digits]

/-- The fractional digits update the limbs by `parse_digits` and count into the scale. -/
theorem parse_loop_frac_eq (ds : List Char) (hds : is_digit_string ds) :
    ∀ (st : ParseState) (rest : List Char), st.seen_dot = true →
      st.scale_ + ds.length ≤ max_frac_digits →
      parse_loop (ds ++ rest) st = parse_loop rest { st with
        mag_ := parse_digits st.mag_ ds, scale_ := st.scale_ + ds.length,
        any := st.any || !ds.isEmpty } := by
  induction ds with
  | nil =>
    intro st rest _ _
    simp [parse_digits]
  | cons c cs ih =>
    intro st rest hst hlen
    have hc := Numeric128.is_digit_bounds c (hds c (List.mem_cons_self _ _))
    have hne := Numeric128.is_digit_ne c (hds c (List.mem_cons_self _ _))
    have hcs : is_digit_string cs := fun x hx => hds x (List.mem_cons_of_mem _ hx)
    have hnd : ¬ (c.toNat < '0'.toNat ∨ c.toNat > '9'.toNat) := by
      have h0 : '0'.toNat = 48 := rfl
      have h9 : '9'.toNat = 57 := rfl
      omega
    simp only [List.length_cons, Nat.cast_add, Nat.cast_one] at hlen
    have hsc : ¬ (st.scale_ + 1 > max_frac_digits) := by omega
    show parse_loop (c :: (cs ++ rest)) st = _
    rw [parse_loop]
    simp only [hne, hnd, if_false, hst, if_true, hsc]
    rw [ih hcs _ rest rfl (by simp only; omega)]
    simp only [parse_digits, List.foldl_cons, List.length_cons, Nat.cast_add, Nat.cast_one,
      Bool.true_or, List.isEmpty_cons, Bool.not_false, Bool.or_true]
    congr 2
    omega

end Numeric

namespace Numeric

theorem base_pow (k : Nat) : base ^ k = 10 ^ (9 * k) := by
  rw [Nat.pow_mul]
  rfl

theorem dec_digits_u32_spec (t : Nat) (h0 : 0 < t) (h : t < base) :
    ∃ k : Nat, dec_digits_u32_ t = (k : Int) ∧ 1 ≤ k ∧ k ≤ 9 ∧ 10 ^ (k - 1) ≤ t ∧ t < 10 ^ k := by
  rw [base_eq] at h
  unfold dec_digits_u32_
  by_cases c9 : t ≥ 100000000
  · rw [if_pos c9]
    exact ⟨9, rfl, by decide, by decide, by omega, by omega⟩
  rw [if_neg c9]
  by_cases c8 : t ≥ 10000000
  · rw [if_pos c8]
    exact ⟨8, rfl, by decide, by decide, by omega, by omega⟩
  rw [if_neg c8]
  by_cases c7 : t ≥ 1000000
  · rw [if_pos c7]
    exact ⟨7, rfl, by decide, by decide, by omega, by omega⟩
  rw [if_neg c7]
  by_cases c6 : t ≥ 100000
  · rw [if_pos c6]
    exact ⟨6, rfl, by decide, by decide, by omega, by omega⟩
  rw [if_neg c6]
  by_cases c5 : t ≥ 10000
  · rw [if_pos c5]
    exact ⟨5, rfl, by decide, by decide, by omega, by omega⟩
  rw [if_neg c5]
  by_cases c4 : t ≥ 1000
  · rw [if_pos c4]
    exact ⟨4, rfl, by decide, by decide, by omega, by omega⟩
  rw [if_neg c4]
  by_cases c3 : t ≥ 100
  · rw [if_pos c3]
    exact ⟨3, rfl, by decide, by decide, by omega, by omega⟩
  rw [if_neg c3]
  by_cases c2 : t ≥ 10
  · rw [if_pos c2]
    exact ⟨2, rfl, by decide, by decide, by omega, by omega⟩
  rw [if_neg c2]
  exact ⟨1, rfl, by decide, by decide, by omega, by omega⟩

/-- The digit count of a vector with limbs below `base` and a non-zero top limb: the value
has exactly `decimal_digits_` decimal digits. -/
theorem decimal_digits_spec (x : Numeric) (hne : x.mag_ ≠ []) (h : ∀ l ∈ x.mag_, l < base)
    (hl : x.mag_.getLast? ≠ some 0) :
    ∃ k : Nat, decimal_digits_ x = (k : Int) ∧ 1 ≤ k ∧
      10 ^ (k - 1) ≤ limbs_value x.mag_ ∧ limbs_value x.mag_ < 10 ^ k := by
  obtain ⟨init, top, hm⟩ : ∃ init top, x.mag_ = init ++ [top] := by
    rcases List.eq_nil_or_concat x.mag_ with h1 | ⟨i, t, h1⟩
    · exact absurd h1 hne
    · exact ⟨i, t, by rw [h1, List.concat_eq_append]⟩
  have htop0 : top ≠ 0 := by
    intro hz
    apply hl
    rw [hm, List.getLast?_append, List.getLast?_singleton, hz]
    rfl
  have htop : top < base := h top (by rw [hm]; simp)
  obtain ⟨k, hk, k1, k9, klo, khi⟩ := dec_digits_u32_spec top (Nat.pos_of_ne_zero htop0) htop
  have hinit := limbs_value_lt init (fun l hl => h l (by rw [hm]; simp [hl]))
  refine ⟨9 * init.length + k, ?_, by omega, ?_, ?_⟩
  · unfold decimal_digits_
    have h1 : x.mag_.isEmpty = false := by
      rw [hm]
      simp
    have h2 : x.mag_.getLastD 0 = top := by
      rw [hm]
      simp
    have h3 : (x.mag_.length : Int) = init.length + 1 := by
      rw [hm]
      simp
    rw [h1, h2, h3, hk]
    simp only [Bool.false_eq_true, if_false]
    unfold base_digits
    push_cast
    ring
  · rw [hm, limbs_value_append]
    simp only [limbs_value, Nat.mul_zero, Nat.add_zero]
    have e : 9 * init.length + k - 1 = 9 * init.length + (k - 1) := by omega
    rw [e, Nat.pow_add, base_pow]
    have := Nat.mul_le_mul_left (10 ^ (9 * init.length)) klo
    omega
  · rw [hm, limbs_value_append]
    simp only [limbs_value, Nat.mul_zero, Nat.add_zero]
    rw [Nat.pow_add]
    rw [base_pow] at hinit ⊢
    have h1 : top + 1 ≤ 10 ^ k := khi
    have := Nat.mul_le_mul_left (10 ^ (9 * init.length)) h1
    rw [Nat.mul_add, Nat.mul_one] at this
    omega

theorem is_zero_iff (x : Numeric) : is_zero_ x = true ↔ limbs_value x.mag_ = 0 := by
  unfold is_zero_
  generalize x.mag_ = v
  induction v with
  | nil => simp [limbs_value]
  | cons a as ih =>
    simp only [List.all_cons, Bool.and_eq_true, decide_eq_true_eq, limbs_value, ih]
    rw [base_eq]
    omega

end Numeric

namespace Numeric

theorem std_to_string_numeral (n : Nat) (h : n < 10 ^ 10) :
    is_decimal_numeral (std_to_string n) n := by
  unfold std_to_string
  by_cases hz : n = 0
  · rw [if_pos hz, hz]
    exact zero_numeral
  · rw [if_neg hz]
    exact std_loop_numeral 9 n hz h

theorem std_to_string_length (n : Nat) (k : Nat) (hk : 1 ≤ k) (h : n < 10 ^ k) :
    (std_to_string n).length ≤ k := by
  unfold std_to_string
  split
  · simpa using hk
  · rw [List.length_reverse]
    exact std_loop_length _ _ _ h

/-- A block of `mag_to_decimal_`: nine digits that denote the limb. -/
theorem block_spec (limb : Nat) (h : limb < base) :
    is_digit_string ((if (std_to_string limb).length < base_digits.toNat
      then List.replicate (base_digits.toNat - (std_to_string limb).length) '0' else [])
        ++ std_to_string limb) ∧
    ((if (std_to_string limb).length < base_digits.toNat
      then List.replicate (base_digits.toNat - (std_to_string limb).length) '0' else [])
        ++ std_to_string limb).length = 9 ∧
    digits_value ((if (std_to_string limb).length < base_digits.toNat
      then List.replicate (base_digits.toNat - (std_to_string limb).length) '0' else [])
        ++ std_to_string limb) = limb := by
  rw [base_eq] at h
  have hn := std_to_string_numeral limb (by
    have : (10 : Nat) ^ 10 = 10000000000 := by norm_num
    omega)
  have hl := std_to_string_length limb 9 (by decide) (by
    have : (10 : Nat) ^ 9 = 1000000000 := by norm_num
    omega)
  have hb : base_digits.toNat = 9 := rfl
  rw [hb]
  generalize std_to_string limb = blk at hn hl
  have hpad : (if blk.length < 9 then List.replicate (9 - blk.length) '0' else [])
      = List.replicate (9 - blk.length) '0' := by
    split
    · rfl
    · have : 9 - blk.length = 0 := by omega
      rw [this]
      rfl
  rw [hpad]
  refine ⟨Numeric128.is_digit_string_append _ _ (Numeric128.is_digit_string_zeros _) hn.2.1,
    ?_, ?_⟩
  · rw [List.length_append, List.length_replicate]
    omega
  · rw [digits_value_append, digits_value_zeros, hn.2.2.1]
    simp

theorem mag_to_decimal_loop_spec (rest : List Nat) (h : ∀ l ∈ rest, l < base) :
    is_digit_string (mag_to_decimal_loop rest) ∧
    (mag_to_decimal_loop rest).length = 9 * rest.length ∧
    digits_value (mag_to_decimal_loop rest) = limbs_value rest.reverse := by
  induction rest with
  | nil => exact ⟨by intro c hc; simp [mag_to_decimal_loop] at hc, rfl, rfl⟩
  | cons limb rest ih =>
    obtain ⟨b1, b2, b3⟩ := block_spec limb (h limb (List.mem_cons_self _ _))
    obtain ⟨i1, i2, i3⟩ := ih (fun l hl => h l (List.mem_cons_of_mem _ hl))
    unfold mag_to_decimal_loop
    simp only
    refine ⟨Numeric128.is_digit_string_append _ _ b1 i1, ?_, ?_⟩
    · rw [List.length_append, b2, i2, List.length_cons]
      omega
    · rw [digits_value_append, b3, i3, i2, List.reverse_cons, limbs_value_append,
        List.length_reverse, base_pow]
      simp only [limbs_value, Nat.mul_zero, Nat.add_zero]
      ring

/-- The digits of a non-empty vector with limbs below `base` and non-zero top limb: the
decimal numeral of its value, which does not start with `0`. -/
theorem mag_to_decimal_spec (x : Numeric) (hne : x.mag_ ≠ []) (h : ∀ l ∈ x.mag_, l < base)
    (hl : x.mag_.getLast? ≠ some 0) :
    is_decimal_numeral (mag_to_decimal_ x) (limbs_value x.mag_) ∧
    (mag_to_decimal_ x).head? ≠ some '0' := by
  obtain ⟨init, top, hm⟩ : ∃ init top, x.mag_ = init ++ [top] := by
    rcases List.eq_nil_or_concat x.mag_ with h1 | ⟨i, t, h1⟩
    · exact absurd h1 hne
    · exact ⟨i, t, by rw [h1, List.concat_eq_append]⟩
  have htop0 : top ≠ 0 := by
    intro hz
    apply hl
    rw [hm, List.getLast?_append, List.getLast?_singleton, hz]
    rfl
  have htop : top < base := h top (by rw [hm]; simp)
  have hn := std_to_string_numeral top (by
    rw [base_eq] at htop
    have : (10 : Nat) ^ 10 = 10000000000 := by norm_num
    omega)
  obtain ⟨i1, i2, i3⟩ := mag_to_decimal_loop_spec init.reverse (fun l hl' =>
    h l (by rw [hm]; simp [List.mem_reverse.mp hl']))
  have hrev : x.mag_.reverse = top :: init.reverse := by
    rw [hm]
    simp
  have hdig : mag_to_decimal_ x = std_to_string top ++ mag_to_decimal_loop init.reverse := by
    unfold mag_to_decimal_
    rw [hrev]
  rw [hdig]
  generalize std_to_string top = tp at hn
  obtain ⟨n1, n2, n3, n4⟩ := hn
  have hhead : (tp ++ mag_to_decimal_loop init.reverse).head? ≠ some '0' := by
    obtain ⟨c, cs, hc⟩ := List.exists_cons_of_ne_nil n1
    intro hh
    have h0 : tp.head? = some '0' := by
      rw [hc] at hh ⊢
      exact hh
    have := n4 h0
    rw [this] at n3
    exact htop0 n3.symm
  refine ⟨⟨?_, Numeric128.is_digit_string_append _ _ n2 i1, ?_, ?_⟩, hhead⟩
  · intro hnil
    exact n1 (List.append_eq_nil.mp hnil).1
  · rw [digits_value_append, n3, i3, i2, List.reverse_reverse, hm, limbs_value_append,
      List.length_reverse, base_pow]
    simp only [limbs_value, Nat.mul_zero, Nat.add_zero]
    ring
  · intro hh
    exact absurd hh hhead

end Numeric

namespace Numeric

/-- The parser on a literal with a non-empty integer part and at most 16383 fractional
digits: the character loop succeeds and leaves the limbs `parse_digits [] (ip ++ fp)` and the
scale `fp.length`. -/
theorem init_parse_literal_num (sgn ip fp : List Char) (dot : Bool) (rnd : Rounding)
    (hsgn : sgn = [] ∨ sgn = ['+'] ∨ sgn = ['-'])
    (hip : is_digit_string ip) (hne : ip ≠ []) (hfp : is_digit_string fp)
    (hlen : fp.length ≤ 16383) (hdot : dot = false → fp = []) :
    init_parse (sgn ++ (ip ++ (if dot = true then '.' :: fp else []))) rnd
      = parse_finish (decide (sgn = ['-']))
          ⟨parse_digits [] (ip ++ fp), (fp.length : Int), dot, true⟩ := by
  have hloop : parse_loop (ip ++ (if dot = true then '.' :: fp else [])) {}
      = Except.ok ⟨parse_digits [] (ip ++ fp), (fp.length : Int), dot, true⟩ := by
    rw [parse_loop_int_eq ip hip {} _ rfl]
    have hany : (({} : ParseState).any || !ip.isEmpty) = true := by
      cases ip with
      | nil => exact absurd rfl hne
      | cons a as => rfl
    rw [hany]
    cases dot with
    | false =>
      rw [hdot rfl]
      simp [parse_loop]
    | true =>
      simp only [if_true]
      rw [parse_loop]
      simp only [if_true, Bool.false_eq_true, if_false]
      have h := parse_loop_frac_eq fp hfp
        ⟨parse_digits [] ip, 0, true, true⟩ [] rfl (by
          have hm : max_frac_digits = 16383 := rfl
          simp only [hm]
          omega)
      rw [List.append_nil] at h
      rw [h, parse_loop, parse_digits_append]
      simp
  obtain ⟨d, cs, hb⟩ : ∃ d cs, ip ++ (if dot = true then '.' :: fp else []) = d :: cs ∧
      d ≠ '+' ∧ d ≠ '-' := by
    cases ip with
    | nil => exact absurd rfl hne
    | cons a as =>
      have ha := Numeric128.is_digit_ne a (hip a (List.mem_cons_self _ _))
      exact ⟨a, as ++ (if dot = true then '.' :: fp else []), rfl, ha.2.1, ha.2.2⟩
  rw [hb.1] at hloop ⊢
  rcases hsgn with hs | hs | hs <;> rw [hs]
  · show init_parse (d :: cs) rnd = _
    rw [init_parse_unsigned d cs rnd hb.2.1 hb.2.2, hloop]
    rfl
  · show init_parse ('+' :: d :: cs) rnd = _
    rw [init_parse_signed '+' d cs rnd (Or.inl rfl), hloop]
    rfl
  · show init_parse ('-' :: d :: cs) rnd = _
    rw [init_parse_signed '-' d cs rnd (Or.inr rfl), hloop]
    rfl

/-- The end of the parser when the limbs read stand for the value of `x`: the result is
`x`. -/
theorem parse_finish_same (neg : Bool) (st : ParseState) (x : Numeric)
    (hany : st.any = true) (hlimbs : ∀ l ∈ st.mag_, l < base)
    (hval : limbs_value st.mag_ = limbs_value x.mag_) (hsc : st.scale_ = x.scale_)
    (hneg : neg = x.neg_) (hx : Inv x) (hnz : x.mag_ ≠ []) (hok : x.err_ = Err.None) :
    parse_finish neg st = x := by
  obtain ⟨x1, x2, _, x4⟩ := hx
  have hmag : pop_back_zeros st.mag_ = x.mag_ :=
    limbs_unique _ _ (fun l hl => hlimbs l (pop_back_zeros_mem _ l hl)) x1
      (pop_back_zeros_last _) x2 (by rw [pop_back_zeros_value, hval])
  have hpos := limbs_value_pos x.mag_ hnz x2
  have hxe : (⟨x.mag_, x.scale_, x.neg_, Err.None⟩ : Numeric) = x := by
    obtain ⟨m, s, n, e⟩ := x
    simp only at hok
    rw [hok]
  have hz : is_zero_ x = false := by
    rw [← Bool.not_eq_true, is_zero_iff]
    omega
  have hemp : x.mag_.isEmpty = false := by
    cases hm : x.mag_ with
    | nil => exact absurd hm hnz
    | cons a as => rfl
  unfold parse_finish normalize_
  simp only [hany, Bool.not_true, Bool.false_eq_true, if_false, hmag, hemp, hsc, hneg, hxe,
    hz, x4]

/-- The parts of the string of a non-zero ok value. -/
theorem to_string_parts_num (x : Numeric) (hx : Inv x) (hnz : x.mag_ ≠ [])
    (hok : x.err_ = Err.None) :
    ∃ ip fp, to_string x = (if x.neg_ = true then ['-'] else []) ++
        (ip ++ (if decide (x.scale_ ≠ 0) = true then '.' :: fp else [])) ∧
      is_digit_string ip ∧ ip ≠ [] ∧ is_digit_string fp ∧ (fp.length : Int) = x.scale_ ∧
      (decide (x.scale_ ≠ 0) = false → fp = []) ∧
      digits_value (ip ++ fp) = limbs_value x.mag_ := by
  obtain ⟨x1, x2, _, x4⟩ := hx
  obtain ⟨⟨n1, n2, n3, _⟩, _⟩ := mag_to_decimal_spec x hnz x1 x2
  have hpos := limbs_value_pos x.mag_ hnz x2
  have hz : is_zero_ x = false := by
    rw [← Bool.not_eq_true, is_zero_iff]
    omega
  have hsc : 0 ≤ x.scale_ := by
    unfold check_limits_ at x4
    split at x4
    · simp at x4
    · omega
  have hokb : x.ok = true := by
    unfold ok
    simp [hok]
  unfold to_string
  simp only [hokb, hz, Bool.not_true, Bool.false_eq_true, if_false]
  generalize mag_to_decimal_ x = D at n1 n2 n3
  by_cases h0 : x.scale_ = 0
  · refine ⟨D, [], ?_, n2, n1, by intro c hc; simp at hc, by simp [h0], fun _ => rfl, ?_⟩
    · simp only [h0, if_true, ne_eq, not_true_eq_false, decide_False, Bool.false_eq_true,
        if_false, List.append_nil]
      cases x.neg_ <;> simp
    · rw [List.append_nil, n3]
  · have hd : decide (x.scale_ ≠ 0) = true := by simpa using h0
    simp only [h0, if_false, hd, if_true]
    by_cases hle : (D.length : Int) ≤ x.scale_
    · refine ⟨['0'], List.replicate (x.scale_ - (D.length : Int)).toNat '0' ++ D, ?_,
        by decide, by simp,
        Numeric128.is_digit_string_append _ _ (Numeric128.is_digit_string_zeros _) n2, ?_,
        fun h => by simp at h, ?_⟩
      · simp only [hle, if_true]
        cases x.neg_ <;> simp
      · rw [List.length_append, List.length_replicate]
        push_cast
        omega
      · rw [digits_value_append, digits_value_append, digits_value_zeros, n3]
        simp [digits_value]
    · have hp : D.length - x.scale_.toNat ≤ D.length := Nat.sub_le _ _
      refine ⟨D.take (D.length - x.scale_.toNat), D.drop (D.length - x.scale_.toNat), ?_,
        fun c hc => n2 c (List.mem_of_mem_take hc), ?_,
        fun c hc => n2 c (List.mem_of_mem_drop hc), ?_, fun h => by simp at h, ?_⟩
      · simp only [hle, if_false]
        cases x.neg_ <;> simp
      · intro hnil
        have : (D.take (D.length - x.scale_.toNat)).length = 0 := by rw [hnil]; rfl
        rw [List.length_take] at this
        omega
      · rw [List.length_drop]
        omega
      · rw [List.take_append_drop, n3]

/-- Parsing the string of an ok value that satisfies the invariant gives the value back,
or the canonical zero when the value is zero. -/
theorem init_parse_to_string_num (x : Numeric) (hx : Inv x) (hok : x.err_ = Err.None)
    (rnd : Rounding) :
    init_parse (to_string x) rnd = (if x.mag_ = [] then {} else x) := by
  by_cases hnz : x.mag_ = []
  · rw [if_pos hnz]
    have hokb : x.ok = true := by
      unfold ok
      simp [hok]
    have hz : is_zero_ x = true := by
      unfold is_zero_
      rw [hnz]
      rfl
    unfold to_string
    simp only [hokb, hz, Bool.not_true, Bool.false_eq_true, if_false, if_true]
    cases rnd <;> rfl
  · rw [if_neg hnz]
    obtain ⟨ip, fp, hs, hip, hne, hfp, hlen, hdot, hv⟩ := to_string_parts_num x hx hnz hok
    have hsc : x.scale_ ≤ 16383 := by
      have x4 := hx.2.2.2
      unfold check_limits_ at x4
      split at x4
      · simp at x4
      · have hm : max_frac_digits = 16383 := rfl
        omega
    obtain ⟨p1, p2⟩ := parse_digits_spec (ip ++ fp)
      (Numeric128.is_digit_string_append _ _ hip hfp) [] (by intro l hl; simp at hl)
    rw [hs, init_parse_literal_num _ ip fp _ rnd (by cases x.neg_ <;> simp) hip hne hfp
      (by omega) hdot]
    apply parse_finish_same _ _ x rfl p1 _ hlen _ hx hnz hok
    · rw [p2, hv]
      simp [limbs_value]
    · cases x.neg_ <;> simp

end Numeric

namespace Numeric

theorem div_small_loop_spec (d : Nat) (hd0 : 0 < d) (hd : d < 2 ^ 32) (v : List Nat) :
    ∀ (r : Nat), (∀ l ∈ v, l < base) → r < d →
      (∀ l ∈ (div_small_loop d v r).1, l < base) ∧
      (div_small_loop d v r).1.length = v.length ∧ (div_small_loop d v r).2 < d ∧
      limbs_value (div_small_loop d v r).1.reverse * d + (div_small_loop d v r).2
        = r * base ^ v.length + limbs_value v.reverse := by
  induction v with
  | nil =>
    intro r _ hr
    exact ⟨fun l hl => by simp [div_small_loop] at hl, rfl, hr, by simp [div_small_loop, limbs_value]⟩
  | cons vi rest ih =>
    intro r h hr
    have hvi := h vi (List.mem_cons_self _ _)
    have hb : base = 1000000000 := rfl
    have hlt : vi + r * base < d * base := by
      have : (r + 1) * base ≤ d * base := Nat.mul_le_mul_right _ hr
      rw [Nat.add_mul, Nat.one_mul] at this
      omega
    have hdb : d * base < 2 ^ 64 := by
      rw [hb]
      omega
    have hcur : (vi + r * base) % 2 ^ 64 = vi + r * base := Nat.mod_eq_of_lt (by omega)
    have hq : (vi + r * base) / d < base := by
      rw [Nat.div_lt_iff_lt_mul hd0, Nat.mul_comm base d]
      exact hlt
    have hr1 : (vi + r * base) % d < d := Nat.mod_lt _ hd0
    have hdm := Nat.div_add_mod (vi + r * base) d
    obtain ⟨i1, i2, i3, i4⟩ := ih ((vi + r * base) % d)
      (fun l hl => h l (List.mem_cons_of_mem _ hl)) hr1
    unfold div_small_loop
    simp only [hcur]
    rw [to_u32_small _ (lt_trans hq (by rw [hb]; decide))]
    refine ⟨?_, by simp [i2], i3, ?_⟩
    · intro l hl
      rcases List.mem_cons.mp hl with hl | hl
      · rw [hl]; exact hq
      · exact i1 l hl
    · generalize (vi + r * base) / d = qd at *
      generalize (vi + r * base) % d = r1 at *
      rw [List.reverse_cons, List.reverse_cons, limbs_value_append, limbs_value_append,
        List.length_reverse, List.length_reverse, i2, List.length_cons, Nat.pow_succ]
      simp only [limbs_value, Nat.mul_zero, Nat.add_zero]
      generalize limbs_value (div_small_loop d rest r1).1.reverse = Q at *
      generalize (div_small_loop d rest r1).2 = r2 at *
      generalize limbs_value rest.reverse = L at *
      generalize base ^ rest.length = B at *
      calc (Q + B * qd) * d + r2 = (Q * d + r2) + B * (d * qd + r1) - B * r1 := by
            rw [Nat.mul_add B]
            have e : (Q + B * qd) * d = Q * d + B * (d * qd) := by ring
            rw [e]
            omega
        _ = (r1 * B + L) + B * (vi + r * base) - B * r1 := by rw [i4, hdm]
        _ = r * (B * base) + (L + B * vi) := by
            have e1 : r1 * B = B * r1 := Nat.mul_comm _ _
            have e2 : B * (vi + r * base) = r * (B * base) + B * vi := by ring
            rw [e1, e2]
            omega

/-- Division of a limb vector by a small divisor. -/
theorem div_small_spec (v : List Nat) (d : Nat) (rem : Nat) (hd0 : 0 < d) (hd : d < 2 ^ 32)
    (h : ∀ l ∈ v, l < base) :
    (div_small_ v d rem).1 = true ∧
    (∀ l ∈ (div_small_ v d rem).2.1, l < base) ∧
    (div_small_ v d rem).2.1.getLast? ≠ some 0 ∧
    limbs_value (div_small_ v d rem).2.1 = limbs_value v / d ∧
    (div_small_ v d rem).2.2 = limbs_value v % d := by
  obtain ⟨i1, _, i3, i4⟩ := div_small_loop_spec d hd0 hd v.reverse 0
    (fun l hl => h l (List.mem_reverse.mp hl)) hd0
  rw [List.reverse_reverse, Nat.zero_mul, Nat.zero_add] at i4
  have hne : d ≠ 0 := by omega
  have hq : limbs_value (div_small_loop d v.reverse 0).1.reverse = limbs_value v / d ∧
      (div_small_loop d v.reverse 0).2 = limbs_value v % d := by
    generalize limbs_value (div_small_loop d v.reverse 0).1.reverse = Q at i4
    generalize (div_small_loop d v.reverse 0).2 = r at i3 i4
    have h1 : limbs_value v / d = Q := by
      rw [← i4, Nat.mul_comm, Nat.mul_add_div hd0, Nat.div_eq_of_lt i3, Nat.add_zero]
    have h2 : limbs_value v % d = r := by
      rw [← i4, Nat.mul_comm, Nat.mul_add_mod, Nat.mod_eq_of_lt i3]
    exact ⟨h1.symm, h2.symm⟩
  unfold div_small_
  simp only [hne, if_false]
  refine ⟨trivial, ?_, pop_back_zeros_last _, ?_, ?_⟩
  · intro l hl
    exact i1 l (List.mem_reverse.mp (pop_back_zeros_mem _ l hl))
  · rw [pop_back_zeros_value, hq.1]
  · rw [to_u32_small _ (by omega), hq.2]

theorem add_one_loop_spec (v : List Nat) : ∀ (carry : Nat), (∀ l ∈ v, l < base) →
    carry ≤ 1 →
    (∀ l ∈ (add_one_loop v carry).1, l < base) ∧
    (add_one_loop v carry).1.length = v.length ∧ (add_one_loop v carry).2 ≤ 1 ∧
    limbs_value (add_one_loop v carry).1 + base ^ v.length * (add_one_loop v carry).2
      = limbs_value v + carry := by
  have hb : base = 1000000000 := rfl
  induction v with
  | nil =>
    intro carry _ hc
    exact ⟨fun l hl => by simp [add_one_loop] at hl, rfl, hc, by simp [add_one_loop, limbs_value]⟩
  | cons x xs ih =>
    intro carry h hc
    have hx := h x (List.mem_cons_self _ _)
    have hxs : ∀ l ∈ xs, l < base := fun l hl => h l (List.mem_cons_of_mem _ hl)
    rw [hb] at hx
    have hcur : (x + carry) % 2 ^ 64 = x + carry := Nat.mod_eq_of_lt (by omega)
    have hm : (x + carry) % base < base := Nat.mod_lt _ (by rw [hb]; decide)
    have hm32 : (x + carry) % base < 2 ^ 32 := lt_trans hm (by rw [hb]; decide)
    have hq : (x + carry) / base ≤ 1 := by rw [hb]; omega
    have hdm := Nat.div_add_mod (x + carry) base
    unfold add_one_loop
    simp only [hcur]
    rw [to_u32_small _ hm32]
    by_cases h0 : (x + carry) / base = 0
    · simp only [h0, if_true]
      refine ⟨?_, by simp, by omega, ?_⟩
      · intro l hl
        rcases List.mem_cons.mp hl with hl | hl
        · rw [hl]; exact hm
        · exact hxs l hl
      · rw [h0] at hdm
        simp only [limbs_value, Nat.mul_zero, Nat.add_zero]
        omega
    · simp only [h0, if_false]
      obtain ⟨i1, i2, i3, i4⟩ := ih ((x + carry) / base) hxs hq
      refine ⟨?_, by simp [i2], i3, ?_⟩
      · intro l hl
        rcases List.mem_cons.mp hl with hl | hl
        · rw [hl]; exact hm
        · exact i1 l hl
      · generalize (x + carry) / base = q at *
        generalize (x + carry) % base = m at *
        calc limbs_value (m :: (add_one_loop xs q).1)
              + base ^ (x :: xs).length * (add_one_loop xs q).2
            = m + base * (limbs_value (add_one_loop xs q).1
                + base ^ xs.length * (add_one_loop xs q).2) := by
              simp only [limbs_value, List.length_cons, Nat.pow_succ]
              ring
          _ = m + base * (limbs_value xs + q) := by rw [i4]
          _ = limbs_value (x :: xs) + carry := by
              simp only [limbs_value]
              rw [hb] at hdm ⊢
              omega

/-- The increment of a limb vector. -/
theorem add_one_spec (v : List Nat) (h : ∀ l ∈ v, l < base) :
    (∀ l ∈ add_one_ v, l < base) ∧ limbs_value (add_one_ v) = limbs_value v + 1 := by
  obtain ⟨i1, i2, i3, i4⟩ := add_one_loop_spec v 1 h (le_refl 1)
  have hb : base = 1000000000 := rfl
  unfold add_one_
  simp only
  split
  · have hc : to_u32 (add_one_loop v 1).2 = (add_one_loop v 1).2 := to_u32_small _ (by omega)
    rw [hc]
    refine ⟨?_, ?_⟩
    · intro l hl
      rcases List.mem_append.mp hl with hl | hl
      · exact i1 l hl
      · rw [List.mem_singleton.mp hl, hb]
        omega
    · rw [limbs_value_append, i2]
      simp only [limbs_value, Nat.mul_zero, Nat.add_zero]
      exact i4
  · rename_i hz
    have hz2 : (add_one_loop v 1).2 = 0 := by simpa using hz
    rw [hz2] at i4
    exact ⟨i1, by simpa using i4⟩

end Numeric

namespace Numeric

/-- The end of the parser when the limbs read stand for a positive number: the trimmed
limbs are kept, and the limits decide between ok and `Overflow`. -/
theorem parse_finish_nonzero (neg : Bool) (st : ParseState) (hany : st.any = true)
    (hpos : 0 < limbs_value st.mag_) :
    parse_finish neg st
      = if check_limits_ ⟨pop_back_zeros st.mag_, st.scale_, neg, Err.None⟩ = true
        then ⟨pop_back_zeros st.mag_, st.scale_, neg, Err.None⟩
        else set_error_ ⟨pop_back_zeros st.mag_, st.scale_, neg, Err.None⟩ Err.Overflow := by
  have hv := pop_back_zeros_value st.mag_
  have hne : pop_back_zeros st.mag_ ≠ [] := by
    intro h
    rw [h] at hv
    simp only [limbs_value] at hv
    omega
  have hemp : (pop_back_zeros st.mag_).isEmpty = false := by
    cases hm : pop_back_zeros st.mag_ with
    | nil => exact absurd hm hne
    | cons a as => rfl
  have hz : is_zero_ ⟨pop_back_zeros st.mag_, st.scale_, neg, Err.None⟩ = false := by
    rw [← Bool.not_eq_true, is_zero_iff, hv]
    omega
  unfold parse_finish normalize_
  simp only [hany, Bool.not_true, Bool.false_eq_true, if_false, hemp, hz]
  split <;> simp_all

/-- The limits on a non-empty trimmed vector, in terms of its value: the number of integer
digits is at most 131072 exactly when the value is below `10 ^ (131072 + scale)`. -/
theorem check_limits_iff (y : Numeric) (hne : y.mag_ ≠ []) (h : ∀ l ∈ y.mag_, l < base)
    (hl : y.mag_.getLast? ≠ some 0) (hs0 : 0 ≤ y.scale_) (hs1 : y.scale_ ≤ 16383) :
    check_limits_ y = true ↔ limbs_value y.mag_ < 10 ^ (131072 + y.scale_.toNat) := by
  obtain ⟨k, hk, k1, klo, khi⟩ := decimal_digits_spec y hne h hl
  have hemp : y.mag_.isEmpty = false := by
    cases hm : y.mag_ with
    | nil => exact absurd hm hne
    | cons a as => rfl
  have hm : max_frac_digits = 16383 := rfl
  have hi : max_int_digits = 131072 := rfl
  have hrange : ¬ (y.scale_ < 0 ∨ y.scale_ > max_frac_digits) := by omega
  unfold check_limits_
  simp only [hrange, if_false, hemp, Bool.false_eq_true, hk, hi, decide_eq_true_eq]
  constructor
  · intro hle
    have : k ≤ 131072 + y.scale_.toNat := by omega
    exact lt_of_lt_of_le khi (Nat.pow_le_pow_right (by decide) this)
  · intro hlt
    have h1 : 10 ^ (k - 1) < 10 ^ (131072 + y.scale_.toNat) := lt_of_le_of_lt klo hlt
    have h2 := (Nat.pow_lt_pow_iff_right (by decide : 1 < 10)).mp h1
    omega

/-- A string of digits that denotes at least `10 ^ 131072` gives `Overflow`. -/
theorem init_parse_huge (ds : List Char) (rnd : Rounding) (hds : is_digit_string ds)
    (hbig : 10 ^ 131072 ≤ digits_value ds) : (init_parse ds rnd).err_ = Err.Overflow := by
  have hne : ds ≠ [] := by
    intro h
    rw [h] at hbig
    have h1 : digits_value [] = 0 := rfl
    have h2 : 0 < 10 ^ 131072 := pow_pos (by decide : (0 : Nat) < 10) 131072
    omega
  obtain ⟨p1, p2⟩ := parse_digits_spec ds hds [] (by intro l hl; simp at hl)
  have hlit := init_parse_literal_num [] ds [] false rnd (Or.inl rfl) hds hne
    (by intro c hc; simp at hc) (by simp) (fun _ => rfl)
  simp only [Bool.false_eq_true, if_false, List.append_nil, List.nil_append] at hlit
  have hval : limbs_value (parse_digits [] ds) = digits_value ds := by
    rw [p2]
    simp [limbs_value]
  have hpos : 0 < limbs_value (parse_digits [] ds) := by
    rw [hval]
    exact lt_of_lt_of_le (Nat.pos_pow_of_pos _ (by decide)) hbig
  rw [hlit, parse_finish_nonzero _ _ rfl hpos]
  have hcl : ¬ check_limits_
      ⟨pop_back_zeros (parse_digits [] ds), ((([] : List Char).length : Nat) : Int),
        decide (([] : List Char) = ['-']), Err.None⟩ = true := by
    rw [check_limits_iff _ (by
        intro h
        have h2 : pop_back_zeros (parse_digits [] ds) = [] := h
        have := pop_back_zeros_value (parse_digits [] ds)
        rw [h2] at this
        simp only [limbs_value] at this
        omega)
      (fun l hl => p1 l (pop_back_zeros_mem _ l hl)) (pop_back_zeros_last _)
      (by simp) (by simp)]
    simp only [pop_back_zeros_value, hval, List.length_nil, Nat.cast_zero, Int.toNat_zero,
      Nat.add_zero, not_lt]
    exact hbig
  rw [if_neg hcl]
  rfl

theorem digits_value_nines (n : Nat) : digits_value (List.replicate n '9') + 1 = 10 ^ n := by
  induction n with
  | zero => rfl
  | succ n ih =>
    rw [List.replicate_succ', digits_value_snoc, Nat.pow_succ]
    have : '9'.toNat - '0'.toNat = 9 := by decide
    rw [this]
    omega

end Numeric

namespace Numeric

theorem limbs_value_mod10 (v : List Nat) : limbs_value v % 10 = v.getD 0 0 % 10 := by
  cases v with
  | nil => rfl
  | cons a as =>
    simp only [limbs_value, List.getD_cons_zero]
    rw [base_eq]
    omega

/-- Member `rescale` with `HalfUp` from scale `ns + 1` to scale `ns`, on an ok value with
limbs below `base`: the last digit is dropped and the value is incremented when that digit
is at least 5; the flag is `check_limits_` of the object left behind. -/
theorem rescale_one_digit (x : Numeric) (ns : Int) (hok : x.err_ = Err.None)
    (h : ∀ l ∈ x.mag_, l < base) (hne : x.mag_ ≠ []) (hs : x.scale_ = ns + 1)
    (h0 : 0 ≤ ns) (h1 : ns ≤ 16383) :
    ∃ m : List Nat, (∀ l ∈ m, l < base) ∧ m.getLast? ≠ some 0 ∧
      limbs_value m = limbs_value x.mag_ / 10
        + (if 5 ≤ limbs_value x.mag_ % 10 then 1 else 0) ∧
      rescale x ns Rounding.HalfUp
        = (check_limits_ (if m.isEmpty = true
              then { x with mag_ := m, neg_ := false, scale_ := 0 }
              else { x with mag_ := m, scale_ := ns }),
           if m.isEmpty = true then { x with mag_ := m, neg_ := false, scale_ := 0 }
           else { x with mag_ := m, scale_ := ns }) := by
  obtain ⟨_, d2, d3, d4, _⟩ := div_small_spec x.mag_ 10 0 (by decide) (by decide) h
  have hm : max_frac_digits = 16383 := rfl
  have hokb : x.ok = true := by
    unfold ok
    simp [hok]
  have hrange : ¬ (ns < 0 ∨ ns > max_frac_digits) := by omega
  have hneq : ¬ (ns = x.scale_) := by omega
  have hngt : ¬ (ns > x.scale_) := by omega
  have hcut : x.scale_ - ns = 1 := by omega
  have hq : Int.tdiv 1 base_digits = 0 := by decide
  have hr : Int.tmod 1 base_digits = 1 := by decide
  have hp1 : pow10_u32_ 1 = 10 := by decide
  have hp0 : pow10_u32_ (1 - 1) = 1 := by decide
  have hlen : (0 : Int).toNat < x.mag_.length := by
    cases hm2 : x.mag_ with
    | nil => exact absurd hm2 hne
    | cons a as => simp
  have hemp : x.mag_.isEmpty = false := by
    cases hm2 : x.mag_ with
    | nil => exact absurd hm2 hne
    | cons a as => rfl
  have hguard : x.mag_.getD (0 : Int).toNat 0 % 10 / 1 % 10 = limbs_value x.mag_ % 10 := by
    rw [limbs_value_mod10]
    simp
  have hpz : pop_back_zeros (div_small_ x.mag_ 10 0).2.1 = (div_small_ x.mag_ 10 0).2.1 :=
    pop_back_zeros_id _ d3
  by_cases hg : 5 ≤ limbs_value x.mag_ % 10
  · obtain ⟨a1, a2⟩ := add_one_spec (div_small_ x.mag_ 10 0).2.1 d2
    refine ⟨pop_back_zeros (add_one_ (div_small_ x.mag_ 10 0).2.1),
      fun l hl => a1 l (pop_back_zeros_mem _ l hl), pop_back_zeros_last _, ?_, ?_⟩
    · rw [pop_back_zeros_value, a2, d4, if_pos hg]
    · unfold rescale rescale_
      simp only [hokb, Bool.not_true, Bool.false_eq_true, if_false, hrange, hneq, hngt, hcut,
        hq, hr, hp1, hp0, hlen, if_true, hemp, hguard, hpz, hg, Int.lt_irrefl,
        one_ne_zero, zero_lt_one, Bool.not_false, and_self, ge_iff_le, gt_iff_lt]
  · refine ⟨(div_small_ x.mag_ 10 0).2.1, d2, d3, ?_, ?_⟩
    · rw [d4, if_neg hg]
      rfl
    · unfold rescale rescale_
      simp only [hokb, Bool.not_true, Bool.false_eq_true, if_false, hrange, hneq, hngt, hcut,
        hq, hr, hp1, hp0, hlen, if_true, hemp, hguard, hpz, hg, Int.lt_irrefl,
        one_ne_zero, zero_lt_one, Bool.not_false, and_self, ge_iff_le, gt_iff_lt, and_false]

/-- The value `99...9.5` with `n` nines, read from its string. -/
theorem init_parse_nines (n : Nat) (hn : n ≤ 131072) (rnd : Rounding) :
    ∃ m : List Nat, (∀ l ∈ m, l < base) ∧ m ≠ [] ∧ limbs_value m + 5 = 10 ^ (n + 1) ∧
      init_parse (List.replicate n '9' ++ ['.', '5']) rnd = ⟨m, 1, false, Err.None⟩ := by
  have hd9 : is_digit_string (List.replicate n '9') := by
    intro c hc
    rw [List.eq_of_mem_replicate hc]
    decide
  have hd5 : is_digit_string ['5'] := by decide
  have hT := digits_value_nines n
  have hTle : 10 ^ n ≤ 10 ^ 131072 := pow_le_pow_right₀ (by decide : (1 : Nat) ≤ 10) hn
  obtain ⟨p1, p2⟩ := parse_digits_spec (List.replicate n '9' ++ ['5'])
    (Numeric128.is_digit_string_append _ _ hd9 hd5) [] (by intro l hl; simp at hl)
  have hval : limbs_value (parse_digits [] (List.replicate n '9' ++ ['5'])) + 5
      = 10 ^ (n + 1) := by
    rw [p2, digits_value_snoc, Nat.pow_succ]
    have : '5'.toNat - '0'.toNat = 5 := by decide
    rw [this]
    simp only [limbs_value, Nat.zero_mul, Nat.zero_add]
    omega
  have hpos : 0 < limbs_value (parse_digits [] (List.replicate n '9' ++ ['5'])) := by
    rw [Nat.pow_succ] at hval
    have : 0 < 10 ^ n := Nat.pos_pow_of_pos _ (by decide)
    omega
  by_cases h0 : n = 0
  · subst h0
    exact ⟨[5], by decide, by simp, by decide, by cases rnd <;> rfl⟩
  · have hne : List.replicate n '9' ≠ [] := by
      intro h
      have := congrArg List.length h
      rw [List.length_replicate] at this
      exact h0 this
    have hlit := init_parse_literal_num [] (List.replicate n '9') ['5'] true rnd (Or.inl rfl)
      hd9 hne hd5 (by simp) (fun h => by simp at h)
    have hs : ([] : List Char) ++ (List.replicate n '9' ++ (if true = true then '.' :: ['5'] else []))
        = List.replicate n '9' ++ ['.', '5'] := rfl
    rw [hs] at hlit
    have hmne : pop_back_zeros (parse_digits [] (List.replicate n '9' ++ ['5'])) ≠ [] := by
      intro h
      have := pop_back_zeros_value (parse_digits [] (List.replicate n '9' ++ ['5']))
      rw [h] at this
      simp only [limbs_value] at this
      omega
    refine ⟨pop_back_zeros (parse_digits [] (List.replicate n '9' ++ ['5'])),
      fun l hl => p1 l (pop_back_zeros_mem _ l hl), hmne, ?_, ?_⟩
    · rw [pop_back_zeros_value]
      exact hval
    · rw [hlit, parse_finish_nonzero _ _ rfl hpos]
      have hcl : check_limits_
          ⟨pop_back_zeros (parse_digits [] (List.replicate n '9' ++ ['5'])),
            ((['5'].length : Nat) : Int), decide (([] : List Char) = ['-']), Err.None⟩ = true := by
        rw [check_limits_iff _ hmne (fun l hl => p1 l (pop_back_zeros_mem _ l hl))
          (pop_back_zeros_last _) (by simp) (by simp)]
        simp only [pop_back_zeros_value, List.length_singleton, Nat.cast_one, Int.toNat_one]
        rw [Nat.pow_succ] at hval ⊢
        omega
      rw [if_pos hcl]
      rfl

/-- The scenario of the failed `rescale`: the value `99...9.5` with 131072 nines is ok;
`rescale(0, HalfUp)` rounds it up to `10^131072`, which has 131073 integer digits, returns
`false` and leaves that value in the object, still ok; the string of the object is
rejected by the parser with `Overflow`. -/
theorem failed_rescale_scenario (n : Nat) (hn : n = 131072) (rnd : Rounding) :
    (init_parse (List.replicate n '9' ++ ['.', '5']) rnd).ok = true ∧
    (rescale (init_parse (List.replicate n '9' ++ ['.', '5']) rnd) 0 Rounding.HalfUp).1
      = false ∧
    (rescale (init_parse (List.replicate n '9' ++ ['.', '5']) rnd) 0 Rounding.HalfUp).2.ok
      = true ∧
    (init_parse (to_string
      (rescale (init_parse (List.replicate n '9' ++ ['.', '5']) rnd) 0 Rounding.HalfUp).2)
        rnd).err_ = Err.Overflow := by
  obtain ⟨m0, hm0, hne0, hv0, hx0⟩ := init_parse_nines n (by omega) rnd
  rw [hx0]
  have hT : 0 < 10 ^ n := Nat.pos_pow_of_pos _ (by decide)
  rw [Nat.pow_succ] at hv0
  obtain ⟨m, hm, hl, hv, hres⟩ := rescale_one_digit ⟨m0, 1, false, Err.None⟩ 0 rfl hm0 hne0
    rfl (le_refl 0) (by decide)
  simp only at hv hres
  have hvm : limbs_value m = 10 ^ n := by
    rw [hv]
    have h5 : limbs_value m0 % 10 = 5 := by omega
    rw [h5]
    simp only [le_refl, if_true]
    omega
  have hmne : m ≠ [] := by
    intro h
    rw [h] at hvm
    simp only [limbs_value] at hvm
    omega
  have hemp : m.isEmpty = false := by
    cases hm2 : m with
    | nil => exact absurd hm2 hmne
    | cons a as => rfl
  simp only [hemp, Bool.false_eq_true, if_false] at hres
  have hcl : check_limits_ ⟨m, 0, false, Err.None⟩ = false := by
    rw [← Bool.not_eq_true, check_limits_iff _ hmne hm hl (le_refl 0)
      (by show (0 : Int) ≤ 16383; decide)]
    simp only [Int.toNat_zero, Nat.add_zero, not_lt]
    rw [hvm, hn]
  rw [hres, hcl]
  refine ⟨rfl, rfl, rfl, ?_⟩
  obtain ⟨⟨_, n2, n3, _⟩, _⟩ := mag_to_decimal_spec ⟨m, 0, false, Err.None⟩ hmne hm hl
  have hz : is_zero_ ⟨m, 0, false, Err.None⟩ = false := by
    rw [← Bool.not_eq_true, is_zero_iff]
    simp only
    omega
  have hstr : to_string ⟨m, 0, false, Err.None⟩ = mag_to_decimal_ ⟨m, 0, false, Err.None⟩ := by
    unfold to_string
    have hokb : (⟨m, 0, false, Err.None⟩ : Numeric).ok = true := rfl
    simp only [hokb, hz, Bool.not_true, Bool.false_eq_true, if_false, if_true]
  rw [hstr]
  apply init_parse_huge _ rnd n2
  rw [n3]
  simp only
  rw [hvm, hn]

/-- An ok value that satisfies the invariant is equal, by `operator==`, to the value parsed
from its string. -/
theorem round_trip_eq (x : Numeric) (hx : Inv x) (hok : x.err_ = Err.None) (rnd : Rounding) :
    (init_parse (to_string x) rnd).ok = true ∧ eq (init_parse (to_string x) rnd) x = true := by
  have hokb : x.ok = true := by
    unfold ok
    simp [hok]
  rw [init_parse_to_string_num x hx hok rnd]
  by_cases hnz : x.mag_ = []
  · rw [if_pos hnz]
    refine ⟨rfl, ?_⟩
    have hz : is_zero_ x = true := by
      unfold is_zero_
      rw [hnz]
      rfl
    have hz0 : is_zero_ ({} : Numeric) = true := rfl
    have hok0 : ({} : Numeric).ok = true := rfl
    unfold eq
    simp only [hok0, hokb, hz0, hz, Bool.not_true, Bool.or_self, Bool.false_eq_true, if_false,
      Bool.and_self, if_true]
  · rw [if_neg hnz]
    refine ⟨hokb, ?_⟩
    unfold eq
    simp [hokb]

end Numeric

/-! ## Lemmas: multiplication, division and shifts of the 256-bit integers -/

theorem testBit_high (x n j : Nat) (h : x < 2 ^ n) (hj : n ≤ j) : x.testBit j = false :=
  Nat.testBit_lt_two_pow (lt_of_lt_of_le h (Nat.pow_le_pow_right (by decide) hj))

namespace uint128

theorem to_wide_testBit (v : uint128) (h : v.WF) (i : Nat) :
    (to_wide v).testBit i = if i < 64 then v.lo_.testBit i else v.hi_.testBit (i - 64) := by
  unfold to_wide
  rw [Nat.mul_comm]
  exact Nat.testBit_mul_pow_two_add _ h.2 i

theorem shl64_testBit (x s i : Nat) :
    (shl64 x s).testBit i = (decide (i < 64) && (decide (s ≤ i) && x.testBit (i - s))) := by
  unfold shl64
  rw [Nat.testBit_mod_two_pow, ← Nat.shiftLeft_eq, Nat.testBit_shiftLeft]

theorem div_testBit (x s i : Nat) : (x / 2 ^ s).testBit i = x.testBit (s + i) := by
  rw [← Nat.shiftRight_eq_div_pow, Nat.testBit_shiftRight]

theorem shr_to_wide (v : uint128) (h : v.WF) (s : Int) (hs : 0 ≤ s) :
    to_wide (shr v s) = to_wide v / 2 ^ s.toNat := by
  obtain ⟨n, rfl⟩ := Int.eq_ofNat_of_zero_le hs
  simp only [Int.toNat_ofNat]
  apply Nat.eq_of_testBit_eq
  intro i
  rw [div_testBit, to_wide_testBit _ h]
  unfold shr
  split
  · have : n = 0 := by omega
    subst this
    simp [to_wide_testBit _ h]
  split
  · have h1 : 128 ≤ n := by omega
    have := testBit_high _ 64 (n + i - 64) h.1 (by omega)
    simp [to_wide]
    split
    · omega
    · exact this
  split
  · have h1 : 64 ≤ n := by omega
    have h2 : ((n : Int) - 64).toNat = n - 64 := by omega
    simp only [to_wide, h2, Nat.zero_mul, Nat.zero_add, div_testBit]
    rw [if_neg (by omega)]
    congr 1
    omega
  · have h1 : n < 64 := by omega
    have h0 : 0 < n := by omega
    have h2 : (64 - (n : Int)).toNat = 64 - n := by omega
    have hwf : (⟨v.hi_ / 2 ^ n, v.lo_ / 2 ^ n ||| shl64 v.hi_ (64 - n)⟩ : uint128).WF := by
      constructor
      · exact lt_of_le_of_lt (Nat.div_le_self _ _) h.1
      · apply Nat.or_lt_two_pow
        · exact lt_of_le_of_lt (Nat.div_le_self _ _) h.2
        · exact Nat.mod_lt _ (Nat.two_pow_pos 64)
    simp only [Int.toNat_ofNat, h2]
    rw [to_wide_testBit _ hwf]
    simp only [Nat.testBit_or, div_testBit, shl64_testBit]
    by_cases c1 : i < 64
    · by_cases c2 : n + i < 64
      · simp [c1, c2]
        intro _ hh
        omega
      · have := testBit_high _ 64 (n + i) h.2 (by omega)
        simp [c1, c2, this]
        have e : i - (64 - n) = n + i - 64 := by omega
        rw [e]
        simp
        intro hh
        omega
    · have e : n + (i - 64) = n + i - 64 := by omega
      simp only [c1, e, if_false]
      rw [if_neg (by omega)]

theorem shr_testBit (v : uint128) (h : v.WF) (n i : Nat) :
    (to_wide (shr v (n : Int))).testBit i = (to_wide v).testBit (n + i) := by
  rw [shr_to_wide v h _ (Int.ofNat_nonneg n), Int.toNat_ofNat, div_testBit]

theorem to_wide_high (v : uint128) (h : v.WF) (i : Nat) (hi : 128 ≤ i) :
    (to_wide v).testBit i = false := by
  apply testBit_high _ 128 i _ hi
  unfold to_wide
  have := h.1
  have := h.2
  omega

theorem shl_testBit (v : uint128) (h : v.WF) (n i : Nat) :
    (to_wide (shl v (n : Int))).testBit i
      = (decide (i < 128) && (decide (n ≤ i) && (to_wide v).testBit (i - n))) := by
  unfold shl
  split
  · have : n = 0 := by omega
    subst this
    by_cases c : i < 128
    · simp [c]
    · simp [c, to_wide_high v h i (by omega)]
  split
  · have h1 : 128 ≤ n := by omega
    simp [to_wide]
    intro _ _
    omega
  split
  · have h1 : 64 ≤ n := by omega
    have h2 : ((n : Int) - 64).toNat = n - 64 := by omega
    have hwf : (⟨shl64 v.lo_ (n - 64), 0⟩ : uint128).WF :=
      ⟨Nat.mod_lt _ (Nat.two_pow_pos 64), Nat.two_pow_pos 64⟩
    rw [h2, to_wide_testBit _ hwf, to_wide_testBit _ h]
    simp only [shl64_testBit, Nat.zero_testBit]
    by_cases c1 : i < 64
    · simp [c1]
      intro _ _
      omega
    · by_cases c2 : i < 128
      · by_cases c3 : n ≤ i
        · have e : i - 64 - (n - 64) = i - n := by omega
          have d1 : i - 64 < 64 := by omega
          have d2 : n ≤ i - 64 + 64 := by omega
          have d3 : i - n < 64 := by omega
          simp [c1, c2, c3, e, d1, d2, d3]
        · simp [c1, c2, c3]
          intro _ _
          omega
      · simp [c1, c2]
        intro _
        omega
  · have h1 : n < 64 := by omega
    have h0 : 0 < n := by omega
    have h2 : (64 - (n : Int)).toNat = 64 - n := by omega
    have hwf : (⟨shl64 v.hi_ n ||| v.lo_ / 2 ^ (64 - n), shl64 v.lo_ n⟩ : uint128).WF := by
      constructor
      · apply Nat.or_lt_two_pow
        · exact Nat.mod_lt _ (Nat.two_pow_pos 64)
        · exact lt_of_le_of_lt (Nat.div_le_self _ _) h.2
      · exact Nat.mod_lt _ (Nat.two_pow_pos 64)
    simp only [Int.toNat_ofNat, h2]
    rw [to_wide_testBit _ hwf, to_wide_testBit _ h]
    simp only [Nat.testBit_or, div_testBit, shl64_testBit]
    by_cases c1 : i < 64
    · by_cases c3 : n ≤ i
      · have d1 : i < 128 := by omega
        have d2 : i - n < 64 := by omega
        simp [c1, c3, d1, d2]
      · simp [c1, c3]
    · by_cases c2 : i < 128
      · have c3 : n ≤ i - 64 ∨ i - 64 < n := by omega
        rcases c3 with c3 | c3
        · have e : i - 64 - n = i - n - 64 := by omega
          have := testBit_high _ 64 (64 - n + (i - 64)) h.2 (by omega)
          have d1 : i - 64 < 64 := by omega
          have d2 : n ≤ i := by omega
          have d3 : ¬ i - n < 64 := by omega
          simp [c1, c2, c3, e, this, d1, d2, d3]
        · have e : 64 - n + (i - 64) = i - n := by omega
          have c4 : ¬ n ≤ i - 64 := by omega
          have d2 : n ≤ i := by omega
          have d3 : i - n < 64 := by omega
          simp [c1, c2, c4, e, d2, d3]
      · have := testBit_high _ 64 (64 - n + (i - 64)) h.2 (by omega)
        simp [c1, c2, this]
        intro _
        omega

theorem or_to_wide (a b : uint128) (ha : a.WF) (hb : b.WF) :
    to_wide (or a b) = to_wide a ||| to_wide b := by
  have hwf : (or a b).WF := ⟨Nat.or_lt_two_pow ha.1 hb.1, Nat.or_lt_two_pow ha.2 hb.2⟩
  apply Nat.eq_of_testBit_eq
  intro i
  rw [Nat.testBit_or, to_wide_testBit _ hwf, to_wide_testBit _ ha, to_wide_testBit _ hb]
  unfold or
  by_cases c : i < 64 <;> simp [c]

end uint128

namespace uint256

theorem toNat_testBit (v : uint256) (h : v.WF) (i : Nat) :
    (toNat v).testBit i
      = if i < 128 then (v.lo_.to_wide).testBit i else (v.hi_.to_wide).testBit (i - 128) := by
  unfold toNat
  rw [Nat.mul_comm]
  exact Nat.testBit_mul_pow_two_add _ (uint128.to_wide_lt _ h.2) i

theorem toNat_high (v : uint256) (h : v.WF) (i : Nat) (hi : 256 ≤ i) :
    (toNat v).testBit i = false :=
  testBit_high _ 256 i (toNat_lt v h) hi

theorem shr_WF256 (v : uint256) (h : v.WF) (shift : Int) : (shr v shift).WF := by
  unfold shr
  repeat' split
  · exact h
  · exact ⟨⟨Nat.two_pow_pos 64, Nat.two_pow_pos 64⟩, Nat.two_pow_pos 64, Nat.two_pow_pos 64⟩
  · exact ⟨⟨Nat.two_pow_pos 64, Nat.two_pow_pos 64⟩, uint128.shr_WF _ h.1 _⟩
  · exact ⟨uint128.shr_WF _ h.1 _,
      uint128.or_WF _ _ (uint128.shr_WF _ h.2 _) (uint128.shl_WF _ h.1 _)⟩

theorem shr_testBit256 (v : uint256) (h : v.WF) (n i : Nat) :
    (toNat (shr v (n : Int))).testBit i = (toNat v).testBit (n + i) := by
  have hwf := shr_WF256 v h n
  by_cases a1 : (n : Int) ≤ 0
  · have : n = 0 := by omega
    subst this
    have e : shr v ((0 : Nat) : Int) = v := by unfold shr; rw [if_pos a1]
    rw [e, Nat.zero_add]
  by_cases a2 : 256 ≤ (n : Int)
  · have e : shr v (n : Int) = ⟨⟨0, 0⟩, ⟨0, 0⟩⟩ := by unfold shr; rw [if_neg a1, if_pos a2]
    rw [e, toNat_high v h _ (by omega)]
    simp [toNat, uint128.to_wide]
  by_cases a3 : 128 ≤ (n : Int)
  · have e : shr v (n : Int) = ⟨⟨0, 0⟩, uint128.shr v.hi_ ((n : Int) - 128)⟩ := by
      unfold shr; rw [if_neg a1, if_neg a2, if_pos a3]
    rw [e] at hwf ⊢
    rw [toNat_testBit _ hwf, toNat_testBit _ h]
    have h1 : 128 ≤ n := by omega
    have e1 : ((n : Int) - 128) = ((n - 128 : Nat) : Int) := by omega
    have d1 : ¬ n + i < 128 := by omega
    simp only [e1, d1, if_false]
    by_cases c1 : i < 128
    · have e : n - 128 + i = n + i - 128 := by omega
      simp [c1, uint128.shr_testBit _ h.1, e]
    · have := uint128.to_wide_high v.hi_ h.1 (n + i - 128) (by omega)
      have z : (⟨0, 0⟩ : uint128).to_wide = 0 := rfl
      simp [c1, z, this]
  · have e : shr v (n : Int) = ⟨uint128.shr v.hi_ n,
        uint128.or (uint128.shr v.lo_ n) (uint128.shl v.hi_ (128 - (n : Int)))⟩ := by
      unfold shr; rw [if_neg a1, if_neg a2, if_neg a3]
    rw [e] at hwf ⊢
    rw [toNat_testBit _ hwf, toNat_testBit _ h]
    have h1 : n < 128 := by omega
    have h0 : 0 < n := by omega
    have e1 : (128 - (n : Int)) = ((128 - n : Nat) : Int) := by omega
    simp only [e1]
    rw [uint128.or_to_wide _ _ (uint128.shr_WF _ h.2 _) (uint128.shl_WF _ h.1 _)]
    simp only [Nat.testBit_or, uint128.shr_testBit _ h.1, uint128.shr_testBit _ h.2,
      uint128.shl_testBit _ h.1]
    by_cases c1 : i < 128
    · by_cases c2 : n + i < 128
      · have d1 : ¬ 128 - n ≤ i := by omega
        simp [c1, c2, d1]
      · have d1 : 128 - n ≤ i := by omega
        have e : i - (128 - n) = n + i - 128 := by omega
        have := uint128.to_wide_high v.lo_ h.2 (n + i) (by omega)
        simp [c1, c2, d1, e, this]
    · have d1 : ¬ n + i < 128 := by omega
      have e : n + (i - 128) = n + i - 128 := by omega
      simp [c1, d1, e]

theorem shr_toNat (v : uint256) (h : v.WF) (s : Int) (hs : 0 ≤ s) :
    toNat (shr v s) = toNat v / 2 ^ s.toNat := by
  obtain ⟨n, rfl⟩ := Int.eq_ofNat_of_zero_le hs
  apply Nat.eq_of_testBit_eq
  intro i
  rw [shr_testBit256 v h, Int.toNat_ofNat, uint128.div_testBit]

theorem shl_testBit256 (v : uint256) (h : v.WF) (n i : Nat) :
    (toNat (shl v (n : Int))).testBit i
      = (decide (i < 256) && (decide (n ≤ i) && (toNat v).testBit (i - n))) := by
  have hwf := shl_WF256 v h n
  by_cases a1 : (n : Int) ≤ 0
  · have : n = 0 := by omega
    subst this
    have e : shl v ((0 : Nat) : Int) = v := by unfold shl; rw [if_pos a1]
    rw [e]
    by_cases c2 : i < 256
    · simp [c2]
    · simp [c2, toNat_high v h i (by omega)]
  by_cases a2 : 256 ≤ (n : Int)
  · have e : shl v (n : Int) = ⟨⟨0, 0⟩, ⟨0, 0⟩⟩ := by unfold shl; rw [if_neg a1, if_pos a2]
    rw [e]
    simp [toNat, uint128.to_wide]
    intro _ _
    omega
  by_cases a3 : 128 ≤ (n : Int)
  · have e : shl v (n : Int) = ⟨uint128.shl v.lo_ ((n : Int) - 128), ⟨0, 0⟩⟩ := by
      unfold shl; rw [if_neg a1, if_neg a2, if_pos a3]
    rw [e] at hwf ⊢
    rw [toNat_testBit _ hwf, toNat_testBit _ h]
    have h1 : 128 ≤ n := by omega
    have e1 : ((n : Int) - 128) = ((n - 128 : Nat) : Int) := by omega
    simp only [e1]
    by_cases c1 : i < 128
    · have d1 : ¬ n ≤ i := by omega
      simp [c1, d1, uint128.to_wide]
    · by_cases c2 : i < 256
      · by_cases c3 : n ≤ i
        · have d1 : i - 128 < 128 := by omega
          have d2 : n - 128 ≤ i - 128 := by omega
          have d3 : i - n < 128 := by omega
          have e : i - 128 - (n - 128) = i - n := by omega
          simp [c1, c2, c3, d1, d2, d3, e, uint128.shl_testBit _ h.2]
        · have d2 : ¬ n - 128 ≤ i - 128 := by omega
          simp [c1, c2, c3, d2, uint128.shl_testBit _ h.2]
      · have d1 : ¬ i - 128 < 128 := by omega
        simp [c1, c2, d1, uint128.shl_testBit _ h.2]
  · have e : shl v (n : Int) = ⟨uint128.or (uint128.shl v.hi_ n)
        (uint128.shr v.lo_ (128 - (n : Int))), uint128.shl v.lo_ n⟩ := by
      unfold shl; rw [if_neg a1, if_neg a2, if_neg a3]
    rw [e] at hwf ⊢
    rw [toNat_testBit _ hwf, toNat_testBit _ h]
    have h1 : n < 128 := by omega
    have h0 : 0 < n := by omega
    have e1 : (128 - (n : Int)) = ((128 - n : Nat) : Int) := by omega
    simp only [e1]
    rw [uint128.or_to_wide _ _ (uint128.shl_WF _ h.1 _) (uint128.shr_WF _ h.2 _)]
    simp only [Nat.testBit_or, uint128.shr_testBit _ h.2,
      uint128.shl_testBit _ h.1, uint128.shl_testBit _ h.2]
    by_cases c1 : i < 128
    · have d0 : i < 256 := by omega
      by_cases c3 : n ≤ i
      · have d1 : i - n < 128 := by omega
        simp [c1, c3, d0, d1]
      · simp [c1, c3]
    · by_cases c2 : i < 256
      · have d0 : i - 128 < 128 := by omega
        have d5 : n ≤ i := by omega
        by_cases c3 : n ≤ i - 128
        · have d1 : ¬ i - n < 128 := by omega
          have e : i - 128 - n = i - n - 128 := by omega
          have := uint128.to_wide_high v.lo_ h.2 (128 - n + (i - 128)) (by omega)
          simp [c1, c2, c3, d0, d1, d5, e, this]
        · have d1 : i - n < 128 := by omega
          have e : 128 - n + (i - 128) = i - n := by omega
          simp [c1, c2, c3, d0, d1, d5, e]
      · have d0 : ¬ i - 128 < 128 := by omega
        have := uint128.to_wide_high v.lo_ h.2 (128 - n + (i - 128)) (by omega)
        simp [c1, c2, d0, this]

theorem shl_toNat (v : uint256) (h : v.WF) (s : Int) (hs : 0 ≤ s) :
    toNat (shl v s) = toNat v * 2 ^ s.toNat % 2 ^ 256 := by
  obtain ⟨n, rfl⟩ := Int.eq_ofNat_of_zero_le hs
  apply Nat.eq_of_testBit_eq
  intro i
  rw [shl_testBit256 v h, Int.toNat_ofNat, Nat.testBit_mod_two_pow, ← Nat.shiftLeft_eq,
    Nat.testBit_shiftLeft]

theorem or_toNat (a b : uint256) (ha : a.WF) (hb : b.WF) :
    toNat (or a b) = toNat a ||| toNat b := by
  apply Nat.eq_of_testBit_eq
  intro i
  rw [Nat.testBit_or, toNat_testBit _ (or_WF256 a b ha hb), toNat_testBit _ ha,
    toNat_testBit _ hb]
  unfold or
  simp only
  rw [uint128.or_to_wide _ _ ha.1 hb.1, uint128.or_to_wide _ _ ha.2 hb.2]
  by_cases c : i < 128 <;> simp [c]

end uint256

namespace uint256

theorem add_prod_spec (k x y : Nat) (R : List Nat) (carry : Nat)
    (hx : x < 2 ^ 64) (hy : y < 2 ^ 64) (hR : R.getD k 0 < 2 ^ 64) (hc : carry < 2 ^ 65) :
    add_prod k x y (R, carry)
      = (R.set k ((x * y + R.getD k 0 + carry) % 2 ^ 64), (x * y + R.getD k 0 + carry) / 2 ^ 64)
    ∧ (x * y + R.getD k 0 + carry) / 2 ^ 64 < 2 ^ 65 := by
  have hp : x * y ≤ (2 ^ 64 - 1) * (2 ^ 64 - 1) :=
    Nat.mul_le_mul (Nat.le_pred_of_lt hx) (Nat.le_pred_of_lt hy)
  unfold add_prod
  simp only
  generalize x * y = p at hp ⊢
  generalize R.getD k 0 = r at hR ⊢
  have e1 : p % 2 ^ 128 = p := Nat.mod_eq_of_lt (by omega)
  have e2 : (p + r) % 2 ^ 128 = p + r := Nat.mod_eq_of_lt (by omega)
  rw [e1, e2]
  refine ⟨Prod.ext ?_ ?_, by omega⟩
  · show R.set k _ = R.set k _
    congr 1
    omega
  · show (if _ then _ else _) = _
    by_cases c : p + r + carry < 2 ^ 128
    · have e3 : (p + r + carry) % 2 ^ 128 = p + r + carry := Nat.mod_eq_of_lt c
      rw [e3]
      split
      · rename_i h
        simp only [Bool.or_eq_true, decide_eq_true_eq] at h
        omega
      · rfl
    · have e3 : (p + r + carry) % 2 ^ 128 = p + r + carry - 2 ^ 128 := by omega
      rw [e3]
      have e4 : (p + r + carry - 2 ^ 128) / 2 ^ 64 + 2 ^ 64 = (p + r + carry) / 2 ^ 64 := by
        omega
      split
      · rw [e4]
        exact Nat.mod_eq_of_lt (by omega)
      · rename_i h
        simp only [Bool.or_eq_true, decide_eq_true_eq, not_or, not_lt] at h
        omega

theorem carry_lt (x y r c : Nat) (hx : x < 2 ^ 64) (hy : y < 2 ^ 64) (hr : r < 2 ^ 64)
    (hc : c < 2 ^ 65) : (x * y + r + c) / 2 ^ 64 < 2 ^ 65 := by
  have hp : x * y ≤ (2 ^ 64 - 1) * (2 ^ 64 - 1) :=
    Nat.mul_le_mul (Nat.le_pred_of_lt hx) (Nat.le_pred_of_lt hy)
  generalize x * y = p at hp
  omega

theorem add_prod0 (x y r0 r1 r2 r3 c : Nat) (hx : x < 2 ^ 64) (hy : y < 2 ^ 64)
    (hr : r0 < 2 ^ 64) (hc : c < 2 ^ 65) :
    add_prod 0 x y ([r0, r1, r2, r3], c)
      = ([(x * y + r0 + c) % 2 ^ 64, r1, r2, r3], (x * y + r0 + c) / 2 ^ 64) :=
  (add_prod_spec 0 x y [r0, r1, r2, r3] c hx hy hr hc).1

theorem add_prod1 (x y r0 r1 r2 r3 c : Nat) (hx : x < 2 ^ 64) (hy : y < 2 ^ 64)
    (hr : r1 < 2 ^ 64) (hc : c < 2 ^ 65) :
    add_prod 1 x y ([r0, r1, r2, r3], c)
      = ([r0, (x * y + r1 + c) % 2 ^ 64, r2, r3], (x * y + r1 + c) / 2 ^ 64) :=
  (add_prod_spec 1 x y [r0, r1, r2, r3] c hx hy hr hc).1

theorem add_prod2 (x y r0 r1 r2 r3 c : Nat) (hx : x < 2 ^ 64) (hy : y < 2 ^ 64)
    (hr : r2 < 2 ^ 64) (hc : c < 2 ^ 65) :
    add_prod 2 x y ([r0, r1, r2, r3], c)
      = ([r0, r1, (x * y + r2 + c) % 2 ^ 64, r3], (x * y + r2 + c) / 2 ^ 64) :=
  (add_prod_spec 2 x y [r0, r1, r2, r3] c hx hy hr hc).1

theorem add_prod3 (x y r0 r1 r2 r3 c : Nat) (hx : x < 2 ^ 64) (hy : y < 2 ^ 64)
    (hr : r3 < 2 ^ 64) (hc : c < 2 ^ 65) :
    add_prod 3 x y ([r0, r1, r2, r3], c)
      = ([r0, r1, r2, (x * y + r3 + c) % 2 ^ 64], (x * y + r3 + c) / 2 ^ 64) :=
  (add_prod_spec 3 x y [r0, r1, r2, r3] c hx hy hr hc).1

theorem mul_row0 (a0 a1 a2 a3 b0 b1 b2 b3 r0 r1 r2 r3 : Nat)
    (hx : a0 < 2 ^ 64) (h0 : b0 < 2 ^ 64) (h1 : b1 < 2 ^ 64) (h2 : b2 < 2 ^ 64)
    (h3 : b3 < 2 ^ 64) (g0 : r0 < 2 ^ 64) (g1 : r1 < 2 ^ 64) (g2 : r2 < 2 ^ 64)
    (g3 : r3 < 2 ^ 64) :
    ∃ s0 s1 s2 s3, mul_row [a0, a1, a2, a3] [b0, b1, b2, b3] 0 [r0, r1, r2, r3] = [s0, s1, s2, s3]
      ∧ s0 < 2 ^ 64 ∧ s1 < 2 ^ 64 ∧ s2 < 2 ^ 64 ∧ s3 < 2 ^ 64
      ∧ s0 + s1 * 2 ^ 64 + s2 * 2 ^ 128 + s3 * 2 ^ 192
        = (r0 + r1 * 2 ^ 64 + r2 * 2 ^ 128 + r3 * 2 ^ 192
            + (a0 * b0 + a0 * b1 * 2 ^ 64 + a0 * b2 * 2 ^ 128 + a0 * b3 * 2 ^ 192)) % 2 ^ 256 := by
  have e : List.range (4 - 0) = [0, 1, 2, 3] := rfl
  unfold mul_row
  rw [e]
  simp only [List.foldl, List.getD_cons_zero, List.getD_cons_succ, Nat.zero_add]
  have c1 := carry_lt a0 b0 r0 0 hx h0 g0 (by omega)
  rw [add_prod0 _ _ _ _ _ _ _ hx h0 g0 (by omega)]
  have c2 := carry_lt a0 b1 r1 _ hx h1 g1 c1
  rw [add_prod1 _ _ _ _ _ _ _ hx h1 g1 c1]
  have c3 := carry_lt a0 b2 r2 _ hx h2 g2 c2
  rw [add_prod2 _ _ _ _ _ _ _ hx h2 g2 c2]
  rw [add_prod3 _ _ _ _ _ _ _ hx h3 g3 c3]
  refine ⟨_, _, _, _, rfl, Nat.mod_lt _ (Nat.two_pow_pos 64), Nat.mod_lt _ (Nat.two_pow_pos 64),
    Nat.mod_lt _ (Nat.two_pow_pos 64), Nat.mod_lt _ (Nat.two_pow_pos 64), ?_⟩
  generalize a0 * b0 = p0 at *
  generalize a0 * b1 = p1 at *
  generalize a0 * b2 = p2 at *
  generalize a0 * b3 = p3 at *
  omega

theorem mul_row1 (a0 a1 a2 a3 b0 b1 b2 b3 r0 r1 r2 r3 : Nat)
    (hx : a1 < 2 ^ 64) (h0 : b0 < 2 ^ 64) (h1 : b1 < 2 ^ 64) (h2 : b2 < 2 ^ 64)
    (g0 : r0 < 2 ^ 64) (g1 : r1 < 2 ^ 64) (g2 : r2 < 2 ^ 64) (g3 : r3 < 2 ^ 64) :
    ∃ s0 s1 s2 s3, mul_row [a0, a1, a2, a3] [b0, b1, b2, b3] 1 [r0, r1, r2, r3] = [s0, s1, s2, s3]
      ∧ s0 < 2 ^ 64 ∧ s1 < 2 ^ 64 ∧ s2 < 2 ^ 64 ∧ s3 < 2 ^ 64
      ∧ s0 + s1 * 2 ^ 64 + s2 * 2 ^ 128 + s3 * 2 ^ 192
        = (r0 + r1 * 2 ^ 64 + r2 * 2 ^ 128 + r3 * 2 ^ 192
            + (a1 * b0 * 2 ^ 64 + a1 * b1 * 2 ^ 128 + a1 * b2 * 2 ^ 192)) % 2 ^ 256 := by
  have e : List.range (4 - 1) = [0, 1, 2] := rfl
  unfold mul_row
  rw [e]
  simp only [List.foldl, List.getD_cons_zero, List.getD_cons_succ, Nat.add_zero]
  have c1 := carry_lt a1 b0 r1 0 hx h0 g1 (by omega)
  rw [add_prod1 _ _ _ _ _ _ _ hx h0 g1 (by omega)]
  have c2 := carry_lt a1 b1 r2 _ hx h1 g2 c1
  rw [add_prod2 _ _ _ _ _ _ _ hx h1 g2 c1]
  rw [add_prod3 _ _ _ _ _ _ _ hx h2 g3 c2]
  refine ⟨_, _, _, _, rfl, g0, Nat.mod_lt _ (Nat.two_pow_pos 64),
    Nat.mod_lt _ (Nat.two_pow_pos 64), Nat.mod_lt _ (Nat.two_pow_pos 64), ?_⟩
  generalize a1 * b0 = p0 at *
  generalize a1 * b1 = p1 at *
  generalize a1 * b2 = p2 at *
  omega

theorem mul_row2 (a0 a1 a2 a3 b0 b1 b2 b3 r0 r1 r2 r3 : Nat)
    (hx : a2 < 2 ^ 64) (h0 : b0 < 2 ^ 64) (h1 : b1 < 2 ^ 64)
    (g0 : r0 < 2 ^ 64) (g1 : r1 < 2 ^ 64) (g2 : r2 < 2 ^ 64) (g3 : r3 < 2 ^ 64) :
    ∃ s0 s1 s2 s3, mul_row [a0, a1, a2, a3] [b0, b1, b2, b3] 2 [r0, r1, r2, r3] = [s0, s1, s2, s3]
      ∧ s0 < 2 ^ 64 ∧ s1 < 2 ^ 64 ∧ s2 < 2 ^ 64 ∧ s3 < 2 ^ 64
      ∧ s0 + s1 * 2 ^ 64 + s2 * 2 ^ 128 + s3 * 2 ^ 192
        = (r0 + r1 * 2 ^ 64 + r2 * 2 ^ 128 + r3 * 2 ^ 192
            + (a2 * b0 * 2 ^ 128 + a2 * b1 * 2 ^ 192)) % 2 ^ 256 := by
  have e : List.range (4 - 2) = [0, 1] := rfl
  unfold mul_row
  rw [e]
  simp only [List.foldl, List.getD_cons_zero, List.getD_cons_succ, Nat.add_zero]
  have c1 := carry_lt a2 b0 r2 0 hx h0 g2 (by omega)
  rw [add_prod2 _ _ _ _ _ _ _ hx h0 g2 (by omega)]
  rw [add_prod3 _ _ _ _ _ _ _ hx h1 g3 c1]
  refine ⟨_, _, _, _, rfl, g0, g1,
    Nat.mod_lt _ (Nat.two_pow_pos 64), Nat.mod_lt _ (Nat.two_pow_pos 64), ?_⟩
  generalize a2 * b0 = p0 at *
  generalize a2 * b1 = p1 at *
  omega

theorem mul_row3 (a0 a1 a2 a3 b0 b1 b2 b3 r0 r1 r2 r3 : Nat)
    (hx : a3 < 2 ^ 64) (h0 : b0 < 2 ^ 64)
    (g0 : r0 < 2 ^ 64) (g1 : r1 < 2 ^ 64) (g2 : r2 < 2 ^ 64) (g3 : r3 < 2 ^ 64) :
    ∃ s0 s1 s2 s3, mul_row [a0, a1, a2, a3] [b0, b1, b2, b3] 3 [r0, r1, r2, r3] = [s0, s1, s2, s3]
      ∧ s0 < 2 ^ 64 ∧ s1 < 2 ^ 64 ∧ s2 < 2 ^ 64 ∧ s3 < 2 ^ 64
      ∧ s0 + s1 * 2 ^ 64 + s2 * 2 ^ 128 + s3 * 2 ^ 192
        = (r0 + r1 * 2 ^ 64 + r2 * 2 ^ 128 + r3 * 2 ^ 192 + a3 * b0 * 2 ^ 192) % 2 ^ 256 := by
  have e : List.range (4 - 3) = [0] := rfl
  unfold mul_row
  rw [e]
  simp only [List.foldl, List.getD_cons_zero, List.getD_cons_succ, Nat.add_zero]
  rw [add_prod3 _ _ _ _ _ _ _ hx h0 g3 (by omega)]
  refine ⟨_, _, _, _, rfl, g0, g1, g2, Nat.mod_lt _ (Nat.two_pow_pos 64), ?_⟩
  generalize a3 * b0 = p0 at *
  omega

theorem mul_toNat (a b : uint256) (ha : a.WF) (hb : b.WF) :
    (mul a b).toNat = a.toNat * b.toNat % 2 ^ 256 := by
  obtain ⟨⟨a3, a2⟩, ⟨a1, a0⟩⟩ := a
  obtain ⟨⟨b3, b2⟩, ⟨b1, b0⟩⟩ := b
  obtain ⟨⟨ha3, ha2⟩, ha1, ha0⟩ := ha
  obtain ⟨⟨hb3, hb2⟩, hb1, hb0⟩ := hb
  simp only at ha3 ha2 ha1 ha0 hb3 hb2 hb1 hb0
  have e : List.range 4 = [0, 1, 2, 3] := rfl
  have z : (0 : Nat) < 2 ^ 64 := Nat.two_pow_pos 64
  unfold mul
  simp only [uint128.low, uint128.high]
  rw [e]
  simp only [List.foldl]
  obtain ⟨s0, s1, s2, s3, e0, k0, k1, k2, k3, v0⟩ :=
    mul_row0 a0 a1 a2 a3 b0 b1 b2 b3 0 0 0 0 ha0 hb0 hb1 hb2 hb3 z z z z
  rw [e0]
  obtain ⟨t0, t1, t2, t3, e1, l0, l1, l2, l3, v1⟩ :=
    mul_row1 a0 a1 a2 a3 b0 b1 b2 b3 s0 s1 s2 s3 ha1 hb0 hb1 hb2 k0 k1 k2 k3
  rw [e1]
  obtain ⟨u0, u1, u2, u3, e2, m0, m1, m2, m3, v2⟩ :=
    mul_row2 a0 a1 a2 a3 b0 b1 b2 b3 t0 t1 t2 t3 ha2 hb0 hb1 l0 l1 l2 l3
  rw [e2]
  obtain ⟨w0, w1, w2, w3, e3, n0, n1, n2, n3, v3⟩ :=
    mul_row3 a0 a1 a2 a3 b0 b1 b2 b3 u0 u1 u2 u3 ha3 hb0 m0 m1 m2 m3
  rw [e3]
  simp only [List.getD_cons_zero, List.getD_cons_succ, toNat, uint128.to_wide]
  have expand : ((a3 * 2 ^ 64 + a2) * 2 ^ 128 + (a1 * 2 ^ 64 + a0))
        * ((b3 * 2 ^ 64 + b2) * 2 ^ 128 + (b1 * 2 ^ 64 + b0))
      = (a0 * b0 + a0 * b1 * 2 ^ 64 + a0 * b2 * 2 ^ 128 + a0 * b3 * 2 ^ 192)
        + (a1 * b0 * 2 ^ 64 + a1 * b1 * 2 ^ 128 + a1 * b2 * 2 ^ 192)
        + (a2 * b0 * 2 ^ 128 + a2 * b1 * 2 ^ 192) + a3 * b0 * 2 ^ 192
        + 2 ^ 256 * (a1 * b3 + a2 * b2 + a3 * b1 + (a2 * b3 + a3 * b2) * 2 ^ 64
            + a3 * b3 * 2 ^ 128) := by
    ring
  rw [expand]
  generalize a0 * b0 = p00 at *
  generalize a0 * b1 = p01 at *
  generalize a0 * b2 = p02 at *
  generalize a0 * b3 = p03 at *
  generalize a1 * b0 = p10 at *
  generalize a1 * b1 = p11 at *
  generalize a1 * b2 = p12 at *
  generalize a2 * b0 = p20 at *
  generalize a2 * b1 = p21 at *
  generalize a3 * b0 = p30 at *
  generalize a1 * b3 + a2 * b2 + a3 * b1 + (a2 * b3 + a3 * b2) * 2 ^ 64
            + a3 * b3 * 2 ^ 128 = rest at *
  omega

end uint256

theorem countl_zero_aux_spec (n : Nat) : ∀ x : Nat, x < 2 ^ n → x ≠ 0 →
    countl_zero_aux x n < n ∧ 2 ^ (n - 1 - countl_zero_aux x n) ≤ x
      ∧ x < 2 ^ (n - countl_zero_aux x n) := by
  induction n with
  | zero =>
    intro x hx h0
    simp at hx
    exact absurd hx h0
  | succ k ih =>
    intro x hx h0
    unfold countl_zero_aux
    by_cases c : x / 2 ^ k % 2 = 1
    · rw [if_pos c]
      have h1 : 2 ^ k ≤ x := by
        by_contra hlt
        rw [Nat.div_eq_of_lt (by omega)] at c
        simp at c
      refine ⟨by omega, ?_, ?_⟩
      · simpa using h1
      · simpa using hx
    · rw [if_neg c]
      have h1 : x < 2 ^ k := by
        by_contra hge
        have h2 : x / 2 ^ k < 2 := by
          rw [Nat.div_lt_iff_lt_mul (Nat.two_pow_pos k)]
          rw [Nat.pow_succ] at hx
          omega
        have h3 : 0 < x / 2 ^ k := Nat.div_pos (by omega) (Nat.two_pow_pos k)
        omega
      obtain ⟨i1, i2, i3⟩ := ih x h1 h0
      refine ⟨by omega, ?_, ?_⟩
      · have e : k + 1 - 1 - (countl_zero_aux x k + 1) = k - 1 - countl_zero_aux x k := by omega
        rw [e]
        exact i2
      · have e : k + 1 - (countl_zero_aux x k + 1) = k - countl_zero_aux x k := by omega
        rw [e]
        exact i3

theorem countl_zero_spec (x : Nat) (hx : x < 2 ^ 64) (h0 : x ≠ 0) :
    countl_zero x < 64 ∧ 2 ^ (63 - countl_zero x) ≤ x ∧ x < 2 ^ (64 - countl_zero x) :=
  countl_zero_aux_spec 64 x hx h0

namespace uint256

theorem msb128_spec (v : uint128) (h : v.WF) (h0 : v.to_wide ≠ 0) :
    ∃ m : Nat, msb128 v = (m : Int) ∧ m < 128 ∧ 2 ^ m ≤ v.to_wide ∧ v.to_wide < 2 ^ (m + 1) := by
  unfold msb128 uint128.high uint128.low
  unfold uint128.to_wide at h0 ⊢
  by_cases c : v.hi_ ≠ 0
  · rw [if_pos c]
    obtain ⟨c1, c2, c3⟩ := countl_zero_spec v.hi_ h.1 c
    refine ⟨64 + (63 - countl_zero v.hi_), by omega, by omega, ?_, ?_⟩
    · rw [Nat.pow_add]
      calc 2 ^ 64 * 2 ^ (63 - countl_zero v.hi_) ≤ 2 ^ 64 * v.hi_ := Nat.mul_le_mul_left _ c2
        _ ≤ v.hi_ * 2 ^ 64 + v.lo_ := by omega
    · have e : 64 + (63 - countl_zero v.hi_) + 1 = (64 - countl_zero v.hi_) + 64 := by omega
      rw [e, Nat.pow_add]
      have := h.2
      calc v.hi_ * 2 ^ 64 + v.lo_ < (v.hi_ + 1) * 2 ^ 64 := by omega
        _ ≤ 2 ^ (64 - countl_zero v.hi_) * 2 ^ 64 := Nat.mul_le_mul_right _ c3
  · rw [if_neg c]
    have hz : v.hi_ = 0 := by omega
    have c0 : v.lo_ ≠ 0 := by
      rw [hz] at h0
      omega
    rw [if_pos c0, hz]
    obtain ⟨c1, c2, c3⟩ := countl_zero_spec v.lo_ h.2 c0
    refine ⟨63 - countl_zero v.lo_, by omega, by omega, by simpa using c2, ?_⟩
    have e : 63 - countl_zero v.lo_ + 1 = 64 - countl_zero v.lo_ := by omega
    rw [e]
    simpa using c3

theorem msb128_zero (v : uint128) (h0 : v.to_wide = 0) : msb128 v = -1 := by
  unfold uint128.to_wide at h0
  unfold msb128 uint128.high uint128.low
  have h1 : v.hi_ = 0 := by omega
  have h2 : v.lo_ = 0 := by omega
  simp [h1, h2]

theorem msb_spec (v : uint256) (h : v.WF) (h0 : v.toNat ≠ 0) :
    ∃ m : Nat, msb v = (m : Int) ∧ m < 256 ∧ 2 ^ m ≤ v.toNat ∧ v.toNat < 2 ^ (m + 1) := by
  unfold msb
  unfold toNat at h0 ⊢
  simp only
  by_cases c : v.hi_.to_wide = 0
  · rw [msb128_zero _ c, if_neg (by decide)]
    rw [c] at h0 ⊢
    obtain ⟨m, e, h1, h2, h3⟩ := msb128_spec v.lo_ h.2 (by omega)
    exact ⟨m, e, by omega, by omega, by omega⟩
  · obtain ⟨m, e, h1, h2, h3⟩ := msb128_spec v.hi_ h.1 c
    have hl := uint128.to_wide_lt _ h.2
    rw [e, if_pos (by omega)]
    refine ⟨128 + m, by omega, by omega, ?_, ?_⟩
    · rw [Nat.pow_add]
      calc 2 ^ 128 * 2 ^ m ≤ 2 ^ 128 * v.hi_.to_wide := Nat.mul_le_mul_left _ h2
        _ ≤ v.hi_.to_wide * 2 ^ 128 + v.lo_.to_wide := by omega
    · have e2 : 128 + m + 1 = (m + 1) + 128 := by omega
      rw [e2, Nat.pow_add]
      calc v.hi_.to_wide * 2 ^ 128 + v.lo_.to_wide < (v.hi_.to_wide + 1) * 2 ^ 128 := by omega
        _ ≤ 2 ^ (m + 1) * 2 ^ 128 := Nat.mul_le_mul_right _ h3

end uint256

namespace uint256

theorem or_pow_toNat (q : uint256) (hq : q.WF) (k : Nat) (hk : k < 256)
    (hdvd : 2 ^ (k + 1) ∣ q.toNat) :
    (or q (shl ⟨⟨0, 0⟩, ⟨0, 1⟩⟩ (k : Int))).toNat = q.toNat + 2 ^ k := by
  have ho : (⟨⟨0, 0⟩, ⟨0, 1⟩⟩ : uint256).WF := by decide
  have h1 : (⟨⟨0, 0⟩, ⟨0, 1⟩⟩ : uint256).toNat = 1 := by decide
  rw [or_toNat _ _ hq (shl_WF256 _ ho _), shl_toNat _ ho _ (Int.ofNat_nonneg k), h1,
    Int.toNat_ofNat, Nat.one_mul,
    Nat.mod_eq_of_lt (Nat.pow_lt_pow_right (by decide) hk)]
  obtain ⟨m, hm⟩ := hdvd
  rw [hm]
  exact (Nat.mul_add_lt_is_or (Nat.pow_lt_pow_right (by decide) (Nat.lt_succ_self k)) m).symm

theorem div_mod_loop_spec (b : Nat) (hb : 0 < b) : ∀ (n fuel : Nat) (dividend denom q : uint256),
    n ≤ fuel → dividend.WF → denom.WF → q.WF →
    (0 < n → denom.toNat = b * 2 ^ (n - 1)) → dividend.toNat < b * 2 ^ n →
    2 ^ n ∣ q.toNat →
    (div_mod_loop fuel dividend denom q ((n : Int) - 1)).1.toNat = q.toNat + dividend.toNat / b
    ∧ (div_mod_loop fuel dividend denom q ((n : Int) - 1)).2.toNat = dividend.toNat % b
    ∧ (div_mod_loop fuel dividend denom q ((n : Int) - 1)).1.WF
    ∧ (div_mod_loop fuel dividend denom q ((n : Int) - 1)).2.WF := by
  intro n
  induction n with
  | zero =>
    intro fuel dividend denom q _ hd _ hq _ hlt _
    have e : div_mod_loop fuel dividend denom q (((0 : Nat) : Int) - 1) = (q, dividend) := by
      cases fuel with
      | zero => rfl
      | succ f =>
        unfold div_mod_loop
        rw [if_pos (by decide)]
    rw [e]
    simp only [pow_zero, Nat.mul_one] at hlt
    refine ⟨?_, ?_, hq, hd⟩
    · simp [Nat.div_eq_of_lt hlt]
    · exact (Nat.mod_eq_of_lt hlt).symm
  | succ k ih =>
    intro fuel dividend denom q hf hd hden hq hdenom hlt hdvd
    obtain ⟨f, rfl⟩ : ∃ f, fuel = f + 1 := ⟨fuel - 1, by omega⟩
    have hden2 := hdenom (Nat.succ_pos k)
    simp only [Nat.add_sub_cancel] at hden2
    have hs : ((k + 1 : Nat) : Int) - 1 = (k : Int) := by omega
    rw [hs]
    unfold div_mod_loop
    rw [if_neg (by omega)]
    simp only
    have hshr : (shr denom 1).toNat = denom.toNat / 2 := by
      rw [shr_toNat denom hden 1 (by decide)]
      rfl
    have hden3 : 0 < k → (shr denom 1).toNat = b * 2 ^ (k - 1) := by
      intro hk
      rw [hshr, hden2]
      obtain ⟨j, rfl⟩ : ∃ j, k = j + 1 := ⟨k - 1, by omega⟩
      rw [Nat.add_sub_cancel, Nat.pow_succ, ← Nat.mul_assoc, Nat.mul_div_cancel _ (by decide)]
    have hk1 : (k : Int) - 1 = ((k : Nat) : Int) - 1 := rfl
    have hdl := toNat_lt dividend hd
    by_cases c : ge dividend denom = true
    · rw [if_pos c]
      have hge : denom.toNat ≤ dividend.toNat := by
        unfold ge at c
        have := lt_iff_toNat dividend denom hd hden
        cases hlt2 : lt dividend denom
        · rw [hlt2] at this
          simp at this
          exact this
        · rw [hlt2] at c
          simp at c
      have hk : k < 256 := by
        by_contra hk
        have : 2 ^ 256 ≤ b * 2 ^ k :=
          calc 2 ^ 256 ≤ 2 ^ k := Nat.pow_le_pow_right (by decide) (by omega)
            _ ≤ b * 2 ^ k := Nat.le_mul_of_pos_left _ hb
        omega
      have hsub : (sub dividend denom).toNat = dividend.toNat - denom.toNat := by
        rw [(sub_toNat dividend denom hd hden).1]
        have := toNat_lt denom hden
        omega
      have hor := or_pow_toNat q hq k hk hdvd
      have hdvd2 : 2 ^ k ∣ (or q (shl ⟨⟨0, 0⟩, ⟨0, 1⟩⟩ (k : Int))).toNat := by
        rw [hor]
        exact Nat.dvd_add (Dvd.dvd.trans (pow_dvd_pow 2 (Nat.le_succ k)) hdvd) (dvd_refl _)
      have hge2 : b * 2 ^ k ≤ dividend.toNat := by
        rw [← hden2]
        exact hge
      have hP : dividend.toNat < b * 2 ^ k * 2 := by
        rw [Nat.pow_succ, ← Nat.mul_assoc] at hlt
        exact hlt
      have hlt2 : (sub dividend denom).toNat < b * 2 ^ k := by
        rw [hsub, hden2]
        generalize b * 2 ^ k = P at hP hge2 ⊢
        omega
      obtain ⟨r1, r2, r3, r4⟩ := ih f (sub dividend denom) (shr denom 1)
        (or q (shl ⟨⟨0, 0⟩, ⟨0, 1⟩⟩ (k : Int))) (by omega) (sub_WF _ _) (shr_WF256 _ hden _)
        (or_WF256 _ _ hq (shl_WF256 _ (by decide) _)) hden3 hlt2 hdvd2
      refine ⟨?_, ?_, r3, r4⟩
      · rw [r1, hor, hsub, hden2]
        rw [Nat.sub_mul_div _ _ _ hge2]
        have : 2 ^ k ≤ dividend.toNat / b := by
          rw [Nat.le_div_iff_mul_le hb, Nat.mul_comm]
          exact hge2
        omega
      · rw [r2, hsub, hden2]
        exact Nat.sub_mul_mod hge2
    · rw [if_neg c]
      have hlt2 : dividend.toNat < b * 2 ^ k := by
        rw [← hden2]
        apply (lt_iff_toNat dividend denom hd hden).mp
        unfold ge at c
        cases hh : lt dividend denom
        · rw [hh] at c
          simp at c
        · rfl
      have hdvd2 : 2 ^ k ∣ q.toNat := Dvd.dvd.trans (pow_dvd_pow 2 (Nat.le_succ k)) hdvd
      exact ih f dividend (shr denom 1) q (by omega) hd (shr_WF256 _ hden _) hq hden3 hlt2 hdvd2

theorem div_mod_loop_succ (f k : Nat) (dividend denom q : uint256) :
    div_mod_loop (f + 1) dividend denom q (k : Int)
      = if ge dividend denom = true then
          div_mod_loop f (sub dividend denom) (shr denom 1)
            (or q (shl ⟨⟨0, 0⟩, ⟨0, 1⟩⟩ (k : Int))) ((k : Int) - 1)
        else div_mod_loop f dividend (shr denom 1) q ((k : Int) - 1) := by
  rw [div_mod_loop, if_neg (by omega)]

theorem div_mod_loop_fuel : ∀ (n fuel1 fuel2 : Nat) (dividend denom q : uint256),
    n ≤ fuel1 → n ≤ fuel2 →
    div_mod_loop fuel1 dividend denom q ((n : Int) - 1)
      = div_mod_loop fuel2 dividend denom q ((n : Int) - 1) := by
  intro n
  induction n with
  | zero =>
    intro fuel1 fuel2 dividend denom q _ _
    have e : ∀ fuel, div_mod_loop fuel dividend denom q (((0 : Nat) : Int) - 1)
        = (q, dividend) := by
      intro fuel
      cases fuel with
      | zero => rfl
      | succ f =>
        unfold div_mod_loop
        rw [if_pos (by decide)]
    rw [e, e]
  | succ k ih =>
    intro fuel1 fuel2 dividend denom q h1 h2
    obtain ⟨f1, rfl⟩ : ∃ f, fuel1 = f + 1 := ⟨fuel1 - 1, by omega⟩
    obtain ⟨f2, rfl⟩ : ∃ f, fuel2 = f + 1 := ⟨fuel2 - 1, by omega⟩
    have hs : ((k + 1 : Nat) : Int) - 1 = (k : Int) := by omega
    rw [hs, div_mod_loop_succ, div_mod_loop_succ,
      ih f1 f2 _ _ _ (by omega) (by omega), ih f1 f2 _ _ _ (by omega) (by omega)]

theorem div_mod_shift (a b : uint256) (ha : a.WF) (hb : b.WF) (hb0 : b.toNat ≠ 0)
    (hlt : b.toNat < a.toNat) :
    ∃ n : Nat, msb a - msb b = (n : Int) - 1 ∧ 1 ≤ n ∧ n ≤ 256
      ∧ b.toNat * 2 ^ (n - 1) < 2 ^ 256 ∧ a.toNat < b.toNat * 2 ^ n := by
  obtain ⟨ma, ea, la, a1, a2⟩ := msb_spec a ha (by omega)
  obtain ⟨mb, eb, lb, b1, b2⟩ := msb_spec b hb hb0
  have hle : mb ≤ ma := by
    have : 2 ^ mb < 2 ^ (ma + 1) := by omega
    have := (Nat.pow_lt_pow_iff_right (by decide : 1 < 2)).mp this
    omega
  refine ⟨ma - mb + 1, by rw [ea, eb]; omega, by omega, by omega, ?_, ?_⟩
  · simp only [Nat.add_sub_cancel]
    calc b.toNat * 2 ^ (ma - mb) < 2 ^ (mb + 1) * 2 ^ (ma - mb) :=
          Nat.mul_lt_mul_of_pos_right b2 (Nat.two_pow_pos _)
      _ = 2 ^ (ma + 1) := by rw [← Nat.pow_add]; congr 1; omega
      _ ≤ 2 ^ 256 := Nat.pow_le_pow_right (by decide) (by omega)
  · calc a.toNat < 2 ^ (ma + 1) := a2
      _ = 2 ^ mb * 2 ^ (ma - mb + 1) := by rw [← Nat.pow_add]; congr 1; omega
      _ ≤ b.toNat * 2 ^ (ma - mb + 1) := Nat.mul_le_mul_right _ b1

theorem div_mod_spec (a b : uint256) (ha : a.WF) (hb : b.WF) (hb0 : b.toNat ≠ 0) :
    (div_mod a b).1.toNat = a.toNat / b.toNat ∧ (div_mod a b).2.toNat = a.toNat % b.toNat
      ∧ (div_mod a b).1.WF ∧ (div_mod a b).2.WF := by
  have hz : (⟨⟨0, 0⟩, ⟨0, 0⟩⟩ : uint256).WF := by decide
  have hz0 : (⟨⟨0, 0⟩, ⟨0, 0⟩⟩ : uint256).toNat = 0 := by decide
  have ho : (⟨⟨0, 0⟩, ⟨0, 1⟩⟩ : uint256).WF := by decide
  have ho1 : (⟨⟨0, 0⟩, ⟨0, 1⟩⟩ : uint256).toNat = 1 := by decide
  unfold div_mod
  simp only
  by_cases c1 : b = ⟨⟨0, 0⟩, ⟨0, 0⟩⟩
  · rw [c1, hz0] at hb0
    exact absurd rfl hb0
  rw [if_neg c1]
  by_cases c2 : lt a b = true
  · rw [if_pos c2]
    have hlt := (lt_iff_toNat a b ha hb).mp c2
    exact ⟨by rw [hz0, Nat.div_eq_of_lt hlt], (Nat.mod_eq_of_lt hlt).symm, hz, ha⟩
  rw [if_neg c2]
  by_cases c3 : a = b
  · rw [if_pos c3, c3]
    exact ⟨by rw [ho1, Nat.div_self (by omega)], by rw [hz0, Nat.mod_self], ho, hz⟩
  rw [if_neg c3]
  have hlt : b.toNat < a.toNat := by
    have h1 : ¬ a.toNat < b.toNat := fun h => c2 ((lt_iff_toNat a b ha hb).mpr h)
    have h2 : a.toNat ≠ b.toNat := fun h => c3 ((eq_iff_toNat a b ha hb).mpr h)
    omega
  obtain ⟨n, e, n1, n2, k1, k2⟩ := div_mod_shift a b ha hb hb0 hlt
  rw [e]
  have hs : ((n : Int) - 1) = ((n - 1 : Nat) : Int) := by omega
  have hden : 0 < n → (shl b ((n : Int) - 1)).toNat = b.toNat * 2 ^ (n - 1) := by
    intro _
    rw [hs, shl_toNat b hb _ (Int.ofNat_nonneg _), Int.toNat_ofNat, Nat.mod_eq_of_lt k1]
  obtain ⟨r1, r2, r3, r4⟩ := div_mod_loop_spec b.toNat (by omega) n 257 a
    (shl b ((n : Int) - 1)) ⟨⟨0, 0⟩, ⟨0, 0⟩⟩ (by omega) ha (shl_WF256 b hb _) hz hden k2
    (by rw [hz0]; exact dvd_zero _)
  rw [hz0, Nat.zero_add] at r1
  exact ⟨r1, r2, r3, r4⟩

end uint256

theorem tdiv_natAbs (A B : Int) :
    Int.tdiv A B = if xor (decide (A < 0)) (decide (B < 0)) = true
      then -((A.natAbs / B.natAbs : Nat) : Int) else ((A.natAbs / B.natAbs : Nat) : Int) := by
  have hA : A = (A.natAbs : Int) ∨ (A < 0 ∧ A = -(A.natAbs : Int)) := by omega
  have hB : B = (B.natAbs : Int) ∨ (B < 0 ∧ B = -(B.natAbs : Int)) := by omega
  generalize A.natAbs = x at hA
  generalize B.natAbs = y at hB
  rcases hA with rfl | ⟨a0, rfl⟩ <;> rcases hB with rfl | ⟨b0, rfl⟩
  · have h1 : ¬ ((x : Int) < 0) := by omega
    have h2 : ¬ ((y : Int) < 0) := by omega
    simp only [h1, h2, decide_False, Bool.xor_false, Bool.false_eq_true, if_false]
    exact (Int.ofNat_tdiv x y).symm
  · have h1 : ¬ ((x : Int) < 0) := by omega
    simp only [h1, b0, decide_False, decide_True, Bool.false_xor, if_true, Int.tdiv_neg]
    rw [← Int.ofNat_tdiv]
  · have h2 : ¬ ((y : Int) < 0) := by omega
    simp only [h2, a0, decide_False, decide_True, Bool.xor_false, if_true, Int.neg_tdiv]
    rw [← Int.ofNat_tdiv]
  · simp only [a0, b0, decide_True, Bool.xor_self, Bool.false_eq_true, if_false, Int.tdiv_neg,
      Int.neg_tdiv, neg_neg]
    rw [← Int.ofNat_tdiv]

theorem tmod_natAbs (A B : Int) :
    Int.tmod A B = if A < 0 then -((A.natAbs % B.natAbs : Nat) : Int)
      else ((A.natAbs % B.natAbs : Nat) : Int) := by
  have hA : A = (A.natAbs : Int) ∨ (A < 0 ∧ A = -(A.natAbs : Int)) := by omega
  have hB : B = (B.natAbs : Int) ∨ B = -(B.natAbs : Int) := by omega
  generalize A.natAbs = x at hA
  generalize B.natAbs = y at hB
  have key : Int.tmod (x : Int) (y : Int) = ((x % y : Nat) : Int) := (Int.ofNat_tmod x y).symm
  have key2 : Int.tmod (-(x : Int)) (y : Int) = -((x % y : Nat) : Int) := by
    rw [Int.tmod_def, Int.neg_tdiv, ← Int.ofNat_tdiv]
    have := Nat.div_add_mod x y
    push_cast
    have h3 : (y : Int) * ((x / y : Nat) : Int) + ((x % y : Nat) : Int) = x := by
      exact_mod_cast this
    push_cast at h3
    linarith
  rcases hA with rfl | ⟨a0, rfl⟩ <;> rcases hB with rfl | rfl
  · rw [if_neg (by omega)]
    exact key
  · rw [if_neg (by omega), Int.tmod_neg]
    exact key
  · rw [if_pos a0]
    exact key2
  · rw [if_pos a0, Int.tmod_neg]
    exact key2

namespace int256

theorem unsigned_abs_spec (v : int256) (h : v.WF) :
    (unsigned_abs v).WF ∧ (unsigned_abs v).toNat = v.toInt.natAbs := by
  have := detail.abs_u256_spec v h
  refine ⟨this.1, ?_⟩
  have e : ((unsigned_abs v).toNat : Int) = |v.toInt| := this.2
  rw [Int.abs_eq_natAbs] at e
  exact_mod_cast e

theorem toInt_range (v : int256) (h : v.WF) : -2 ^ 255 ≤ v.toInt ∧ v.toInt < 2 ^ 255 := by
  have := uint256.toNat_lt ⟨v.hi_, v.lo_⟩ h
  unfold toInt
  simp only
  split <;> omega

theorem p256 : (2 : Int) ^ 256
    = 115792089237316195423570985008687907853269984665640564039457584007913129639936 := by
  norm_num

theorem toInt_emod (v : int256) (h : v.WF) :
    v.toInt % 2 ^ 256 = ((⟨v.hi_, v.lo_⟩ : uint256).toNat : Int) := by
  have := uint256.toNat_lt ⟨v.hi_, v.lo_⟩ h
  unfold toInt
  simp only
  rw [p256]
  split <;> omega

theorem eq_of_toInt_emod (a b : int256) (ha : a.WF) (hb : b.WF)
    (h : a.toInt % 2 ^ 256 = b.toInt % 2 ^ 256) : a = b := by
  rw [toInt_emod a ha, toInt_emod b hb] at h
  have h2 : (⟨a.hi_, a.lo_⟩ : uint256) = ⟨b.hi_, b.lo_⟩ :=
    (uint256.eq_iff_toNat ⟨a.hi_, a.lo_⟩ ⟨b.hi_, b.lo_⟩ ha hb).mpr (by exact_mod_cast h)
  obtain ⟨ah, al⟩ := a
  obtain ⟨bh, bl⟩ := b
  simp only [uint256.mk.injEq] at h2
  rw [h2.1, h2.2]

theorem eq_of_toInt (a b : int256) (ha : a.WF) (hb : b.WF) (h : a.toInt = b.toInt) : a = b :=
  eq_of_toInt_emod a b ha hb (by rw [h])

/-- The bits of a magnitude of at most `2^255` with a sign applied: the signed value
modulo `2^256`. -/
theorem apply_sign_emod (mag : uint256) (h : mag.WF) (neg : Bool) :
    (detail.apply_sign_u256 mag neg).WF ∧
    (detail.apply_sign_u256 mag neg).toInt % 2 ^ 256
      = (if neg = true then -(mag.toNat : Int) else mag.toNat) % 2 ^ 256 := by
  have hwf : (⟨mag.high, mag.low⟩ : int256).WF := h
  have hlt := uint256.toNat_lt mag h
  have hr : (⟨mag.high, mag.low⟩ : int256).toInt % 2 ^ 256 = mag.toNat := by
    rw [toInt_emod _ hwf]
    rfl
  unfold detail.apply_sign_u256
  simp only
  cases neg
  · simp only [Bool.false_eq_true, if_false]
    refine ⟨hwf, ?_⟩
    rw [hr, p256]
    rw [p256] at hr
    omega
  · simp only [if_true]
    have hs := uint256.sub_toNat ⟨⟨0, 0⟩, ⟨0, 0⟩⟩ mag (by decide) h
    have hz : (⟨⟨0, 0⟩, ⟨0, 0⟩⟩ : uint256).toNat = 0 := by decide
    rw [hz] at hs
    have hn : (neg ⟨mag.high, mag.low⟩).WF := hs.2
    refine ⟨hn, ?_⟩
    rw [toInt_emod _ hn]
    have e : (⟨(neg ⟨mag.high, mag.low⟩).hi_, (neg ⟨mag.high, mag.low⟩).lo_⟩ : uint256).toNat
        = (0 + (2 ^ 256 - mag.toNat)) % 2 ^ 256 := hs.1
    rw [e, p256]
    omega

end int256

namespace int256

theorem is_negative_eq (v : int256) (h : v.WF) : v.is_negative = decide (v.toInt < 0) := by
  have := toInt_neg_iff v h
  cases hh : v.is_negative
  · rw [hh] at this
    simp only [Bool.false_eq_true, false_iff, not_lt] at this
    exact (decide_eq_false (by omega)).symm
  · rw [hh] at this
    exact (decide_eq_true (this.mp rfl)).symm

theorem div_eq (a b : int256) :
    div a b = detail.apply_sign_u256 (uint256.div_mod (unsigned_abs a) (unsigned_abs b)).1
      (xor a.is_negative b.is_negative) := rfl

theorem mod_eq (a b : int256) :
    mod a b = detail.apply_sign_u256 (uint256.div_mod (unsigned_abs a) (unsigned_abs b)).2
      a.is_negative := rfl

theorem natAbs_ne_zero_of (b : int256) (hb : b.WF) (h0 : b.toInt ≠ 0) :
    (unsigned_abs b).toNat ≠ 0 := by
  rw [(unsigned_abs_spec b hb).2]
  omega

theorem div_emod (a b : int256) (ha : a.WF) (hb : b.WF) (h0 : b.toInt ≠ 0) :
    (div a b).WF ∧ (div a b).toInt % 2 ^ 256 = Int.tdiv a.toInt b.toInt % 2 ^ 256 := by
  obtain ⟨wa, ea⟩ := unsigned_abs_spec a ha
  obtain ⟨wb, eb⟩ := unsigned_abs_spec b hb
  obtain ⟨q1, _, q3, _⟩ := uint256.div_mod_spec _ _ wa wb (natAbs_ne_zero_of b hb h0)
  obtain ⟨s1, s2⟩ := apply_sign_emod _ q3 (xor a.is_negative b.is_negative)
  rw [div_eq]
  refine ⟨s1, ?_⟩
  rw [s2, q1, ea, eb, tdiv_natAbs, is_negative_eq a ha, is_negative_eq b hb]

theorem mod_toInt (a b : int256) (ha : a.WF) (hb : b.WF) (h0 : b.toInt ≠ 0) :
    (mod a b).WF ∧ (mod a b).toInt = Int.tmod a.toInt b.toInt := by
  obtain ⟨wa, ea⟩ := unsigned_abs_spec a ha
  obtain ⟨wb, eb⟩ := unsigned_abs_spec b hb
  obtain ⟨_, r2, _, r4⟩ := uint256.div_mod_spec _ _ wa wb (natAbs_ne_zero_of b hb h0)
  have hr := toInt_range b hb
  have hlt : (uint256.div_mod (unsigned_abs a) (unsigned_abs b)).2.toNat < 2 ^ 255 := by
    rw [r2, ea, eb]
    have : a.toInt.natAbs % b.toInt.natAbs < b.toInt.natAbs := Nat.mod_lt _ (by omega)
    omega
  obtain ⟨s1, s2⟩ := detail.apply_sign_u256_spec _ r4 hlt a.is_negative
  rw [mod_eq]
  refine ⟨s1, ?_⟩
  rw [s2, r2, ea, eb, tmod_natAbs, is_negative_eq a ha]
  simp only [decide_eq_true_eq]

theorem tdiv_range (A B : Int) (hA1 : -2 ^ 255 ≤ A) (hA2 : A < 2 ^ 255) (h0 : B ≠ 0)
    (hex : ¬ (A = -2 ^ 255 ∧ B = -1)) :
    -2 ^ 255 ≤ Int.tdiv A B ∧ Int.tdiv A B < 2 ^ 255 := by
  rw [tdiv_natAbs]
  have hx : A.natAbs ≤ 2 ^ 255 := by omega
  have hle : A.natAbs / B.natAbs ≤ A.natAbs := Nat.div_le_self _ _
  have hhalf : 2 ≤ B.natAbs → A.natAbs / B.natAbs ≤ A.natAbs / 2 :=
    fun h3 => Nat.div_le_div_left h3 (by decide)
  generalize A.natAbs / B.natAbs = q at hle hhalf ⊢
  by_cases c : xor (decide (A < 0)) (decide (B < 0)) = true
  · rw [if_pos c]
    omega
  · rw [if_neg c]
    refine ⟨by omega, ?_⟩
    by_contra hge
    have h1 : q = 2 ^ 255 := by omega
    have h2 : B.natAbs = 1 := by
      by_contra h2
      have h4 := hhalf (by omega)
      omega
    have h5 : A = -2 ^ 255 := by omega
    have h6 : A < 0 := by omega
    have h7 : B = -1 := by
      by_contra h7
      have h8 : ¬ B < 0 := by omega
      simp [h6, h8] at c
    exact hex ⟨h5, h7⟩

theorem div_toInt (a b : int256) (ha : a.WF) (hb : b.WF) (h0 : b.toInt ≠ 0)
    (hex : ¬ (a.toInt = -2 ^ 255 ∧ b.toInt = -1)) :
    (div a b).toInt = Int.tdiv a.toInt b.toInt := by
  obtain ⟨w, e⟩ := div_emod a b ha hb h0
  have r1 := toInt_range _ w
  have r2 := toInt_range a ha
  have r3 := tdiv_range a.toInt b.toInt r2.1 r2.2 h0 hex
  rw [p256] at e
  omega

theorem mul_emod (a b : int256) (ha : a.WF) (hb : b.WF) :
    (mul a b).WF ∧ (mul a b).toInt % 2 ^ 256 = a.toInt * b.toInt % 2 ^ 256 := by
  have w : (mul a b).WF := uint256.mul_WF _ _
  refine ⟨w, ?_⟩
  rw [toInt_emod _ w]
  have e : (⟨(mul a b).hi_, (mul a b).lo_⟩ : uint256).toNat
      = (⟨a.hi_, a.lo_⟩ : uint256).toNat * (⟨b.hi_, b.lo_⟩ : uint256).toNat % 2 ^ 256 :=
    uint256.mul_toNat ⟨a.hi_, a.lo_⟩ ⟨b.hi_, b.lo_⟩ ha hb
  rw [e, Int.mul_emod a.toInt, toInt_emod a ha, toInt_emod b hb]
  push_cast
  rfl

theorem add_emod (a b : int256) (ha : a.WF) (hb : b.WF) :
    (add a b).WF ∧ (add a b).toInt % 2 ^ 256 = (a.toInt + b.toInt) % 2 ^ 256 := by
  have w : (add a b).WF := uint256.add_WF _ _
  refine ⟨w, ?_⟩
  rw [toInt_emod _ w]
  have e : (⟨(add a b).hi_, (add a b).lo_⟩ : uint256).toNat
      = ((⟨a.hi_, a.lo_⟩ : uint256).toNat + (⟨b.hi_, b.lo_⟩ : uint256).toNat) % 2 ^ 256 :=
    (uint256.add_toNat ⟨a.hi_, a.lo_⟩ ⟨b.hi_, b.lo_⟩ ha hb).1
  rw [e, Int.add_emod a.toInt, toInt_emod a ha, toInt_emod b hb]
  push_cast
  rfl

theorem div_mod_identity (a b : int256) (ha : a.WF) (hb : b.WF) (h0 : b.toInt ≠ 0) :
    add (mul (div a b) b) (mod a b) = a := by
  obtain ⟨wd, ed⟩ := div_emod a b ha hb h0
  obtain ⟨wm, em⟩ := mod_toInt a b ha hb h0
  obtain ⟨wp, ep⟩ := mul_emod (div a b) b wd hb
  obtain ⟨ws, es⟩ := add_emod (mul (div a b) b) (mod a b) wp wm
  apply eq_of_toInt_emod _ _ ws ha
  rw [es, Int.add_emod, ep, Int.mul_emod, ed, ← Int.mul_emod, ← Int.add_emod, em,
    Int.tdiv_add_tmod']

end int256

theorem ediv_of_bounds (x d q : Int) (hd : 0 < d) (h1 : d * q ≤ x) (h2 : x < d * q + d) :
    x / d = q := by
  have := (Int.ediv_emod_unique hd).mpr ⟨(by ring : (x - d * q) + d * q = x), by omega, by omega⟩
  exact this.1

namespace uint256

theorem not_toNat (x : uint256) (h : x.WF) :
    (not x).WF ∧ (not x).toNat = 2 ^ 256 - 1 - x.toNat := by
  obtain ⟨⟨a, b⟩, ⟨c, d⟩⟩ := x
  obtain ⟨⟨h1, h2⟩, h3, h4⟩ := h
  simp only at h1 h2 h3 h4
  unfold not uint128.not toNat uint128.to_wide WF uint128.WF
  simp only
  omega

theorem fill_toNat (j : Nat) (h2 : j < 256) :
    (shl (not (of_u64 0)) (j : Int)).WF
    ∧ (shl (not (of_u64 0)) (j : Int)).toNat = 2 ^ 256 - 2 ^ j := by
  have hz : (of_u64 0).WF := of_u64_WF 0
  have hz0 : (of_u64 0).toNat = 0 := by decide
  obtain ⟨w, e⟩ := not_toNat _ hz
  refine ⟨shl_WF256 _ w _, ?_⟩
  rw [shl_toNat _ w _ (Int.ofNat_nonneg j), e, hz0, Int.toNat_ofNat]
  have h3 : 2 ^ j < 2 ^ 256 := Nat.pow_lt_pow_right (by decide) h2
  have h4 : 0 < 2 ^ j := Nat.two_pow_pos j
  generalize 2 ^ j = J at h3 h4 ⊢
  omega

end uint256

namespace int256

theorem shr_WF_i256 (v : int256) (h : v.WF) (k : Int) : (shr v k).WF := by
  unfold shr
  split
  · exact h
  split
  · split <;> decide
  · simp only
    split
    · exact uint256.or_WF256 _ _ (uint256.shr_WF256 ⟨v.hi_, v.lo_⟩ h _)
        (uint256.shl_WF256 _ (uint256.not_toNat _ (uint256.of_u64_WF 0)).1 _)
    · exact uint256.shr_WF256 ⟨v.hi_, v.lo_⟩ h _

theorem shr_toInt (v : int256) (h : v.WF) (k : Int) (hk : 0 ≤ k) :
    (shr v k).toInt = v.toInt / 2 ^ k.toNat := by
  obtain ⟨n, rfl⟩ := Int.eq_ofNat_of_zero_le hk
  rw [Int.toNat_ofNat]
  have hneg := is_negative_iff v h
  have hu := uint256.toNat_lt ⟨v.hi_, v.lo_⟩ h
  have hvi : v.toInt = if (⟨v.hi_, v.lo_⟩ : uint256).toNat < 2 ^ 255
      then (((⟨v.hi_, v.lo_⟩ : uint256).toNat : Nat) : Int)
      else (((⟨v.hi_, v.lo_⟩ : uint256).toNat : Nat) : Int) - 2 ^ 256 := rfl
  have hpos : (0 : Int) < 2 ^ n := by positivity
  by_cases a1 : (n : Int) ≤ 0
  · have : n = 0 := by omega
    subst this
    have e : shr v ((0 : Nat) : Int) = v := by unfold shr; rw [if_pos a1]
    rw [e, pow_zero, Int.ediv_one]
  by_cases a2 : 256 ≤ (n : Int)
  · have hbig : (2 : Int) ^ 256 ≤ 2 ^ n := pow_le_pow_right₀ (by decide) (by omega)
    have hr := toInt_range v h
    by_cases c : v.is_negative = true
    · have e : shr v (n : Int) = ⟨⟨2 ^ 64 - 1, 2 ^ 64 - 1⟩, ⟨2 ^ 64 - 1, 2 ^ 64 - 1⟩⟩ := by
        unfold shr; rw [if_neg a1, if_pos a2, if_pos c]
      have e1 : (⟨⟨2 ^ 64 - 1, 2 ^ 64 - 1⟩, ⟨2 ^ 64 - 1, 2 ^ 64 - 1⟩⟩ : int256).toInt = -1 := by
        decide!
      have hlt := (toInt_neg_iff v h).mp c
      rw [e, e1]
      symm
      apply ediv_of_bounds _ _ _ hpos
      · rw [p256] at hbig
        omega
      · omega
    · have e : shr v (n : Int) = ⟨⟨0, 0⟩, ⟨0, 0⟩⟩ := by
        unfold shr; rw [if_neg a1, if_pos a2, if_neg c]
      have e1 : (⟨⟨0, 0⟩, ⟨0, 0⟩⟩ : int256).toInt = 0 := by decide
      have hge : ¬ v.toInt < 0 := fun hh => c ((toInt_neg_iff v h).mpr hh)
      rw [e, e1]
      symm
      apply ediv_of_bounds _ _ _ hpos
      · omega
      · rw [p256] at hbig
        omega
  have hn : n < 256 := by omega
  have hn0 : 0 < n := by omega
  have hsr := uint256.shr_toNat ⟨v.hi_, v.lo_⟩ h (n : Int) hk
  rw [Int.toNat_ofNat] at hsr
  have hsw := uint256.shr_WF256 ⟨v.hi_, v.lo_⟩ h (n : Int)
  have hdiv : (⟨v.hi_, v.lo_⟩ : uint256).toNat / 2 ^ n ≤ (⟨v.hi_, v.lo_⟩ : uint256).toNat :=
    Nat.div_le_self _ _
  by_cases c : v.is_negative = true
  · have e : shr v (n : Int) = (⟨(uint256.or (uint256.shr ⟨v.hi_, v.lo_⟩ n)
          (uint256.shl (uint256.not (uint256.of_u64 0)) (256 - (n : Int)))).hi_,
        (uint256.or (uint256.shr ⟨v.hi_, v.lo_⟩ n)
          (uint256.shl (uint256.not (uint256.of_u64 0)) (256 - (n : Int)))).lo_⟩ : int256) := by
      unfold shr; rw [if_neg a1, if_neg a2]; simp only [c, if_true]; rfl
    have ej : (256 - (n : Int)) = ((256 - n : Nat) : Int) := by omega
    obtain ⟨fw, fe⟩ := uint256.fill_toNat (256 - n) (by omega)
    have hor := uint256.or_toNat _ _ hsw fw
    have hpw : 2 ^ (256 - n) * 2 ^ n = 2 ^ 256 := by
      rw [← Nat.pow_add]
      congr 1
      omega
    have hq : (⟨v.hi_, v.lo_⟩ : uint256).toNat / 2 ^ n < 2 ^ (256 - n) := by
      rw [Nat.div_lt_iff_lt_mul (Nat.two_pow_pos n), hpw]
      exact hu
    have hfill : 2 ^ 256 - 2 ^ (256 - n) = 2 ^ (256 - n) * (2 ^ n - 1) := by
      rw [Nat.mul_sub, hpw, Nat.mul_one]
    rw [fe, hsr, Nat.lor_comm, hfill, ← Nat.mul_add_lt_is_or hq, ← hfill] at hor
    have h255 : 2 ^ (256 - n) ≤ 2 ^ 255 := Nat.pow_le_pow_right (by decide) (by omega)
    have hge := hneg.mp c
    rw [e, ej]
    have hres : (⟨(uint256.or (uint256.shr ⟨v.hi_, v.lo_⟩ n)
          (uint256.shl (uint256.not (uint256.of_u64 0)) ((256 - n : Nat) : Int))).hi_,
        (uint256.or (uint256.shr ⟨v.hi_, v.lo_⟩ n)
          (uint256.shl (uint256.not (uint256.of_u64 0)) ((256 - n : Nat) : Int))).lo_⟩
          : int256).toInt
        = (((⟨v.hi_, v.lo_⟩ : uint256).toNat / 2 ^ n : Nat) : Int) - 2 ^ (256 - n) := by
      unfold toInt
      simp only
      rw [hor]
      have hp : (0:Nat) < 2 ^ (256 - n) := Nat.two_pow_pos _
      have hc : ((2 ^ (256 - n) : Nat) : Int) = (2 : Int) ^ (256 - n) := by push_cast; rfl
      rw [← hc]
      generalize 2 ^ (256 - n) = J at h255 hq hp ⊢
      generalize (⟨v.hi_, v.lo_⟩ : uint256).toNat / 2 ^ n = Q at hq ⊢
      rw [if_neg (by omega)]
      rw [p256]
      omega
    rw [hres, hvi, if_neg (by omega)]
    have hsplit : (((⟨v.hi_, v.lo_⟩ : uint256).toNat : Nat) : Int) - 2 ^ 256
        = (((⟨v.hi_, v.lo_⟩ : uint256).toNat : Nat) : Int) + (-(2 ^ (256 - n))) * 2 ^ n := by
      have : ((2 : Int) ^ (256 - n)) * 2 ^ n = 2 ^ 256 := by exact_mod_cast hpw
      rw [neg_mul, this]
      ring
    rw [hsplit, Int.add_mul_ediv_right _ _ (by positivity)]
    push_cast
    ring
  · have e : shr v (n : Int) = (⟨(uint256.shr ⟨v.hi_, v.lo_⟩ n).hi_,
        (uint256.shr ⟨v.hi_, v.lo_⟩ n).lo_⟩ : int256) := by
      unfold shr; rw [if_neg a1, if_neg a2]; simp only [c]; rfl
    have hlt : (⟨v.hi_, v.lo_⟩ : uint256).toNat < 2 ^ 255 := by
      by_contra hh
      exact c (hneg.mpr (by omega))
    rw [e, hvi, if_pos hlt]
    unfold toInt
    simp only
    rw [hsr, if_pos (by omega)]
    push_cast
    rfl

end int256

/-! ## Lemmas: arithmetic of `Numeric` on the limb vectors -/

namespace Numeric

/-- The parser on a well-formed literal whose integer part may be empty (`.5`), with at most
16383 fractional digits and at least one digit. -/
theorem init_parse_literal_gen (sgn ip fp : List Char) (dot : Bool) (rnd : Rounding)
    (hsgn : sgn = [] ∨ sgn = ['+'] ∨ sgn = ['-'])
    (hip : is_digit_string ip) (hne : ip ≠ [] ∨ fp ≠ []) (hfp : is_digit_string fp)
    (hlen : fp.length ≤ 16383) (hdot : dot = false → fp = []) :
    init_parse (sgn ++ (ip ++ (if dot = true then '.' :: fp else []))) rnd
      = parse_finish (decide (sgn = ['-']))
          ⟨parse_digits [] (ip ++ fp), (fp.length : Int), dot, true⟩ := by
  by_cases hipne : ip ≠ []
  · exact init_parse_literal_num sgn ip fp dot rnd hsgn hip hipne hfp hlen hdot
  have hip0 : ip = [] := by
    by_contra h
    exact hipne h
  have hfpne : fp ≠ [] := by
    rcases hne with h | h
    · exact absurd hip0 h
    · exact h
  have hd : dot = true := by
    cases dot
    · exact absurd (hdot rfl) hfpne
    · rfl
  subst hip0
  subst hd
  have hloop : parse_loop ('.' :: fp) {}
      = Except.ok ⟨parse_digits [] fp, (fp.length : Int), true, true⟩ := by
    rw [parse_loop]
    simp only [if_true, Bool.false_eq_true, if_false]
    have h := parse_loop_frac_eq fp hfp ⟨[], 0, true, false⟩ [] rfl (by
      have hm : max_frac_digits = 16383 := rfl
      simp only [hm]
      omega)
    rw [List.append_nil] at h
    have hany : (false || !fp.isEmpty) = true := by
      cases fp with
      | nil => exact absurd rfl hfpne
      | cons a as => rfl
    have e : ({ ({} : ParseState) with seen_dot := true } : ParseState) = ⟨[], 0, true, false⟩ := rfl
    rw [e, h, parse_loop]
    simp only [hany, Int.zero_add]
  simp only [List.nil_append, if_true]
  rcases hsgn with hs | hs | hs <;> rw [hs]
  · show init_parse ('.' :: fp) rnd = _
    rw [init_parse_unsigned '.' fp rnd (by decide) (by decide), hloop]
    rfl
  · show init_parse ('+' :: '.' :: fp) rnd = _
    rw [init_parse_signed '+' '.' fp rnd (Or.inl rfl), hloop]
    rfl
  · show init_parse ('-' :: '.' :: fp) rnd = _
    rw [init_parse_signed '-' '.' fp rnd (Or.inr rfl), hloop]
    rfl

theorem pop_back_zeros_zero (v : List Nat) (h : limbs_value v = 0) : pop_back_zeros v = [] := by
  by_contra hne
  have := limbs_value_pos (pop_back_zeros v) hne (pop_back_zeros_last v)
  rw [pop_back_zeros_value] at this
  omega

/-- The end of the parser when all digits read are zero: the canonical zero. -/
theorem parse_finish_zero (neg : Bool) (st : ParseState) (hany : st.any = true)
    (hz : limbs_value st.mag_ = 0) :
    parse_finish neg st = ⟨[], 0, false, Err.None⟩ := by
  have hp := pop_back_zeros_zero st.mag_ hz
  unfold parse_finish normalize_
  simp only [hany, hp, Bool.not_true, Bool.false_eq_true, if_false, List.isEmpty_nil, if_true]
  rfl

end Numeric

namespace Numeric

theorem pow10_u32_spec (k : Nat) (hk : k ≤ 9) : pow10_u32_ (k : Int) = 10 ^ k := by
  interval_cases k <;> decide

theorem mul_small_loop_spec (m : Nat) (hm0 : 0 < m) (hm : m < 2 ^ 32) (v : List Nat) :
    ∀ (carry : Nat), (∀ l ∈ v, l < base) → carry < m →
    (∀ l ∈ (mul_small_loop m v carry).1, l < base) ∧ (mul_small_loop m v carry).2 < m ∧
    (mul_small_loop m v carry).1.length = v.length ∧
    limbs_value (mul_small_loop m v carry).1 + base ^ v.length * (mul_small_loop m v carry).2
      = m * limbs_value v + carry := by
  induction v with
  | nil =>
    intro carry _ hc
    exact ⟨fun l hl => by simp [mul_small_loop] at hl, hc, rfl,
      by simp [mul_small_loop, limbs_value]⟩
  | cons x xs ih =>
    intro carry h hc
    have hx := h x (List.mem_cons_self _ _)
    rw [base_eq] at hx
    obtain ⟨p, hpe⟩ : ∃ p, p = x * m := ⟨_, rfl⟩
    have hp : p ≤ 999999999 * m := by
      rw [hpe]
      exact Nat.mul_le_mul_right m (by omega)
    have hxm : p = m * x := by rw [hpe, Nat.mul_comm]
    have hcur : (p + carry) % 2 ^ 64 = p + carry := Nat.mod_eq_of_lt (by omega)
    have hq : (p + carry) / base < m := by rw [base_eq]; omega
    have hmm : (p + carry) % base < base := Nat.mod_lt _ (by rw [base_eq]; decide)
    obtain ⟨i1, i2, i3, i4⟩ := ih ((p + carry) / base)
      (fun l hl => h l (List.mem_cons_of_mem _ hl)) hq
    have hm32 : (p + carry) % base < 2 ^ 32 := lt_trans hmm (by rw [base_eq]; decide)
    unfold mul_small_loop
    simp only [← hpe, hcur]
    rw [to_u32_small _ hm32]
    refine ⟨?_, i2, by simp [i3], ?_⟩
    · intro l hl
      rcases List.mem_cons.mp hl with hl | hl
      · rw [hl]; exact hmm
      · exact i1 l hl
    · have hdm := Nat.div_add_mod (p + carry) base
      generalize (p + carry) / base = q at *
      generalize (p + carry) % base = r at *
      calc limbs_value (r :: (mul_small_loop m xs q).1)
            + base ^ (x :: xs).length * (mul_small_loop m xs q).2
          = r + base * (limbs_value (mul_small_loop m xs q).1
              + base ^ xs.length * (mul_small_loop m xs q).2) := by
            simp only [limbs_value, List.length_cons, Nat.pow_succ]
            ring
        _ = r + base * (m * limbs_value xs + q) := by rw [i4]
        _ = m * x + base * (m * limbs_value xs) + carry := by
            rw [Nat.mul_add, ← hxm]
            omega
        _ = m * limbs_value (x :: xs) + carry := by
            simp only [limbs_value]
            ring

theorem mul_small_carry_spec : ∀ (fuel carry : Nat), carry < base ^ fuel →
    (∀ l ∈ mul_small_carry fuel carry, l < base) ∧
    limbs_value (mul_small_carry fuel carry) = carry ∧
    (mul_small_carry fuel carry).getLast? ≠ some 0 := by
  intro fuel
  induction fuel with
  | zero =>
    intro carry hc
    simp only [pow_zero, Nat.lt_one_iff] at hc
    subst hc
    exact ⟨fun l hl => by simp [mul_small_carry] at hl, rfl, by simp [mul_small_carry]⟩
  | succ f ih =>
    intro carry hc
    unfold mul_small_carry
    by_cases h0 : carry ≠ 0
    · rw [if_pos h0]
      have hmm : carry % base < base := Nat.mod_lt _ (by rw [base_eq]; decide)
      have hm32 : carry % base < 2 ^ 32 := lt_trans hmm (by rw [base_eq]; decide)
      have hq : carry / base < base ^ f := by
        rw [Nat.div_lt_iff_lt_mul (by rw [base_eq]; decide)]
        rw [Nat.pow_succ] at hc
        exact hc
      obtain ⟨i1, i2, i3⟩ := ih (carry / base) hq
      rw [to_u32_small _ hm32]
      refine ⟨?_, ?_, ?_⟩
      · intro l hl
        rcases List.mem_cons.mp hl with hl | hl
        · rw [hl]; exact hmm
        · exact i1 l hl
      · simp only [limbs_value, i2]
        have := Nat.div_add_mod carry base
        rw [base_eq] at this ⊢
        omega
      · by_cases hnil : mul_small_carry f (carry / base) = []
        · rw [hnil] at i2 ⊢
          have hq0 : carry / base = 0 := by
            rw [← i2]
            rfl
          have hmod : carry % base ≠ 0 := by
            have := Nat.div_add_mod carry base
            rw [hq0] at this
            omega
          simpa using hmod
        · obtain ⟨y, ys, hy⟩ := List.exists_cons_of_ne_nil hnil
          rw [hy, List.getLast?_cons_cons, ← hy]
          exact i3
    · rw [if_neg h0]
      have hz : carry = 0 := by omega
      subst hz
      exact ⟨fun l hl => by simp at hl, rfl, by simp⟩

/-- Product of a limb vector and a 32-bit factor. -/
theorem mul_small_spec (v : List Nat) (m : Nat) (hm : m < 2 ^ 32) (h : ∀ l ∈ v, l < base) :
    (mul_small_ v m).1 = true ∧ (∀ l ∈ (mul_small_ v m).2, l < base) ∧
    limbs_value (mul_small_ v m).2 = m * limbs_value v ∧
    (0 < m → v.getLast? ≠ some 0 → (mul_small_ v m).2.getLast? ≠ some 0) := by
  unfold mul_small_
  by_cases c1 : v.isEmpty = true ∨ m = 1
  · rw [if_pos c1]
    refine ⟨rfl, h, ?_, fun _ hl => hl⟩
    rcases c1 with c1 | c1
    · rw [List.isEmpty_iff] at c1
      rw [c1]
      simp [limbs_value]
    · rw [c1, Nat.one_mul]
  rw [if_neg c1]
  by_cases c2 : m = 0
  · rw [if_pos c2, c2]
    exact ⟨rfl, fun l hl => by simp at hl, by simp [limbs_value], fun h0 => absurd h0 (by decide)⟩
  rw [if_neg c2]
  have hm0 : 0 < m := by omega
  obtain ⟨i1, i2, i3, i4⟩ := mul_small_loop_spec m hm0 hm v 0 h hm0
  have hcl : (mul_small_loop m v 0).2 < base ^ 8 := by
    rw [base_pow]
    have : (2 : Nat) ^ 32 < 10 ^ (9 * 8) := by norm_num
    omega
  obtain ⟨j1, j2, j3⟩ := mul_small_carry_spec 8 _ hcl
  refine ⟨rfl, ?_, ?_, ?_⟩
  · intro l hl
    rcases List.mem_append.mp hl with hl | hl
    · exact i1 l hl
    · exact j1 l hl
  · rw [limbs_value_append, j2, i3, i4, Nat.add_zero]
  · intro _ hlast
    show ((mul_small_loop m v 0).1 ++ mul_small_carry 8 (mul_small_loop m v 0).2).getLast?
      ≠ some 0
    by_cases hnil : mul_small_carry 8 (mul_small_loop m v 0).2 = []
    · rw [hnil, List.append_nil]
      rw [hnil] at j2
      have hc0 : (mul_small_loop m v 0).2 = 0 := by
        rw [← j2]
        rfl
      rw [hc0, Nat.mul_zero, Nat.add_zero] at i4
      intro hl0
      have hvne : v ≠ [] := by
        intro hv
        apply c1
        left
        rw [hv]
        rfl
      have hpos := limbs_value_pos v hvne hlast
      obtain ⟨init, hinit⟩ : ∃ init, (mul_small_loop m v 0).1 = init ++ [0] := by
        rcases List.eq_nil_or_concat (mul_small_loop m v 0).1 with e | ⟨i, t, e⟩
        · rw [e] at hl0
          simp at hl0
        · rw [e, List.concat_eq_append, List.getLast?_append, List.getLast?_singleton] at hl0
          have hl1 : some t = some 0 := hl0
          rw [Option.some.injEq] at hl1
          rw [e, List.concat_eq_append, hl1]
          exact ⟨i, rfl⟩
      have hlen : init.length + 1 = v.length := by
        rw [← i3, hinit, List.length_append, List.length_singleton]
      have hlt : limbs_value (mul_small_loop m v 0).1 < base ^ init.length := by
        rw [hinit, limbs_value_append]
        simp only [limbs_value, Nat.mul_zero, Nat.add_zero]
        exact limbs_value_lt init (fun l hl => i1 l (by rw [hinit]; exact List.mem_append_left _ hl))
      have hge : base ^ init.length ≤ limbs_value v := by
        obtain ⟨vi, vt, hv⟩ : ∃ vi vt, v = vi ++ [vt] := by
          rcases List.eq_nil_or_concat v with e | ⟨i, t, e⟩
          · exact absurd e hvne
          · exact ⟨i, t, by rw [e, List.concat_eq_append]⟩
        have hvt : vt ≠ 0 := by
          intro hz
          apply hlast
          rw [hv, List.getLast?_append, List.getLast?_singleton, hz]
          rfl
        have hvl : vi.length = init.length := by
          rw [hv, List.length_append, List.length_singleton] at hlen
          omega
        rw [hv, limbs_value_append, hvl]
        simp only [limbs_value, Nat.mul_zero, Nat.add_zero]
        calc base ^ init.length = base ^ init.length * 1 := (Nat.mul_one _).symm
          _ ≤ base ^ init.length * vt := Nat.mul_le_mul_left _ (by omega)
          _ ≤ limbs_value vi + base ^ init.length * vt := Nat.le_add_left _ _
      have : limbs_value v ≤ m * limbs_value v := Nat.le_mul_of_pos_left _ hm0
      omega
    · obtain ⟨y, ys, hy⟩ := List.exists_cons_of_ne_nil hnil
      rw [List.getLast?_append, hy]
      rw [hy] at j3
      cases hl : (y :: ys).getLast? with
      | none => simp at hl
      | some z =>
        rw [hl] at j3
        exact j3

end Numeric

namespace Numeric

theorem limbs_value_zeros (n : Nat) : limbs_value (List.replicate n 0) = 0 := by
  induction n with
  | zero => rfl
  | succ k ih =>
    rw [List.replicate_succ]
    simp only [limbs_value, ih, Nat.mul_zero, Nat.add_zero]

theorem base_pos : 0 < base := by rw [base_eq]; decide

/-- Product of a limb vector and a power of ten. -/
theorem mul_pow10_spec (v : List Nat) (k : Nat) (h : ∀ l ∈ v, l < base) :
    (mul_pow10_ v (k : Int)).1 = true ∧ (∀ l ∈ (mul_pow10_ v (k : Int)).2, l < base) ∧
    limbs_value (mul_pow10_ v (k : Int)).2 = limbs_value v * 10 ^ k := by
  unfold mul_pow10_
  rw [if_neg (by omega)]
  by_cases c1 : v.isEmpty = true ∨ (k : Int) = 0
  · rw [if_pos c1]
    refine ⟨rfl, h, ?_⟩
    rcases c1 with c1 | c1
    · rw [List.isEmpty_iff] at c1
      rw [c1]
      simp [limbs_value]
    · have : k = 0 := by omega
      rw [this, pow_zero, Nat.mul_one]
  rw [if_neg c1]
  have hq : Int.tdiv (k : Int) base_digits = ((k / 9 : Nat) : Int) := (Int.ofNat_tdiv k 9).symm
  have hr : Int.tmod (k : Int) base_digits = ((k % 9 : Nat) : Int) := (Int.ofNat_tmod k 9).symm
  simp only [hq, hr, Int.toNat_ofNat]
  have hv2 : ∀ l ∈ (if ((k / 9 : Nat) : Int) > 0 then List.replicate (k / 9) 0 ++ v else v),
      l < base := by
    intro l hl
    split at hl
    · rcases List.mem_append.mp hl with hl | hl
      · rw [(List.mem_replicate.mp hl).2]
        exact base_pos
      · exact h l hl
    · exact h l hl
  have hval : limbs_value (if ((k / 9 : Nat) : Int) > 0 then List.replicate (k / 9) 0 ++ v else v)
      = limbs_value v * base ^ (k / 9) := by
    split
    · rw [limbs_value_append, limbs_value_zeros, List.length_replicate, Nat.zero_add,
        Nat.mul_comm]
    · rename_i hz
      have : k / 9 = 0 := by omega
      rw [this, pow_zero, Nat.mul_one]
  have hk : 10 ^ k = base ^ (k / 9) * 10 ^ (k % 9) := by
    rw [base_pow, ← Nat.pow_add, Nat.div_add_mod]
  by_cases c2 : ((k % 9 : Nat) : Int) > 0
  · rw [if_pos c2]
    have hp := pow10_u32_spec (k % 9) (by omega)
    have hp32 : 10 ^ (k % 9) < 2 ^ 32 := by
      have : k % 9 ≤ 8 := by omega
      calc 10 ^ (k % 9) ≤ 10 ^ 8 := Nat.pow_le_pow_right (by decide) this
        _ < 2 ^ 32 := by norm_num
    obtain ⟨m1, m2, m3, _⟩ := mul_small_spec _ (10 ^ (k % 9)) hp32 hv2
    rw [hp]
    refine ⟨m1, m2, ?_⟩
    rw [m3, hval, hk]
    ring
  · rw [if_neg c2]
    have : k % 9 = 0 := by omega
    refine ⟨rfl, hv2, ?_⟩
    rw [hval, hk, this, pow_zero, Nat.mul_one]

theorem limbs_value_drop (v : List Nat) (h : ∀ l ∈ v, l < base) (n : Nat) :
    limbs_value (v.drop n) = limbs_value v / base ^ n := by
  have hsplit := List.take_append_drop n v
  have hv : limbs_value v = limbs_value (v.take n) + base ^ (v.take n).length
      * limbs_value (v.drop n) := by
    rw [← limbs_value_append, hsplit]
  have hlt := limbs_value_lt (v.take n) (fun l hl => h l (List.mem_of_mem_take hl))
  have hpos : 0 < base ^ n := pow_pos base_pos n
  by_cases c : n ≤ v.length
  · have hl : (v.take n).length = n := by rw [List.length_take]; omega
    rw [hl] at hv hlt
    rw [hv, Nat.add_mul_div_left _ _ hpos, Nat.div_eq_of_lt hlt, Nat.zero_add]
  · have hd : v.drop n = [] := List.drop_eq_nil_of_le (by omega)
    rw [hd]
    have hl2 := limbs_value_lt v h
    have : base ^ v.length ≤ base ^ n := Nat.pow_le_pow_right base_pos (by omega)
    rw [Nat.div_eq_of_lt (by omega)]
    rfl

theorem limbs_value_getD (v : List Nat) (h : ∀ l ∈ v, l < base) (i : Nat) :
    v.getD i 0 = limbs_value v / base ^ i % base := by
  rw [← limbs_value_drop v h i]
  by_cases c : i < v.length
  · have hd : v.drop i = v[i] :: v.drop (i + 1) := List.drop_eq_getElem_cons c
    rw [hd, List.getD_eq_getElem _ _ c]
    simp only [limbs_value]
    have := h v[i] (List.getElem_mem c)
    rw [Nat.add_mul_mod_self_left, Nat.mod_eq_of_lt this]
  · have hd : v.drop i = [] := List.drop_eq_nil_of_le (by omega)
    rw [hd, List.getD_eq_default _ _ (by omega)]
    rfl

theorem add_abs_loop_spec (a : List Nat) : ∀ (b : List Nat) (carry : Nat),
    (∀ l ∈ a, l < base) → (∀ l ∈ b, l < base) → carry ≤ 1 →
    (∀ l ∈ add_abs_loop a b carry, l < base) ∧
    limbs_value (add_abs_loop a b carry) = limbs_value a + limbs_value b + carry := by
  have hb0 : base = 1000000000 := rfl
  have step : ∀ (x y carry : Nat), x < base → y < base → carry ≤ 1 →
      (x + y + carry) % 2 ^ 64 = x + y + carry ∧ (x + y + carry) / base ≤ 1 ∧
      to_u32 ((x + y + carry) % base) = (x + y + carry) % base ∧
      (x + y + carry) % base < base := by
    intro x y carry hx hy hc
    rw [hb0] at hx hy
    have h1 : (x + y + carry) % 2 ^ 64 = x + y + carry := Nat.mod_eq_of_lt (by omega)
    have h2 : (x + y + carry) % base < base := Nat.mod_lt _ base_pos
    refine ⟨h1, by rw [hb0]; omega, to_u32_small _ (lt_trans h2 (by rw [hb0]; decide)), h2⟩
  have nilcase : ∀ (b : List Nat) (carry : Nat), (∀ l ∈ b, l < base) → carry ≤ 1 →
      (∀ l ∈ add_abs_loop [] b carry, l < base) ∧
      limbs_value (add_abs_loop [] b carry) = limbs_value b + carry := by
    intro b
    induction b with
    | nil =>
      intro carry _ hc
      unfold add_abs_loop
      by_cases c0 : carry ≠ 0
      · rw [if_pos c0, to_u32_small _ (by omega)]
        refine ⟨?_, by simp [limbs_value]⟩
        intro l hl
        rw [List.mem_singleton.mp hl, hb0]
        omega
      · rw [if_neg c0]
        have : carry = 0 := by omega
        rw [this]
        exact ⟨fun l hl => by simp at hl, rfl⟩
    | cons y ys ih =>
      intro carry hb hc
      have hy := hb y (List.mem_cons_self _ _)
      obtain ⟨s1, s2, s3, s4⟩ := step 0 y carry base_pos hy hc
      obtain ⟨i1, i2⟩ := ih ((0 + y + carry) / base)
        (fun l hl => hb l (List.mem_cons_of_mem _ hl)) s2
      unfold add_abs_loop
      simp only [s1, s3]
      refine ⟨?_, ?_⟩
      · intro l hl
        rcases List.mem_cons.mp hl with hl | hl
        · rw [hl]; exact s4
        · exact i1 l hl
      · simp only [limbs_value, i2]
        have := Nat.div_add_mod (0 + y + carry) base
        generalize limbs_value ys = Y at *
        rw [hb0] at this ⊢
        omega
  induction a with
  | nil =>
    intro b carry _ hb hc
    obtain ⟨n1, n2⟩ := nilcase b carry hb hc
    refine ⟨n1, ?_⟩
    rw [n2]
    simp [limbs_value]
  | cons x xs ih =>
    intro b carry ha hb hc
    have hx := ha x (List.mem_cons_self _ _)
    have hxs : ∀ l ∈ xs, l < base := fun l hl => ha l (List.mem_cons_of_mem _ hl)
    cases b with
    | nil =>
      obtain ⟨s1, s2, s3, s4⟩ := step x 0 carry hx base_pos hc
      obtain ⟨i1, i2⟩ := ih [] ((x + 0 + carry) / base) hxs (fun l hl => by simp at hl) s2
      unfold add_abs_loop
      simp only [s1, s3]
      refine ⟨?_, ?_⟩
      · intro l hl
        rcases List.mem_cons.mp hl with hl | hl
        · rw [hl]; exact s4
        · exact i1 l hl
      · simp only [limbs_value, i2]
        have := Nat.div_add_mod (x + 0 + carry) base
        generalize limbs_value xs = X at *
        rw [hb0] at this ⊢
        omega
    | cons y ys =>
      have hy := hb y (List.mem_cons_self _ _)
      obtain ⟨s1, s2, s3, s4⟩ := step x y carry hx hy hc
      obtain ⟨i1, i2⟩ := ih ys ((x + y + carry) / base) hxs
        (fun l hl => hb l (List.mem_cons_of_mem _ hl)) s2
      unfold add_abs_loop
      simp only [s1, s3]
      refine ⟨?_, ?_⟩
      · intro l hl
        rcases List.mem_cons.mp hl with hl | hl
        · rw [hl]; exact s4
        · exact i1 l hl
      · simp only [limbs_value, i2]
        have := Nat.div_add_mod (x + y + carry) base
        generalize limbs_value xs = X at *
        generalize limbs_value ys = Y at *
        rw [hb0] at this ⊢
        omega

/-- Sum of two limb vectors. -/
theorem add_abs_spec (a b : List Nat) (ha : ∀ l ∈ a, l < base) (hb : ∀ l ∈ b, l < base) :
    (∀ l ∈ add_abs_ a b, l < base) ∧ (add_abs_ a b).getLast? ≠ some 0 ∧
    limbs_value (add_abs_ a b) = limbs_value a + limbs_value b := by
  obtain ⟨i1, i2⟩ := add_abs_loop_spec a b 0 ha hb (by omega)
  unfold add_abs_
  exact ⟨fun l hl => i1 l (pop_back_zeros_mem _ l hl), pop_back_zeros_last _,
    by rw [pop_back_zeros_value, i2, Nat.add_zero]⟩

end Numeric

namespace Numeric

theorem limbs_value_head_tail (b : List Nat) :
    limbs_value b = b.headD 0 + base * limbs_value b.tail := by
  cases b with
  | nil => rfl
  | cons y ys => rfl

theorem sub_abs_loop_spec (a : List Nat) : ∀ (b : List Nat) (carry : Nat),
    (∀ l ∈ a, l < base) → (∀ l ∈ b, l < base) → carry ≤ 1 →
    limbs_value b + carry ≤ limbs_value a →
    (∀ l ∈ sub_abs_loop a b (carry : Int), l < base) ∧
    limbs_value (sub_abs_loop a b (carry : Int)) + limbs_value b + carry = limbs_value a := by
  have hb0 : base = 1000000000 := rfl
  induction a with
  | nil =>
    intro b carry _ _ _ hle
    have h0 : limbs_value ([] : List Nat) = 0 := rfl
    rw [h0] at hle ⊢
    unfold sub_abs_loop
    exact ⟨fun l hl => by simp at hl, by rw [h0]; omega⟩
  | cons x xs ih =>
    intro b carry ha hb hc hle
    have hx := ha x (List.mem_cons_self _ _)
    have hxs : ∀ l ∈ xs, l < base := fun l hl => ha l (List.mem_cons_of_mem _ hl)
    have hy : b.headD 0 < base := by
      cases b with
      | nil => exact base_pos
      | cons y ys => exact hb y (List.mem_cons_self _ _)
    have hbt : ∀ l ∈ b.tail, l < base := fun l hl => hb l (List.mem_of_mem_tail hl)
    have hbv := limbs_value_head_tail b
    have hav : limbs_value (x :: xs) = x + base * limbs_value xs := rfl
    rw [hbv, hav] at hle
    rw [hb0] at hx hy
    unfold sub_abs_loop
    simp only
    generalize b.headD 0 = y at *
    by_cases c : (x : Int) - (y : Int) - (carry : Int) < 0
    · rw [if_pos c]
      have hle2 : limbs_value b.tail + 1 ≤ limbs_value xs := by
        by_contra hcon
        generalize limbs_value b.tail = Y at *
        generalize limbs_value xs = X at *
        rw [hb0] at hle
        omega
      obtain ⟨i1, i2⟩ := ih b.tail 1 hxs hbt (le_refl 1) hle2
      have e : (((x : Int) - (y : Int) - (carry : Int) + ((base : Nat) : Int)) % 2 ^ 32).toNat
          = x + base - y - carry := by
        rw [hb0]
        omega
      rw [e]
      refine ⟨?_, ?_⟩
      · intro l hl
        rcases List.mem_cons.mp hl with hl | hl
        · rw [hl, hb0]
          omega
        · exact i1 l hl
      · have e1 : sub_abs_loop xs b.tail 1 = sub_abs_loop xs b.tail ((1 : Nat) : Int) := rfl
        rw [hbv, e1]
        show (x + base - y - carry) + base * limbs_value (sub_abs_loop xs b.tail ((1 : Nat) : Int))
          + (y + base * limbs_value b.tail) + carry = x + base * limbs_value xs
        generalize limbs_value (sub_abs_loop xs b.tail ((1 : Nat) : Int)) = R at *
        generalize limbs_value b.tail = Y at *
        generalize limbs_value xs = X at *
        rw [hb0] at hle ⊢
        omega
    · rw [if_neg c]
      have hle2 : limbs_value b.tail + 0 ≤ limbs_value xs := by
        by_contra hcon
        generalize limbs_value b.tail = Y at *
        generalize limbs_value xs = X at *
        rw [hb0] at hle
        omega
      obtain ⟨i1, i2⟩ := ih b.tail 0 hxs hbt (by omega) hle2
      have e : (((x : Int) - (y : Int) - (carry : Int)) % 2 ^ 32).toNat = x - y - carry := by
        omega
      rw [e]
      refine ⟨?_, ?_⟩
      · intro l hl
        rcases List.mem_cons.mp hl with hl | hl
        · rw [hl, hb0]
          omega
        · exact i1 l hl
      · have e1 : sub_abs_loop xs b.tail 0 = sub_abs_loop xs b.tail ((0 : Nat) : Int) := rfl
        rw [hbv, e1]
        show (x - y - carry) + base * limbs_value (sub_abs_loop xs b.tail ((0 : Nat) : Int))
          + (y + base * limbs_value b.tail) + carry = x + base * limbs_value xs
        generalize limbs_value (sub_abs_loop xs b.tail ((0 : Nat) : Int)) = R at *
        generalize limbs_value b.tail = Y at *
        generalize limbs_value xs = X at *
        rw [hb0] at hle ⊢
        omega

/-- Difference of two limb vectors, the larger first. -/
theorem sub_abs_spec (a b : List Nat) (ha : ∀ l ∈ a, l < base) (hb : ∀ l ∈ b, l < base)
    (hle : limbs_value b ≤ limbs_value a) :
    (∀ l ∈ sub_abs_ a b, l < base) ∧ (sub_abs_ a b).getLast? ≠ some 0 ∧
    limbs_value (sub_abs_ a b) = limbs_value a - limbs_value b := by
  obtain ⟨i1, i2⟩ := sub_abs_loop_spec a b 0 ha hb (by omega) (by omega)
  have e1 : sub_abs_loop a b 0 = sub_abs_loop a b ((0 : Nat) : Int) := rfl
  unfold sub_abs_
  rw [e1]
  exact ⟨fun l hl => i1 l (pop_back_zeros_mem _ l hl), pop_back_zeros_last _,
    by rw [pop_back_zeros_value]; omega⟩

/-- A vector without a zero top limb has as many limbs as its value needs. -/
theorem limbs_value_ge (v : List Nat) (hne : v ≠ []) (hl : v.getLast? ≠ some 0) :
    base ^ (v.length - 1) ≤ limbs_value v := by
  obtain ⟨vi, vt, hv⟩ : ∃ vi vt, v = vi ++ [vt] := by
    rcases List.eq_nil_or_concat v with e | ⟨i, t, e⟩
    · exact absurd e hne
    · exact ⟨i, t, by rw [e, List.concat_eq_append]⟩
  have hvt : vt ≠ 0 := by
    intro hz
    apply hl
    rw [hv, List.getLast?_append, List.getLast?_singleton, hz]
    rfl
  rw [hv, limbs_value_append, List.length_append, List.length_singleton, Nat.add_sub_cancel]
  simp only [limbs_value, Nat.mul_zero, Nat.add_zero]
  calc base ^ vi.length = base ^ vi.length * 1 := (Nat.mul_one _).symm
    _ ≤ base ^ vi.length * vt := Nat.mul_le_mul_left _ (by omega)
    _ ≤ limbs_value vi + base ^ vi.length * vt := Nat.le_add_left _ _

theorem cmp_abs_loop_spec (xs : List Nat) : ∀ (ys : List Nat), xs.length = ys.length →
    (∀ l ∈ xs, l < base) → (∀ l ∈ ys, l < base) →
    (cmp_abs_loop xs ys = -1 ∨ cmp_abs_loop xs ys = 0 ∨ cmp_abs_loop xs ys = 1) ∧
    (cmp_abs_loop xs ys = -1 ↔ limbs_value xs.reverse < limbs_value ys.reverse) ∧
    (cmp_abs_loop xs ys = 0 ↔ limbs_value xs.reverse = limbs_value ys.reverse) := by
  induction xs with
  | nil =>
    intro ys hlen _ _
    have : ys = [] := List.length_eq_zero.mp hlen.symm
    subst this
    simp [cmp_abs_loop]
  | cons x xs ih =>
    intro ys hlen hx hy
    cases ys with
    | nil => simp at hlen
    | cons y ys =>
      have hlen2 : xs.length = ys.length := by simpa using hlen
      obtain ⟨i0, i1, i2⟩ := ih ys hlen2 (fun l hl => hx l (List.mem_cons_of_mem _ hl))
        (fun l hl => hy l (List.mem_cons_of_mem _ hl))
      have hxv : limbs_value (x :: xs).reverse
          = limbs_value xs.reverse + base ^ xs.length * x := by
        rw [List.reverse_cons, limbs_value_append, List.length_reverse]
        simp [limbs_value]
      have hyv : limbs_value (y :: ys).reverse
          = limbs_value ys.reverse + base ^ xs.length * y := by
        rw [List.reverse_cons, limbs_value_append, List.length_reverse, hlen2]
        simp [limbs_value]
      have hxl : limbs_value xs.reverse < base ^ xs.length := by
        have := limbs_value_lt xs.reverse
          (fun l hl => hx l (List.mem_cons_of_mem _ (List.mem_reverse.mp hl)))
        rwa [List.length_reverse] at this
      have hyl : limbs_value ys.reverse < base ^ xs.length := by
        have := limbs_value_lt ys.reverse
          (fun l hl => hy l (List.mem_cons_of_mem _ (List.mem_reverse.mp hl)))
        rwa [List.length_reverse, ← hlen2] at this
      rw [hxv, hyv]
      unfold cmp_abs_loop
      generalize limbs_value xs.reverse = X at *
      generalize limbs_value ys.reverse = Y at *
      generalize base ^ xs.length = B at *
      by_cases c : x ≠ y
      · rw [if_pos c]
        by_cases c2 : x < y
        · rw [if_pos c2]
          have h1 : B * (x + 1) ≤ B * y := Nat.mul_le_mul_left _ c2
          rw [Nat.mul_add, Nat.mul_one] at h1
          refine ⟨Or.inl rfl, ?_, ?_⟩
          · constructor
            · intro _
              omega
            · intro _
              rfl
          · constructor
            · intro h
              exact absurd h (by decide)
            · intro h
              omega
        · rw [if_neg c2]
          have c3 : y < x := by omega
          have h1 : B * (y + 1) ≤ B * x := Nat.mul_le_mul_left _ c3
          rw [Nat.mul_add, Nat.mul_one] at h1
          refine ⟨Or.inr (Or.inr rfl), ?_, ?_⟩
          · constructor
            · intro h
              exact absurd h (by decide)
            · intro h
              omega
          · constructor
            · intro h
              exact absurd h (by decide)
            · intro h
              omega
      · rw [if_neg c]
        have c3 : x = y := by omega
        subst c3
        refine ⟨i0, ?_, ?_⟩
        · rw [i1]
          omega
        · rw [i2]
          omega

/-- Comparison of two limb vectors without zero top limbs. -/
theorem cmp_abs_spec (a b : List Nat) (ha : ∀ l ∈ a, l < base) (hb : ∀ l ∈ b, l < base)
    (hla : a.getLast? ≠ some 0) (hlb : b.getLast? ≠ some 0) :
    (cmp_abs_ a b = -1 ∨ cmp_abs_ a b = 0 ∨ cmp_abs_ a b = 1) ∧
    (cmp_abs_ a b = -1 ↔ limbs_value a < limbs_value b) ∧
    (cmp_abs_ a b = 0 ↔ limbs_value a = limbs_value b) := by
  unfold cmp_abs_
  have hal := limbs_value_lt a ha
  have hbl := limbs_value_lt b hb
  by_cases c : a.length ≠ b.length
  · rw [if_pos c]
    by_cases c2 : a.length < b.length
    · rw [if_pos c2]
      have hbne : b ≠ [] := by
        intro h
        rw [h] at c2
        simp at c2
      have hge := limbs_value_ge b hbne hlb
      have hpow : base ^ a.length ≤ base ^ (b.length - 1) :=
        Nat.pow_le_pow_right base_pos (by omega)
      refine ⟨Or.inl rfl, ⟨fun _ => by omega, fun _ => rfl⟩,
        ⟨fun h => absurd h (by decide), fun h => by omega⟩⟩
    · rw [if_neg c2]
      have hane : a ≠ [] := by
        intro h
        rw [h] at c c2
        simp only [List.length_nil] at c c2
        omega
      have hge := limbs_value_ge a hane hla
      have hpow : base ^ b.length ≤ base ^ (a.length - 1) :=
        Nat.pow_le_pow_right base_pos (by omega)
      refine ⟨Or.inr (Or.inr rfl), ⟨fun h => absurd h (by decide), fun h => by omega⟩,
        ⟨fun h => absurd h (by decide), fun h => by omega⟩⟩
  · rw [if_neg c]
    have c3 : a.length = b.length := by omega
    have := cmp_abs_loop_spec a.reverse b.reverse (by simp [c3])
      (fun l hl => ha l (List.mem_reverse.mp hl)) (fun l hl => hb l (List.mem_reverse.mp hl))
    simpa using this

end Numeric

namespace Numeric

theorem digit_of_limb (W r : Nat) (h1 : 1 ≤ r) (h2 : r ≤ 8) :
    W % base % 10 ^ r / 10 ^ (r - 1) % 10 = W / 10 ^ (r - 1) % 10 := by
  rw [base_eq]
  interval_cases r <;> norm_num <;> omega

theorem top_digit_of_limb (W : Nat) : W % base / 100000000 = W / 10 ^ 8 % 10 := by
  rw [base_eq]
  norm_num
  omega

/-- The guard digit read by `rescale_` is the most significant discarded digit. -/
theorem rescale_guard (v : List Nat) (h : ∀ l ∈ v, l < base) (c : Nat) (hc : 0 < c) :
    (if Int.tmod (c : Int) base_digits = 0 then
        (if Int.tdiv (c : Int) base_digits > 0 ∧ (Int.tdiv (c : Int) base_digits).toNat ≤ v.length
          then v.getD (Int.tdiv (c : Int) base_digits - 1).toNat 0 / 100000000 else 0)
      else
        (if (Int.tdiv (c : Int) base_digits).toNat < v.length
          then v.getD (Int.tdiv (c : Int) base_digits).toNat 0
            % pow10_u32_ (Int.tmod (c : Int) base_digits)
            / pow10_u32_ (Int.tmod (c : Int) base_digits - 1) % 10
          else 0))
      = limbs_value v / 10 ^ (c - 1) % 10 := by
  have hq : Int.tdiv (c : Int) base_digits = ((c / 9 : Nat) : Int) := (Int.ofNat_tdiv c 9).symm
  have hr : Int.tmod (c : Int) base_digits = ((c % 9 : Nat) : Int) := (Int.ofNat_tmod c 9).symm
  have hlt := limbs_value_lt v h
  have hc9 := Nat.div_add_mod c 9
  rw [hq, hr]
  simp only [Int.toNat_ofNat]
  have small : ∀ n : Nat, v.length ≤ n → 9 * n ≤ c - 1 → limbs_value v / 10 ^ (c - 1) % 10 = 0 := by
    intro n hn hle
    have h1 : base ^ v.length ≤ base ^ n := Nat.pow_le_pow_right base_pos hn
    have h2 : base ^ n ≤ 10 ^ (c - 1) := by
      rw [base_pow]
      exact Nat.pow_le_pow_right (by decide) hle
    rw [Nat.div_eq_of_lt (by omega)]
  by_cases c0 : ((c % 9 : Nat) : Int) = 0
  · rw [if_pos c0]
    have hr0 : c % 9 = 0 := by omega
    have hm0 : 0 < c / 9 := by omega
    by_cases c1 : ((c / 9 : Nat) : Int) > 0 ∧ c / 9 ≤ v.length
    · rw [if_pos c1]
      have e1 : (((c / 9 : Nat) : Int) - 1).toNat = c / 9 - 1 := by omega
      rw [e1, limbs_value_getD v h, top_digit_of_limb, Nat.div_div_eq_div_mul, base_pow,
        ← Nat.pow_add]
      congr 3
      omega
    · rw [if_neg c1]
      exact (small (c / 9 - 1) (by omega) (by omega)).symm
  · rw [if_neg c0]
    have hr1 : 1 ≤ c % 9 := by omega
    have hr8 : c % 9 ≤ 8 := by omega
    by_cases c1 : c / 9 < v.length
    · rw [if_pos c1]
      have e1 : (((c % 9 : Nat) : Int) - 1) = ((c % 9 - 1 : Nat) : Int) := by omega
      rw [e1, pow10_u32_spec _ (by omega), pow10_u32_spec _ (by omega), limbs_value_getD v h,
        digit_of_limb _ _ hr1 hr8, Nat.div_div_eq_div_mul, base_pow, ← Nat.pow_add]
      congr 3
      omega
    · rw [if_neg c1]
      exact (small (c / 9) (by omega) (by omega)).symm

/-- Rounding half up on the last kept digit is rounding to the nearest. -/
theorem half_up_digit (V c : Nat) (hc : 0 < c) :
    V / 10 ^ c + (if 5 ≤ V / 10 ^ (c - 1) % 10 then 1 else 0)
      = (2 * V + 10 ^ c) / (2 * 10 ^ c) := by
  obtain ⟨k, rfl⟩ : ∃ k, c = k + 1 := ⟨c - 1, by omega⟩
  simp only [Nat.add_sub_cancel]
  have hp : 0 < 10 ^ k := pow_pos (by decide) k
  have e1 : V / 10 ^ (k + 1) = V / 10 ^ k / 10 := by
    rw [Nat.pow_succ, Nat.div_div_eq_div_mul]
  have e2 : (2 * V + 10 ^ (k + 1)) / (2 * 10 ^ (k + 1)) = (V / 10 ^ k + 5) / 10 := by
    have : 2 * 10 ^ (k + 1) = 2 * 10 ^ k * 10 := by rw [Nat.pow_succ]; ring
    rw [this, ← Nat.div_div_eq_div_mul]
    have h3 : (2 * V + 10 ^ (k + 1)) / (2 * 10 ^ k) = V / 10 ^ k + 5 := by
      have : 2 * V + 10 ^ (k + 1) = 2 * (V + 5 * 10 ^ k) := by rw [Nat.pow_succ]; ring
      rw [this, Nat.mul_div_mul_left _ _ (by decide : 0 < 2),
        Nat.add_mul_div_right _ _ hp]
    rw [h3]
  rw [e1, e2]
  generalize V / 10 ^ k = a
  split <;> omega

end Numeric

namespace Numeric

theorem isEmpty_eq_false (v : List Nat) (h : v ≠ []) : v.isEmpty = false := by
  cases v with
  | nil => exact absurd rfl h
  | cons a as => rfl

/-- Member `rescale_` to a smaller scale `ns`, on limbs below `base`: the magnitude is
divided by `10^cut`, plus one for `HalfUp` when the most significant discarded digit is at
least 5; the flag is `check_limits_` of the object left behind. -/
theorem rescale_down_spec (x : Numeric) (ns : Int) (rnd : Rounding)
    (h : ∀ l ∈ x.mag_, l < base) (h0 : 0 ≤ ns) (h1 : ns ≤ 16383) (hlt : ns < x.scale_) :
    ∃ m : List Nat, (∀ l ∈ m, l < base) ∧ m.getLast? ≠ some 0 ∧
      limbs_value m = limbs_value x.mag_ / 10 ^ (x.scale_ - ns).toNat
        + (if rnd = Rounding.HalfUp ∧
            5 ≤ limbs_value x.mag_ / 10 ^ ((x.scale_ - ns).toNat - 1) % 10 then 1 else 0) ∧
      rescale_ x ns rnd
        = (check_limits_ (if m.isEmpty = true
              then { x with mag_ := m, neg_ := false, scale_ := 0 }
              else { x with mag_ := m, scale_ := ns }),
           if m.isEmpty = true then { x with mag_ := m, neg_ := false, scale_ := 0 }
           else { x with mag_ := m, scale_ := ns }) := by
  have hm : max_frac_digits = 16383 := rfl
  obtain ⟨c, hc⟩ : ∃ c : Nat, x.scale_ - ns = (c : Int) := ⟨(x.scale_ - ns).toNat, by omega⟩
  have hc0 : 0 < c := by omega
  have hrange : ¬ (ns < 0 ∨ ns > max_frac_digits) := by omega
  have hneq : ¬ (ns = x.scale_) := by omega
  have hngt : ¬ (ns > x.scale_) := by omega
  have hq : Int.tdiv (c : Int) base_digits = ((c / 9 : Nat) : Int) := (Int.ofNat_tdiv c 9).symm
  have hr : Int.tmod (c : Int) base_digits = ((c % 9 : Nat) : Int) := (Int.ofNat_tmod c 9).symm
  have hguard := rescale_guard x.mag_ h c hc0
  -- the limbs after dropping whole limbs
  have hdrop : (if Int.tdiv (c : Int) base_digits > 0
        then (if (Int.tdiv (c : Int) base_digits).toNat ≥ x.mag_.length then []
              else x.mag_.drop (Int.tdiv (c : Int) base_digits).toNat)
        else x.mag_) = x.mag_.drop (c / 9) := by
    rw [hq]
    simp only [Int.toNat_ofNat]
    split
    · split
      · rename_i hge
        exact (List.drop_eq_nil_of_le hge).symm
      · rfl
    · rename_i hz
      have : c / 9 = 0 := by omega
      rw [this, List.drop_zero]
  have hd1 : ∀ l ∈ x.mag_.drop (c / 9), l < base := fun l hl => h l (List.mem_of_mem_drop hl)
  have hv1 := limbs_value_drop x.mag_ h (c / 9)
  have hp32 : 10 ^ (c % 9) < 2 ^ 32 := by
    have : c % 9 ≤ 8 := by omega
    calc 10 ^ (c % 9) ≤ 10 ^ 8 := Nat.pow_le_pow_right (by decide) this
      _ < 2 ^ 32 := by norm_num
  obtain ⟨_, d2, d3, d4, _⟩ := div_small_spec (x.mag_.drop (c / 9)) (10 ^ (c % 9)) 0
    (pow_pos (by decide) _) hp32 hd1
  have hk : 10 ^ c = base ^ (c / 9) * 10 ^ (c % 9) := by
    rw [base_pow, ← Nat.pow_add, Nat.div_add_mod]
  -- the limbs after the division by the remaining power of ten
  obtain ⟨m2, hm2, hm2l, hm2v⟩ : ∃ m2 : List Nat,
      (if Int.tmod (c : Int) base_digits > 0 ∧ (!(x.mag_.drop (c / 9)).isEmpty) = true
        then (div_small_ (x.mag_.drop (c / 9)) (pow10_u32_ (Int.tmod (c : Int) base_digits)) 0).2.1
        else x.mag_.drop (c / 9)) = m2 ∧ (∀ l ∈ m2, l < base) ∧
      limbs_value m2 = limbs_value x.mag_ / 10 ^ c := by
    refine ⟨_, rfl, ?_, ?_⟩
    · rw [hr, pow10_u32_spec _ (by omega)]
      intro l hl
      split at hl
      · exact d2 l hl
      · exact hd1 l hl
    · rw [hr, pow10_u32_spec _ (by omega)]
      split
      · rw [d4, hv1, Nat.div_div_eq_div_mul, ← hk]
      · rename_i hcond
        rw [hv1, hk, ← Nat.div_div_eq_div_mul]
        by_cases cr : c % 9 = 0
        · rw [cr, pow_zero, Nat.div_one]
        · have he : (x.mag_.drop (c / 9)).isEmpty = true := by
            by_contra hne
            apply hcond
            refine ⟨by omega, ?_⟩
            simpa using hne
          rw [List.isEmpty_iff] at he
          rw [← hv1, he]
          simp [limbs_value]
  have hpz1 : ∀ l ∈ pop_back_zeros m2, l < base := fun l hl => hm2l l (pop_back_zeros_mem _ l hl)
  have hfin : ∀ m : List Nat, rescale_ x ns rnd
      = ((fun mag : List Nat =>
          (check_limits_ (if mag.isEmpty = true
              then { x with mag_ := mag, neg_ := false, scale_ := 0 }
              else { x with mag_ := mag, scale_ := ns }),
           if mag.isEmpty = true then { x with mag_ := mag, neg_ := false, scale_ := 0 }
           else { x with mag_ := mag, scale_ := ns }))
          (if rnd = Rounding.HalfUp ∧
              (if rnd = Rounding.HalfUp then limbs_value x.mag_ / 10 ^ (c - 1) % 10 else 0) ≥ 5
            then pop_back_zeros (add_one_ (pop_back_zeros m2)) else pop_back_zeros m2)) := by
    intro _
    unfold rescale_
    simp only [hrange, hneq, hngt, if_false, hc, hdrop, hm2, hguard]
  rw [hfin []]
  have hct : (x.scale_ - ns).toNat = c := by omega
  rw [hct]
  by_cases hup : rnd = Rounding.HalfUp ∧ 5 ≤ limbs_value x.mag_ / 10 ^ (c - 1) % 10
  · obtain ⟨a1, a2⟩ := add_one_spec (pop_back_zeros m2) hpz1
    refine ⟨pop_back_zeros (add_one_ (pop_back_zeros m2)),
      fun l hl => a1 l (pop_back_zeros_mem _ l hl), pop_back_zeros_last _, ?_, ?_⟩
    · rw [pop_back_zeros_value, a2, pop_back_zeros_value, hm2v, if_pos hup]
    · simp only [hup.1, if_true, ge_iff_le, hup.2, and_self]
  · refine ⟨pop_back_zeros m2, hpz1, pop_back_zeros_last _, ?_, ?_⟩
    · rw [pop_back_zeros_value, hm2v, if_neg hup, Nat.add_zero]
    · have hcond : ¬ (rnd = Rounding.HalfUp ∧
          (if rnd = Rounding.HalfUp then limbs_value x.mag_ / 10 ^ (c - 1) % 10 else 0) ≥ 5) := by
        intro hh
        apply hup
        refine ⟨hh.1, ?_⟩
        have := hh.2
        rw [if_pos hh.1] at this
        exact this
      simp only [hcond, if_false]

end Numeric

namespace Numeric

theorem check_limits_scale (x : Numeric) (h : check_limits_ x = true) :
    0 ≤ x.scale_ ∧ x.scale_ ≤ 16383 := by
  have hm : max_frac_digits = 16383 := rfl
  unfold check_limits_ at h
  by_cases c : x.scale_ < 0 ∨ x.scale_ > max_frac_digits
  · rw [if_pos c] at h
    exact absurd h (by decide)
  · omega

theorem check_limits_nil (s : Int) (n : Bool) (e : Err) (h0 : 0 ≤ s) (h1 : s ≤ 16383) :
    check_limits_ ⟨[], s, n, e⟩ = true := by
  have hm : max_frac_digits = 16383 := rfl
  unfold check_limits_
  simp only [List.isEmpty_nil, if_true]
  rw [if_neg (by omega)]

theorem limbs_value_nil : limbs_value [] = 0 := rfl

theorem eq_nil_of_value_zero (v : List Nat) (hl : v.getLast? ≠ some 0)
    (h : limbs_value v = 0) : v = [] := by
  by_contra hne
  have := limbs_value_pos v hne hl
  omega

/-- The object left by `normalize_` followed by `check_limits_`, for limbs `m` standing for
a value below the limit. -/
theorem inv_of_value (m : List Nat) (s : Int) (n : Bool) (e : Err)
    (hm : ∀ l ∈ m, l < base) (hl : m.getLast? ≠ some 0) (hne : m ≠ [])
    (h0 : 0 ≤ s) (h1 : s ≤ 16383) :
    (check_limits_ ⟨m, s, n, e⟩ = true ↔ limbs_value m < 10 ^ (131072 + s.toNat)) ∧
    (check_limits_ ⟨m, s, n, e⟩ = true → Inv ⟨m, s, n, e⟩) := by
  have hiff := check_limits_iff ⟨m, s, n, e⟩ hne hm hl h0 h1
  exact ⟨hiff, fun hc => ⟨hm, hl, fun h => absurd h hne, hc⟩⟩

/-- Member `rescale_up_` on a value that satisfies the invariant: the scale is raised, the
value kept, and the flag is true. -/
theorem rescale_up_inv (x : Numeric) (hx : Inv x) (ns : Int) (h1 : x.scale_ ≤ ns)
    (h2 : ns ≤ 16383) :
    (rescale_up_ x ns).1 = true ∧ Inv (rescale_up_ x ns).2 ∧
    (rescale_up_ x ns).2.err_ = x.err_ ∧ (rescale_up_ x ns).2.neg_ = x.neg_ ∧
    limbs_value (rescale_up_ x ns).2.mag_ = limbs_value x.mag_ * 10 ^ (ns - x.scale_).toNat ∧
    (x.mag_ ≠ [] → (rescale_up_ x ns).2.scale_ = ns) ∧
    (x.mag_ = [] → (rescale_up_ x ns).2 = x) := by
  obtain ⟨x1, x2, x3, x4⟩ := hx
  have hm : max_frac_digits = 16383 := rfl
  obtain ⟨s0, s1⟩ := check_limits_scale x x4
  unfold rescale_up_
  rw [if_neg (by omega), if_neg (by omega)]
  simp only
  by_cases c0 : ns - x.scale_ = 0
  · rw [if_pos c0, c0]
    refine ⟨rfl, ⟨x1, x2, x3, x4⟩, rfl, rfl, by simp, fun _ => ?_, fun _ => rfl⟩
    show x.scale_ = ns
    omega
  rw [if_neg c0]
  obtain ⟨k, hk⟩ : ∃ k : Nat, ns - x.scale_ = (k : Int) := ⟨(ns - x.scale_).toNat, by omega⟩
  rw [hk]
  obtain ⟨p1, p2, p3⟩ := mul_pow10_spec x.mag_ k x1
  simp only [p1, Bool.not_true, Bool.false_eq_true, if_false, Int.toNat_ofNat]
  by_cases hz : x.mag_ = []
  · obtain ⟨z1, z2⟩ := x3 hz
    have e : mul_pow10_ x.mag_ (k : Int) = (true, []) := by
      unfold mul_pow10_
      rw [if_neg (by omega), hz]
      simp
    have ex : x = ⟨[], 0, false, x.err_⟩ := by
      cases x
      simp only at hz z1 z2
      simp [hz, z1, z2]
    rw [e]
    have en : normalize_ { x with mag_ := [], scale_ := ns }
        = x := by
      unfold normalize_
      simp only [pop_back_zeros, List.reverse_nil, List.dropWhile_nil, List.isEmpty_nil, if_true]
      rw [ex]
    rw [en]
    refine ⟨x4, ⟨x1, x2, x3, x4⟩, rfl, rfl, ?_, fun h => absurd hz h, fun _ => rfl⟩
    rw [hz]
    simp [limbs_value]
  · have hpos := limbs_value_pos x.mag_ hz x2
    have hpv := pop_back_zeros_value (mul_pow10_ x.mag_ (k : Int)).2
    have hne : pop_back_zeros (mul_pow10_ x.mag_ (k : Int)).2 ≠ [] := by
      intro hh
      rw [hh, p3, limbs_value_nil] at hpv
      have : 0 < limbs_value x.mag_ * 10 ^ k := Nat.mul_pos hpos (pow_pos (by decide) k)
      omega
    have en : normalize_ { x with mag_ := (mul_pow10_ x.mag_ (k : Int)).2, scale_ := ns }
        = ⟨pop_back_zeros (mul_pow10_ x.mag_ (k : Int)).2, ns, x.neg_, x.err_⟩ := by
      unfold normalize_
      simp only [isEmpty_eq_false _ hne, Bool.false_eq_true, if_false]
    rw [en]
    have hlimbs : ∀ l ∈ pop_back_zeros (mul_pow10_ x.mag_ (k : Int)).2, l < base :=
      fun l hl => p2 l (pop_back_zeros_mem _ l hl)
    obtain ⟨i1, i2⟩ := inv_of_value _ ns x.neg_ x.err_ hlimbs (pop_back_zeros_last _) hne
      (by omega) h2
    have hchk : check_limits_ ⟨pop_back_zeros (mul_pow10_ x.mag_ (k : Int)).2, ns, x.neg_,
        x.err_⟩ = true := by
      rw [i1, hpv, p3]
      have hxl := (check_limits_iff x hz x1 x2 s0 s1).mp x4
      have e : 131072 + ns.toNat = (131072 + x.scale_.toNat) + k := by omega
      rw [e, Nat.pow_add]
      exact Nat.mul_lt_mul_of_pos_right hxl (pow_pos (by decide) k)
    exact ⟨hchk, i2 hchk, rfl, rfl, by rw [hpv, p3], fun _ => rfl, fun h => absurd h hz⟩

/-- Member `rescale_` to a smaller scale on limbs below `base`, read on the fields of the
object left behind. -/
theorem rescale_down_fields (x : Numeric) (ns : Int) (rnd : Rounding)
    (h : ∀ l ∈ x.mag_, l < base) (h0 : 0 ≤ ns) (h1 : ns ≤ 16383) (hlt : ns < x.scale_) :
    (∀ l ∈ (rescale_ x ns rnd).2.mag_, l < base) ∧
    (rescale_ x ns rnd).2.mag_.getLast? ≠ some 0 ∧
    limbs_value (rescale_ x ns rnd).2.mag_
      = limbs_value x.mag_ / 10 ^ (x.scale_ - ns).toNat
        + (if rnd = Rounding.HalfUp ∧
            5 ≤ limbs_value x.mag_ / 10 ^ ((x.scale_ - ns).toNat - 1) % 10 then 1 else 0) ∧
    (rescale_ x ns rnd).1 = check_limits_ (rescale_ x ns rnd).2 ∧
    ((rescale_ x ns rnd).1 = true
      ↔ limbs_value (rescale_ x ns rnd).2.mag_ < 10 ^ (131072 + ns.toNat)) ∧
    (rescale_ x ns rnd).2.err_ = x.err_ ∧
    ((rescale_ x ns rnd).2.mag_ ≠ [] →
      (rescale_ x ns rnd).2.neg_ = x.neg_ ∧ (rescale_ x ns rnd).2.scale_ = ns) ∧
    ((rescale_ x ns rnd).2.mag_ = [] →
      (rescale_ x ns rnd).2.neg_ = false ∧ (rescale_ x ns rnd).2.scale_ = 0) := by
  obtain ⟨m, m1, m2, m3, m4⟩ := rescale_down_spec x ns rnd h h0 h1 hlt
  rw [m4]
  by_cases hz : m = []
  · subst hz
    have hc := check_limits_nil 0 false x.err_ (le_refl 0) (by decide)
    refine ⟨m1, m2, m3, rfl, ?_, rfl, fun hh => absurd rfl hh, fun _ => ⟨rfl, rfl⟩⟩
    constructor
    · intro _
      show limbs_value [] < _
      rw [limbs_value_nil]
      exact pow_pos (by decide) _
    · intro _
      exact hc
  · have hne : ¬ (m.isEmpty = true) := by
      rw [isEmpty_eq_false m hz]
      decide
    rw [if_neg hne]
    obtain ⟨i1, _⟩ := inv_of_value m ns x.neg_ x.err_ m1 m2 hz h0 h1
    exact ⟨m1, m2, m3, rfl, i1, rfl, fun _ => ⟨rfl, rfl⟩, fun hh => absurd hh hz⟩

/-- Truncation keeps a value within the integer-digit limit. -/
theorem trunc_within_limit (V s n : Nat) (hn : n ≤ s) (hV : V < 10 ^ (131072 + s)) :
    V / 10 ^ (s - n) < 10 ^ (131072 + n) := by
  rw [Nat.div_lt_iff_lt_mul (pow_pos (by decide) _), ← Nat.pow_add]
  have e : 131072 + n + (s - n) = 131072 + s := by omega
  rw [e]
  exact hV

end Numeric

namespace Numeric

/-- The end of an operation: `normalize_`, then `check_limits_`, on non-empty limbs without
a zero top limb. -/
theorem finish_spec (m : List Nat) (r : Int) (n : Bool)
    (hm : ∀ l ∈ m, l < base) (hl : m.getLast? ≠ some 0) (hne : m ≠ [])
    (h0 : 0 ≤ r) (h1 : r ≤ 16383) :
    (limbs_value m < 10 ^ (131072 + r.toNat) →
      (if (!check_limits_ (normalize_ ⟨m, r, n, Err.None⟩)) = true
        then set_error_ (normalize_ ⟨m, r, n, Err.None⟩) Err.Overflow
        else normalize_ ⟨m, r, n, Err.None⟩) = ⟨m, r, n, Err.None⟩ ∧
      Inv ⟨m, r, n, Err.None⟩) ∧
    (10 ^ (131072 + r.toNat) ≤ limbs_value m →
      (if (!check_limits_ (normalize_ ⟨m, r, n, Err.None⟩)) = true
        then set_error_ (normalize_ ⟨m, r, n, Err.None⟩) Err.Overflow
        else normalize_ ⟨m, r, n, Err.None⟩).err_ = Err.Overflow) := by
  have en : normalize_ ⟨m, r, n, Err.None⟩ = ⟨m, r, n, Err.None⟩ := by
    unfold normalize_
    simp only [pop_back_zeros_id m hl, isEmpty_eq_false m hne, Bool.false_eq_true, if_false]
  obtain ⟨i1, i2⟩ := inv_of_value m r n Err.None hm hl hne h0 h1
  rw [en]
  constructor
  · intro hlt
    have hc := i1.mpr hlt
    rw [hc]
    exact ⟨rfl, i2 hc⟩
  · intro hge
    have hc : check_limits_ ⟨m, r, n, Err.None⟩ = false := by
      cases hh : check_limits_ ⟨m, r, n, Err.None⟩
      · rfl
      · have := i1.mp hh
        omega
    rw [hc]
    rfl

theorem is_zero_iff_nil (x : Numeric) (hx : Inv x) : is_zero_ x = true ↔ x.mag_ = [] := by
  rw [is_zero_iff]
  constructor
  · intro h
    exact eq_nil_of_value_zero _ hx.2.1 h
  · intro h
    rw [h]
    rfl

/-- The tail of `add` on two aligned non-zero operands: the signed sum, or `Overflow` when
it is not within the integer-digit limit. -/
theorem add_tail_spec (X Y res : Numeric) (r : Int) (hX : Inv X) (hY : Inv Y)
    (hxr : X.scale_ = r) (hyr : Y.scale_ = r) (hxz : X.mag_ ≠ []) (hyz : Y.mag_ ≠ [])
    (hres : (if (!check_limits_ (normalize_
          (if X.neg_ = Y.neg_ then { mag_ := add_abs_ X.mag_ Y.mag_, scale_ := r, neg_ := X.neg_ }
            else if cmp_abs_ X.mag_ Y.mag_ = 0 then { mag_ := [], scale_ := 0, neg_ := false }
            else if cmp_abs_ X.mag_ Y.mag_ > 0
              then { mag_ := sub_abs_ X.mag_ Y.mag_, scale_ := r, neg_ := X.neg_ }
            else { mag_ := sub_abs_ Y.mag_ X.mag_, scale_ := r, neg_ := Y.neg_ }))) = true
        then set_error_ (normalize_
          (if X.neg_ = Y.neg_ then { mag_ := add_abs_ X.mag_ Y.mag_, scale_ := r, neg_ := X.neg_ }
            else if cmp_abs_ X.mag_ Y.mag_ = 0 then { mag_ := [], scale_ := 0, neg_ := false }
            else if cmp_abs_ X.mag_ Y.mag_ > 0
              then { mag_ := sub_abs_ X.mag_ Y.mag_, scale_ := r, neg_ := X.neg_ }
            else { mag_ := sub_abs_ Y.mag_ X.mag_, scale_ := r, neg_ := Y.neg_ })) Err.Overflow
        else normalize_
          (if X.neg_ = Y.neg_ then { mag_ := add_abs_ X.mag_ Y.mag_, scale_ := r, neg_ := X.neg_ }
            else if cmp_abs_ X.mag_ Y.mag_ = 0 then { mag_ := [], scale_ := 0, neg_ := false }
            else if cmp_abs_ X.mag_ Y.mag_ > 0
              then { mag_ := sub_abs_ X.mag_ Y.mag_, scale_ := r, neg_ := X.neg_ }
            else { mag_ := sub_abs_ Y.mag_ X.mag_, scale_ := r, neg_ := Y.neg_ })) = res) :
    (Int.natAbs (signed_mag X + signed_mag Y) < 10 ^ (131072 + r.toNat) →
      res.err_ = Err.None ∧ Inv res ∧ signed_mag res = signed_mag X + signed_mag Y ∧
      (signed_mag X + signed_mag Y ≠ 0 → res.scale_ = r) ∧
      (signed_mag X + signed_mag Y = 0 → res = ⟨[], 0, false, Err.None⟩)) ∧
    (10 ^ (131072 + r.toNat) ≤ Int.natAbs (signed_mag X + signed_mag Y) →
      res.err_ = Err.Overflow) := by
  obtain ⟨x1, x2, _, x4⟩ := hX
  obtain ⟨y1, y2, _, y4⟩ := hY
  obtain ⟨s0, s1⟩ := check_limits_scale X x4
  rw [hxr] at s0 s1
  have hVX := limbs_value_pos X.mag_ hxz x2
  have hVY := limbs_value_pos Y.mag_ hyz y2
  have hLX := (check_limits_iff X hxz x1 x2 (by omega) (by omega)).mp x4
  have hLY := (check_limits_iff Y hyz y1 y2 (by omega) (by omega)).mp y4
  rw [hxr] at hLX
  rw [hyr] at hLY
  have hzero : Inv ⟨[], 0, false, Err.None⟩ := by decide
  by_cases hs : X.neg_ = Y.neg_
  · rw [if_pos hs] at hres
    obtain ⟨a1, a2, a3⟩ := add_abs_spec X.mag_ Y.mag_ x1 y1
    have hne : add_abs_ X.mag_ Y.mag_ ≠ [] := by
      intro hh
      rw [hh, limbs_value_nil] at a3
      omega
    obtain ⟨f1, f2⟩ := finish_spec (add_abs_ X.mag_ Y.mag_) r X.neg_ a1 a2 hne s0 s1
    have hS : Int.natAbs (signed_mag X + signed_mag Y)
        = limbs_value X.mag_ + limbs_value Y.mag_ := by
      unfold signed_mag
      rw [← hs]
      split <;> omega
    rw [hS, ← a3]
    constructor
    · intro hlt
      obtain ⟨e, hinv⟩ := f1 hlt
      have hr2 : res = ⟨add_abs_ X.mag_ Y.mag_, r, X.neg_, Err.None⟩ := by
        rw [← hres]
        exact e
      rw [hr2]
      refine ⟨rfl, hinv, ?_, fun _ => rfl, ?_⟩
      · unfold signed_mag
        simp only [a3]
        rw [← hs]
        split <;> omega
      · intro hz
        exfalso
        unfold signed_mag at hz
        rw [← hs] at hz
        split at hz <;> omega
    · intro hge
      rw [← hres]
      exact f2 hge
  · rw [if_neg hs] at hres
    obtain ⟨c0, c1, c2⟩ := cmp_abs_spec X.mag_ Y.mag_ x1 y1 x2 y2
    have hzn : normalize_ ({ mag_ := [], scale_ := 0, neg_ := false } : Numeric)
        = ⟨[], 0, false, Err.None⟩ := by decide
    by_cases hc : cmp_abs_ X.mag_ Y.mag_ = 0
    · rw [if_pos hc] at hres
      have heq := c2.mp hc
      have hS : signed_mag X + signed_mag Y = 0 := by
        unfold signed_mag
        cases hxn : X.neg_ <;> cases hyn : Y.neg_ <;> simp only [hxn, hyn] at hs ⊢
        · exact absurd trivial hs
        · simp only [Bool.false_eq_true, if_false, if_true]
          omega
        · simp only [Bool.false_eq_true, if_false, if_true]
          omega
        · exact absurd trivial hs
      have hr2 : res = ⟨[], 0, false, Err.None⟩ := by
        rw [← hres, hzn]
        rfl
      rw [hS, hr2]
      refine ⟨fun _ => ⟨rfl, hzero, rfl, fun h => absurd rfl h, fun _ => rfl⟩, ?_⟩
      intro hge
      have : 0 < 10 ^ (131072 + r.toNat) := pow_pos (by decide) _
      simp only [Int.natAbs_zero] at hge
      omega
    · rw [if_neg hc] at hres
      by_cases hgt : cmp_abs_ X.mag_ Y.mag_ > 0
      · rw [if_pos hgt] at hres
        have hlt : limbs_value Y.mag_ < limbs_value X.mag_ := by
          have n1 : ¬ limbs_value X.mag_ < limbs_value Y.mag_ := by
            intro h
            have := c1.mpr h
            omega
          have n2 : ¬ limbs_value X.mag_ = limbs_value Y.mag_ := fun h => hc (c2.mpr h)
          omega
        obtain ⟨a1, a2, a3⟩ := sub_abs_spec X.mag_ Y.mag_ x1 y1 (by omega)
        have hne : sub_abs_ X.mag_ Y.mag_ ≠ [] := by
          intro hh
          rw [hh, limbs_value_nil] at a3
          omega
        obtain ⟨f1, _⟩ := finish_spec (sub_abs_ X.mag_ Y.mag_) r X.neg_ a1 a2 hne s0 s1
        obtain ⟨e, hinv⟩ := f1 (by rw [a3]; omega)
        have hr2 : res = ⟨sub_abs_ X.mag_ Y.mag_, r, X.neg_, Err.None⟩ := by
          rw [← hres]
          exact e
        have hS : signed_mag X + signed_mag Y
            = if X.neg_ = true then -((limbs_value X.mag_ - limbs_value Y.mag_ : Nat) : Int)
              else ((limbs_value X.mag_ - limbs_value Y.mag_ : Nat) : Int) := by
          unfold signed_mag
          cases hxn : X.neg_ <;> cases hyn : Y.neg_ <;> simp only [hxn, hyn] at hs ⊢
          · exact absurd trivial hs
          · simp only [Bool.false_eq_true, if_false, if_true]
            omega
          · simp only [Bool.false_eq_true, if_false, if_true]
            omega
          · exact absurd trivial hs
        rw [hS, hr2]
        constructor
        · intro _
          refine ⟨rfl, hinv, ?_, fun _ => rfl, ?_⟩
          · unfold signed_mag
            simp only [a3]
          · intro hz
            exfalso
            split at hz <;> omega
        · intro hge
          exfalso
          split at hge <;> omega
      · rw [if_neg hgt] at hres
        have hlt : limbs_value X.mag_ < limbs_value Y.mag_ := by
          apply c1.mp
          rcases c0 with h | h | h
          · exact h
          · exact absurd h hc
          · rw [h] at hgt
            exact absurd (by decide) hgt
        obtain ⟨a1, a2, a3⟩ := sub_abs_spec Y.mag_ X.mag_ y1 x1 (by omega)
        have hne : sub_abs_ Y.mag_ X.mag_ ≠ [] := by
          intro hh
          rw [hh, limbs_value_nil] at a3
          omega
        obtain ⟨f1, _⟩ := finish_spec (sub_abs_ Y.mag_ X.mag_) r Y.neg_ a1 a2 hne s0 s1
        obtain ⟨e, hinv⟩ := f1 (by rw [a3]; omega)
        have hr2 : res = ⟨sub_abs_ Y.mag_ X.mag_, r, Y.neg_, Err.None⟩ := by
          rw [← hres]
          exact e
        have hS : signed_mag X + signed_mag Y
            = if Y.neg_ = true then -((limbs_value Y.mag_ - limbs_value X.mag_ : Nat) : Int)
              else ((limbs_value Y.mag_ - limbs_value X.mag_ : Nat) : Int) := by
          unfold signed_mag
          cases hxn : X.neg_ <;> cases hyn : Y.neg_ <;> simp only [hxn, hyn] at hs ⊢
          · exact absurd trivial hs
          · simp only [Bool.false_eq_true, if_false, if_true]
            omega
          · simp only [Bool.false_eq_true, if_false, if_true]
            omega
          · exact absurd trivial hs
        rw [hS, hr2]
        constructor
        · intro _
          refine ⟨rfl, hinv, ?_, fun _ => rfl, ?_⟩
          · unfold signed_mag
            simp only [a3]
          · intro hz
            exfalso
            split at hz <;> omega
        · intro hge
          exfalso
          split at hge <;> omega

end Numeric

namespace Numeric

theorem err_of_ok (x : Numeric) (h : x.ok = true) : x.err_ = Err.None := by
  unfold ok at h
  simpa using h

/-- The operand `nb` of `sub`: `b` with the sign flipped unless it is zero. -/
theorem sub_operand (b : Numeric) (hob : b.ok = true) (hb : Inv b) :
    (if (!is_zero_ b) = true then { b with neg_ := !b.neg_ } else b).ok = true ∧
    Inv (if (!is_zero_ b) = true then { b with neg_ := !b.neg_ } else b) ∧
    (if (!is_zero_ b) = true then { b with neg_ := !b.neg_ } else b).scale_ = b.scale_ ∧
    signed_mag (if (!is_zero_ b) = true then { b with neg_ := !b.neg_ } else b)
      = -signed_mag b := by
  by_cases cz : is_zero_ b = true
  · have hn := (is_zero_iff_nil b hb).mp cz
    simp only [cz, Bool.not_true, Bool.false_eq_true, if_false]
    refine ⟨hob, hb, trivial, ?_⟩
    unfold signed_mag
    rw [hn, limbs_value_nil]
    simp
  · have hnz : b.mag_ ≠ [] := fun h => cz ((is_zero_iff_nil b hb).mpr h)
    have cz2 : is_zero_ b = false := by
      cases hh : is_zero_ b
      · rfl
      · exact absurd hh cz
    simp only [cz2, Bool.not_false, if_true]
    obtain ⟨b1, b2, _, b4⟩ := hb
    refine ⟨hob, ⟨b1, b2, fun h => absurd h hnz, ?_⟩, trivial, ?_⟩
    · have e : check_limits_ { b with neg_ := !b.neg_ } = check_limits_ b := rfl
      rw [e]
      exact b4
    · unfold signed_mag
      cases hbn : b.neg_ <;> simp

theorem sub_eq_add (a b : Numeric) (hoa : a.ok = true) (hob : b.ok = true) :
    sub a b = add a (if (!is_zero_ b) = true then { b with neg_ := !b.neg_ } else b) := by
  unfold sub
  simp only [hoa, hob, Bool.not_true, Bool.false_eq_true, if_false]

end Numeric

/-! ## Lemmas: the product of limb vectors and `mul` -/

namespace Numeric

theorem limbs_value_set (v : List Nat) : ∀ (p x : Nat), p < v.length →
    limbs_value (v.set p x) + v.getD p 0 * base ^ p = limbs_value v + x * base ^ p := by
  induction v with
  | nil =>
    intro p x hp
    simp at hp
  | cons y ys ih =>
    intro p x hp
    cases p with
    | zero =>
      simp only [List.set_cons_zero, limbs_value, List.getD_cons_zero, pow_zero, Nat.mul_one]
      omega
    | succ q =>
      have hq : q < ys.length := by simpa using hp
      have := ih q x hq
      simp only [List.set_cons_succ, limbs_value, List.getD_cons_succ, Nat.pow_succ]
      calc y + base * limbs_value (ys.set q x) + ys.getD q 0 * (base ^ q * base)
          = y + base * (limbs_value (ys.set q x) + ys.getD q 0 * base ^ q) := by ring
        _ = y + base * (limbs_value ys + x * base ^ q) := by rw [this]
        _ = y + base * limbs_value ys + x * (base ^ q * base) := by ring

theorem getD_set_ne (v : List Nat) (p q x : Nat) (h : q ≠ p) :
    (v.set p x).getD q 0 = v.getD q 0 := by
  rw [List.getD_eq_getElem?_getD, List.getD_eq_getElem?_getD, List.getElem?_set_ne (Ne.symm h)]

theorem mem_set_lt (v : List Nat) (p x : Nat) (hv : ∀ l ∈ v, l < base) (hx : x < base) :
    ∀ l ∈ v.set p x, l < base := by
  intro l hl
  rcases List.mem_or_eq_of_mem_set hl with h | h
  · exact hv l h
  · rw [h]
    exact hx

theorem getD_lt_base (v : List Nat) (hv : ∀ l ∈ v, l < base) (p : Nat) : v.getD p 0 < base := by
  rw [List.getD_eq_getElem?_getD]
  cases hi : v[p]? with
  | none => exact base_pos
  | some x => exact hv x (List.mem_iff_getElem?.mpr ⟨p, hi⟩)

/-- The inner loop of `mul_abs_`: one limb of `a` times the rest of `b` is added into `tmp`
from position `i + j` on. -/
theorem mul_abs_inner_spec (ai i : Nat) (hai : ai < base) (b : List Nat) :
    ∀ (j : Nat) (tmp : List Nat) (carry : Nat), (∀ l ∈ b, l < base) →
    (∀ l ∈ tmp, l < base) → carry < base → i + j + b.length ≤ tmp.length →
    (∀ l ∈ (mul_abs_inner ai i b j tmp carry).1, l < base) ∧
    (mul_abs_inner ai i b j tmp carry).2 < base ∧
    (mul_abs_inner ai i b j tmp carry).1.length = tmp.length ∧
    (∀ q, i + j + b.length ≤ q →
      (mul_abs_inner ai i b j tmp carry).1.getD q 0 = tmp.getD q 0) ∧
    limbs_value (mul_abs_inner ai i b j tmp carry).1
        + (mul_abs_inner ai i b j tmp carry).2 * base ^ (i + j + b.length)
      = limbs_value tmp + ai * limbs_value b * base ^ (i + j) + carry * base ^ (i + j) := by
  have hb0 : base = 1000000000 := rfl
  induction b with
  | nil =>
    intro j tmp carry _ ht hc _
    unfold mul_abs_inner
    refine ⟨ht, hc, rfl, fun _ _ => rfl, ?_⟩
    simp [limbs_value]
  | cons bj bs ih =>
    intro j tmp carry hb ht hc hlen
    have hbj := hb bj (List.mem_cons_self _ _)
    have hbs : ∀ l ∈ bs, l < base := fun l hl => hb l (List.mem_cons_of_mem _ hl)
    have hlen1 : i + j < tmp.length := by
      simp only [List.length_cons] at hlen
      omega
    have hg := getD_lt_base tmp ht (i + j)
    obtain ⟨p, hpe⟩ : ∃ p, p = ai * bj := ⟨_, rfl⟩
    have hp : p ≤ 999999999 * 999999999 := by
      rw [hpe]
      rw [hb0] at hai hbj
      exact Nat.mul_le_mul (by omega) (by omega)
    rw [hb0] at hg hc
    have hcur : (tmp.getD (i + j) 0 + p + carry) % 2 ^ 64 = tmp.getD (i + j) 0 + p + carry :=
      Nat.mod_eq_of_lt (by omega)
    have hq : (tmp.getD (i + j) 0 + p + carry) / base < base := by rw [hb0]; omega
    have hm : (tmp.getD (i + j) 0 + p + carry) % base < base := Nat.mod_lt _ base_pos
    have hdm := Nat.div_add_mod (tmp.getD (i + j) 0 + p + carry) base
    have hset := limbs_value_set tmp (i + j) ((tmp.getD (i + j) 0 + p + carry) % base) hlen1
    obtain ⟨i1, i2, i3, i4, i5⟩ := ih (j + 1)
      (tmp.set (i + j) ((tmp.getD (i + j) 0 + p + carry) % base))
      ((tmp.getD (i + j) 0 + p + carry) / base) hbs
      (mem_set_lt tmp _ _ ht hm) hq (by
        rw [List.length_set]
        simp only [List.length_cons] at hlen
        omega)
    unfold mul_abs_inner
    simp only [← hpe, hcur]
    refine ⟨i1, i2, by rw [i3, List.length_set], ?_, ?_⟩
    · intro q hq2
      simp only [List.length_cons] at hq2
      rw [i4 q (by omega), getD_set_ne _ _ _ _ (by omega)]
    · have e1 : i + (j + 1) + bs.length = i + j + (bj :: bs).length := by
        simp only [List.length_cons]
        omega
      rw [e1] at i5
      rw [i5]
      have e2 : base ^ (i + (j + 1)) = base * base ^ (i + j) := by
        rw [← Nat.add_assoc, Nat.pow_succ, Nat.mul_comm]
      rw [e2]
      simp only [limbs_value]
      generalize (tmp.getD (i + j) 0 + p + carry) / base = Q at *
      generalize (tmp.getD (i + j) 0 + p + carry) % base = R at *
      generalize tmp.getD (i + j) 0 = T at *
      generalize base ^ (i + j) = B at *
      generalize limbs_value (tmp.set (i + j) R) = V1 at *
      generalize limbs_value tmp = V at *
      generalize limbs_value bs = W at *
      have h1 : base * Q + R = T + p + carry := hdm
      have h2 : V1 + T * B = V + R * B := hset
      rw [hpe] at h1
      generalize base = bb at h1 ⊢
      zify at h1 h2 ⊢
      linear_combination h2 + (B : Int) * h1

theorem getD_replicate_zero (n q : Nat) : (List.replicate n 0).getD q 0 = 0 := by
  rw [List.getD_eq_getElem?_getD]
  cases h : (List.replicate n 0)[q]? with
  | none => rfl
  | some x =>
    have := List.mem_iff_getElem?.mpr ⟨q, h⟩
    rw [List.eq_of_mem_replicate this]
    rfl

/-- The outer loop of `mul_abs_`: the rows of the schoolbook product are added into `tmp`. -/
theorem mul_abs_outer_spec (b : List Nat) (hb : ∀ l ∈ b, l < base) :
    ∀ (a : List Nat) (i : Nat) (tmp : List Nat), (∀ l ∈ a, l < base) →
    (∀ l ∈ tmp, l < base) → i + a.length + b.length ≤ tmp.length →
    (∀ q, i + b.length ≤ q → tmp.getD q 0 = 0) →
    (∀ l ∈ mul_abs_outer b a i tmp, l < base) ∧
    limbs_value (mul_abs_outer b a i tmp)
      = limbs_value tmp + limbs_value a * limbs_value b * base ^ i := by
  intro a
  induction a with
  | nil =>
    intro i tmp _ ht _ _
    unfold mul_abs_outer
    exact ⟨ht, by simp [limbs_value]⟩
  | cons ai as ih =>
    intro i tmp ha ht hlen hz
    have hai := ha ai (List.mem_cons_self _ _)
    have has : ∀ l ∈ as, l < base := fun l hl => ha l (List.mem_cons_of_mem _ hl)
    simp only [List.length_cons] at hlen
    obtain ⟨r1, r2, r3, r4, r5⟩ := mul_abs_inner_spec ai i hai b 0 tmp 0 hb ht base_pos
      (by omega)
    simp only [Nat.add_zero, Nat.zero_mul] at r4 r5
    have hk0 : (mul_abs_inner ai i b 0 tmp 0).1.getD (i + b.length) 0 = 0 := by
      rw [r4 _ (le_refl _)]
      exact hz _ (le_refl _)
    have hb0 : base = 1000000000 := rfl
    have hc : (0 + (mul_abs_inner ai i b 0 tmp 0).2) % 2 ^ 64
        = (mul_abs_inner ai i b 0 tmp 0).2 := by
      rw [Nat.zero_add]
      exact Nat.mod_eq_of_lt (by rw [hb0] at r2; omega)
    have hset := limbs_value_set (mul_abs_inner ai i b 0 tmp 0).1 (i + b.length)
      (mul_abs_inner ai i b 0 tmp 0).2 (by rw [r3]; omega)
    rw [hk0, Nat.zero_mul, Nat.add_zero] at hset
    obtain ⟨j1, j2⟩ := ih (i + 1)
      ((mul_abs_inner ai i b 0 tmp 0).1.set (i + b.length) (mul_abs_inner ai i b 0 tmp 0).2)
      has (mem_set_lt _ _ _ r1 r2) (by rw [List.length_set, r3]; omega) (by
        intro q hq
        rw [getD_set_ne _ _ _ _ (by omega), r4 q (by omega)]
        exact hz q (by omega))
    unfold mul_abs_outer
    simp only [hk0, hc]
    refine ⟨j1, ?_⟩
    rw [j2, hset, r5]
    simp only [limbs_value, Nat.pow_succ]
    ring

/-- Static member `mul_abs_`: the limbs of the product. -/
theorem mul_abs_spec (a b : List Nat) (ha : ∀ l ∈ a, l < base) (hb : ∀ l ∈ b, l < base) :
    (∀ l ∈ mul_abs_ a b, l < base) ∧ (mul_abs_ a b).getLast? ≠ some 0 ∧
    limbs_value (mul_abs_ a b) = limbs_value a * limbs_value b := by
  unfold mul_abs_
  by_cases hab : a.isEmpty = true ∨ b.isEmpty = true
  · rw [if_pos hab]
    refine ⟨fun l hl => absurd hl (List.not_mem_nil l), by simp, ?_⟩
    rcases hab with h | h
    · rw [List.isEmpty_iff.mp h]
      simp [limbs_value]
    · rw [List.isEmpty_iff.mp h]
      simp [limbs_value]
  · rw [if_neg hab]
    obtain ⟨o1, o2⟩ := mul_abs_outer_spec b hb a 0 (List.replicate (a.length + b.length) 0) ha
      (fun l hl => by rw [List.eq_of_mem_replicate hl]; exact base_pos)
      (by rw [List.length_replicate]; omega)
      (fun q _ => getD_replicate_zero _ q)
    have hmap : (mul_abs_outer b a 0 (List.replicate (a.length + b.length) 0)).map to_u32
        = mul_abs_outer b a 0 (List.replicate (a.length + b.length) 0) := by
      have hb0 : base = 1000000000 := rfl
      conv_rhs => rw [← List.map_id (mul_abs_outer b a 0 (List.replicate (a.length + b.length) 0))]
      apply List.map_congr_left
      intro l hl
      have := o1 l hl
      exact to_u32_small l (by rw [hb0] at this; omega)
    simp only [hmap]
    refine ⟨fun l hl => o1 l (pop_back_zeros_mem _ l hl), pop_back_zeros_last _, ?_⟩
    rw [pop_back_zeros_value, o2, limbs_value_zeros]
    simp

/-- Member `rescale_up_` to a larger scale on non-empty limbs, without the limit on the
operand. -/
theorem rescale_up_gen (x : Numeric) (h : ∀ l ∈ x.mag_, l < base)
    (hl : x.mag_.getLast? ≠ some 0) (hne : x.mag_ ≠ []) (ns : Int) (h1 : x.scale_ < ns)
    (h2 : ns ≤ 16383) :
    ∃ m : List Nat, (∀ l ∈ m, l < base) ∧ m.getLast? ≠ some 0 ∧ m ≠ [] ∧
      limbs_value m = limbs_value x.mag_ * 10 ^ (ns - x.scale_).toNat ∧
      rescale_up_ x ns = (check_limits_ ⟨m, ns, x.neg_, x.err_⟩, ⟨m, ns, x.neg_, x.err_⟩) := by
  have hm : max_frac_digits = 16383 := rfl
  unfold rescale_up_
  rw [if_neg (by omega), if_neg (by omega)]
  simp only
  rw [if_neg (by omega)]
  obtain ⟨k, hk⟩ : ∃ k : Nat, ns - x.scale_ = (k : Int) := ⟨(ns - x.scale_).toNat, by omega⟩
  rw [hk]
  obtain ⟨p1, p2, p3⟩ := mul_pow10_spec x.mag_ k h
  simp only [p1, Bool.not_true, Bool.false_eq_true, if_false, Int.toNat_ofNat]
  have hpos := limbs_value_pos x.mag_ hne hl
  have hpv := pop_back_zeros_value (mul_pow10_ x.mag_ (k : Int)).2
  have hne2 : pop_back_zeros (mul_pow10_ x.mag_ (k : Int)).2 ≠ [] := by
    intro hh
    rw [hh, p3, limbs_value_nil] at hpv
    have : 0 < limbs_value x.mag_ * 10 ^ k := Nat.mul_pos hpos (pow_pos (by decide) k)
    omega
  have en : normalize_ { x with mag_ := (mul_pow10_ x.mag_ (k : Int)).2, scale_ := ns }
      = ⟨pop_back_zeros (mul_pow10_ x.mag_ (k : Int)).2, ns, x.neg_, x.err_⟩ := by
    unfold normalize_
    simp only [isEmpty_eq_false _ hne2, Bool.false_eq_true, if_false]
  rw [en]
  exact ⟨_, fun l hl => p2 l (pop_back_zeros_mem _ l hl), pop_back_zeros_last _, hne2,
    by rw [hpv, p3], rfl⟩

/-- Member `rescale_` on non-empty trimmed limbs, for every target scale in range: the
fields of the object left behind, and when both the flag and `check_limits_` hold. -/
theorem rescale_fields (x : Numeric) (ns : Int) (rnd : Rounding)
    (h : ∀ l ∈ x.mag_, l < base) (hl : x.mag_.getLast? ≠ some 0) (hne : x.mag_ ≠ [])
    (h0 : 0 ≤ ns) (h1 : ns ≤ 16383) :
    (∀ l ∈ (rescale_ x ns rnd).2.mag_, l < base) ∧
    (rescale_ x ns rnd).2.mag_.getLast? ≠ some 0 ∧
    limbs_value (rescale_ x ns rnd).2.mag_
      = (if ns < x.scale_ then
          limbs_value x.mag_ / 10 ^ (x.scale_ - ns).toNat
            + (if rnd = Rounding.HalfUp ∧
                5 ≤ limbs_value x.mag_ / 10 ^ ((x.scale_ - ns).toNat - 1) % 10 then 1 else 0)
        else limbs_value x.mag_ * 10 ^ (ns - x.scale_).toNat) ∧
    (((rescale_ x ns rnd).1 = true ∧ check_limits_ (rescale_ x ns rnd).2 = true)
      ↔ limbs_value (rescale_ x ns rnd).2.mag_ < 10 ^ (131072 + ns.toNat)) ∧
    (rescale_ x ns rnd).2.err_ = x.err_ ∧
    ((rescale_ x ns rnd).2.mag_ ≠ [] →
      (rescale_ x ns rnd).2.neg_ = x.neg_ ∧ (rescale_ x ns rnd).2.scale_ = ns) ∧
    ((rescale_ x ns rnd).2.mag_ = [] →
      (rescale_ x ns rnd).2.neg_ = false ∧ (rescale_ x ns rnd).2.scale_ = 0) := by
  have hm : max_frac_digits = 16383 := rfl
  by_cases c1 : ns < x.scale_
  · obtain ⟨d1, d2, d3, d4, d5, d6, d7, d8⟩ := rescale_down_fields x ns rnd h h0 h1 c1
    rw [if_pos c1]
    refine ⟨d1, d2, d3, ?_, d6, d7, d8⟩
    rw [← d5]
    constructor
    · intro hh
      exact hh.1
    · intro hh
      exact ⟨hh, by rw [← d4]; exact hh⟩
  · rw [if_neg c1]
    by_cases c2 : ns = x.scale_
    · have e : rescale_ x ns rnd = (true, x) := by
        unfold rescale_
        rw [if_neg (by omega), if_pos c2]
      rw [e]
      have ex : x = ⟨x.mag_, ns, x.neg_, x.err_⟩ := by
        cases x
        simp only at c2
        simp [c2]
      obtain ⟨i1, _⟩ := inv_of_value x.mag_ ns x.neg_ x.err_ h hl hne h0 h1
      rw [← ex] at i1
      refine ⟨h, hl, ?_, ?_, rfl, fun _ => ⟨rfl, c2.symm⟩, fun hh => absurd hh hne⟩
      · show limbs_value x.mag_ = _
        rw [c2]
        simp
      · rw [← i1]
        constructor
        · intro hh
          exact hh.2
        · intro hh
          exact ⟨rfl, hh⟩
    · have c3 : x.scale_ < ns := by omega
      obtain ⟨m, m1, m2, m3, m4, m5⟩ := rescale_up_gen x h hl hne ns c3 h1
      have e : rescale_ x ns rnd
          = (check_limits_ ⟨m, ns, x.neg_, x.err_⟩, ⟨m, ns, x.neg_, x.err_⟩) := by
        unfold rescale_
        rw [if_neg (by omega), if_neg c2, if_pos (by omega), m5]
      rw [e]
      obtain ⟨i1, _⟩ := inv_of_value m ns x.neg_ x.err_ m1 m2 m3 h0 h1
      refine ⟨m1, m2, m4, ?_, rfl, fun _ => ⟨rfl, rfl⟩, fun hh => absurd hh m3⟩
      rw [← i1]
      constructor
      · intro hh
        exact hh.1
      · intro hh
        exact ⟨hh, hh⟩

/-- Truncation to `t` digits of a magnitude at scale `s`, in one formula. -/
theorem floor_rescaled (P s t : Nat) :
    P * 10 ^ t / 10 ^ s = if t < s then P / 10 ^ (s - t) else P * 10 ^ (t - s) := by
  by_cases c : t < s
  · rw [if_pos c]
    have e : 10 ^ s = 10 ^ t * 10 ^ (s - t) := by
      rw [← Nat.pow_add]
      congr 1
      omega
    rw [e, Nat.mul_comm P, Nat.mul_div_mul_left _ _ (pow_pos (by decide) t)]
  · rw [if_neg c]
    have e : 10 ^ t = 10 ^ (t - s) * 10 ^ s := by
      rw [← Nat.pow_add]
      congr 1
      omega
    rw [e, ← Nat.mul_assoc, Nat.mul_div_cancel _ (pow_pos (by decide) s)]

/-- Rounding half up to `t` digits of a magnitude at scale `s`, in one formula. -/
theorem round_rescaled (P s t : Nat) :
    (2 * (P * 10 ^ t) + 10 ^ s) / (2 * 10 ^ s)
      = if t < s then (2 * P + 10 ^ (s - t)) / (2 * 10 ^ (s - t)) else P * 10 ^ (t - s) := by
  by_cases c : t < s
  · rw [if_pos c]
    have e : 10 ^ s = 10 ^ t * 10 ^ (s - t) := by
      rw [← Nat.pow_add]
      congr 1
      omega
    have e1 : 2 * (P * 10 ^ t) + 10 ^ t * 10 ^ (s - t) = 10 ^ t * (2 * P + 10 ^ (s - t)) := by
      ring
    have e2 : 2 * (10 ^ t * 10 ^ (s - t)) = 10 ^ t * (2 * 10 ^ (s - t)) := by ring
    rw [e, e1, e2, Nat.mul_div_mul_left _ _ (pow_pos (by decide) t)]
  · rw [if_neg c]
    have e : 10 ^ t = 10 ^ (t - s) * 10 ^ s := by
      rw [← Nat.pow_add]
      congr 1
      omega
    have e1 : 2 * (P * (10 ^ (t - s) * 10 ^ s)) + 10 ^ s
        = 10 ^ s * (2 * (P * 10 ^ (t - s)) + 1) := by ring
    have e2 : 2 * 10 ^ s = 10 ^ s * 2 := by ring
    rw [e, e1, e2, Nat.mul_div_mul_left _ _ (pow_pos (by decide) s)]
    omega

/-- The magnitude that `rescale_` leaves, as a rounded quotient. -/
theorem rescaled_value (P : Nat) (s t : Int) (hs : 0 ≤ s) (ht : 0 ≤ t) (rnd : Rounding) :
    (if t < s then
        P / 10 ^ (s - t).toNat
          + (if rnd = Rounding.HalfUp ∧ 5 ≤ P / 10 ^ ((s - t).toNat - 1) % 10 then 1 else 0)
      else P * 10 ^ (t - s).toNat)
    = if rnd = Rounding.HalfUp then (2 * (P * 10 ^ t.toNat) + 10 ^ s.toNat) / (2 * 10 ^ s.toNat)
      else P * 10 ^ t.toNat / 10 ^ s.toNat := by
  rw [floor_rescaled, round_rescaled]
  by_cases c : t < s
  · have c2 : t.toNat < s.toNat := by omega
    have e : (s - t).toNat = s.toNat - t.toNat := by omega
    rw [if_pos c, if_pos c2, if_pos c2, e]
    cases rnd with
    | Trunc => simp
    | HalfUp =>
      simp only [true_and, if_true]
      exact half_up_digit P (s.toNat - t.toNat) (by omega)
  · have c2 : ¬ t.toNat < s.toNat := by omega
    have e : (t - s).toNat = t.toNat - s.toNat := by omega
    rw [if_neg c, if_neg c2, if_neg c2, e]
    simp

/-- Static member `mul` on two non-zero ok operands and a target scale in range: the rounded
product, or `Overflow` when it is not within the integer-digit limit. -/
theorem mul_spec (a b : Numeric) (hoa : a.ok = true) (hob : b.ok = true)
    (ha : Inv a) (hb : Inv b) (hza : a.mag_ ≠ []) (hzb : b.mag_ ≠ [])
    (t : Int) (h0 : 0 ≤ t) (h1 : t ≤ 16383) (rnd : Rounding) :
    ((if rnd = Rounding.HalfUp then
        (2 * (limbs_value a.mag_ * limbs_value b.mag_ * 10 ^ t.toNat)
          + 10 ^ (a.scale_ + b.scale_).toNat) / (2 * 10 ^ (a.scale_ + b.scale_).toNat)
      else limbs_value a.mag_ * limbs_value b.mag_ * 10 ^ t.toNat
          / 10 ^ (a.scale_ + b.scale_).toNat) < 10 ^ (131072 + t.toNat) →
      (mul a b t rnd).err_ = Err.None ∧ Inv (mul a b t rnd) ∧
      limbs_value (mul a b t rnd).mag_
        = (if rnd = Rounding.HalfUp then
            (2 * (limbs_value a.mag_ * limbs_value b.mag_ * 10 ^ t.toNat)
              + 10 ^ (a.scale_ + b.scale_).toNat) / (2 * 10 ^ (a.scale_ + b.scale_).toNat)
          else limbs_value a.mag_ * limbs_value b.mag_ * 10 ^ t.toNat
              / 10 ^ (a.scale_ + b.scale_).toNat) ∧
      ((mul a b t rnd).mag_ ≠ [] →
        (mul a b t rnd).neg_ = xor a.neg_ b.neg_ ∧ (mul a b t rnd).scale_ = t) ∧
      ((mul a b t rnd).mag_ = [] → mul a b t rnd = ⟨[], 0, false, Err.None⟩)) ∧
    (10 ^ (131072 + t.toNat) ≤
      (if rnd = Rounding.HalfUp then
        (2 * (limbs_value a.mag_ * limbs_value b.mag_ * 10 ^ t.toNat)
          + 10 ^ (a.scale_ + b.scale_).toNat) / (2 * 10 ^ (a.scale_ + b.scale_).toNat)
      else limbs_value a.mag_ * limbs_value b.mag_ * 10 ^ t.toNat
          / 10 ^ (a.scale_ + b.scale_).toNat) →
      (mul a b t rnd).err_ = Err.Overflow) := by
  have hm : max_frac_digits = 16383 := rfl
  obtain ⟨a1, a2, _, a4⟩ := ha
  obtain ⟨b1, b2, _, b4⟩ := hb
  obtain ⟨sa0, _⟩ := check_limits_scale a a4
  obtain ⟨sb0, _⟩ := check_limits_scale b b4
  obtain ⟨p1, p2, p3⟩ := mul_abs_spec a.mag_ b.mag_ a1 b1
  have hpa := limbs_value_pos a.mag_ hza a2
  have hpb := limbs_value_pos b.mag_ hzb b2
  have hne : mul_abs_ a.mag_ b.mag_ ≠ [] := by
    intro hh
    rw [hh, limbs_value_nil] at p3
    have := Nat.mul_pos hpa hpb
    omega
  have hza2 : is_zero_ a = false := by
    cases hh : is_zero_ a
    · rfl
    · have := (is_zero_iff a).mp hh
      omega
  have hzb2 : is_zero_ b = false := by
    cases hh : is_zero_ b
    · rfl
    · have := (is_zero_iff b).mp hh
      omega
  have en : normalize_
      ⟨mul_abs_ a.mag_ b.mag_, a.scale_ + b.scale_, xor a.neg_ b.neg_, Err.None⟩
      = ⟨mul_abs_ a.mag_ b.mag_, a.scale_ + b.scale_, xor a.neg_ b.neg_, Err.None⟩ := by
    unfold normalize_
    simp only [pop_back_zeros_id _ p2, isEmpty_eq_false _ hne, Bool.false_eq_true, if_false]
  obtain ⟨f1, f2, f3, f4, f5, f6, f7⟩ := rescale_fields
    ⟨mul_abs_ a.mag_ b.mag_, a.scale_ + b.scale_, xor a.neg_ b.neg_, Err.None⟩ t rnd
    p1 p2 hne h0 h1
  simp only at f3 f5 f6
  rw [p3, rescaled_value _ _ _ (by omega) h0] at f3
  obtain ⟨res, hres⟩ : ∃ res, mul a b t rnd = res := ⟨_, rfl⟩
  rw [hres]
  unfold mul at hres
  simp only [hoa, hob, hza2, hzb2, Bool.not_true, Bool.false_eq_true, if_false, or_self] at hres
  rw [if_neg (by omega), en] at hres
  generalize rescale_ ⟨mul_abs_ a.mag_ b.mag_, a.scale_ + b.scale_, xor a.neg_ b.neg_, Err.None⟩
    t rnd = R at *
  rw [← f3]
  constructor
  · intro hlt
    obtain ⟨g1, g2⟩ := f4.mpr hlt
    simp only [g1, g2, Bool.not_true, Bool.false_eq_true, if_false] at hres
    subst hres
    refine ⟨f5, ⟨f1, f2, f7, g2⟩, rfl, f6, fun hz => ?_⟩
    obtain ⟨z1, z2⟩ := f7 hz
    cases R with
    | mk fl Y =>
      cases Y
      simp only at hz z1 z2 f5
      simp [hz, z1, z2, f5]
  · intro hge
    have hn : ¬ (R.1 = true ∧ check_limits_ R.2 = true) := by
      intro hh
      have := f4.mp hh
      omega
    by_cases g1 : R.1 = true
    · have g2 : check_limits_ R.2 = false := by
        cases hh : check_limits_ R.2
        · rfl
        · exact absurd ⟨g1, hh⟩ hn
      simp only [g1, g2, Bool.not_true, Bool.not_false, Bool.false_eq_true, if_false,
        if_true] at hres
      subst hres
      rfl
    · have g1f : R.1 = false := by
        cases hh : R.1
        · rfl
        · exact absurd hh g1
      simp only [g1f, Bool.not_false, if_true] at hres
      subst hres
      rfl

end Numeric

/-! ## Lemmas: long division of limb vectors and `div` -/

namespace Numeric

theorem mul_small_zero (b : List Nat) : (mul_small_ b 0).2 = [] := by
  unfold mul_small_
  cases b with
  | nil => simp
  | cons x xs => simp

/-- The product `b * d` as `div_mod_abs_` forms it, for a digit `d`. -/
theorem mul_small_digit (b : List Nat) (hb : ∀ l ∈ b, l < base) (hbl : b.getLast? ≠ some 0)
    (d : Nat) (hd : d < base) :
    (∀ l ∈ (mul_small_ b (to_u32 d)).2, l < base) ∧
    (mul_small_ b (to_u32 d)).2.getLast? ≠ some 0 ∧
    limbs_value (mul_small_ b (to_u32 d)).2 = d * limbs_value b := by
  have hb0 : base = 1000000000 := rfl
  have hd2 : d < 2 ^ 32 := by rw [hb0] at hd; omega
  rw [to_u32_small d hd2]
  obtain ⟨_, m2, m3, m4⟩ := mul_small_spec b d hd2 hb
  refine ⟨m2, ?_, m3⟩
  by_cases h0 : d = 0
  · rw [h0, mul_small_zero]
    simp
  · exact m4 (by omega) hbl

/-- The correction loop of `div_mod_abs_`: from an estimate that is not too small it reaches
the quotient digit, and leaves the product of the divisor by that digit. -/
theorem div_mod_adjust_spec (b r : List Nat) (hb : ∀ l ∈ b, l < base)
    (hbl : b.getLast? ≠ some 0) (hbn : b ≠ []) (hr : ∀ l ∈ r, l < base)
    (hrl : r.getLast? ≠ some 0) :
    ∀ (fuel d : Nat) (bd : List Nat), d = fuel → d < base → (∀ l ∈ bd, l < base) →
    bd.getLast? ≠ some 0 → limbs_value bd = d * limbs_value b →
    limbs_value r / limbs_value b ≤ d →
    (div_mod_adjust b r fuel d bd).1 = limbs_value r / limbs_value b ∧
    (∀ l ∈ (div_mod_adjust b r fuel d bd).2, l < base) ∧
    (div_mod_adjust b r fuel d bd).2.getLast? ≠ some 0 ∧
    limbs_value (div_mod_adjust b r fuel d bd).2
      = (div_mod_adjust b r fuel d bd).1 * limbs_value b := by
  have hB := limbs_value_pos b hbn hbl
  intro fuel
  induction fuel with
  | zero =>
    intro d bd hd _ h1 h2 h3 h4
    unfold div_mod_adjust
    refine ⟨?_, h1, h2, h3⟩
    show d = _
    generalize limbs_value r / limbs_value b = q at h4 ⊢
    omega
  | succ n ih =>
    intro d bd hd hdb h1 h2 h3 h4
    obtain ⟨_, c2, _⟩ := cmp_abs_spec r bd hr h1 hrl h2
    have hd1 : (d + 2 ^ 64 - 1) % 2 ^ 64 = n := by
      have hb0 : base = 1000000000 := rfl
      rw [hb0] at hdb
      omega
    unfold div_mod_adjust
    by_cases c : (!bd.isEmpty) = true ∧ cmp_abs_ r bd < 0
    · rw [if_pos c]
      simp only [hd1]
      have hlt : limbs_value r < limbs_value bd := by
        obtain ⟨t1, _, _⟩ := cmp_abs_spec r bd hr h1 hrl h2
        rcases t1 with t | t | t
        · exact c2.mp t
        · have := c.2
          omega
        · have := c.2
          omega
      obtain ⟨m1, m2, m3⟩ := mul_small_digit b hb hbl n (by omega)
      have hq : limbs_value r / limbs_value b ≤ n := by
        rw [h3] at hlt
        have : limbs_value r / limbs_value b < d := (Nat.div_lt_iff_lt_mul hB).mpr hlt
        generalize limbs_value r / limbs_value b = q at this ⊢
        omega
      exact ih n _ rfl (by omega) m1 m2 m3 hq
    · rw [if_neg c]
      have hbdn : bd ≠ [] := by
        intro hh
        rw [hh, limbs_value_nil] at h3
        have : 0 < d * limbs_value b := Nat.mul_pos (by omega) hB
        omega
      have hnl : ¬ limbs_value r < limbs_value bd := by
        intro hh
        have hc := c2.mpr hh
        apply c
        refine ⟨?_, by omega⟩
        rw [isEmpty_eq_false bd hbdn]
        rfl
      refine ⟨?_, h1, h2, h3⟩
      show d = _
      have : d ≤ limbs_value r / limbs_value b := by
        rw [Nat.le_div_iff_mul_le hB, ← h3]
        omega
      generalize limbs_value r / limbs_value b = q at this h4 ⊢
      omega

theorem getD_guard (v : List Nat) (n : Nat) :
    (if v.length > n then v.getD n 0 else 0) = v.getD n 0 := by
  by_cases h : v.length > n
  · rw [if_pos h]
  · rw [if_neg h, List.getD_eq_default _ _ (by omega)]

/-- The top limb of a non-empty trimmed vector bounds its value from below. -/
theorem limbs_value_top (b : List Nat) (hbn : b ≠ []) (hbl : b.getLast? ≠ some 0) :
    0 < b.getLastD 0 ∧ base ^ (b.length - 1) * b.getLastD 0 ≤ limbs_value b := by
  rcases List.eq_nil_or_concat b with h | ⟨init, top, h⟩
  · exact absurd h hbn
  · rw [List.concat_eq_append] at h
    subst h
    have e1 : (init ++ [top]).getLastD 0 = top := by simp
    have e2 : (init ++ [top]).getLast? = some top := by simp
    rw [e1, limbs_value_append]
    refine ⟨?_, ?_⟩
    · rw [e2] at hbl
      by_contra hh
      have : top = 0 := by omega
      rw [this] at hbl
      exact hbl rfl
    · simp only [List.length_append, List.length_singleton, Nat.add_sub_cancel, limbs_value,
        Nat.mul_zero, Nat.add_zero]
      omega

/-- The digit estimate of `div_mod_abs_` from the two top limbs is never too small. -/
theorem digit_estimate (V B n top : Nat) (hn : 0 < n) (htop : 0 < top)
    (hB : base ^ (n - 1) * top ≤ B) (hBlt : B < base ^ n) (hV : V < base * B) :
    (V / base ^ n % base * base + V / base ^ (n - 1) % base) % 2 ^ 64 = V / base ^ (n - 1) ∧
    V / B ≤ V / base ^ (n - 1) / top ∧ V / B < base := by
  have hb0 : base = 1000000000 := rfl
  have hp : 0 < base ^ (n - 1) := pow_pos base_pos _
  have e : base ^ n = base ^ (n - 1) * base := by
    rw [← Nat.pow_succ]
    congr 1
    omega
  have hVlt : V < base * base ^ n := by
    calc V < base * B := hV
      _ ≤ base * base ^ n := Nat.mul_le_mul_left _ (le_of_lt hBlt)
  have h1 : V / base ^ n < base := by
    rw [Nat.div_lt_iff_lt_mul (pow_pos base_pos _)]
    exact hVlt
  have h2 : V / base ^ n = V / base ^ (n - 1) / base := by
    rw [Nat.div_div_eq_div_mul, ← e]
  have hB0 : 0 < B := lt_of_lt_of_le (Nat.mul_pos hp htop) hB
  refine ⟨?_, ?_, ?_⟩
  · rw [Nat.mod_eq_of_lt h1, h2]
    rw [h2] at h1
    generalize V / base ^ (n - 1) = W at h1 ⊢
    rw [hb0] at h1 ⊢
    omega
  · rw [Nat.div_div_eq_div_mul]
    exact Nat.div_le_div_left hB (Nat.mul_pos hp htop)
  · rw [Nat.div_lt_iff_lt_mul hB0]
    exact hV

/-- The main loop of `div_mod_abs_` is long division: from a partial remainder below the
divisor it produces the quotient limbs and the remainder. -/
theorem long_div_loop_spec (b : List Nat) (hb : ∀ l ∈ b, l < base)
    (hbl : b.getLast? ≠ some 0) (hbn : b ≠ []) :
    ∀ (rest r : List Nat), (∀ l ∈ rest, l < base) → (∀ l ∈ r, l < base) →
    limbs_value r < limbs_value b →
    (∀ l ∈ (div_mod_loop b rest r).1, l < base) ∧
    (div_mod_loop b rest r).1.length = rest.length ∧
    (∀ l ∈ (div_mod_loop b rest r).2, l < base) ∧
    limbs_value (div_mod_loop b rest r).1.reverse
      = (limbs_value rest.reverse + base ^ rest.length * limbs_value r) / limbs_value b ∧
    limbs_value (div_mod_loop b rest r).2
      = (limbs_value rest.reverse + base ^ rest.length * limbs_value r) % limbs_value b := by
  have hB := limbs_value_pos b hbn hbl
  have hb0 : base = 1000000000 := rfl
  obtain ⟨htop, hBge⟩ := limbs_value_top b hbn hbl
  have hBlt := limbs_value_lt b hb
  have hn : 0 < b.length := List.length_pos.mpr hbn
  intro rest
  induction rest with
  | nil =>
    intro r _ hr hlt
    unfold div_mod_loop
    refine ⟨fun l hl => absurd hl (List.not_mem_nil l), rfl, hr, ?_, ?_⟩
    · simp only [List.reverse_nil, limbs_value, List.length_nil, pow_zero, Nat.one_mul,
        Nat.zero_add]
      rw [Nat.div_eq_of_lt hlt]
    · simp only [List.reverse_nil, limbs_value, List.length_nil, pow_zero, Nat.one_mul,
        Nat.zero_add]
      rw [Nat.mod_eq_of_lt hlt]
  | cons ai rest ih =>
    intro r ha hr hlt
    have hai := ha ai (List.mem_cons_self _ _)
    have hrest : ∀ l ∈ rest, l < base := fun l hl => ha l (List.mem_cons_of_mem _ hl)
    have h_r : (if (!r.isEmpty) = true ∨ ai ≠ 0 then ai :: r else 0 :: r) = ai :: r := by
      by_cases c : (!r.isEmpty) = true ∨ ai ≠ 0
      · rw [if_pos c]
      · rw [if_neg c]
        have : ai = 0 := by
          by_contra hh
          exact c (Or.inr hh)
        rw [this]
    have hR1l : ∀ l ∈ pop_back_zeros (ai :: r), l < base := by
      intro l hl
      rcases List.mem_cons.mp (pop_back_zeros_mem _ l hl) with h | h
      · rw [h]
        exact hai
      · exact hr l h
    have hR1n := pop_back_zeros_last (ai :: r)
    have hR1v : limbs_value (pop_back_zeros (ai :: r)) = ai + base * limbs_value r := by
      rw [pop_back_zeros_value]
      rfl
    have hV : ai + base * limbs_value r < base * limbs_value b := by
      have : base * (limbs_value r + 1) ≤ base * limbs_value b := Nat.mul_le_mul_left _ hlt
      rw [Nat.mul_add, Nat.mul_one] at this
      omega
    obtain ⟨res, hres⟩ : ∃ res, div_mod_loop b (ai :: rest) r = res := ⟨_, rfl⟩
    rw [hres]
    unfold div_mod_loop at hres
    simp only [h_r, getD_guard] at hres
    generalize pop_back_zeros (ai :: r) = R1 at hR1l hR1n hR1v hres
    rw [limbs_value_getD R1 hR1l, limbs_value_getD R1 hR1l, hR1v] at hres
    obtain ⟨g1, g2, g3⟩ := digit_estimate (ai + base * limbs_value r) (limbs_value b) b.length
      (b.getLastD 0) hn htop hBge hBlt hV
    simp only [g1] at hres
    obtain ⟨d, hd, hdlt, hdge⟩ : ∃ d, (if (ai + base * limbs_value r) / base ^ (b.length - 1)
          / b.getLastD 0 ≥ base then base - 1
        else (ai + base * limbs_value r) / base ^ (b.length - 1) / b.getLastD 0) = d ∧
        d < base ∧ (ai + base * limbs_value r) / limbs_value b ≤ d := by
      refine ⟨_, rfl, ?_, ?_⟩
      · split
        · rw [hb0]
          omega
        · omega
      · split
        · omega
        · exact g2
    simp only [hd] at hres
    have hbd : (if d ≠ 0 then (mul_small_ b (to_u32 d)).2 else [])
        = (mul_small_ b (to_u32 d)).2 := by
      by_cases c : d ≠ 0
      · rw [if_pos c]
      · rw [if_neg c]
        have : d = 0 := by omega
        rw [this]
        exact (mul_small_zero b).symm
    simp only [hbd] at hres
    obtain ⟨m1, m2, m3⟩ := mul_small_digit b hb hbl d hdlt
    obtain ⟨j1, j2, j3, j4⟩ := div_mod_adjust_spec b R1 hb hbl hbn hR1l hR1n d d
      (mul_small_ b (to_u32 d)).2 rfl hdlt m1 m2 m3 (by rw [hR1v]; exact hdge)
    rw [hR1v] at j1
    generalize div_mod_adjust b R1 d d (mul_small_ b (to_u32 d)).2 = adj at j1 j2 j3 j4 hres
    rw [j1] at j4
    have hqd : to_u32 adj.1 = (ai + base * limbs_value r) / limbs_value b := by
      rw [j1]
      exact to_u32_small _ (by rw [hb0] at g3; omega)
    obtain ⟨R2, hR2, hR2l, hR2v⟩ : ∃ R2,
        (if (!adj.2.isEmpty) = true then sub_abs_ R1 adj.2 else R1) = R2 ∧
        (∀ l ∈ R2, l < base) ∧
        limbs_value R2 = (ai + base * limbs_value r) % limbs_value b := by
      refine ⟨_, rfl, ?_⟩
      have hmod := Nat.div_add_mod (ai + base * limbs_value r) (limbs_value b)
      rw [Nat.mul_comm] at hmod
      by_cases c : (!adj.2.isEmpty) = true
      · rw [if_pos c]
        obtain ⟨s1, _, s3⟩ := sub_abs_spec R1 adj.2 hR1l j2 (by
          rw [j4, hR1v]
          exact Nat.div_mul_le_self _ _)
        refine ⟨s1, ?_⟩
        rw [s3, j4, hR1v]
        omega
      · rw [if_neg c]
        refine ⟨hR1l, ?_⟩
        have he : adj.2 = [] := by
          cases hh : adj.2 with
          | nil => rfl
          | cons x xs =>
            rw [hh] at c
            exact absurd rfl c
        rw [he, limbs_value_nil] at j4
        rw [hR1v]
        omega
    simp only [hR2, hqd] at hres
    obtain ⟨i1, i2, i3, i4, i5⟩ := ih R2 hrest hR2l (by
      rw [hR2v]
      exact Nat.mod_lt _ hB)
    subst hres
    have hX : limbs_value (ai :: rest).reverse + base ^ (ai :: rest).length * limbs_value r
        = limbs_value rest.reverse + base ^ rest.length * limbs_value R2
          + base ^ rest.length * ((ai + base * limbs_value r) / limbs_value b)
            * limbs_value b := by
      rw [List.reverse_cons, limbs_value_append, List.length_reverse, List.length_cons,
        Nat.pow_succ, hR2v]
      have hmod := Nat.div_add_mod (ai + base * limbs_value r) (limbs_value b)
      simp only [limbs_value, Nat.mul_zero, Nat.add_zero]
      generalize (ai + base * limbs_value r) / limbs_value b = Q at hmod ⊢
      generalize (ai + base * limbs_value r) % limbs_value b = M at hmod ⊢
      generalize base ^ rest.length = P
      generalize limbs_value rest.reverse = X
      generalize base = bb at hmod ⊢
      zify at hmod ⊢
      linear_combination (-(P : Int)) * hmod
    refine ⟨?_, ?_, i3, ?_, ?_⟩
    · intro l hl
      rcases List.mem_cons.mp hl with h | h
      · rw [h]
        exact g3
      · exact i1 l h
    · simp only [List.length_cons, i2]
    · show limbs_value (_ :: _).reverse = _
      rw [List.reverse_cons, limbs_value_append, List.length_reverse, i2, i4, hX,
        Nat.add_mul_div_right _ _ hB]
      simp only [limbs_value, Nat.mul_zero, Nat.add_zero]
    · show limbs_value (div_mod_loop b rest R2).2 = _
      rw [i5, hX, Nat.add_mul_mod_self_right]

/-- Static member `div_mod_abs_`: the quotient limbs stand for the integer quotient. -/
theorem div_mod_abs_quot (a b : List Nat) (ha : ∀ l ∈ a, l < base) (hb : ∀ l ∈ b, l < base)
    (hb0 : limbs_value b ≠ 0) :
    (∀ l ∈ (div_mod_abs_ a b).1, l < base) ∧ (div_mod_abs_ a b).1.getLast? ≠ some 0 ∧
    limbs_value (div_mod_abs_ a b).1 = limbs_value a / limbs_value b := by
  have hbase : base = 1000000000 := rfl
  have hal : ∀ l ∈ pop_back_zeros a, l < base := fun l hl => ha l (pop_back_zeros_mem _ l hl)
  have hbl : ∀ l ∈ pop_back_zeros b, l < base := fun l hl => hb l (pop_back_zeros_mem _ l hl)
  have han := pop_back_zeros_last a
  have hbn := pop_back_zeros_last b
  have hav := pop_back_zeros_value a
  have hbv := pop_back_zeros_value b
  obtain ⟨res, hres⟩ : ∃ res, div_mod_abs_ a b = res := ⟨_, rfl⟩
  rw [hres]
  unfold div_mod_abs_ at hres
  simp only at hres
  rw [← hav, ← hbv]
  rw [← hbv] at hb0
  generalize pop_back_zeros a = a1 at hal han hav hres
  generalize pop_back_zeros b = b1 at hbl hbn hbv hres hb0
  have hbne : b1 ≠ [] := by
    intro hh
    rw [hh, limbs_value_nil] at hb0
    exact hb0 rfl
  have hB : 0 < limbs_value b1 := by omega
  rw [isEmpty_eq_false b1 hbne] at hres
  simp only [Bool.false_eq_true, if_false] at hres
  by_cases hae : a1 = []
  · rw [hae] at hres ⊢
    simp only [List.isEmpty_nil, if_true] at hres
    subst hres
    refine ⟨fun l hl => absurd hl (List.not_mem_nil l), by simp, ?_⟩
    simp [limbs_value]
  rw [isEmpty_eq_false a1 hae] at hres
  simp only [Bool.false_eq_true, if_false] at hres
  obtain ⟨c1, c2, _⟩ := cmp_abs_spec a1 b1 hal hbl han hbn
  by_cases hc : cmp_abs_ a1 b1 < 0
  · rw [if_pos hc] at hres
    subst hres
    refine ⟨fun l hl => absurd hl (List.not_mem_nil l), by simp, ?_⟩
    have hlt : limbs_value a1 < limbs_value b1 := by
      rcases c1 with t | t | t
      · exact c2.mp t
      · omega
      · omega
    rw [Nat.div_eq_of_lt hlt]
    rfl
  rw [if_neg hc] at hres
  obtain ⟨htop, hBge⟩ := limbs_value_top b1 hbne hbn
  have hBlt := limbs_value_lt b1 hbl
  have htoplt : b1.getLastD 0 < base := by
    have e : base ^ b1.length = base ^ (b1.length - 1) * base := by
      rw [← Nat.pow_succ]
      congr 1
      have := List.length_pos.mpr hbne
      omega
    rw [e] at hBlt
    exact Nat.lt_of_mul_lt_mul_left (lt_of_le_of_lt hBge hBlt)
  obtain ⟨f, hf, hf0, hf1⟩ : ∃ f, to_u32 (base / ((b1.getLastD 0 + 1) % 2 ^ 64)) = f ∧
      0 < f ∧ f < 2 ^ 32 := by
    refine ⟨_, rfl, ?_, ?_⟩
    · rw [hbase] at htoplt ⊢
      unfold to_u32
      have e : (b1.getLastD 0 + 1) % 2 ^ 64 = b1.getLastD 0 + 1 := by omega
      rw [e]
      have : 1 ≤ 1000000000 / (b1.getLastD 0 + 1) := by
        rw [Nat.le_div_iff_mul_le (by omega)]
        omega
      have h2 : 1000000000 / (b1.getLastD 0 + 1) ≤ 1000000000 := Nat.div_le_self _ _
      omega
    · unfold to_u32
      omega
  simp only [hf] at hres
  obtain ⟨a2, ha2, ha2l, ha2v⟩ : ∃ a2, (if f ≠ 1 then (mul_small_ a1 f).2 else a1) = a2 ∧
      (∀ l ∈ a2, l < base) ∧ limbs_value a2 = f * limbs_value a1 := by
    refine ⟨_, rfl, ?_⟩
    obtain ⟨_, m2, m3, _⟩ := mul_small_spec a1 f hf1 hal
    by_cases c : f ≠ 1
    · rw [if_pos c]
      exact ⟨m2, m3⟩
    · rw [if_neg c]
      have : f = 1 := by omega
      rw [this, Nat.one_mul]
      exact ⟨hal, rfl⟩
  obtain ⟨b2, hb2, hb2l, hb2n, hb2v⟩ : ∃ b2, (if f ≠ 1 then (mul_small_ b1 f).2 else b1) = b2 ∧
      (∀ l ∈ b2, l < base) ∧ b2.getLast? ≠ some 0 ∧ limbs_value b2 = f * limbs_value b1 := by
    refine ⟨_, rfl, ?_⟩
    obtain ⟨_, m2, m3, m4⟩ := mul_small_spec b1 f hf1 hbl
    by_cases c : f ≠ 1
    · rw [if_pos c]
      exact ⟨m2, m4 hf0 hbn, m3⟩
    · rw [if_neg c]
      have : f = 1 := by omega
      rw [this, Nat.one_mul]
      exact ⟨hbl, hbn, rfl⟩
  simp only [ha2, hb2] at hres
  have hB2 : 0 < limbs_value b2 := by
    rw [hb2v]
    exact Nat.mul_pos hf0 hB
  have hb2ne : b2 ≠ [] := by
    intro hh
    rw [hh, limbs_value_nil] at hB2
    omega
  obtain ⟨l1, _, _, l4, _⟩ := long_div_loop_spec b2 hb2l hb2n hb2ne a2.reverse []
    (fun l hl => ha2l l (List.mem_reverse.mp hl))
    (fun l hl => absurd hl (List.not_mem_nil l)) (by rw [limbs_value_nil]; exact hB2)
  subst hres
  refine ⟨?_, pop_back_zeros_last _, ?_⟩
  · intro l hl
    exact l1 l (List.mem_reverse.mp (pop_back_zeros_mem _ l hl))
  · show limbs_value (pop_back_zeros _) = _
    rw [pop_back_zeros_value, l4, List.reverse_reverse, limbs_value_nil, Nat.mul_zero,
      Nat.add_zero, ha2v, hb2v, Nat.mul_div_mul_left _ _ hf0]

/-- One guard digit decides rounding half up: dropping the last digit of `⌊10 N / D⌋` and
adding one when that digit is at least 5 gives `⌊N / D + 1/2⌋`. -/
theorem guard_digit_round (N D : Nat) (hD : 0 < D) :
    10 * N / D / 10 + (if 5 ≤ 10 * N / D % 10 then 1 else 0) = (2 * N + D) / (2 * D) := by
  have hdm := Nat.div_add_mod N D
  have hr := Nat.mod_lt N hD
  generalize N / D = q at hdm
  generalize N % D = r at hdm hr
  subst hdm
  have e1 : 10 * (D * q + r) = 10 * r + (10 * q) * D := by ring
  have e2 : 2 * (D * q + r) + D = (2 * r + D) + q * (2 * D) := by ring
  rw [e1, e2, Nat.add_mul_div_right _ _ hD, Nat.add_mul_div_right _ _ (by omega : 0 < 2 * D)]
  have hg : 10 * r / D < 10 := by
    rw [Nat.div_lt_iff_lt_mul hD]
    omega
  have h5 : 5 ≤ 10 * r / D ↔ D ≤ 2 * r := by
    rw [Nat.le_div_iff_mul_le hD]
    omega
  generalize 10 * r / D = g at hg h5
  have e3 : (g + 10 * q) / 10 = q := by omega
  have e4 : (g + 10 * q) % 10 = g := by omega
  rw [e3, e4]
  by_cases c : D ≤ 2 * r
  · rw [if_pos (h5.mpr c)]
    have : (2 * r + D) / (2 * D) = 1 := Nat.div_eq_of_lt_le (by omega) (by omega)
    omega
  · rw [if_neg (fun h => c (h5.mp h))]
    have : (2 * r + D) / (2 * D) = 0 := Nat.div_eq_of_lt (by omega)
    omega

/-- The quotient of the operands that `div` scales, in one formula. -/
theorem quot_scaled (A B e s : Nat) (k : Int) (hk : k = (e : Int) - s) :
    (if 0 ≤ k then A * 10 ^ k.toNat / B else A / (B * 10 ^ (-k).toNat))
      = A * 10 ^ e / (B * 10 ^ s) := by
  by_cases c : 0 ≤ k
  · rw [if_pos c]
    have e1 : 10 ^ e = 10 ^ k.toNat * 10 ^ s := by
      rw [← Nat.pow_add]
      congr 1
      omega
    rw [e1, ← Nat.mul_assoc, Nat.mul_div_mul_right _ _ (pow_pos (by decide) s)]
  · rw [if_neg c]
    have e1 : 10 ^ s = 10 ^ e * 10 ^ (-k).toNat := by
      rw [← Nat.pow_add]
      congr 1
      omega
    have e2 : B * (10 ^ e * 10 ^ (-k).toNat) = 10 ^ e * (B * 10 ^ (-k).toNat) := by ring
    rw [e1, e2, Nat.mul_comm A, Nat.mul_div_mul_left _ _ (pow_pos (by decide) e)]

/-- The numerator and the denominator that `div` hands to `div_mod_abs_`. -/
theorem div_operands (a b : List Nat) (k : Int) (e s : Nat) (hk : k = (e : Int) - s)
    (ha : ∀ l ∈ a, l < base) (hb : ∀ l ∈ b, l < base) (hb0 : limbs_value b ≠ 0) :
    (if k ≥ 0 then mul_pow10_ a k else (true, a)).1 = true ∧
    (if k ≥ 0 then (true, b) else mul_pow10_ b (-k)).1 = true ∧
    (∀ l ∈ (if k ≥ 0 then mul_pow10_ a k else (true, a)).2, l < base) ∧
    (∀ l ∈ (if k ≥ 0 then (true, b) else mul_pow10_ b (-k)).2, l < base) ∧
    limbs_value (if k ≥ 0 then (true, b) else mul_pow10_ b (-k)).2 ≠ 0 ∧
    limbs_value (if k ≥ 0 then mul_pow10_ a k else (true, a)).2
        / limbs_value (if k ≥ 0 then (true, b) else mul_pow10_ b (-k)).2
      = limbs_value a * 10 ^ e / (limbs_value b * 10 ^ s) := by
  rw [← quot_scaled _ _ e s k hk]
  by_cases c : k ≥ 0
  · have c2 : 0 ≤ k := c
    obtain ⟨n, hn⟩ : ∃ n : Nat, k = (n : Int) := ⟨k.toNat, by omega⟩
    obtain ⟨p1, p2, p3⟩ := mul_pow10_spec a n ha
    rw [if_pos c, if_pos c, if_pos c2, hn, Int.toNat_ofNat, p3]
    exact ⟨p1, rfl, p2, hb, hb0, rfl⟩
  · have c2 : ¬ 0 ≤ k := c
    obtain ⟨n, hn⟩ : ∃ n : Nat, -k = (n : Int) := ⟨(-k).toNat, by omega⟩
    obtain ⟨p1, p2, p3⟩ := mul_pow10_spec b n hb
    rw [if_neg c, if_neg c, if_neg c2, hn, Int.toNat_ofNat, p3]
    refine ⟨rfl, p1, ha, p2, ?_, rfl⟩
    have : 0 < limbs_value b * 10 ^ n := Nat.mul_pos (by omega) (pow_pos (by decide) n)
    omega

theorem is_zero_false (x : Numeric) (hx : Inv x) (hz : x.mag_ ≠ []) : is_zero_ x = false := by
  cases hh : is_zero_ x
  · rfl
  · exact absurd ((is_zero_iff_nil x hx).mp hh) hz

/-- Static member `div` under `Trunc`, up to the final `check_limits_`: the quotient limbs. -/
theorem div_trunc_spec (a b : Numeric) (hoa : a.ok = true) (hob : b.ok = true)
    (ha : Inv a) (hb : Inv b) (hza : a.mag_ ≠ []) (hzb : b.mag_ ≠ [])
    (t : Int) (h0 : 0 ≤ t) (h1 : t ≤ 16383) :
    ∃ M : List Nat, (∀ l ∈ M, l < base) ∧ M.getLast? ≠ some 0 ∧
      limbs_value M = limbs_value a.mag_ * 10 ^ (t.toNat + b.scale_.toNat)
        / (limbs_value b.mag_ * 10 ^ a.scale_.toNat) ∧
      (if (!check_limits_ (if M.isEmpty = true then ⟨M, 0, false, Err.None⟩
          else ⟨M, t, xor a.neg_ b.neg_, Err.None⟩)) = true
        then set_error_ (if M.isEmpty = true then ⟨M, 0, false, Err.None⟩
          else ⟨M, t, xor a.neg_ b.neg_, Err.None⟩) Err.Overflow
        else (if M.isEmpty = true then ⟨M, 0, false, Err.None⟩
          else ⟨M, t, xor a.neg_ b.neg_, Err.None⟩)) = div a b t Rounding.Trunc := by
  have hm : max_frac_digits = 16383 := rfl
  obtain ⟨sa0, _⟩ := check_limits_scale a ha.2.2.2
  obtain ⟨sb0, _⟩ := check_limits_scale b hb.2.2.2
  have hB := limbs_value_pos b.mag_ hzb hb.2.1
  have hk : t + 0 + b.scale_ - a.scale_
      = ((t.toNat + b.scale_.toNat : Nat) : Int) - (a.scale_.toNat : Nat) := by
    push_cast
    omega
  obtain ⟨o1, o2, o3, o4, o5, o6⟩ := div_operands a.mag_ b.mag_ _ _ _ hk ha.1 hb.1
    (by omega)
  obtain ⟨q1, q2, q3⟩ := div_mod_abs_quot _ _ o3 o4 o5
  rw [o6] at q3
  refine ⟨_, q1, q2, q3, ?_⟩
  have he : (if Rounding.Trunc = Rounding.HalfUp then (1 : Int) else 0) = 0 := rfl
  have hrange : ¬ (t < 0 ∨ t > max_frac_digits) := by omega
  unfold div
  simp only [hoa, hob, is_zero_false a ha hza, is_zero_false b hb hzb, Bool.not_true,
    Bool.false_eq_true, if_false, he, o1, o2, or_self, if_true, pop_back_zeros_id _ q2,
    hrange]
  simp only [Int.add_zero]

/-- Static member `div` under `HalfUp`, up to the final `check_limits_`: the quotient with
one guard digit, rounded. -/
theorem div_half_up_spec (a b : Numeric) (hoa : a.ok = true) (hob : b.ok = true)
    (ha : Inv a) (hb : Inv b) (hza : a.mag_ ≠ []) (hzb : b.mag_ ≠ [])
    (t : Int) (h0 : 0 ≤ t) (h1 : t ≤ 16383) :
    ∃ M : List Nat, (∀ l ∈ M, l < base) ∧ M.getLast? ≠ some 0 ∧
      limbs_value M = (2 * (limbs_value a.mag_ * 10 ^ (t.toNat + b.scale_.toNat))
          + limbs_value b.mag_ * 10 ^ a.scale_.toNat)
        / (2 * (limbs_value b.mag_ * 10 ^ a.scale_.toNat)) ∧
      (if (!check_limits_ (if M.isEmpty = true then ⟨M, 0, false, Err.None⟩
          else ⟨M, t, xor a.neg_ b.neg_, Err.None⟩)) = true
        then set_error_ (if M.isEmpty = true then ⟨M, 0, false, Err.None⟩
          else ⟨M, t, xor a.neg_ b.neg_, Err.None⟩) Err.Overflow
        else (if M.isEmpty = true then ⟨M, 0, false, Err.None⟩
          else ⟨M, t, xor a.neg_ b.neg_, Err.None⟩)) = div a b t Rounding.HalfUp := by
  have hm : max_frac_digits = 16383 := rfl
  obtain ⟨sa0, _⟩ := check_limits_scale a ha.2.2.2
  obtain ⟨sb0, _⟩ := check_limits_scale b hb.2.2.2
  have hB := limbs_value_pos b.mag_ hzb hb.2.1
  have hk : t + 1 + b.scale_ - a.scale_
      = ((t.toNat + b.scale_.toNat + 1 : Nat) : Int) - (a.scale_.toNat : Nat) := by
    push_cast
    omega
  obtain ⟨o1, o2, o3, o4, o5, o6⟩ := div_operands a.mag_ b.mag_ _ _ _ hk ha.1 hb.1
    (by omega)
  obtain ⟨q1, q2, q3⟩ := div_mod_abs_quot _ _ o3 o4 o5
  have e10 : limbs_value a.mag_ * 10 ^ (t.toNat + b.scale_.toNat + 1)
      = 10 * (limbs_value a.mag_ * 10 ^ (t.toNat + b.scale_.toNat)) := by
    rw [Nat.pow_succ]
    ring
  rw [o6, e10] at q3
  have hD : 0 < limbs_value b.mag_ * 10 ^ a.scale_.toNat :=
    Nat.mul_pos hB (pow_pos (by decide) _)
  have hg := guard_digit_round (limbs_value a.mag_ * 10 ^ (t.toNat + b.scale_.toNat))
    (limbs_value b.mag_ * 10 ^ a.scale_.toNat) hD
  rw [← q3] at hg
  obtain ⟨d1, d2, d3, d4, d5⟩ := div_small_spec _ 10 0 (by decide) (by decide) q1
  have he : (if Rounding.HalfUp = Rounding.HalfUp then (1 : Int) else 0) = 1 := rfl
  have hrange : ¬ (t < 0 ∨ t > max_frac_digits) := by omega
  have h10 : ¬ ((1 : Int) = 0) := by decide
  obtain ⟨M, hM, hMl, hMn, hMv⟩ : ∃ M, (if (div_small_ (div_mod_abs_
          (if t + 1 + b.scale_ - a.scale_ ≥ 0 then mul_pow10_ a.mag_ (t + 1 + b.scale_ - a.scale_)
            else (true, a.mag_)).2
          (if t + 1 + b.scale_ - a.scale_ ≥ 0 then (true, b.mag_)
            else mul_pow10_ b.mag_ (-(t + 1 + b.scale_ - a.scale_))).2).1 10 0).2.2 ≥ 5
        then pop_back_zeros (add_one_ (div_small_ (div_mod_abs_
          (if t + 1 + b.scale_ - a.scale_ ≥ 0 then mul_pow10_ a.mag_ (t + 1 + b.scale_ - a.scale_)
            else (true, a.mag_)).2
          (if t + 1 + b.scale_ - a.scale_ ≥ 0 then (true, b.mag_)
            else mul_pow10_ b.mag_ (-(t + 1 + b.scale_ - a.scale_))).2).1 10 0).2.1)
        else (div_small_ (div_mod_abs_
          (if t + 1 + b.scale_ - a.scale_ ≥ 0 then mul_pow10_ a.mag_ (t + 1 + b.scale_ - a.scale_)
            else (true, a.mag_)).2
          (if t + 1 + b.scale_ - a.scale_ ≥ 0 then (true, b.mag_)
            else mul_pow10_ b.mag_ (-(t + 1 + b.scale_ - a.scale_))).2).1 10 0).2.1) = M ∧
      (∀ l ∈ M, l < base) ∧ M.getLast? ≠ some 0 ∧
      limbs_value M = (2 * (limbs_value a.mag_ * 10 ^ (t.toNat + b.scale_.toNat))
          + limbs_value b.mag_ * 10 ^ a.scale_.toNat)
        / (2 * (limbs_value b.mag_ * 10 ^ a.scale_.toNat)) := by
    refine ⟨_, rfl, ?_⟩
    rw [← hg, d5]
    generalize div_small_ (div_mod_abs_
          (if t + 1 + b.scale_ - a.scale_ ≥ 0 then mul_pow10_ a.mag_ (t + 1 + b.scale_ - a.scale_)
            else (true, a.mag_)).2
          (if t + 1 + b.scale_ - a.scale_ ≥ 0 then (true, b.mag_)
            else mul_pow10_ b.mag_ (-(t + 1 + b.scale_ - a.scale_))).2).1 10 0 = ds at *
    generalize limbs_value (div_mod_abs_
          (if t + 1 + b.scale_ - a.scale_ ≥ 0 then mul_pow10_ a.mag_ (t + 1 + b.scale_ - a.scale_)
            else (true, a.mag_)).2
          (if t + 1 + b.scale_ - a.scale_ ≥ 0 then (true, b.mag_)
            else mul_pow10_ b.mag_ (-(t + 1 + b.scale_ - a.scale_))).2).1 = Q at *
    by_cases c : Q % 10 ≥ 5
    · have c2 : 5 ≤ Q % 10 := c
      rw [if_pos c, if_pos c2]
      obtain ⟨a1, a2⟩ := add_one_spec ds.2.1 d2
      refine ⟨fun l hl => a1 l (pop_back_zeros_mem _ l hl), pop_back_zeros_last _, ?_⟩
      rw [pop_back_zeros_value, a2, d4]
    · have c2 : ¬ 5 ≤ Q % 10 := c
      rw [if_neg c, if_neg c2]
      exact ⟨d2, d3, by rw [d4, Nat.add_zero]⟩
  refine ⟨M, hMl, hMn, hMv, ?_⟩
  unfold div
  simp only [hoa, hob, is_zero_false a ha hza, is_zero_false b hb hzb, Bool.not_true,
    Bool.false_eq_true, if_false, he, o1, o2, or_self, if_true, pop_back_zeros_id _ q2,
    pop_back_zeros_id _ d3, hrange, h10, hM]

end Numeric

/-! ## Lemmas: mixed comparisons and string conversion of the 256-bit integers -/

namespace uint128

/-- The defaulted `operator<=>` of `uint128` orders by the value. -/
theorem cmp_to_wide (a b : uint128) (ha : a.WF) (hb : b.WF) :
    (cmp a b = Ordering.lt ↔ a.to_wide < b.to_wide) ∧
    (cmp a b = Ordering.eq ↔ a.to_wide = b.to_wide) ∧
    (cmp a b = Ordering.gt ↔ b.to_wide < a.to_wide) := by
  unfold WF at ha hb
  unfold cmp to_wide
  split_ifs <;> simp <;> omega

end uint128

namespace uint256

/-- The defaulted `operator<=>` of `uint256` orders by the value. -/
theorem cmp_toNat (a b : uint256) (ha : a.WF) (hb : b.WF) :
    (cmp a b = Ordering.lt ↔ a.toNat < b.toNat) ∧
    (cmp a b = Ordering.eq ↔ a.toNat = b.toNat) ∧
    (cmp a b = Ordering.gt ↔ b.toNat < a.toNat) := by
  obtain ⟨h1, h2, h3⟩ := uint128.cmp_to_wide a.hi_ b.hi_ ha.1 hb.1
  obtain ⟨l1, l2, l3⟩ := uint128.cmp_to_wide a.lo_ b.lo_ ha.2 hb.2
  have b1 := uint128.to_wide_lt _ ha.2
  have b2 := uint128.to_wide_lt _ hb.2
  unfold cmp toNat
  cases hh : uint128.cmp a.hi_ b.hi_
  · have := h1.mp hh
    simp only [true_iff, false_iff, reduceCtorEq]
    omega
  · have := h2.mp hh
    simp only
    rw [l1, l2, l3]
    omega
  · have := h3.mp hh
    simp only [true_iff, false_iff, reduceCtorEq]
    omega

end uint256

namespace int256

/-- The halves of a non-negative `int256`, read as a `uint256`, stand for its value. -/
theorem of_int256_toNat (s : int256) (h : s.WF) (hs : 0 ≤ s.toInt) :
    (uint256.of_int256 s).WF ∧ ((uint256.of_int256 s).toNat : Int) = s.toInt ∧
    s.is_negative = false := by
  have hn := toInt_neg_iff s h
  have hneg : s.is_negative = false := by
    cases hh : s.is_negative
    · rfl
    · have := hn.mp hh
      omega
  refine ⟨h, ?_, hneg⟩
  have hlt := uint256.toNat_lt ⟨s.hi_, s.lo_⟩ h
  unfold toInt at hs ⊢
  simp only at hs ⊢
  show (((⟨s.hi_, s.lo_⟩ : uint256).toNat : Nat) : Int) = _
  split at hs
  · rename_i c
    rw [if_pos c]
  · omega

end int256

namespace uint256

theorem toNat_eq_zero (v : uint256) (h : v.WF) :
    (v.hi_ = ⟨0, 0⟩ ∧ v.lo_ = ⟨0, 0⟩) ↔ v.toNat = 0 := by
  have hz : (⟨⟨0, 0⟩, ⟨0, 0⟩⟩ : uint256).WF := by decide
  have e := eq_iff_toNat v ⟨⟨0, 0⟩, ⟨0, 0⟩⟩ h hz
  have e0 : (⟨⟨0, 0⟩, ⟨0, 0⟩⟩ : uint256).toNat = 0 := by decide
  rw [e0] at e
  rw [← e]
  constructor
  · intro hh
    cases v
    simp only at hh
    rw [hh.1, hh.2]
  · intro hh
    rw [hh]
    exact ⟨rfl, rfl⟩

theorem div10_toNat (v : uint256) (h : v.WF) :
    (div v ⟨⟨0, 0⟩, ⟨0, 10⟩⟩).toNat = v.toNat / 10 ∧ (div v ⟨⟨0, 0⟩, ⟨0, 10⟩⟩).WF ∧
    (mod v ⟨⟨0, 0⟩, ⟨0, 10⟩⟩).lo_.low % 2 ^ 32 = v.toNat % 10 := by
  have ht : (⟨⟨0, 0⟩, ⟨0, 10⟩⟩ : uint256).WF := by decide
  have h10 : (⟨⟨0, 0⟩, ⟨0, 10⟩⟩ : uint256).toNat = 10 := by decide
  obtain ⟨d1, d2, d3, d4⟩ := div_mod_spec v ⟨⟨0, 0⟩, ⟨0, 10⟩⟩ h ht (by rw [h10]; decide)
  rw [h10] at d1 d2
  refine ⟨d1, d3, ?_⟩
  have hlt : v.toNat % 10 < 10 := Nat.mod_lt _ (by decide)
  unfold mod
  obtain ⟨⟨w1, w2⟩, ⟨w3, w4⟩⟩ := d4
  generalize v.toNat % 10 = r at d2 hlt ⊢
  unfold toNat uint128.to_wide at d2
  unfold uint128.low
  omega

theorem to_string_loop_std (fuel : Nat) : ∀ (v : uint256) (res : List Char), v.WF →
    to_string_loop fuel v res = res ++ std_to_string_loop fuel v.toNat := by
  induction fuel with
  | zero => intro v res _; simp [to_string_loop, std_to_string_loop]
  | succ f ih =>
    intro v res h
    obtain ⟨hd, hw, hm⟩ := div10_toNat v h
    unfold to_string_loop std_to_string_loop
    by_cases hz : v.toNat = 0
    · have := (toNat_eq_zero v h).mpr hz
      simp [this, hz]
    · have hnz : v.hi_ ≠ ⟨0, 0⟩ ∨ v.lo_ ≠ ⟨0, 0⟩ := by
        by_contra hc
        push_neg at hc
        exact hz ((toNat_eq_zero v h).mp hc)
      simp only [hnz, if_true, hz, if_false]
      rw [ih _ _ hw, hd, hm]
      simp

theorem pow_256_lt : (2 : Nat) ^ 256 < 10 ^ 80 := by decide

/-- Member `to_string` of `uint256` gives the decimal numeral of the value. -/
theorem to_string_decimal (v : uint256) (h : v.WF) :
    is_decimal_numeral v.to_string v.toNat := by
  unfold to_string
  by_cases hz : v.toNat = 0
  · have := (toNat_eq_zero v h).mpr hz
    rw [if_pos this, hz]
    exact zero_numeral
  · have hnz : ¬ (v.hi_ = ⟨0, 0⟩ ∧ v.lo_ = ⟨0, 0⟩) := fun hc => hz ((toNat_eq_zero v h).mp hc)
    rw [if_neg hnz, to_string_loop_std 80 v [] h, List.nil_append]
    have hlt := toNat_lt v h
    exact std_loop_numeral 79 _ hz (lt_trans hlt pow_256_lt)

end uint256

namespace int256

theorem bits_zero_iff (v : int256) (h : v.WF) :
    (v.hi_ = ⟨0, 0⟩ ∧ v.lo_ = ⟨0, 0⟩) ↔ v.toInt = 0 := by
  rw [uint256.toNat_eq_zero ⟨v.hi_, v.lo_⟩ h]
  have := uint256.toNat_lt ⟨v.hi_, v.lo_⟩ h
  unfold toInt
  simp only
  split <;> omega

theorem to_string_zero (v : int256) (h : v.WF) (hz : v.toInt = 0) : v.to_string = ['0'] := by
  unfold to_string
  rw [if_pos ((bits_zero_iff v h).mpr hz)]

/-- Member `to_string` of `int256`: a minus sign exactly for a negative value, then the
decimal numeral of the absolute value. -/
theorem to_string_decimal_signed (v : int256) (h : v.WF) :
    ∃ ds : List Char, is_decimal_numeral ds v.toInt.natAbs ∧
      v.to_string = (if v.toInt < 0 then '-' :: ds else ds) := by
  obtain ⟨aw, av⟩ := unsigned_abs_spec v h
  have hneg := is_negative_eq v h
  have htmp : (if v.is_negative = true then unsigned_abs v else ⟨v.hi_, v.lo_⟩)
      = unsigned_abs v := by
    by_cases c : v.is_negative = true
    · rw [if_pos c]
    · rw [if_neg c]
      unfold unsigned_abs
      simp [c]
  have hbits := bits_zero_iff v h
  unfold to_string
  by_cases hz : v.toInt = 0
  · rw [if_pos (hbits.mpr hz), hz]
    exact ⟨['0'], zero_numeral, rfl⟩
  · rw [if_neg (fun hc => hz (hbits.mp hc))]
    simp only [htmp]
    rw [uint256.to_string_loop_std 80 _ [] aw, List.nil_append, av]
    have hr := toInt_range v h
    have hlt : v.toInt.natAbs < 10 ^ 80 := by
      have h1 : v.toInt.natAbs ≤ 2 ^ 255 := by
        have e : ((2 : Int) ^ 255) = ((2 ^ 255 : Nat) : Int) := by norm_num
        rw [e] at hr
        omega
      have h2 : (2 : Nat) ^ 255 < 2 ^ 256 := by decide
      exact lt_trans (lt_of_le_of_lt h1 h2) uint256.pow_256_lt
    have hnum := std_loop_numeral 79 v.toInt.natAbs (by omega) hlt
    refine ⟨_, hnum, ?_⟩
    rw [hneg]
    by_cases c : v.toInt < 0
    · simp [c]
    · simp [c]

end int256

/-! ## Lemmas: the remainder of `div_mod_abs_` and its correction loop -/

namespace Numeric

/-- The correction loop of `div_mod_abs_` leaves by its own condition: with any counter
that is at least the estimate it reaches the quotient digit. -/
theorem div_mod_adjust_enough (b r : List Nat) (hb : ∀ l ∈ b, l < base)
    (hbl : b.getLast? ≠ some 0) (hbn : b ≠ []) (hr : ∀ l ∈ r, l < base)
    (hrl : r.getLast? ≠ some 0) :
    ∀ (fuel d : Nat) (bd : List Nat), d ≤ fuel → d < base → (∀ l ∈ bd, l < base) →
    bd.getLast? ≠ some 0 → limbs_value bd = d * limbs_value b →
    limbs_value r / limbs_value b ≤ d →
    (div_mod_adjust b r fuel d bd).1 = limbs_value r / limbs_value b ∧
    limbs_value (div_mod_adjust b r fuel d bd).2
      = (div_mod_adjust b r fuel d bd).1 * limbs_value b := by
  have hB := limbs_value_pos b hbn hbl
  have hb0 : base = 1000000000 := rfl
  intro fuel
  induction fuel with
  | zero =>
    intro d bd hd _ _ _ h3 h4
    unfold div_mod_adjust
    refine ⟨?_, h3⟩
    show d = _
    generalize limbs_value r / limbs_value b = q at h4 ⊢
    omega
  | succ n ih =>
    intro d bd hd hdb h1 h2 h3 h4
    obtain ⟨c0, c2, _⟩ := cmp_abs_spec r bd hr h1 hrl h2
    unfold div_mod_adjust
    by_cases c : (!bd.isEmpty) = true ∧ cmp_abs_ r bd < 0
    · rw [if_pos c]
      have hbdn : bd ≠ [] := by
        intro hh
        rw [hh] at c
        exact absurd c.1 (by decide)
      have hbdpos := limbs_value_pos bd hbdn h2
      have hd0 : 0 < d := by
        rcases Nat.eq_zero_or_pos d with hz | hz
        · rw [hz, Nat.zero_mul] at h3
          omega
        · exact hz
      have hd1 : (d + 2 ^ 64 - 1) % 2 ^ 64 = d - 1 := by
        rw [hb0] at hdb
        omega
      simp only [hd1]
      have hlt : limbs_value r < limbs_value bd := by
        rcases c0 with t | t | t
        · exact c2.mp t
        · have := c.2
          omega
        · have := c.2
          omega
      obtain ⟨m1, m2, m3⟩ := mul_small_digit b hb hbl (d - 1) (by omega)
      have hq : limbs_value r / limbs_value b ≤ d - 1 := by
        rw [h3] at hlt
        have : limbs_value r / limbs_value b < d := (Nat.div_lt_iff_lt_mul hB).mpr hlt
        generalize limbs_value r / limbs_value b = q at this ⊢
        omega
      exact ih (d - 1) _ (by omega) (by omega) m1 m2 m3 hq
    · rw [if_neg c]
      refine ⟨?_, h3⟩
      show d = _
      by_cases hbdn : bd = []
      · rw [hbdn, limbs_value_nil] at h3
        have hd0 : d = 0 := by
          rcases Nat.eq_zero_or_pos d with hz | hz
          · exact hz
          · have := Nat.mul_pos hz hB
            omega
        generalize limbs_value r / limbs_value b = q at h4 ⊢
        omega
      · have hnl : ¬ limbs_value r < limbs_value bd := by
          intro hh
          have hc := c2.mpr hh
          apply c
          refine ⟨?_, by omega⟩
          rw [isEmpty_eq_false bd hbdn]
          rfl
        have : d ≤ limbs_value r / limbs_value b := by
          rw [Nat.le_div_iff_mul_le hB, ← h3]
          omega
        generalize limbs_value r / limbs_value b = q at this h4 ⊢
        omega

theorem ite_last (c : Prop) [Decidable c] (x y : List Nat) (hx : x.getLast? ≠ some 0)
    (hy : y.getLast? ≠ some 0) : (if c then x else y).getLast? ≠ some 0 := by
  split
  · exact hx
  · exact hy

/-- The remainder left by the main loop of `div_mod_abs_` has no zero top limb. -/
theorem long_div_loop_rem_last (b : List Nat) :
    ∀ (rest r : List Nat), r.getLast? ≠ some 0 →
    (div_mod_loop b rest r).2.getLast? ≠ some 0 := by
  intro rest
  induction rest with
  | nil =>
    intro r hr
    unfold div_mod_loop
    exact hr
  | cons ai rest ih =>
    intro r _
    unfold div_mod_loop
    simp only
    apply ih
    apply ite_last
    · unfold sub_abs_
      exact pop_back_zeros_last _
    · exact pop_back_zeros_last _

/-- Static member `div_mod_abs_`: the remainder limbs stand for the integer remainder. -/
theorem div_mod_abs_rem (a b : List Nat) (ha : ∀ l ∈ a, l < base) (hb : ∀ l ∈ b, l < base)
    (hb0 : limbs_value b ≠ 0) :
    (∀ l ∈ (div_mod_abs_ a b).2, l < base) ∧ (div_mod_abs_ a b).2.getLast? ≠ some 0 ∧
    limbs_value (div_mod_abs_ a b).2 = limbs_value a % limbs_value b := by
  have hbase : base = 1000000000 := rfl
  have hal : ∀ l ∈ pop_back_zeros a, l < base := fun l hl => ha l (pop_back_zeros_mem _ l hl)
  have hbl : ∀ l ∈ pop_back_zeros b, l < base := fun l hl => hb l (pop_back_zeros_mem _ l hl)
  have han := pop_back_zeros_last a
  have hbn := pop_back_zeros_last b
  have hav := pop_back_zeros_value a
  have hbv := pop_back_zeros_value b
  obtain ⟨res, hres⟩ : ∃ res, div_mod_abs_ a b = res := ⟨_, rfl⟩
  rw [hres]
  unfold div_mod_abs_ at hres
  simp only at hres
  rw [← hav, ← hbv]
  rw [← hbv] at hb0
  generalize pop_back_zeros a = a1 at hal han hav hres
  generalize pop_back_zeros b = b1 at hbl hbn hbv hres hb0
  have hbne : b1 ≠ [] := by
    intro hh
    rw [hh, limbs_value_nil] at hb0
    exact hb0 rfl
  have hB : 0 < limbs_value b1 := by omega
  rw [isEmpty_eq_false b1 hbne] at hres
  simp only [Bool.false_eq_true, if_false] at hres
  by_cases hae : a1 = []
  · rw [hae] at hres ⊢
    simp only [List.isEmpty_nil, if_true] at hres
    subst hres
    refine ⟨fun l hl => absurd hl (List.not_mem_nil l), by simp, ?_⟩
    simp [limbs_value]
  rw [isEmpty_eq_false a1 hae] at hres
  simp only [Bool.false_eq_true, if_false] at hres
  obtain ⟨c1, c2, _⟩ := cmp_abs_spec a1 b1 hal hbl han hbn
  by_cases hc : cmp_abs_ a1 b1 < 0
  · rw [if_pos hc] at hres
    subst hres
    refine ⟨hal, han, ?_⟩
    have hlt : limbs_value a1 < limbs_value b1 := by
      rcases c1 with t | t | t
      · exact c2.mp t
      · omega
      · omega
    rw [Nat.mod_eq_of_lt hlt]
  rw [if_neg hc] at hres
  obtain ⟨htop, hBge⟩ := limbs_value_top b1 hbne hbn
  have hBlt := limbs_value_lt b1 hbl
  have htoplt : b1.getLastD 0 < base := by
    have e : base ^ b1.length = base ^ (b1.length - 1) * base := by
      rw [← Nat.pow_succ]
      congr 1
      have := List.length_pos.mpr hbne
      omega
    rw [e] at hBlt
    exact Nat.lt_of_mul_lt_mul_left (lt_of_le_of_lt hBge hBlt)
  obtain ⟨f, hf, hf0, hf1⟩ : ∃ f, to_u32 (base / ((b1.getLastD 0 + 1) % 2 ^ 64)) = f ∧
      0 < f ∧ f < 2 ^ 32 := by
    refine ⟨_, rfl, ?_, ?_⟩
    · rw [hbase] at htoplt ⊢
      unfold to_u32
      have e : (b1.getLastD 0 + 1) % 2 ^ 64 = b1.getLastD 0 + 1 := by omega
      rw [e]
      have : 1 ≤ 1000000000 / (b1.getLastD 0 + 1) := by
        rw [Nat.le_div_iff_mul_le (by omega)]
        omega
      have h2 : 1000000000 / (b1.getLastD 0 + 1) ≤ 1000000000 := Nat.div_le_self _ _
      omega
    · unfold to_u32
      omega
  simp only [hf] at hres
  obtain ⟨a2, ha2, ha2l, ha2v⟩ : ∃ a2, (if f ≠ 1 then (mul_small_ a1 f).2 else a1) = a2 ∧
      (∀ l ∈ a2, l < base) ∧ limbs_value a2 = f * limbs_value a1 := by
    refine ⟨_, rfl, ?_⟩
    obtain ⟨_, m2, m3, _⟩ := mul_small_spec a1 f hf1 hal
    by_cases c : f ≠ 1
    · rw [if_pos c]
      exact ⟨m2, m3⟩
    · rw [if_neg c]
      have : f = 1 := by omega
      rw [this, Nat.one_mul]
      exact ⟨hal, rfl⟩
  obtain ⟨b2, hb2, hb2l, hb2n, hb2v⟩ : ∃ b2, (if f ≠ 1 then (mul_small_ b1 f).2 else b1) = b2 ∧
      (∀ l ∈ b2, l < base) ∧ b2.getLast? ≠ some 0 ∧ limbs_value b2 = f * limbs_value b1 := by
    refine ⟨_, rfl, ?_⟩
    obtain ⟨_, m2, m3, m4⟩ := mul_small_spec b1 f hf1 hbl
    by_cases c : f ≠ 1
    · rw [if_pos c]
      exact ⟨m2, m4 hf0 hbn, m3⟩
    · rw [if_neg c]
      have : f = 1 := by omega
      rw [this, Nat.one_mul]
      exact ⟨hbl, hbn, rfl⟩
  simp only [ha2, hb2] at hres
  have hB2 : 0 < limbs_value b2 := by
    rw [hb2v]
    exact Nat.mul_pos hf0 hB
  have hb2ne : b2 ≠ [] := by
    intro hh
    rw [hh, limbs_value_nil] at hB2
    omega
  obtain ⟨_, _, l3, _, l5⟩ := long_div_loop_spec b2 hb2l hb2n hb2ne a2.reverse []
    (fun l hl => ha2l l (List.mem_reverse.mp hl))
    (fun l hl => absurd hl (List.not_mem_nil l)) (by rw [limbs_value_nil]; exact hB2)
  have l6 := long_div_loop_rem_last b2 a2.reverse [] (by simp)
  rw [List.reverse_reverse, limbs_value_nil, Nat.mul_zero, Nat.add_zero, ha2v, hb2v,
    Nat.mul_mod_mul_left] at l5
  subst hres
  show (∀ l ∈ (if f ≠ 1 ∧ (!(div_mod_loop b2 a2.reverse []).2.isEmpty) = true
      then (div_small_ (div_mod_loop b2 a2.reverse []).2 f 0).2.1
      else (div_mod_loop b2 a2.reverse []).2), l < base) ∧
    (if f ≠ 1 ∧ (!(div_mod_loop b2 a2.reverse []).2.isEmpty) = true
      then (div_small_ (div_mod_loop b2 a2.reverse []).2 f 0).2.1
      else (div_mod_loop b2 a2.reverse []).2).getLast? ≠ some 0 ∧
    limbs_value (if f ≠ 1 ∧ (!(div_mod_loop b2 a2.reverse []).2.isEmpty) = true
      then (div_small_ (div_mod_loop b2 a2.reverse []).2 f 0).2.1
      else (div_mod_loop b2 a2.reverse []).2) = limbs_value a1 % limbs_value b1
  generalize (div_mod_loop b2 a2.reverse []).2 = R at l3 l5 l6 ⊢
  by_cases c : f ≠ 1 ∧ (!R.isEmpty) = true
  · rw [if_pos c]
    obtain ⟨_, d2, d3, d4, _⟩ := div_small_spec R f 0 hf0 hf1 l3
    refine ⟨d2, d3, ?_⟩
    rw [d4, l5, Nat.mul_div_cancel_left _ hf0]
  · rw [if_neg c]
    refine ⟨l3, l6, ?_⟩
    by_cases c1 : f = 1
    · rw [l5, c1, Nat.one_mul]
    · have hR : R = [] := by
        cases hh : R with
        | nil => rfl
        | cons x xs =>
          rw [hh] at c
          exact absurd ⟨c1, rfl⟩ c
      rw [hR, limbs_value_nil] at l5 ⊢
      rcases Nat.mul_eq_zero.mp l5.symm with h | h
      · omega
      · exact h.symm

end Numeric

/-! ## Lemmas: the invariant of `Numeric` is kept by the public interface -/

namespace Numeric

/-- An error value set by `set_error_` satisfies the invariant and has no limbs. -/
theorem set_error_closed (x : Numeric) (e : Err) :
    Inv (set_error_ x e) ∧ ((set_error_ x e).ok = false → (set_error_ x e).mag_ = []) := by
  refine ⟨⟨?_, ?_, fun _ => ⟨rfl, rfl⟩, ?_⟩, fun _ => rfl⟩
  · intro l hl
    exact absurd hl (List.not_mem_nil l)
  · show ([] : List Nat).getLast? ≠ some 0
    simp
  · exact check_limits_nil 0 false e (le_refl 0) (by decide)

theorem ok_of_err (x : Numeric) (h : x.err_ = Err.None) : x.ok = true := by
  unfold ok
  simp [h]

/-- The end of an operation, `if (!check_limits_()) set_error_(Overflow)`, on an object
whose limbs are trimmed and below `base`. -/
theorem tail_closed (out : Numeric) (h1 : ∀ l ∈ out.mag_, l < base)
    (h2 : out.mag_.getLast? ≠ some 0) (h3 : out.mag_ = [] → out.neg_ = false ∧ out.scale_ = 0)
    (h4 : out.err_ = Err.None) :
    Inv (if (!check_limits_ out) = true then set_error_ out Err.Overflow else out) ∧
    ((if (!check_limits_ out) = true then set_error_ out Err.Overflow else out).ok = false →
      (if (!check_limits_ out) = true then set_error_ out Err.Overflow else out).mag_ = []) := by
  cases hc : check_limits_ out
  · simp only [Bool.not_false, if_true]
    exact set_error_closed out Err.Overflow
  · simp only [Bool.not_true, Bool.false_eq_true, if_false]
    refine ⟨⟨h1, h2, h3, hc⟩, fun hf => ?_⟩
    rw [ok_of_err out h4] at hf
    exact absurd hf (by decide)

/-- Member `normalize_` trims the limbs and makes zero canonical. -/
theorem normalize_fields (x : Numeric) (h : ∀ l ∈ x.mag_, l < base) :
    (∀ l ∈ (normalize_ x).mag_, l < base) ∧ (normalize_ x).mag_.getLast? ≠ some 0 ∧
    ((normalize_ x).mag_ = [] → (normalize_ x).neg_ = false ∧ (normalize_ x).scale_ = 0) ∧
    (normalize_ x).err_ = x.err_ := by
  unfold normalize_
  by_cases c : (pop_back_zeros x.mag_).isEmpty = true
  · rw [if_pos c]
    exact ⟨fun l hl => h l (pop_back_zeros_mem _ l hl), pop_back_zeros_last _,
      fun _ => ⟨rfl, rfl⟩, rfl⟩
  · rw [if_neg c]
    refine ⟨fun l hl => h l (pop_back_zeros_mem _ l hl), pop_back_zeros_last _, ?_, rfl⟩
    intro hz
    exfalso
    apply c
    have e : pop_back_zeros x.mag_ = [] := hz
    rw [e]
    rfl

/-- The end of an operation that wrote through `hres`, when the result is an error. -/
theorem tail_shape (N res : Numeric)
    (hres : (if (!check_limits_ N) = true then set_error_ N Err.Overflow else N) = res)
    (hN : N.err_ = Err.None) (he : res.err_ = Err.Overflow) :
    Inv res ∧ (res.ok = false → res.mag_ = []) := by
  cases hc : check_limits_ N
  · simp only [hc, Bool.not_false, if_true] at hres
    rw [← hres]
    exact set_error_closed N Err.Overflow
  · simp only [hc, Bool.not_true, Bool.false_eq_true, if_false] at hres
    rw [← hres, hN] at he
    exact absurd he (by decide)

theorem init_from_int64_loop_limbs (fuel : Nat) :
    ∀ x, ∀ l ∈ init_from_int64_loop fuel x, l < base := by
  induction fuel with
  | zero =>
    intro x l hl
    unfold init_from_int64_loop at hl
    exact absurd hl (List.not_mem_nil l)
  | succ n ih =>
    intro x l hl
    unfold init_from_int64_loop at hl
    split at hl
    · rcases List.mem_cons.mp hl with h | h
      · rw [h]
        unfold to_u32
        have hb : base = 1000000000 := rfl
        have := Nat.mod_lt x base_pos
        rw [hb] at this ⊢
        omega
      · exact ih _ l h
    · exact absurd hl (List.not_mem_nil l)

/-- Member `init_from_int64` gives a value that satisfies the invariant. -/
theorem init_from_int64_closed (v : Int) :
    Inv (init_from_int64 v) ∧ ((init_from_int64 v).ok = false → (init_from_int64 v).mag_ = []) := by
  unfold init_from_int64
  simp only
  generalize to_u64 (if decide (v < 0) = true then -v else v) = x
  by_cases hx : x = 0
  · rw [if_pos hx]
    exact ⟨by decide, fun _ => rfl⟩
  · rw [if_neg hx]
    obtain ⟨n1, n2, n3, n4⟩ := normalize_fields
      ⟨init_from_int64_loop 8 x, 0, decide (v < 0), Err.None⟩ (init_from_int64_loop_limbs 8 _)
    exact tail_closed _ n1 n2 n3 n4

/-- The character loop of `init_parse` keeps the limbs below `base`. -/
theorem parse_loop_limbs (cs : List Char) : ∀ (st st2 : ParseState),
    (∀ l ∈ st.mag_, l < base) → parse_loop cs st = Except.ok st2 →
    ∀ l ∈ st2.mag_, l < base := by
  induction cs with
  | nil =>
    intro st st2 h he
    unfold parse_loop at he
    cases he
    exact h
  | cons c cs ih =>
    intro st st2 h he
    unfold parse_loop at he
    by_cases c1 : c = '.'
    · rw [if_pos c1] at he
      by_cases c2 : st.seen_dot = true
      · rw [if_pos c2] at he
        cases he
      · rw [if_neg c2] at he
        refine ih _ _ ?_ he
        exact h
    · rw [if_neg c1] at he
      by_cases c2 : c.toNat < '0'.toNat ∨ c.toNat > '9'.toNat
      · rw [if_pos c2] at he
        cases he
      · rw [if_neg c2] at he
        have h0 : '0'.toNat = 48 := rfl
        have h9 : '9'.toNat = 57 := rfl
        have hd : to_u32 (c.toNat - '0'.toNat) < 10 := by
          unfold to_u32
          rw [h0, h9] at c2
          rw [h0]
          omega
        obtain ⟨m1, _⟩ := mul10_add_spec st.mag_ _ h hd
        simp only at he
        by_cases c3 : st.seen_dot = true
        · rw [if_pos c3] at he
          by_cases c4 : st.scale_ + 1 > max_frac_digits
          · rw [if_pos c4] at he
            cases he
          · rw [if_neg c4] at he
            refine ih _ _ ?_ he
            exact m1
        · rw [if_neg c3] at he
          refine ih _ _ ?_ he
          exact m1

/-- The part of `init_parse` after the character loop gives a value that satisfies the
invariant. -/
theorem parse_finish_closed (neg : Bool) (st : ParseState) (h : ∀ l ∈ st.mag_, l < base) :
    Inv (parse_finish neg st) ∧
    ((parse_finish neg st).ok = false → (parse_finish neg st).mag_ = []) := by
  unfold parse_finish
  by_cases c : (!st.any) = true
  · rw [if_pos c]
    exact set_error_closed _ _
  · rw [if_neg c]
    obtain ⟨n1, n2, n3, n4⟩ := normalize_fields ⟨st.mag_, st.scale_, neg, Err.None⟩ h
    simp only
    generalize normalize_ ⟨st.mag_, st.scale_, neg, Err.None⟩ = N at n1 n2 n3 n4
    by_cases cz : is_zero_ N = true
    · rw [if_pos cz]
      exact tail_closed _ n1 n2 (fun _ => ⟨rfl, rfl⟩) n4
    · rw [if_neg cz]
      exact tail_closed _ n1 n2 n3 n4

/-- Member `init_parse` gives a value that satisfies the invariant, for every string. -/
theorem init_parse_closed (s : List Char) (rnd : Rounding) :
    Inv (init_parse s rnd) ∧ ((init_parse s rnd).ok = false → (init_parse s rnd).mag_ = []) := by
  unfold init_parse
  cases s with
  | nil => exact set_error_closed _ _
  | cons c rest =>
    simp only
    generalize (if c = '+' ∨ c = '-' then rest else c :: rest) = body
    cases body with
    | nil => exact set_error_closed _ _
    | cons d ds =>
      simp only
      cases hp : parse_loop (d :: ds) {} with
      | error e => exact set_error_closed _ _
      | ok st =>
        exact parse_finish_closed _ st (parse_loop_limbs _ _ _
          (fun l hl => absurd hl (List.not_mem_nil l)) hp)

end Numeric

namespace Numeric

theorem normalize_err (x : Numeric) : (normalize_ x).err_ = x.err_ := by
  unfold normalize_
  simp only
  split <;> rfl

/-- Static member `add` on ok values that satisfy the invariant gives a value that satisfies
it; an error result has no limbs. -/
theorem add_closed_ok (a b : Numeric) (hoa : a.ok = true) (hob : b.ok = true)
    (ha : Inv a) (hb : Inv b) :
    Inv (add a b) ∧ ((add a b).ok = false → (add a b).mag_ = []) := by
  obtain ⟨sa0, sa1⟩ := check_limits_scale a ha.2.2.2
  obtain ⟨sb0, sb1⟩ := check_limits_scale b hb.2.2.2
  obtain ⟨u1, u2, u3, _, _, u6, u7⟩ :=
    rescale_up_inv a ha (max a.scale_ b.scale_) (le_max_left _ _) (by omega)
  obtain ⟨v1, v2, v3, _, _, v6, v7⟩ :=
    rescale_up_inv b hb (max a.scale_ b.scale_) (le_max_right _ _) (by omega)
  rw [err_of_ok a hoa] at u3
  rw [err_of_ok b hob] at v3
  obtain ⟨res, hres⟩ : ∃ res, add a b = res := ⟨_, rfl⟩
  rw [hres]
  unfold add at hres
  simp only [hoa, hob, u1, v1, Bool.not_true, Bool.false_eq_true, if_false] at hres
  have haz : a.mag_ = [] → (rescale_up_ a (max a.scale_ b.scale_)).2.mag_ = [] := by
    intro h
    rw [u7 h]
    exact h
  have hbz : b.mag_ = [] → (rescale_up_ b (max a.scale_ b.scale_)).2.mag_ = [] := by
    intro h
    rw [v7 h]
    exact h
  have hanz : (rescale_up_ a (max a.scale_ b.scale_)).2.mag_ ≠ [] →
      (rescale_up_ a (max a.scale_ b.scale_)).2.scale_ = max a.scale_ b.scale_ := by
    intro h
    apply u6
    intro hz
    exact h (haz hz)
  have hbnz : (rescale_up_ b (max a.scale_ b.scale_)).2.mag_ ≠ [] →
      (rescale_up_ b (max a.scale_ b.scale_)).2.scale_ = max a.scale_ b.scale_ := by
    intro h
    apply v6
    intro hz
    exact h (hbz hz)
  generalize (rescale_up_ a (max a.scale_ b.scale_)).2 = X at *
  generalize (rescale_up_ b (max a.scale_ b.scale_)).2 = Y at *
  generalize max a.scale_ b.scale_ = r at *
  clear u6 u7 v6 v7 haz hbz u1 v1
  have zX := is_zero_iff_nil X u2
  have zY := is_zero_iff_nil Y v2
  by_cases cx : is_zero_ X = true
  · rw [if_pos cx] at hres
    rw [← hres]
    refine ⟨v2, fun hf => ?_⟩
    rw [ok_of_err Y v3] at hf
    exact absurd hf (by decide)
  rw [if_neg cx] at hres
  by_cases cy : is_zero_ Y = true
  · rw [if_pos cy] at hres
    rw [← hres]
    refine ⟨u2, fun hf => ?_⟩
    rw [ok_of_err X u3] at hf
    exact absurd hf (by decide)
  rw [if_neg cy] at hres
  have hxnz : X.mag_ ≠ [] := fun h => cx (zX.mpr h)
  have hynz : Y.mag_ ≠ [] := fun h => cy (zY.mpr h)
  obtain ⟨t1, t2⟩ := add_tail_spec X Y res r u2 v2 (hanz hxnz) (hbnz hynz) hxnz hynz hres
  by_cases hlt : Int.natAbs (signed_mag X + signed_mag Y) < 10 ^ (131072 + r.toNat)
  · obtain ⟨e1, e2, _⟩ := t1 hlt
    refine ⟨e2, fun hf => ?_⟩
    rw [ok_of_err res e1] at hf
    exact absurd hf (by decide)
  · have he := t2 (by omega)
    refine tail_shape _ res hres ?_ he
    rw [normalize_err]
    split_ifs <;> rfl

/-- Static member `add` keeps the invariant, error operands included. -/
theorem add_closed (a b : Numeric) (ha : Inv a ∧ (a.ok = false → a.mag_ = []))
    (hb : Inv b ∧ (b.ok = false → b.mag_ = [])) :
    Inv (add a b) ∧ ((add a b).ok = false → (add a b).mag_ = []) := by
  cases hoa : a.ok
  · have e : add a b = a := by
      unfold add
      simp only [hoa, Bool.not_false, if_true]
    rw [e]
    exact ha
  · cases hob : b.ok
    · have e : add a b = b := by
        unfold add
        simp only [hoa, hob, Bool.not_true, Bool.not_false, Bool.false_eq_true, if_false,
          if_true]
      rw [e]
      exact hb
    · exact add_closed_ok a b hoa hob ha.1 hb.1

/-- Static member `sub` keeps the invariant, error operands included. -/
theorem sub_closed (a b : Numeric) (ha : Inv a ∧ (a.ok = false → a.mag_ = []))
    (hb : Inv b ∧ (b.ok = false → b.mag_ = [])) :
    Inv (sub a b) ∧ ((sub a b).ok = false → (sub a b).mag_ = []) := by
  cases hoa : a.ok
  · have e : sub a b = a := by
      unfold sub
      simp only [hoa, Bool.not_false, if_true]
    rw [e]
    exact ha
  · cases hob : b.ok
    · have e : sub a b = b := by
        unfold sub
        simp only [hoa, hob, Bool.not_true, Bool.not_false, Bool.false_eq_true, if_false,
          if_true]
      rw [e]
      exact hb
    · obtain ⟨n1, n2, _, _⟩ := sub_operand b hob hb.1
      rw [sub_eq_add a b hoa hob]
      exact add_closed_ok a _ hoa n1 ha.1 n2

/-- Static member `mul` keeps the invariant, for every target scale. -/
theorem mul_closed (a b : Numeric) (t : Int) (rnd : Rounding)
    (ha : Inv a ∧ (a.ok = false → a.mag_ = []))
    (hb : Inv b ∧ (b.ok = false → b.mag_ = [])) :
    Inv (mul a b t rnd) ∧ ((mul a b t rnd).ok = false → (mul a b t rnd).mag_ = []) := by
  have hm : max_frac_digits = 16383 := rfl
  cases hoa : a.ok
  · have e : mul a b t rnd = a := by
      unfold mul
      simp only [hoa, Bool.not_false, if_true]
    rw [e]
    exact ha
  cases hob : b.ok
  · have e : mul a b t rnd = b := by
      unfold mul
      simp only [hoa, hob, Bool.not_true, Bool.not_false, Bool.false_eq_true, if_false,
        if_true]
    rw [e]
    exact hb
  by_cases hr : t < 0 ∨ t > max_frac_digits
  · have e : mul a b t rnd = set_error_ {} Err.Overflow := by
      unfold mul
      simp only [hoa, hob, Bool.not_true, Bool.false_eq_true, if_false, hr, if_true]
    rw [e]
    exact set_error_closed _ _
  by_cases hz : is_zero_ a = true ∨ is_zero_ b = true
  · have e : mul a b t rnd = ⟨[], 0, false, Err.None⟩ := by
      unfold mul
      simp only [hoa, hob, Bool.not_true, Bool.false_eq_true, if_false, hr, hz, if_true]
    rw [e]
    exact ⟨by decide, fun _ => rfl⟩
  obtain ⟨⟨a1, a2, _, a4⟩, _⟩ := ha
  obtain ⟨⟨b1, b2, _, b4⟩, _⟩ := hb
  obtain ⟨sa0, _⟩ := check_limits_scale a a4
  obtain ⟨sb0, _⟩ := check_limits_scale b b4
  obtain ⟨p1, p2, p3⟩ := mul_abs_spec a.mag_ b.mag_ a1 b1
  have hza : limbs_value a.mag_ ≠ 0 := fun h => hz (Or.inl ((is_zero_iff a).mpr h))
  have hzb : limbs_value b.mag_ ≠ 0 := fun h => hz (Or.inr ((is_zero_iff b).mpr h))
  have hne : mul_abs_ a.mag_ b.mag_ ≠ [] := by
    intro hh
    rw [hh, limbs_value_nil] at p3
    have := Nat.mul_pos (Nat.pos_of_ne_zero hza) (Nat.pos_of_ne_zero hzb)
    omega
  have en : normalize_
      ⟨mul_abs_ a.mag_ b.mag_, a.scale_ + b.scale_, xor a.neg_ b.neg_, Err.None⟩
      = ⟨mul_abs_ a.mag_ b.mag_, a.scale_ + b.scale_, xor a.neg_ b.neg_, Err.None⟩ := by
    unfold normalize_
    simp only [pop_back_zeros_id _ p2, isEmpty_eq_false _ hne, Bool.false_eq_true, if_false]
  obtain ⟨f1, f2, _, _, f5, _, f7⟩ := rescale_fields
    ⟨mul_abs_ a.mag_ b.mag_, a.scale_ + b.scale_, xor a.neg_ b.neg_, Err.None⟩ t rnd
    p1 p2 hne (by omega) (by omega)
  simp only at f5
  obtain ⟨res, hres⟩ : ∃ res, mul a b t rnd = res := ⟨_, rfl⟩
  rw [hres]
  unfold mul at hres
  simp only [hoa, hob, Bool.not_true, Bool.false_eq_true, if_false, hr, hz] at hres
  rw [en] at hres
  generalize rescale_ ⟨mul_abs_ a.mag_ b.mag_, a.scale_ + b.scale_, xor a.neg_ b.neg_, Err.None⟩
    t rnd = R at *
  cases g1 : R.1
  · simp only [g1, Bool.not_false, if_true] at hres
    rw [← hres]
    exact set_error_closed _ _
  · simp only [g1, Bool.not_true, Bool.false_eq_true, if_false] at hres
    rw [← hres]
    exact tail_closed R.2 f1 f2 f7 f5

/-- The end of `div` gives a value that satisfies the invariant. -/
theorem div_finish_closed (M : List Nat) (t : Int) (n : Bool) (hM : ∀ l ∈ M, l < base)
    (hMn : M.getLast? ≠ some 0) (res : Numeric)
    (hres : (if (!check_limits_ (if M.isEmpty = true then ⟨M, 0, false, Err.None⟩
          else ⟨M, t, n, Err.None⟩)) = true
        then set_error_ (if M.isEmpty = true then ⟨M, 0, false, Err.None⟩
          else ⟨M, t, n, Err.None⟩) Err.Overflow
        else (if M.isEmpty = true then ⟨M, 0, false, Err.None⟩
          else ⟨M, t, n, Err.None⟩)) = res) :
    Inv res ∧ (res.ok = false → res.mag_ = []) := by
  rw [← hres]
  by_cases hz : M = []
  · subst hz
    simp only [List.isEmpty_nil, if_true]
    exact tail_closed ⟨[], 0, false, Err.None⟩ hM hMn (fun _ => ⟨rfl, rfl⟩) rfl
  · rw [isEmpty_eq_false M hz]
    simp only [Bool.false_eq_true, if_false]
    exact tail_closed ⟨M, t, n, Err.None⟩ hM hMn (fun h => absurd h hz) rfl

/-- Static member `div` keeps the invariant, for every target scale. -/
theorem div_closed (a b : Numeric) (t : Int) (rnd : Rounding)
    (ha : Inv a ∧ (a.ok = false → a.mag_ = []))
    (hb : Inv b ∧ (b.ok = false → b.mag_ = [])) :
    Inv (div a b t rnd) ∧ ((div a b t rnd).ok = false → (div a b t rnd).mag_ = []) := by
  have hm : max_frac_digits = 16383 := rfl
  cases hoa : a.ok
  · have e : div a b t rnd = a := by
      unfold div
      simp only [hoa, Bool.not_false, if_true]
    rw [e]
    exact ha
  cases hob : b.ok
  · have e : div a b t rnd = b := by
      unfold div
      simp only [hoa, hob, Bool.not_true, Bool.not_false, Bool.false_eq_true, if_false,
        if_true]
    rw [e]
    exact hb
  by_cases hr : t < 0 ∨ t > max_frac_digits
  · have e : div a b t rnd = set_error_ {} Err.Overflow := by
      unfold div
      simp only [hoa, hob, Bool.not_true, Bool.false_eq_true, if_false, hr, if_true]
    rw [e]
    exact set_error_closed _ _
  by_cases hzb : is_zero_ b = true
  · have e : div a b t rnd = set_error_ {} Err.DivByZero := by
      unfold div
      simp only [hoa, hob, Bool.not_true, Bool.false_eq_true, if_false, hr, hzb, if_true]
    rw [e]
    exact set_error_closed _ _
  by_cases hza : is_zero_ a = true
  · have e : div a b t rnd = ⟨[], 0, false, Err.None⟩ := by
      unfold div
      simp only [hoa, hob, Bool.not_true, Bool.false_eq_true, if_false, hr, hzb, hza, if_true]
    rw [e]
    exact ⟨by decide, fun _ => rfl⟩
  have hna : a.mag_ ≠ [] := fun h => hza ((is_zero_iff_nil a ha.1).mpr h)
  have hnb : b.mag_ ≠ [] := fun h => hzb ((is_zero_iff_nil b hb.1).mpr h)
  cases rnd with
  | Trunc =>
    obtain ⟨M, m1, m2, _, m4⟩ :=
      div_trunc_spec a b hoa hob ha.1 hb.1 hna hnb t (by omega) (by omega)
    exact div_finish_closed M t _ m1 m2 _ m4
  | HalfUp =>
    obtain ⟨M, m1, m2, _, m4⟩ :=
      div_half_up_spec a b hoa hob ha.1 hb.1 hna hnb t (by omega) (by omega)
    exact div_finish_closed M t _ m1 m2 _ m4

/-- Member `rescale`, when it returns true, leaves a value that satisfies the invariant. -/
theorem rescale_closed (x : Numeric) (n : Int) (rnd : Rounding)
    (hx : Inv x ∧ (x.ok = false → x.mag_ = [])) (hf : (rescale x n rnd).1 = true) :
    Inv (rescale x n rnd).2 ∧
    ((rescale x n rnd).2.ok = false → (rescale x n rnd).2.mag_ = []) := by
  have hm : max_frac_digits = 16383 := rfl
  obtain ⟨s0, s1⟩ := check_limits_scale x hx.1.2.2.2
  cases hox : x.ok
  · unfold rescale at hf
    simp only [hox, Bool.not_false, if_true] at hf
    exact absurd hf (by decide)
  by_cases hr : n < 0 ∨ n > max_frac_digits
  · unfold rescale at hf
    simp only [hox, Bool.not_true, Bool.false_eq_true, if_false, hr, if_true] at hf
  have e : rescale x n rnd = rescale_ x n rnd := by
    unfold rescale
    simp only [hox, Bool.not_true, Bool.false_eq_true, if_false, hr]
  rw [e] at hf ⊢
  have herr := err_of_ok x hox
  by_cases c1 : n < x.scale_
  · obtain ⟨d1, d2, _, d4, _, d6, _, d8⟩ :=
      rescale_down_fields x n rnd hx.1.1 (by omega) (by omega) c1
    rw [d4] at hf
    refine ⟨⟨d1, d2, d8, hf⟩, fun h => ?_⟩
    rw [ok_of_err _ (by rw [d6]; exact herr)] at h
    exact absurd h (by decide)
  · have e2 : rescale_ x n rnd = if n = x.scale_ then (true, x) else rescale_up_ x n := by
      unfold rescale_
      rw [if_neg hr]
      by_cases c2 : n = x.scale_
      · rw [if_pos c2, if_pos c2]
      · rw [if_neg c2, if_neg c2, if_pos (by omega)]
    rw [e2]
    by_cases c2 : n = x.scale_
    · rw [if_pos c2]
      exact hx
    · rw [if_neg c2]
      obtain ⟨_, u2, u3, _⟩ := rescale_up_inv x hx.1 n (by omega) (by omega)
      refine ⟨u2, fun h => ?_⟩
      rw [ok_of_err _ (by rw [u3]; exact herr)] at h
      exact absurd h (by decide)

/-- Every value that the public interface produces satisfies the invariant, and an error
value has no limbs. -/
theorem obtainable_inv (x : Numeric) (h : Obtainable x) :
    Inv x ∧ (x.ok = false → x.mag_ = []) := by
  induction h with
  | default => exact ⟨by decide, fun _ => rfl⟩
  | of_int64 v _ _ => exact init_from_int64_closed v
  | of_string s rnd => exact init_parse_closed s rnd
  | add x y _ _ ihx ihy => exact add_closed x y ihx ihy
  | sub x y _ _ ihx ihy => exact sub_closed x y ihx ihy
  | mul x y t rnd _ _ ihx ihy => exact mul_closed x y t rnd ihx ihy
  | div x y t rnd _ _ ihx ihy => exact div_closed x y t rnd ihx ihy
  | rescale x n rnd _ hf ih => exact rescale_closed x n rnd ih hf

end Numeric

/-- Where the unchecked 128-bit accumulators of `Numeric128::init_parse` do not wrap, that
is for a well-formed literal whose integer part `n` has `(n + 1) * 10^S <= 2^127`: if
`n >= 10^(P-S)` the result is `Overflow` when there are at most 38 fractional digits (or
`S = 0` and the rounding is `Trunc`), and `Invalid` when there are more than 64 (and fewer
than `2^32`) fractional digits (and `S > 0` or the rounding is `HalfUp`); and for `S = 0` an
unsigned digit string of value `n < 10^P` is accepted with raw `n`. -/
theorem parse128_overflow_without_wrap (P S : Nat) (rnd : Rounding) (sgn ip : List Char)
    (frac : Option (List Char)) (hP : 1 ≤ P ∧ P ≤ 38 ∧ S ≤ P)
    (hwf : well_formed_literal sgn ip frac)
    (hfit : (digits_value ip + 1) * 10 ^ S ≤ 2 ^ 127) :
    (10 ^ (P - S) ≤ digits_value ip →
      ((frac_digits frac ≤ 38 ∨ (S = 0 ∧ rnd = Rounding.Trunc)) →
        (Numeric128.init_parse P S (decimal_literal sgn ip frac) rnd).err_ = Err.Overflow) ∧
      (64 < frac_digits frac → frac_digits frac < 2 ^ 32 →
        (S ≠ 0 ∨ rnd = Rounding.HalfUp) →
        (Numeric128.init_parse P S (decimal_literal sgn ip frac) rnd).err_ = Err.Invalid)) ∧
    (S = 0 → sgn = [] → frac = none → ip ≠ [] → digits_value ip < 10 ^ P →
      (Numeric128.init_parse P S (decimal_literal sgn ip frac) rnd).err_ = Err.None ∧
      (Numeric128.init_parse P S (decimal_literal sgn ip frac) rnd).raw_.to_wide
        = digits_value ip) := by
  obtain ⟨h1, h38, hS⟩ := hP
  obtain ⟨hsgn, hip, hfrac⟩ := hwf
  have hT : 0 < 10 ^ S := Nat.pos_pow_of_pos S (by decide)
  have hn128 : digits_value ip < 2 ^ 128 := by
    have : digits_value ip + 1 ≤ (digits_value ip + 1) * 10 ^ S :=
      Nat.le_mul_of_pos_right _ hT
    omega
  obtain ⟨st, hloop, hint, _, _, hlen, hfr⟩ := Numeric128.parse_loop_literal ip frac hip hfrac
  rw [Nat.mod_eq_of_lt hn128] at hint
  constructor
  · intro hn
    have hne : ip ≠ [] := by
      intro h
      rw [h] at hn
      have : 0 < 10 ^ (P - S) := Nat.pos_pow_of_pos _ (by decide)
      have h0 : digits_value [] = 0 := rfl
      omega
    have hlow : 10 ^ P ≤ digits_value ip * 10 ^ S := by
      have : 10 ^ P = 10 ^ (P - S) * 10 ^ S := by
        rw [← pow_add, Nat.sub_add_cancel hS]
      rw [this]
      exact Nat.mul_le_mul_right _ hn
    rw [Numeric128.init_parse_literal P S rnd sgn ip frac hsgn hip hne, hloop]
    simp only
    constructor
    · intro hmode
      rw [Numeric128.parse_finish_overflow P S rnd _ st _ h1 h38 hS hint hlow hfit (by
        cases hmode with
        | inl h => exact Or.inl ⟨by omega, hfr h⟩
        | inr h => exact Or.inr h)]
      rfl
    · intro h64 h32 hmode
      rw [Numeric128.parse_finish_invalid P S rnd _ st (by omega) (by omega) hmode]
      rfl
  · intro hS0 hs hf hne hlt
    subst hS0 hs hf
    rw [Numeric128.init_parse_literal P 0 rnd [] ip none hsgn hip hne, hloop]
    simp only
    have hraw := Numeric128.mul_pow10_to_wide st.int_part 0 (by omega) (by rw [hint]; omega)
    rw [hint, pow_zero, Nat.mul_one] at hraw
    have hfl : st.frac_len = 0 := hlen
    have hfin : Numeric128.parse_finish P 0 (decide (([] : List Char) = ['-'])) rnd st
        = Numeric128.parse_round P false (uint128.mul st.int_part (detail.pow10_u 0)) false := by
      unfold Numeric128.parse_finish
      simp [hfl]
    rw [hfin]
    have hfits := Numeric128.parse_round_fits P h1 h38 false _ hraw.2 false (by
      rw [hraw.1]
      simpa using hlt)
    rw [hraw.1] at hfits
    simpa using hfits

/-! ## The claims -/

/-- C1 (fails on the code): `Numeric128<38,0>::mul` on the ok value 16000000000000000000
and itself passes `safe_mul_128` (bit indices 63 + 63 < 127), the 128-bit product wraps, and
the result is an ok value with raw -84282366920938463463374607431768211456, while the exact
product is 256000000000000000000000000000000000000. -/
theorem C1_mul128_wraps_to_ok :
    Numeric128.Inv 38 (Numeric128.init_parse 38 0 "16000000000000000000".toList Rounding.Trunc) ∧
    (Numeric128.init_parse 38 0 "16000000000000000000".toList Rounding.Trunc).ok = true ∧
    (Numeric128.init_parse 38 0 "16000000000000000000".toList Rounding.Trunc).raw_.to_wide
      = 16000000000000000000 ∧
    (Numeric128.mul 38 0
      (Numeric128.init_parse 38 0 "16000000000000000000".toList Rounding.Trunc)
      (Numeric128.init_parse 38 0 "16000000000000000000".toList Rounding.Trunc)
      Rounding.Trunc).err_ = Err.None ∧
    (Numeric128.mul 38 0
      (Numeric128.init_parse 38 0 "16000000000000000000".toList Rounding.Trunc)
      (Numeric128.init_parse 38 0 "16000000000000000000".toList Rounding.Trunc)
      Rounding.Trunc).raw_.to_wide = -84282366920938463463374607431768211456 ∧
    spec_round_div (16000000000000000000 * 16000000000000000000) (10 ^ 0) Rounding.Trunc
      = 256000000000000000000000000000000000000 := by
  decide!

/-- C2 (fails on the code): in `Numeric128<38,37>`, dividing the ok value with raw 20 by the
ok value 1 (raw `10^37`) passes `safe_mul_128` (bit indices 4 + 122 < 127), the product
`20 * 10^37` wraps, and the result is an ok value with raw -14, while the exact quotient
`20 * 10^37 / 10^37` is 20. -/
theorem C2_div128_wraps_to_ok :
    Numeric128.Inv 38 (Numeric128.init_from_raw 38 (int128.of_int64 20)) ∧
    (Numeric128.init_from_raw 38 (int128.of_int64 20)).ok = true ∧
    (Numeric128.init_from_raw 38 (int128.of_int64 20)).raw_.to_wide = 20 ∧
    Numeric128.Inv 38 (Numeric128.init_from_int64 38 37 1) ∧
    (Numeric128.init_from_int64 38 37 1).ok = true ∧
    (Numeric128.init_from_int64 38 37 1).raw_.to_wide = 10 ^ 37 ∧
    (Numeric128.div 38 37 (Numeric128.init_from_raw 38 (int128.of_int64 20))
      (Numeric128.init_from_int64 38 37 1) Rounding.HalfUp).err_ = Err.None ∧
    (Numeric128.div 38 37 (Numeric128.init_from_raw 38 (int128.of_int64 20))
      (Numeric128.init_from_int64 38 37 1) Rounding.HalfUp).raw_.to_wide = -14 ∧
    spec_round_div (20 * 10 ^ 37) (10 ^ 37) Rounding.HalfUp = 20 := by
  decide!

/-- C3 (fails on the code): in `Numeric256<76,0>`, multiplying the ok value
332000000000000000000000000000000000000 by itself passes `safe_mul_i256` (bit indices
127 + 127 < 255); the exact product 110224 * 10^72 is at least `10^76`, yet the result is an
ok value, with a negative raw. -/
theorem C3_mul256_sign_bit_to_ok :
    Numeric256.Inv 76
      (Numeric256.init_parse 76 0 "332000000000000000000000000000000000000".toList
        Rounding.Trunc) ∧
    (Numeric256.init_parse 76 0 "332000000000000000000000000000000000000".toList
      Rounding.Trunc).ok = true ∧
    (Numeric256.init_parse 76 0 "332000000000000000000000000000000000000".toList
      Rounding.Trunc).raw_.toInt = 332 * 10 ^ 36 ∧
    (10 : Int) ^ 76 ≤ |spec_round_div (332 * 10 ^ 36 * (332 * 10 ^ 36)) (10 ^ 0) Rounding.Trunc| ∧
    (Numeric256.mul 76 0
      (Numeric256.init_parse 76 0 "332000000000000000000000000000000000000".toList
        Rounding.Trunc)
      (Numeric256.init_parse 76 0 "332000000000000000000000000000000000000".toList
        Rounding.Trunc)
      Rounding.Trunc).err_ = Err.None ∧
    (Numeric256.mul 76 0
      (Numeric256.init_parse 76 0 "332000000000000000000000000000000000000".toList
        Rounding.Trunc)
      (Numeric256.init_parse 76 0 "332000000000000000000000000000000000000".toList
        Rounding.Trunc)
      Rounding.Trunc).raw_.toInt = 110224 * 10 ^ 72 - 2 ^ 256 := by
  decide!

/-- C4 (fails on the code): in `Numeric256<76,38>`, dividing 12 (raw `12 * 10^38`) by 1 (raw
`10^38`) passes `safe_mul_256` (bit indices 129 + 126 < 256), the 256-bit product
`12 * 10^38 * 10^38` wraps, and the result is an ok value with raw
42079107626838045764290149913120921467, while the exact quotient is `12 * 10^38`. -/
theorem C4_div256_wraps_to_ok :
    Numeric256.Inv 76 (Numeric256.init_from_int64 76 38 12) ∧
    (Numeric256.init_from_int64 76 38 12).ok = true ∧
    (Numeric256.init_from_int64 76 38 12).raw_.toInt = 12 * 10 ^ 38 ∧
    Numeric256.Inv 76 (Numeric256.init_from_int64 76 38 1) ∧
    (Numeric256.init_from_int64 76 38 1).ok = true ∧
    (Numeric256.init_from_int64 76 38 1).raw_.toInt = 10 ^ 38 ∧
    (Numeric256.div 76 38 (Numeric256.init_from_int64 76 38 12)
      (Numeric256.init_from_int64 76 38 1) Rounding.Trunc).err_ = Err.None ∧
    (Numeric256.div 76 38 (Numeric256.init_from_int64 76 38 12)
      (Numeric256.init_from_int64 76 38 1) Rounding.Trunc).raw_.toInt
      = 42079107626838045764290149913120921467 ∧
    spec_round_div (12 * 10 ^ 38 * 10 ^ 38) (10 ^ 38) Rounding.Trunc = 12 * 10 ^ 38 := by
  decide!

/-- C5: for ok values `a`, `b` of `Numeric128<P,S>` and ok values `c`, `d` of
`Numeric256<Q,S>` that satisfy the representation invariant, `add` and `sub` are ok with raw
equal to the exact sum (difference) when its magnitude is below `10^P` (`10^Q`), and have
error `Overflow` otherwise. -/
theorem C5_add_sub_exact_or_overflow (P Q : Nat) (a b : Numeric128) (c d : Numeric256)
    (hP : 1 ≤ P ∧ P ≤ 38) (hQ : 1 ≤ Q ∧ Q ≤ 76)
    (ha : Numeric128.Inv P a) (hb : Numeric128.Inv P b)
    (hao : a.ok = true) (hbo : b.ok = true)
    (hc : Numeric256.Inv Q c) (hd : Numeric256.Inv Q d)
    (hco : c.ok = true) (hdo : d.ok = true) :
    ((|a.raw_.to_wide + b.raw_.to_wide| < 10 ^ P →
        (Numeric128.add P a b).err_ = Err.None ∧
        (Numeric128.add P a b).raw_.to_wide = a.raw_.to_wide + b.raw_.to_wide) ∧
      (10 ^ P ≤ |a.raw_.to_wide + b.raw_.to_wide| →
        (Numeric128.add P a b).err_ = Err.Overflow)) ∧
    ((|a.raw_.to_wide - b.raw_.to_wide| < 10 ^ P →
        (Numeric128.sub P a b).err_ = Err.None ∧
        (Numeric128.sub P a b).raw_.to_wide = a.raw_.to_wide - b.raw_.to_wide) ∧
      (10 ^ P ≤ |a.raw_.to_wide - b.raw_.to_wide| →
        (Numeric128.sub P a b).err_ = Err.Overflow)) ∧
    ((|c.raw_.toInt + d.raw_.toInt| < 10 ^ Q →
        (Numeric256.add Q c d).err_ = Err.None ∧
        (Numeric256.add Q c d).raw_.toInt = c.raw_.toInt + d.raw_.toInt) ∧
      (10 ^ Q ≤ |c.raw_.toInt + d.raw_.toInt| →
        (Numeric256.add Q c d).err_ = Err.Overflow)) ∧
    ((|c.raw_.toInt - d.raw_.toInt| < 10 ^ Q →
        (Numeric256.sub Q c d).err_ = Err.None ∧
        (Numeric256.sub Q c d).raw_.toInt = c.raw_.toInt - d.raw_.toInt) ∧
      (10 ^ Q ≤ |c.raw_.toInt - d.raw_.toInt| →
        (Numeric256.sub Q c d).err_ = Err.Overflow)) := by
  have h128a := Numeric128.add_spec128 P hP.1 hP.2 a b ha hb hao hbo
  have h128s := Numeric128.sub_spec128 P hP.1 hP.2 a b ha hb hao hbo
  have hC := hc.2
  have hD := hd.2
  rw [hco] at hC
  rw [hdo] at hD
  simp only [if_true] at hC hD
  have h256a := Numeric256.add_core Q hQ.1 hQ.2 c d hco hdo hc.1 hd.1 hC hD
  have h256s := Numeric256.sub_core Q hQ.1 hQ.2 c d hco hdo hc.1 hd.1 hC hD
  refine ⟨⟨?_, ?_⟩, ⟨?_, ?_⟩, ⟨h256a.1, ?_⟩, ⟨h256s.1, ?_⟩⟩
  · intro h
    obtain ⟨h1, h2⟩ := h128a.1 h
    rw [h1]
    exact ⟨rfl, h2⟩
  · intro h
    rw [h128a.2 h]
    rfl
  · intro h
    obtain ⟨h1, h2⟩ := h128s.1 h
    rw [h1]
    exact ⟨rfl, h2⟩
  · intro h
    rw [h128s.2 h]
    rfl
  · intro h
    rw [h256a.2 h]
    rfl
  · intro h
    rw [h256s.2 h]
    rfl

/-- C5 at `Numeric128<4,2>` with 99.00 and 12.34 and at `Numeric256<40,2>` with -99 and 12:
the hypotheses hold and the four conclusions follow. -/
theorem C5_add_sub_exact_or_overflow_witness :
    ((1 ≤ 4 ∧ 4 ≤ 38) ∧ (1 ≤ 40 ∧ 40 ≤ 76) ∧
      Numeric128.Inv 4 (Numeric128.init_from_int64 4 2 99) ∧
      Numeric128.Inv 4 (Numeric128.init_parse 4 2 "12.34".toList Rounding.Trunc) ∧
      (Numeric128.init_from_int64 4 2 99).ok = true ∧
      (Numeric128.init_parse 4 2 "12.34".toList Rounding.Trunc).ok = true ∧
      Numeric256.Inv 40 (Numeric256.init_from_int64 40 2 (-99)) ∧
      Numeric256.Inv 40 (Numeric256.init_from_int64 40 2 12) ∧
      (Numeric256.init_from_int64 40 2 (-99)).ok = true ∧
      (Numeric256.init_from_int64 40 2 12).ok = true) ∧
    (Numeric128.add 4 (Numeric128.init_from_int64 4 2 99)
      (Numeric128.init_parse 4 2 "12.34".toList Rounding.Trunc)).err_ = Err.Overflow ∧
    (Numeric128.sub 4 (Numeric128.init_from_int64 4 2 99)
      (Numeric128.init_parse 4 2 "12.34".toList Rounding.Trunc)).raw_.to_wide = 8666 ∧
    (Numeric256.add 40 (Numeric256.init_from_int64 40 2 (-99))
      (Numeric256.init_from_int64 40 2 12)).raw_.toInt = -8700 ∧
    (Numeric256.sub 40 (Numeric256.init_from_int64 40 2 (-99))
      (Numeric256.init_from_int64 40 2 12)).raw_.toInt = -11100 := by
  have hyp : (1 ≤ 4 ∧ 4 ≤ 38) ∧ (1 ≤ 40 ∧ 40 ≤ 76) ∧
      Numeric128.Inv 4 (Numeric128.init_from_int64 4 2 99) ∧
      Numeric128.Inv 4 (Numeric128.init_parse 4 2 "12.34".toList Rounding.Trunc) ∧
      (Numeric128.init_from_int64 4 2 99).ok = true ∧
      (Numeric128.init_parse 4 2 "12.34".toList Rounding.Trunc).ok = true ∧
      Numeric256.Inv 40 (Numeric256.init_from_int64 40 2 (-99)) ∧
      Numeric256.Inv 40 (Numeric256.init_from_int64 40 2 12) ∧
      (Numeric256.init_from_int64 40 2 (-99)).ok = true ∧
      (Numeric256.init_from_int64 40 2 12).ok = true := by
    decide!
  obtain ⟨hP, hQ, ha, hb, hao, hbo, hc, hd, hco, hdo⟩ := hyp
  have h := C5_add_sub_exact_or_overflow 4 40 _ _ _ _ hP hQ ha hb hao hbo hc hd hco hdo
  have ea : (Numeric128.init_from_int64 4 2 99).raw_.to_wide = 9900 := by decide!
  have eb : (Numeric128.init_parse 4 2 "12.34".toList Rounding.Trunc).raw_.to_wide = 1234 := by
    decide!
  have ec : (Numeric256.init_from_int64 40 2 (-99)).raw_.toInt = -9900 := by decide!
  have ed : (Numeric256.init_from_int64 40 2 12).raw_.toInt = 1200 := by decide!
  rw [ea, eb, ec, ed] at h
  obtain ⟨⟨_, h1⟩, ⟨h2, _⟩, ⟨h3, _⟩, ⟨h4, _⟩⟩ := h
  refine ⟨⟨hP, hQ, ha, hb, hao, hbo, hc, hd, hco, hdo⟩, h1 (by decide), ?_, ?_, ?_⟩
  · exact (h2 (by decide)).2
  · exact (h3 (by decide)).2
  · exact (h4 (by decide)).2

/-- C6 (fails on the code): `Numeric128<38,38>(4)` multiplies `4 * 10^38` in 128 bits
without any check; the wrapped product 59717633079061536536625392568231788544 is below
`10^38`, so the value is ok although `4 * 10^38 >= 10^38`. -/
theorem C6_int64_ctor128_wraps_to_ok :
    ¬ ((4 : Int) * 10 ^ 38 < 10 ^ 38) ∧
    (Numeric128.init_from_int64 38 38 4).err_ = Err.None ∧
    (Numeric128.init_from_int64 38 38 4).raw_.to_wide
      = 59717633079061536536625392568231788544 ∧
    (4 : Int) * 10 ^ 38 - 2 ^ 128 = 59717633079061536536625392568231788544 := by
  decide!

/-- C7 (fails on the code): `Numeric256<76,76>(12)` passes `safe_mul_256` (bit indices
3 + 252 < 256), the 256-bit product `12 * 10^76` wraps, and the value is ok with raw
`12 * 10^76 - 2^256` although `12 * 10^76 >= 10^76`. -/
theorem C7_int64_ctor256_wraps_to_ok :
    ¬ ((12 : Int) * 10 ^ 76 < 10 ^ 76) ∧
    (Numeric256.init_from_int64 76 76 12).err_ = Err.None ∧
    (Numeric256.init_from_int64 76 76 12).raw_.toInt = 12 * 10 ^ 76 - 2 ^ 256 ∧
    |(12 : Int) * 10 ^ 76 - 2 ^ 256| < 10 ^ 76 := by
  decide!

/-- C8 (fails on the code): `Numeric128::init_parse` accumulates the integer part in an
unsigned 128-bit word and scales it by `10^S` with no overflow check.  In `Numeric128<6,0>`
the numeral of `2^128` is a well-formed literal whose integer part is at least `10^6`; the
accumulator wraps to 0 and the value is ok with raw 0.  In `Numeric128<38,38>` the literal
`4` has an integer part of at least `10^0`; the scaled magnitude `4 * 10^38` wraps and the
value is ok with raw `4 * 10^38 - 2^128`. -/
theorem C8_parse128_integer_part_wraps_to_ok :
    (well_formed_literal [] "340282366920938463463374607431768211456".toList none ∧
      decimal_literal [] "340282366920938463463374607431768211456".toList none
        = "340282366920938463463374607431768211456".toList ∧
      digits_value "340282366920938463463374607431768211456".toList = 2 ^ 128 ∧
      10 ^ (6 - 0) ≤ digits_value "340282366920938463463374607431768211456".toList) ∧
    (Numeric128.init_parse 6 0 "340282366920938463463374607431768211456".toList
      Rounding.HalfUp).err_ = Err.None ∧
    (Numeric128.init_parse 6 0 "340282366920938463463374607431768211456".toList
      Rounding.HalfUp).raw_.to_wide = 0 ∧
    (well_formed_literal [] "4".toList none ∧
      decimal_literal [] "4".toList none = "4".toList ∧
      10 ^ (38 - 38) ≤ digits_value "4".toList) ∧
    (Numeric128.init_parse 38 38 "4".toList Rounding.HalfUp).err_ = Err.None ∧
    (Numeric128.init_parse 38 38 "4".toList Rounding.HalfUp).raw_.to_wide
      = 4 * 10 ^ 38 - 2 ^ 128 ∧
    ¬ ((4 : Int) * 10 ^ 38 - 2 ^ 128 = 4 * 10 ^ 38) := by
  decide!

/-- C9 (fails on the code):
`Numeric256<76,38>("1200000000000000000000000000000000000000")`: the integer part is
`12 * 10^38 >= 10^(76-38)`, the scaling by `10^38` passes `safe_mul_256` (bit indices
129 + 126 < 256) and wraps, and the value is ok with raw `12 * 10^76 - 2^256`. -/
theorem C9_parse256_scaling_wraps_to_ok :
    digits_value "1200000000000000000000000000000000000000".toList = 12 * 10 ^ 38 ∧
    10 ^ (76 - 38) ≤ digits_value "1200000000000000000000000000000000000000".toList ∧
    (Numeric256.init_parse 76 38 "1200000000000000000000000000000000000000".toList
      Rounding.HalfUp).err_ = Err.None ∧
    (Numeric256.init_parse 76 38 "1200000000000000000000000000000000000000".toList
      Rounding.HalfUp).raw_.toInt = 12 * 10 ^ 76 - 2 ^ 256 := by
  decide!

/-- C10 (fails on the code): `Numeric128<10,2>("0.5000000000000000000000000000000000000000",
Trunc)` has 40 fractional digits (at most 64) and integer part 0; the exact raw is
`floor (0.5 * 10^2) = 50`, but the fractional digits are accumulated in 128 bits, `5 * 10^39`
wraps, and the value is ok with raw 2. -/
theorem C10_parse128_fraction_wraps :
    "5000000000000000000000000000000000000000".toList.length = 40 ∧
    spec_parse_mag 2 "0".toList "5000000000000000000000000000000000000000".toList
      Rounding.Trunc = 50 ∧
    (Numeric128.init_parse 10 2 "0.5000000000000000000000000000000000000000".toList
      Rounding.Trunc).err_ = Err.None ∧
    (Numeric128.init_parse 10 2 "0.5000000000000000000000000000000000000000".toList
      Rounding.Trunc).raw_.to_wide = 2 := by
  decide!

/-- C11 (fails on the code): the string `0.50` followed by `2^32 - 2` zeros is a
well-formed decimal string with `2^32` fractional digits that denotes `1/2`.  At scale
`S = 1` its raw value is `floor (1/2 * 10) = 5` for `Trunc` and for `HalfUp`, but
`Numeric256<10,1>` built from it is ok with raw value `0` in both modes: the count of
fractional digits is kept in a 32-bit counter, which is back at `0` after `2^32` digits,
so the string is read as having no fraction. -/
theorem C11_parse256_digit_count_wraps :
    well_formed_literal [] ['0'] (some ('5' :: '0' :: List.replicate (2 ^ 32 - 2) '0')) ∧
    (∀ rnd, spec_parse_mag 1 ['0'] ('5' :: '0' :: List.replicate (2 ^ 32 - 2) '0') rnd = 5) ∧
    (∀ rnd, Numeric256.init_parse 10 1
        (decimal_literal [] ['0'] (some ('5' :: '0' :: List.replicate (2 ^ 32 - 2) '0'))) rnd
      = ⟨⟨⟨0, 0⟩, ⟨0, 0⟩⟩, Err.None⟩) := by
  refine ⟨half_literal_wf _, half_literal_mag _, ?_⟩
  intro rnd
  have hfin : Numeric256.parse_finish 10 1 false rnd
      { int_part := uint256.of_u64 0, frac_keep := uint256.of_u64 50, frac_keep_len := 2,
        frac_len_total := 0, seen_dot := true, any := true }
      = ⟨⟨⟨0, 0⟩, ⟨0, 0⟩⟩, Err.None⟩ := by
    cases rnd <;> decide!
  rw [← hfin]
  exact Numeric256.init_parse_wrapped_count 10 rnd (2 ^ 32 - 2) (by norm_num)

/-- C12: the order given by `operator<=>` is not the order of the raw values.  In
`Numeric128<10,2>` the values `-1` and `0` are ok and have raw values `-100 < 0`, yet
`-1 < 0` is false, because the defaulted comparison of `int128` compares the words as
unsigned numbers; in `Numeric256<10,2>` the values `-2` and `-1` are ok and have raw values
`-200 < -100`, yet `-2 < -1` is false, because `int256` reverses the order of two negative
values. -/
theorem C12_comparison_is_not_signed_order :
    (Numeric128.init_from_int64 10 2 (-1)).ok = true ∧
    (Numeric128.init_from_int64 10 2 0).ok = true ∧
    (Numeric128.init_from_int64 10 2 (-1)).raw_.to_wide = -100 ∧
    (Numeric128.init_from_int64 10 2 0).raw_.to_wide = 0 ∧
    Numeric128.lt (Numeric128.init_from_int64 10 2 (-1)) (Numeric128.init_from_int64 10 2 0)
      = false ∧
    (Numeric256.init_from_int64 10 2 (-2)).ok = true ∧
    (Numeric256.init_from_int64 10 2 (-1)).ok = true ∧
    (Numeric256.init_from_int64 10 2 (-2)).raw_.toInt = -200 ∧
    (Numeric256.init_from_int64 10 2 (-1)).raw_.toInt = -100 ∧
    Numeric256.lt (Numeric256.init_from_int64 10 2 (-2)) (Numeric256.init_from_int64 10 2 (-1))
      = false := by
  decide!

/-- C13: sticky errors.  For `Numeric128`, `Numeric256` and `Numeric`, when an operand of
`add`, `sub`, `mul` or `div` is in an error state, the result is in an error state and its
error code is that of the left operand if the left operand is in an error state, and that of
the right operand otherwise. -/
theorem C13_sticky_errors (P S : Nat) (t : Int) (rnd : Rounding)
    (a b : Numeric128) (c d : Numeric256) (x y : Numeric) :
    ((a.ok = false ∨ b.ok = false) →
      ∀ r ∈ [Numeric128.add P a b, Numeric128.sub P a b, Numeric128.mul P S a b rnd,
             Numeric128.div P S a b rnd],
        r.ok = false ∧ r.err_ = (if a.ok then b.err_ else a.err_)) ∧
    ((c.ok = false ∨ d.ok = false) →
      ∀ r ∈ [Numeric256.add P c d, Numeric256.sub P c d, Numeric256.mul P S c d rnd,
             Numeric256.div P S c d rnd],
        r.ok = false ∧ r.err_ = (if c.ok then d.err_ else c.err_)) ∧
    ((x.ok = false ∨ y.ok = false) →
      ∀ r ∈ [Numeric.add x y, Numeric.sub x y, Numeric.mul x y t rnd, Numeric.div x y t rnd],
        r.ok = false ∧ r.err_ = (if x.ok then y.err_ else x.err_)) := by
  refine ⟨?_, ?_, ?_⟩
  · intro h r hr
    have hres : r = if a.ok then b else a := by
      simp only [List.mem_cons, List.mem_singleton, List.not_mem_nil, or_false] at hr
      cases ha : a.ok <;> cases hb : b.ok <;> simp only [ha, hb] at h
      all_goals
        rcases hr with hr | hr | hr | hr <;> rw [hr] <;>
          simp [Numeric128.add, Numeric128.sub, Numeric128.mul, Numeric128.div, ha, hb]
      all_goals simp at h
    rw [hres]
    cases ha : a.ok <;> simp only [ha] at h ⊢ <;> simp_all
  · intro h r hr
    have hres : r = if c.ok then d else c := by
      simp only [List.mem_cons, List.mem_singleton, List.not_mem_nil, or_false] at hr
      cases ha : c.ok <;> cases hb : d.ok <;> simp only [ha, hb] at h
      all_goals
        rcases hr with hr | hr | hr | hr <;> rw [hr] <;>
          simp [Numeric256.add, Numeric256.sub, Numeric256.mul, Numeric256.div, ha, hb]
      all_goals simp at h
    rw [hres]
    cases ha : c.ok <;> simp only [ha] at h ⊢ <;> simp_all
  · intro h r hr
    have hres : r = if x.ok then y else x := by
      simp only [List.mem_cons, List.mem_singleton, List.not_mem_nil, or_false] at hr
      cases ha : x.ok <;> cases hb : y.ok <;> simp only [ha, hb] at h
      all_goals
        rcases hr with hr | hr | hr | hr <;> rw [hr] <;>
          simp [Numeric.add, Numeric.sub, Numeric.mul, Numeric.div, ha, hb]
      all_goals simp at h
    rw [hres]
    cases ha : x.ok <;> simp only [ha] at h ⊢ <;> simp_all

/-- Witness for C13: an `Invalid` left operand and an `Overflow` right operand give
`Invalid`; an ok left operand and a `DivByZero` right operand give `DivByZero`. -/
theorem C13_sticky_errors_witness :
    (Numeric128.mul 10 2 ⟨⟨0, 0⟩, Err.Invalid⟩ ⟨⟨0, 0⟩, Err.Overflow⟩ Rounding.HalfUp).err_
      = Err.Invalid ∧
    (Numeric256.div 10 2 ⟨⟨⟨0, 0⟩, ⟨0, 0⟩⟩, Err.None⟩ ⟨⟨⟨0, 0⟩, ⟨0, 0⟩⟩, Err.DivByZero⟩
      Rounding.HalfUp).err_ = Err.DivByZero ∧
    (Numeric.add ⟨[], 0, false, Err.Overflow⟩ ⟨[5], 0, false, Err.None⟩).err_
      = Err.Overflow :=
  ⟨((C13_sticky_errors 10 2 2 Rounding.HalfUp ⟨⟨0, 0⟩, Err.Invalid⟩ ⟨⟨0, 0⟩, Err.Overflow⟩
      {} {} {} {}).1 (Or.inl rfl) _ (by simp)).2,
   ((C13_sticky_errors 10 2 2 Rounding.HalfUp {} {} ⟨⟨⟨0, 0⟩, ⟨0, 0⟩⟩, Err.None⟩
      ⟨⟨⟨0, 0⟩, ⟨0, 0⟩⟩, Err.DivByZero⟩ {} {}).2.1 (Or.inr rfl) _ (by simp)).2,
   ((C13_sticky_errors 10 2 2 Rounding.HalfUp {} {} {} {} ⟨[], 0, false, Err.Overflow⟩
      ⟨[5], 0, false, Err.None⟩).2.2 (Or.inl rfl) _ (by simp)).2⟩

/-- C14: division by zero.  For ok well-formed `a`, `b` of `Numeric128` or `Numeric256`,
`div(a, b, rnd)` has error `DivByZero` exactly when the raw value of `b` is `0`; for ok
`Numeric` values `a`, `b` with scales in `[0, 16383]` and `b` zero, `a / b` has error `DivByZero`. -/
theorem C14_div_by_zero (P S : Nat) (rnd : Rounding)
    (a b : Numeric128) (c d : Numeric256) (x y : Numeric)
    (hab : a.ok = true ∧ b.ok = true ∧ b.raw_.WF)
    (hcd : c.ok = true ∧ d.ok = true ∧ d.raw_.WF)
    (hxy : x.ok = true ∧ y.ok = true ∧ y.is_zero_ = true ∧
      0 ≤ x.scale_ ∧ x.scale_ ≤ Numeric.max_frac_digits ∧
      0 ≤ y.scale_ ∧ y.scale_ ≤ Numeric.max_frac_digits) :
    ((Numeric128.div P S a b rnd).err_ = Err.DivByZero ↔ b.raw_.to_wide = 0) ∧
    ((Numeric256.div P S c d rnd).err_ = Err.DivByZero ↔ d.raw_.toInt = 0) ∧
    (Numeric.op_div x y).err_ = Err.DivByZero := by
  refine ⟨?_, ?_, ?_⟩
  · rw [Numeric128.div_zero_iff128 P S a b rnd hab.1 hab.2.1,
      int128.to_wide_eq_zero_iff _ hab.2.2]
  · rw [Numeric256.div_zero_iff256 P S c d rnd hcd.1 hcd.2.1,
      int256.toInt_eq_zero_iff _ hcd.2.2]
  · obtain ⟨hx, hy, hz, sx0, sx1, sy0, sy1⟩ := hxy
    have hm : ¬ (max x.scale_ y.scale_ < 0 ∨ max x.scale_ y.scale_ > Numeric.max_frac_digits) := by
      omega
    unfold Numeric.op_div Numeric.div
    simp only [hx, hy, hz, hm, Bool.not_true, Bool.false_eq_true, if_false, if_true]
    rfl

/-- Witness for C14: `1 / 0` in the three types. -/
theorem C14_div_by_zero_witness :
    ((Numeric128.div 20 2 (Numeric128.init_from_int64 20 2 1)
        (Numeric128.init_from_int64 20 2 0) Rounding.HalfUp).err_ = Err.DivByZero ↔
      (Numeric128.init_from_int64 20 2 0).raw_.to_wide = 0) ∧
    ((Numeric256.div 20 2 (Numeric256.init_from_int64 20 2 1)
        (Numeric256.init_from_int64 20 2 0) Rounding.HalfUp).err_ = Err.DivByZero ↔
      (Numeric256.init_from_int64 20 2 0).raw_.toInt = 0) ∧
    (Numeric.op_div (Numeric.init_from_int64 1) (Numeric.init_from_int64 0)).err_
      = Err.DivByZero :=
  C14_div_by_zero 20 2 Rounding.HalfUp _ _ _ _ _ _ (by decide!) (by decide!) (by decide!)

/-- C15: the invariant of the obtainable values.  For `1 ≤ P ≤ 38`, every value of
`Numeric128<P,S>` obtainable from the public constructors and operations has `|raw| < 10^P`
if it is ok and raw value `0` if it is not; independently, for `1 ≤ Q ≤ 76`, every
obtainable value of `Numeric256<Q,T>` has `|raw| < 10^Q` if it is ok and raw value `0` if it
is not. -/
theorem C15_obtainable_values_keep_invariant (P S Q T : Nat) (x : Numeric128)
    (y : Numeric256)
    (hx : 1 ≤ P ∧ P ≤ 38 ∧ Numeric128.Obtainable P S x)
    (hy : 1 ≤ Q ∧ Q ≤ 76 ∧ Numeric256.Obtainable Q T y) :
    (x.ok = true → |x.raw_.to_wide| < 10 ^ P) ∧
    (x.ok = false → x.raw_ = ⟨0, 0⟩ ∧ x.raw_.to_wide = 0) ∧
    (y.ok = true → |y.raw_.toInt| < 10 ^ Q) ∧
    (y.ok = false → y.raw_ = ⟨⟨0, 0⟩, ⟨0, 0⟩⟩ ∧ y.raw_.toInt = 0) := by
  have h128 := Numeric128.obtainable_inv128 P S hx.1 hx.2.1 x hx.2.2
  have h256 := Numeric256.obtainable_inv256 Q T hy.1 hy.2.1 y hy.2.2
  unfold Numeric128.Inv at h128
  unfold Numeric256.Inv at h256
  refine ⟨?_, ?_, ?_, ?_⟩
  · intro h
    have := h128.2
    rwa [if_pos h] at this
  · intro h
    have := h128.2
    rw [h] at this
    simp only [Bool.false_eq_true, if_false] at this
    rw [this]
    exact ⟨rfl, by decide⟩
  · intro h
    have := h256.2
    rwa [if_pos h] at this
  · intro h
    have := h256.2
    rw [h] at this
    simp only [Bool.false_eq_true, if_false] at this
    rw [this]
    exact ⟨rfl, by decide⟩

/-- Witness for C15: the quotient `1 / 3` in `Numeric128<10,2>`, and in `Numeric256<50,2>`,
a precision that only the 256-bit class offers, the quotient `1 / 3`, which is ok, and the
quotient `1 / 0`, which is not. -/
theorem C15_obtainable_values_keep_invariant_witness :
    |(Numeric128.div 10 2 (Numeric128.init_from_int64 10 2 1)
        (Numeric128.init_from_int64 10 2 3) Rounding.HalfUp).raw_.to_wide| < 10 ^ 10 ∧
    |(Numeric256.div 50 2 (Numeric256.init_from_int64 50 2 1)
        (Numeric256.init_from_int64 50 2 3) Rounding.HalfUp).raw_.toInt| < 10 ^ 50 ∧
    (Numeric256.div 50 2 (Numeric256.init_from_int64 50 2 1)
        (Numeric256.init_from_int64 50 2 0) Rounding.HalfUp).raw_.toInt = 0 :=
  ⟨(C15_obtainable_values_keep_invariant 10 2 50 2 _ _
      ⟨by decide, by decide, Numeric128.Obtainable.div _ _ Rounding.HalfUp
        (Numeric128.Obtainable.of_int64 1 (by decide) (by decide))
        (Numeric128.Obtainable.of_int64 3 (by decide) (by decide))⟩
      ⟨by decide, by decide, Numeric256.Obtainable.div _ _ Rounding.HalfUp
        (Numeric256.Obtainable.of_int64 1 (by decide) (by decide))
        (Numeric256.Obtainable.of_int64 3 (by decide) (by decide))⟩).1 (by decide!),
   (C15_obtainable_values_keep_invariant 10 2 50 2 _ _
      ⟨by decide, by decide, Numeric128.Obtainable.div _ _ Rounding.HalfUp
        (Numeric128.Obtainable.of_int64 1 (by decide) (by decide))
        (Numeric128.Obtainable.of_int64 3 (by decide) (by decide))⟩
      ⟨by decide, by decide, Numeric256.Obtainable.div _ _ Rounding.HalfUp
        (Numeric256.Obtainable.of_int64 1 (by decide) (by decide))
        (Numeric256.Obtainable.of_int64 3 (by decide) (by decide))⟩).2.2.1 (by decide!),
   ((C15_obtainable_values_keep_invariant 10 2 50 2 _ _
      ⟨by decide, by decide, Numeric128.Obtainable.div _ _ Rounding.HalfUp
        (Numeric128.Obtainable.of_int64 1 (by decide) (by decide))
        (Numeric128.Obtainable.of_int64 3 (by decide) (by decide))⟩
      ⟨by decide, by decide, Numeric256.Obtainable.div _ _ Rounding.HalfUp
        (Numeric256.Obtainable.of_int64 1 (by decide) (by decide))
        (Numeric256.Obtainable.of_int64 0 (by decide) (by decide))⟩).2.2.2 (by decide!)).2⟩

/-- C16: parsing undoes `to_string`.  For `1 ≤ P ≤ 38`, `S ≤ P`, every ok value `x` of
`Numeric128<P,S>` that satisfies the invariant (`|raw| < 10^P`) and either rounding mode,
`Numeric128<P,S>(x.to_string(), r)` is ok and has the raw value of `x`. -/
theorem C16_parse_undoes_to_string128 (P S : Nat) (x : Numeric128) (rnd : Rounding)
    (h : 1 ≤ P ∧ P ≤ 38 ∧ S ≤ P) (hx : Numeric128.Inv P x ∧ x.ok = true) :
    (Numeric128.init_parse P S (Numeric128.to_string S x) rnd).ok = true ∧
    (Numeric128.init_parse P S (Numeric128.to_string S x) rnd).raw_ = x.raw_ := by
  rw [Numeric128.init_parse_to_string P S h.1 h.2.1 h.2.2 x hx.1 hx.2 rnd]
  exact ⟨rfl, rfl⟩

/-- Witness for C16: the value `-12.05` of `Numeric128<10,2>`, raw `-1205`. -/
theorem C16_parse_undoes_to_string128_witness :
    (Numeric128.init_parse 10 2
      (Numeric128.to_string 2 (Numeric128.init_from_raw 10 (int128.of_int64 (-1205))))
      Rounding.Trunc).raw_ = (Numeric128.init_from_raw 10 (int128.of_int64 (-1205))).raw_ :=
  (C16_parse_undoes_to_string128 10 2 (Numeric128.init_from_raw 10 (int128.of_int64 (-1205)))
    Rounding.Trunc (by decide) (by decide!)).2

/-- C17 (fails on the code): an ok value produced by the public API whose string is not
parsed back.  `Numeric` built from 131072 nines followed by `.5` is ok; the public member
`rescale(0, HalfUp)` rounds it to `10^131072`, which has 131073 integer digits, returns
`false` and leaves that value in the object, neither restoring the old value nor setting an
error; the string of the object is then rejected by the parser with `Overflow`, so the
parsed value is not ok and `operator==` between it and the object is false. -/
theorem C17_failed_rescale_breaks_round_trip :
    (Numeric.init_parse (List.replicate 131072 '9' ++ ['.', '5']) Rounding.HalfUp).ok = true ∧
    (Numeric.rescale (Numeric.init_parse (List.replicate 131072 '9' ++ ['.', '5'])
      Rounding.HalfUp) 0 Rounding.HalfUp).1 = false ∧
    (Numeric.rescale (Numeric.init_parse (List.replicate 131072 '9' ++ ['.', '5'])
      Rounding.HalfUp) 0 Rounding.HalfUp).2.ok = true ∧
    (Numeric.init_parse (Numeric.to_string
      (Numeric.rescale (Numeric.init_parse (List.replicate 131072 '9' ++ ['.', '5'])
        Rounding.HalfUp) 0 Rounding.HalfUp).2) Rounding.HalfUp).err_ = Err.Overflow ∧
    (Numeric.init_parse (Numeric.to_string
      (Numeric.rescale (Numeric.init_parse (List.replicate 131072 '9' ++ ['.', '5'])
        Rounding.HalfUp) 0 Rounding.HalfUp).2) Rounding.HalfUp).ok = false ∧
    Numeric.eq (Numeric.init_parse (Numeric.to_string
      (Numeric.rescale (Numeric.init_parse (List.replicate 131072 '9' ++ ['.', '5'])
        Rounding.HalfUp) 0 Rounding.HalfUp).2) Rounding.HalfUp)
      (Numeric.rescale (Numeric.init_parse (List.replicate 131072 '9' ++ ['.', '5'])
        Rounding.HalfUp) 0 Rounding.HalfUp).2 = false := by
  have h := Numeric.failed_rescale_scenario 131072 rfl Rounding.HalfUp
  generalize (Numeric.rescale (Numeric.init_parse (List.replicate 131072 '9' ++ ['.', '5'])
    Rounding.HalfUp) 0 Rounding.HalfUp) = r at h ⊢
  generalize Numeric.init_parse (Numeric.to_string r.2) Rounding.HalfUp = p at h ⊢
  have hp : p.ok = false := by
    unfold Numeric.ok
    rw [h.2.2.2]
    rfl
  refine ⟨h.1, h.2.1, h.2.2.1, h.2.2.2, hp, ?_⟩
  unfold Numeric.eq
  rw [hp]
  rfl

/-- C18: the format of `Numeric128::to_string`, for `S ≤ 38`.  An error value gives
`"<err>"`.  An ok value gives `-` exactly when the raw value is negative, then the decimal
numeral of `|raw| / 10^S` without leading zeros, then, when `S > 0`, a point and exactly `S`
digits that denote `|raw| mod 10^S`. -/
theorem C18_to_string_format (S : Nat) (x : Numeric128) (h : S ≤ 38 ∧ x.raw_.WF) :
    (x.ok = false → Numeric128.to_string S x = ['<', 'e', 'r', 'r', '>']) ∧
    (x.ok = true → ∃ ip fp,
      Numeric128.to_string S x = (if x.raw_.to_wide < 0 then ['-'] else []) ++ (ip ++
        (if 0 < S then '.' :: fp else [])) ∧
      is_decimal_numeral ip (x.raw_.to_wide.natAbs / 10 ^ S) ∧
      is_digit_string fp ∧ fp.length = S ∧
      digits_value fp = x.raw_.to_wide.natAbs % 10 ^ S) := by
  constructor
  · intro hx
    unfold Numeric128.to_string
    rw [hx]
    rfl
  · intro hx
    exact Numeric128.to_string_parts S h.1 x h.2 hx

/-- Witness for C18: the value `-12.05` of `Numeric128<10,2>` (raw `-1205`) and an
`Overflow` value. -/
theorem C18_to_string_format_witness :
    Numeric128.to_string 2 (Numeric128.init_parse 10 2 ['-', '1', '2', '.', '0', '5']
      Rounding.HalfUp) = ['-', '1', '2', '.', '0', '5'] ∧
    Numeric128.to_string 2 ⟨⟨0, 0⟩, Err.Overflow⟩ = ['<', 'e', 'r', 'r', '>'] :=
  ⟨by decide!,
   (C18_to_string_format 2 ⟨⟨0, 0⟩, Err.Overflow⟩ ⟨by decide, by decide⟩).1 rfl⟩

/-- C19: a string without any digit is not always `Invalid`.  For every precision
`1 ≤ P ≤ 38`, scale `S ≤ 38` and rounding mode, `Numeric128<P,S>` built from `"."`, `"+."`
or `"-."` is ok with raw value `0`: the character loop of `Numeric128::init_parse` does not
record whether a digit was read. -/
theorem C19_parse128_dot_without_digit_is_ok (P S : Nat) (rnd : Rounding)
    (hP : 1 ≤ P ∧ P ≤ 38 ∧ S ≤ 38) :
    ∀ s ∈ [['.'], ['+', '.'], ['-', '.']],
      (Numeric128.init_parse P S s rnd).err_ = Err.None ∧
      (Numeric128.init_parse P S s rnd).raw_.to_wide = 0 := by
  intro s hs
  simp only [List.mem_cons, List.mem_singleton, List.not_mem_nil, or_false] at hs
  rcases hs with hs | hs | hs <;> rw [hs]
  · exact Numeric128.parse_finish_no_digits P S hP.1 hP.2.1 hP.2.2 false rnd
  · exact Numeric128.parse_finish_no_digits P S hP.1 hP.2.1 hP.2.2 false rnd
  · exact Numeric128.parse_finish_no_digits P S hP.1 hP.2.1 hP.2.2 true rnd

/-- Witness for C19: `Numeric128<20,2>(".")` with `HalfUp`. -/
theorem C19_parse128_dot_without_digit_is_ok_witness :
    (Numeric128.init_parse 20 2 ['.'] Rounding.HalfUp).err_ = Err.None ∧
    (Numeric128.init_parse 20 2 ['.'] Rounding.HalfUp).raw_.to_wide = 0 :=
  C19_parse128_dot_without_digit_is_ok 20 2 Rounding.HalfUp (by decide) ['.'] (by simp)

/-- C20 (counterexample): the string `0.` followed by 16384 zeros and the letter `x` is
outside the grammar, and `Numeric` built from it has error `Overflow`, not `Invalid`: the
character loop returns `Overflow` at the 16384th fractional digit, before it reads `x`. -/
theorem C20_long_fraction_then_garbage_is_overflow :
    ¬ matches_grammar ('0' :: '.' :: (List.replicate 16384 '0' ++ ['x'])) ∧
    (Numeric.init_parse ('0' :: '.' :: (List.replicate 16384 '0' ++ ['x']))
      Rounding.HalfUp).err_ = Err.Overflow := by
  constructor
  · intro h
    have hx := Numeric.grammar_chars _ h 'x'
      (List.mem_cons_of_mem _ (List.mem_cons_of_mem _
        (List.mem_append_right _ (List.mem_singleton.mpr rfl))))
    revert hx
    decide
  · apply Numeric.init_parse_long_fraction
    refine ⟨[], ['0'], List.replicate 16384 '0', ['x'], Or.inl rfl, by decide, ?_, ?_, rfl⟩
    · intro c hc
      rw [List.eq_of_mem_replicate hc]
      decide
    · exact List.length_replicate _ _

/-- C20 (amended): for every string outside the grammar `[+-]?digits*(.digits*)?` with at
least one digit, `Numeric` built from it is in an error state; the error is `Overflow` when
the string begins with an optional sign, digits, a point and 16384 further digits, and
`Invalid` otherwise. -/
theorem C20_not_grammar_is_invalid_or_overflow (s : List Char) (rnd : Rounding)
    (h : ¬ matches_grammar s) :
    (Numeric.init_parse s rnd).ok = false ∧
    (begins_with_fraction 16384 s → (Numeric.init_parse s rnd).err_ = Err.Overflow) ∧
    (¬ begins_with_fraction 16384 s → (Numeric.init_parse s rnd).err_ = Err.Invalid) := by
  have hcore := Numeric.init_parse_not_grammar s rnd h
  refine ⟨?_, Numeric.init_parse_long_fraction s rnd, ?_⟩
  · unfold Numeric.ok
    rcases hcore with hi | hl
    · rw [hi]; rfl
    · rw [Numeric.init_parse_long_fraction s rnd hl]; rfl
  · intro hn
    rcases hcore with hi | hl
    · exact hi
    · exact absurd hl hn

/-- Witness for C20: the string `12a.3` is outside the grammar. -/
theorem C20_not_grammar_is_invalid_or_overflow_witness :
    ¬ matches_grammar ['1', '2', 'a', '.', '3'] ∧
    (Numeric.init_parse ['1', '2', 'a', '.', '3'] Rounding.HalfUp).ok = false :=
  ⟨fun h => absurd (Numeric.grammar_chars _ h 'a' (by simp)) (by decide),
   (C20_not_grammar_is_invalid_or_overflow ['1', '2', 'a', '.', '3'] Rounding.HalfUp
      (fun h => absurd (Numeric.grammar_chars _ h 'a' (by simp)) (by decide))).1⟩

/-- C21: scale limits of the string constructor of `Numeric`.  For every well-formed decimal
literal (optional sign, digits, optional point and digits, at least one digit) whose integer
part has at most 131072 digits: with more than 16383 digits after the point the result has
error `Overflow`, whatever the digits are; with `f ≤ 16383` digits after the point the result
is ok, its scale is `f` and its magnitude is the number the digits denote when that number is
non-zero, and its scale is `0` when the number is zero. -/
theorem C21_parse_scale_limits (sgn ip : List Char) (frac : Option (List Char))
    (rnd : Rounding)
    (h : well_formed_literal sgn ip frac ∧ (ip ≠ [] ∨ frac_digits frac ≠ 0) ∧
      ip.length ≤ 131072) :
    (16383 < frac_digits frac →
      (Numeric.init_parse (decimal_literal sgn ip frac) rnd).err_ = Err.Overflow) ∧
    (frac_digits frac ≤ 16383 →
      (Numeric.init_parse (decimal_literal sgn ip frac) rnd).ok = true ∧
      (digits_value (ip ++ frac.getD []) ≠ 0 →
        (Numeric.init_parse (decimal_literal sgn ip frac) rnd).scale_ = frac_digits frac ∧
        Numeric.limbs_value (Numeric.init_parse (decimal_literal sgn ip frac) rnd).mag_
          = digits_value (ip ++ frac.getD [])) ∧
      (digits_value (ip ++ frac.getD []) = 0 →
        (Numeric.init_parse (decimal_literal sgn ip frac) rnd).scale_ = 0)) := by
  obtain ⟨⟨hsgn, hip, hfrac⟩, hne, hlen⟩ := h
  have key : ∀ (fp : List Char) (dot : Bool), is_digit_string fp → (ip ≠ [] ∨ fp ≠ []) →
      (dot = false → fp = []) → fp.length ≤ 16383 →
      (Numeric.init_parse (sgn ++ (ip ++ (if dot = true then '.' :: fp else []))) rnd).ok = true ∧
      (digits_value (ip ++ fp) ≠ 0 →
        (Numeric.init_parse (sgn ++ (ip ++ (if dot = true then '.' :: fp else []))) rnd).scale_
          = (fp.length : Int) ∧
        Numeric.limbs_value
          (Numeric.init_parse (sgn ++ (ip ++ (if dot = true then '.' :: fp else []))) rnd).mag_
          = digits_value (ip ++ fp)) ∧
      (digits_value (ip ++ fp) = 0 →
        (Numeric.init_parse (sgn ++ (ip ++ (if dot = true then '.' :: fp else []))) rnd).scale_
          = 0) := by
    intro fp dot hfp hne2 hdot hf
    have hds : is_digit_string (ip ++ fp) := by
      intro c hc
      rcases List.mem_append.mp hc with hc | hc
      · exact hip c hc
      · exact hfp c hc
    obtain ⟨p1, p2⟩ := Numeric.parse_digits_spec (ip ++ fp) hds [] (by intro l hl; simp at hl)
    have hv0 : Numeric.limbs_value [] = 0 := rfl
    rw [hv0, Nat.zero_mul, Nat.zero_add] at p2
    rw [Numeric.init_parse_literal_gen sgn ip fp dot rnd hsgn hip hne2 hfp hf hdot]
    by_cases hz : digits_value (ip ++ fp) = 0
    · rw [Numeric.parse_finish_zero _ _ rfl (by rw [p2]; exact hz)]
      exact ⟨rfl, fun hnz => absurd hz hnz, fun _ => rfl⟩
    · have hpos : 0 < Numeric.limbs_value (Numeric.parse_digits [] (ip ++ fp)) := by
        rw [p2]
        omega
      have hne3 : pop_back_zeros (Numeric.parse_digits [] (ip ++ fp)) ≠ [] := by
        intro hh
        have := Numeric.pop_back_zeros_value (Numeric.parse_digits [] (ip ++ fp))
        rw [hh] at this
        have h0 : Numeric.limbs_value [] = 0 := rfl
        omega
      have hlt := digits_value_lt (ip ++ fp) hds
      have hchk : Numeric.check_limits_ ⟨pop_back_zeros
          (Numeric.parse_digits [] (ip ++ fp)), (fp.length : Int), decide (sgn = ['-']),
          Err.None⟩ = true := by
        rw [Numeric.check_limits_iff _ hne3
          (fun l hl => p1 l (Numeric.pop_back_zeros_mem _ l hl))
          (Numeric.pop_back_zeros_last _) (Int.ofNat_nonneg _) (by simp only; omega)]
        simp only [Numeric.pop_back_zeros_value, p2, Int.toNat_ofNat]
        calc digits_value (ip ++ fp) < 10 ^ (ip ++ fp).length := hlt
          _ ≤ 10 ^ (131072 + fp.length) :=
            Nat.pow_le_pow_right (by decide) (by rw [List.length_append]; omega)
      rw [Numeric.parse_finish_nonzero _ _ rfl hpos, if_pos hchk]
      refine ⟨rfl, fun _ => ⟨rfl, ?_⟩, fun hh => absurd hh hz⟩
      simp only [Numeric.pop_back_zeros_value, p2]
  cases frac with
  | none =>
    have hk := key [] false (fun c hc => by simp at hc) (by
      rcases hne with h1 | h1
      · exact Or.inl h1
      · exact absurd rfl h1) (fun _ => rfl) (by simp)
    refine ⟨fun hbig => ?_, fun _ => ?_⟩
    · simp [frac_digits] at hbig
    · simpa [decimal_literal, frac_digits] using hk
  | some fp =>
    have hfp : is_digit_string fp := hfrac
    refine ⟨fun hbig => ?_, fun hf => ?_⟩
    · apply Numeric.init_parse_long_fraction
      refine ⟨sgn, ip, fp.take 16384, fp.drop 16384, hsgn, hip,
        fun c hc => hfp c (List.mem_of_mem_take hc), ?_, ?_⟩
      · rw [List.length_take]
        simp only [frac_digits] at hbig
        omega
      · simp only [decimal_literal, List.take_append_drop]
    · have hk := key fp true hfp (by
        rcases hne with h1 | h1
        · exact Or.inl h1
        · right
          intro hh
          rw [hh] at h1
          exact h1 rfl) (fun hh => absurd hh (by decide)) hf
      simpa [decimal_literal, frac_digits] using hk

/-- Witness for C21: the literal `-0.50`. -/
theorem C21_parse_scale_limits_witness :
    (Numeric.init_parse (decimal_literal ['-'] ['0'] (some ['5', '0'])) Rounding.HalfUp).ok
      = true ∧
    (Numeric.init_parse (decimal_literal ['-'] ['0'] (some ['5', '0'])) Rounding.HalfUp).scale_
      = 2 :=
  ⟨((C21_parse_scale_limits ['-'] ['0'] (some ['5', '0']) Rounding.HalfUp
      (by decide)).2 (by decide)).1,
   (((C21_parse_scale_limits ['-'] ['0'] (some ['5', '0']) Rounding.HalfUp
      (by decide)).2 (by decide)).2.1 (by decide)).1⟩

/-- C23: `Numeric::mul(a, b, t, rnd)` on ok non-zero operands that satisfy the representation
invariant, with magnitude integers `A`, `B` and scales `sa`, `sb`.  For `t` in `[0, 16383]`,
write `R` for `⌊A * B * 10^t / 10^(sa+sb)⌋` under `Trunc` and for
`⌊A * B * 10^t / 10^(sa+sb) + 1/2⌋` under `HalfUp`.  If `R` has at most 131072 integer digits
(`R < 10^(131072 + t)`), the result is ok and its magnitude integer is `R`; a non-zero result
has the XOR of the operand signs and scale `t`; and when `t ≥ sa + sb` the product is exact.
For `t` outside `[0, 16383]` the result is the error `Overflow`. -/
theorem C23_mul_rounded_product (a b : Numeric) (t : Int) (rnd : Rounding)
    (h : a.ok = true ∧ b.ok = true ∧ Numeric.Inv a ∧ Numeric.Inv b ∧
      a.mag_ ≠ [] ∧ b.mag_ ≠ []) :
    (0 ≤ t → t ≤ 16383 →
      (if rnd = Rounding.HalfUp then
        (2 * (Numeric.limbs_value a.mag_ * Numeric.limbs_value b.mag_ * 10 ^ t.toNat)
          + 10 ^ (a.scale_ + b.scale_).toNat) / (2 * 10 ^ (a.scale_ + b.scale_).toNat)
      else Numeric.limbs_value a.mag_ * Numeric.limbs_value b.mag_ * 10 ^ t.toNat
          / 10 ^ (a.scale_ + b.scale_).toNat) < 10 ^ (131072 + t.toNat) →
      (Numeric.mul a b t rnd).ok = true ∧
      Numeric.limbs_value (Numeric.mul a b t rnd).mag_
        = (if rnd = Rounding.HalfUp then
            (2 * (Numeric.limbs_value a.mag_ * Numeric.limbs_value b.mag_ * 10 ^ t.toNat)
              + 10 ^ (a.scale_ + b.scale_).toNat) / (2 * 10 ^ (a.scale_ + b.scale_).toNat)
          else Numeric.limbs_value a.mag_ * Numeric.limbs_value b.mag_ * 10 ^ t.toNat
              / 10 ^ (a.scale_ + b.scale_).toNat) ∧
      ((Numeric.mul a b t rnd).mag_ ≠ [] →
        (Numeric.mul a b t rnd).neg_ = xor a.neg_ b.neg_ ∧
        (Numeric.mul a b t rnd).scale_ = t) ∧
      (a.scale_ + b.scale_ ≤ t →
        Numeric.limbs_value (Numeric.mul a b t rnd).mag_ * 10 ^ (a.scale_ + b.scale_).toNat
          = Numeric.limbs_value a.mag_ * Numeric.limbs_value b.mag_ * 10 ^ t.toNat)) ∧
    (t < 0 ∨ 16383 < t → (Numeric.mul a b t rnd).err_ = Err.Overflow) := by
  obtain ⟨hoa, hob, ha, hb, hza, hzb⟩ := h
  constructor
  · intro h0 h1 hlt
    obtain ⟨e1, _, e3, e4, _⟩ := (Numeric.mul_spec a b hoa hob ha hb hza hzb t h0 h1 rnd).1 hlt
    refine ⟨?_, e3, e4, ?_⟩
    · unfold Numeric.ok
      rw [e1]
      rfl
    · intro hle
      obtain ⟨sa0, _⟩ := Numeric.check_limits_scale a ha.2.2.2
      obtain ⟨sb0, _⟩ := Numeric.check_limits_scale b hb.2.2.2
      have hc : ¬ t.toNat < (a.scale_ + b.scale_).toNat := by omega
      have e : 10 ^ t.toNat
          = 10 ^ (t.toNat - (a.scale_ + b.scale_).toNat) * 10 ^ (a.scale_ + b.scale_).toNat := by
        rw [← Nat.pow_add]
        congr 1
        omega
      rw [e3, Numeric.floor_rescaled, Numeric.round_rescaled, if_neg hc, if_neg hc]
      simp only [ite_self]
      rw [Nat.mul_assoc, ← e]
  · intro hout
    have hm : Numeric.max_frac_digits = 16383 := rfl
    unfold Numeric.mul
    simp only [hoa, hob, Bool.not_true, Bool.false_eq_true, if_false]
    rw [if_pos (by omega)]
    rfl

/-- Witness for C23: `1.2345 * 3` at two digits under `HalfUp` has magnitude `370` (`3.70`),
and at four digits the product `3.7035` is exact. -/
theorem C23_mul_rounded_product_witness :
    Numeric.limbs_value
        (Numeric.mul ⟨[12345], 4, false, Err.None⟩ ⟨[3], 0, false, Err.None⟩ 2
          Rounding.HalfUp).mag_ = 370 ∧
    Numeric.limbs_value
        (Numeric.mul ⟨[12345], 4, false, Err.None⟩ ⟨[3], 0, false, Err.None⟩ 4
          Rounding.Trunc).mag_ * 10 ^ 4 = 12345 * 3 * 10 ^ 4 :=
  ⟨((C23_mul_rounded_product ⟨[12345], 4, false, Err.None⟩ ⟨[3], 0, false, Err.None⟩ 2
      Rounding.HalfUp (by decide)).1 (by decide) (by decide) (by decide!)).2.1,
   ((C23_mul_rounded_product ⟨[12345], 4, false, Err.None⟩ ⟨[3], 0, false, Err.None⟩ 4
      Rounding.Trunc (by decide)).1 (by decide) (by decide) (by decide!)).2.2.2 (by decide)⟩

/-- C25 (counterexample): `rescale` to a smaller scale can return `false`.  The ok value
`99...9.5` with 131072 nines has scale 1; `rescale(0, HalfUp)` rounds it up to `10^131072`,
which has 131073 integer digits, so the final `check_limits_` fails and `false` is
returned. -/
theorem C25_rescale_half_up_can_return_false :
    (Numeric.init_parse (List.replicate 131072 '9' ++ ['.', '5']) Rounding.HalfUp).ok = true ∧
    (Numeric.init_parse (List.replicate 131072 '9' ++ ['.', '5']) Rounding.HalfUp).scale_ = 1 ∧
    (Numeric.rescale (Numeric.init_parse (List.replicate 131072 '9' ++ ['.', '5'])
      Rounding.HalfUp) 0 Rounding.HalfUp).1 = false := by
  have h := Numeric.failed_rescale_scenario 131072 rfl Rounding.HalfUp
  obtain ⟨m, _, _, _, hx⟩ := Numeric.init_parse_nines 131072 (le_refl _) Rounding.HalfUp
  refine ⟨h.1, ?_, h.2.1⟩
  rw [hx]

/-- C25 (amended): `rescale(n, rnd)` on an ok `Numeric` `x` that satisfies the representation
invariant, with magnitude integer `m` and scale `s`, for `n` in `[0, 16383]`.  For `n ≥ s` it
returns true and the magnitude becomes `m * 10^(n-s)` with the sign kept.  For `n < s` let
`R` be `⌊m / 10^(s-n)⌋`, plus one for `HalfUp` exactly when the most significant discarded
digit is at least 5: `rescale` returns true exactly when `R < 10^(131072+n)`, which always
holds for `Trunc`; and when it returns true, the value is ok, the new magnitude is `R` (for
`HalfUp` this is `⌊m / 10^(s-n) + 1/2⌋`), and the sign is kept and the scale is `n` unless
`R` is zero, which gives the canonical zero.  Nothing is stated about the object after a
call that returned false for an ok `x` and `n` in range.  On an error value or with `k`
outside `[0, 16383]`, `rescale` returns false and changes nothing. -/
theorem C25_rescale_value (x y : Numeric) (n k : Int) (rnd : Rounding)
    (hx : x.ok = true ∧ Numeric.Inv x) (hn : 0 ≤ n ∧ n ≤ 16383)
    (hy : y.ok = false ∨ k < 0 ∨ 16383 < k) :
    (x.scale_ ≤ n →
      (Numeric.rescale x n rnd).1 = true ∧
      Numeric.limbs_value (Numeric.rescale x n rnd).2.mag_
        = Numeric.limbs_value x.mag_ * 10 ^ (n - x.scale_).toNat ∧
      (Numeric.rescale x n rnd).2.neg_ = x.neg_ ∧
      (x.mag_ ≠ [] → (Numeric.rescale x n rnd).2.scale_ = n) ∧
      (Numeric.rescale x n rnd).2.ok = true) ∧
    (n < x.scale_ →
      ((Numeric.rescale x n rnd).1 = true ↔
        Numeric.limbs_value x.mag_ / 10 ^ (x.scale_ - n).toNat
          + (if rnd = Rounding.HalfUp ∧
              5 ≤ Numeric.limbs_value x.mag_ / 10 ^ ((x.scale_ - n).toNat - 1) % 10
            then 1 else 0) < 10 ^ (131072 + n.toNat)) ∧
      (rnd = Rounding.Trunc → (Numeric.rescale x n rnd).1 = true) ∧
      ((Numeric.rescale x n rnd).1 = true →
        Numeric.limbs_value (Numeric.rescale x n rnd).2.mag_
          = Numeric.limbs_value x.mag_ / 10 ^ (x.scale_ - n).toNat
            + (if rnd = Rounding.HalfUp ∧
                5 ≤ Numeric.limbs_value x.mag_ / 10 ^ ((x.scale_ - n).toNat - 1) % 10
              then 1 else 0) ∧
        (rnd = Rounding.HalfUp →
          Numeric.limbs_value (Numeric.rescale x n rnd).2.mag_
            = (2 * Numeric.limbs_value x.mag_ + 10 ^ (x.scale_ - n).toNat)
              / (2 * 10 ^ (x.scale_ - n).toNat)) ∧
        (Numeric.limbs_value (Numeric.rescale x n rnd).2.mag_ ≠ 0 →
          (Numeric.rescale x n rnd).2.neg_ = x.neg_ ∧
          (Numeric.rescale x n rnd).2.scale_ = n) ∧
        (Numeric.limbs_value (Numeric.rescale x n rnd).2.mag_ = 0 →
          (Numeric.rescale x n rnd).2.neg_ = false ∧
          (Numeric.rescale x n rnd).2.scale_ = 0) ∧
        (Numeric.rescale x n rnd).2.ok = true)) ∧
    Numeric.rescale y k rnd = (false, y) := by
  obtain ⟨hok, hinv⟩ := hx
  have hm : Numeric.max_frac_digits = 16383 := rfl
  have hrange : ¬ (n < 0 ∨ n > Numeric.max_frac_digits) := by omega
  have hr : Numeric.rescale x n rnd = Numeric.rescale_ x n rnd := by
    unfold Numeric.rescale
    simp only [hok, Bool.not_true, Bool.false_eq_true, if_false, hrange]
  have herr : x.err_ = Err.None := by
    unfold Numeric.ok at hok
    simpa using hok
  refine ⟨?_, ?_, ?_⟩
  · intro hle
    rw [hr]
    by_cases heq : n = x.scale_
    · have e : Numeric.rescale_ x n rnd = (true, x) := by
        unfold Numeric.rescale_
        rw [if_neg hrange, if_pos heq]
      rw [e, heq]
      exact ⟨rfl, by simp, rfl, fun _ => rfl, hok⟩
    · have e : Numeric.rescale_ x n rnd = Numeric.rescale_up_ x n := by
        unfold Numeric.rescale_
        rw [if_neg hrange, if_neg heq, if_pos (by omega)]
      obtain ⟨u1, _, u3, u4, u5, u6, _⟩ := Numeric.rescale_up_inv x hinv n hle hn.2
      rw [e]
      refine ⟨u1, u5, u4, u6, ?_⟩
      unfold Numeric.ok
      rw [u3, herr]
      rfl
  · intro hlt
    obtain ⟨x1, x2, _, x4⟩ := hinv
    obtain ⟨s0, s1⟩ := Numeric.check_limits_scale x x4
    obtain ⟨f1, f2, f3, _, f5, f6, f7, f8⟩ :=
      Numeric.rescale_down_fields x n rnd x1 hn.1 hn.2 hlt
    rw [hr]
    have hcut : 0 < (x.scale_ - n).toNat := by omega
    have hflag : (Numeric.rescale_ x n rnd).1 = true ↔
        Numeric.limbs_value x.mag_ / 10 ^ (x.scale_ - n).toNat
          + (if rnd = Rounding.HalfUp ∧
              5 ≤ Numeric.limbs_value x.mag_ / 10 ^ ((x.scale_ - n).toNat - 1) % 10
            then 1 else 0) < 10 ^ (131072 + n.toNat) := by
      rw [f5, f3]
    refine ⟨hflag, ?_, ?_⟩
    · intro hh
      rw [hflag]
      have hne : ¬ (rnd = Rounding.HalfUp ∧
          5 ≤ Numeric.limbs_value x.mag_ / 10 ^ ((x.scale_ - n).toNat - 1) % 10) := by
        intro h2
        rw [hh] at h2
        exact absurd h2.1 (by decide)
      rw [if_neg hne, Nat.add_zero]
      by_cases hz : x.mag_ = []
      · rw [hz, Numeric.limbs_value_nil, Nat.zero_div]
        exact pow_pos (by decide) _
      · have hV := (Numeric.check_limits_iff x hz x1 x2 s0 s1).mp x4
        have e1 : (x.scale_ - n).toNat = x.scale_.toNat - n.toNat := by omega
        rw [e1]
        exact Numeric.trunc_within_limit _ _ _ (by omega) hV
    · intro _
      refine ⟨f3, ?_, ?_, ?_, ?_⟩
      · intro hh
        rw [f3, ← Numeric.half_up_digit _ _ hcut]
        simp only [hh, true_and]
      · intro hnz
        apply f7
        intro hnil
        rw [hnil] at hnz
        exact hnz rfl
      · intro hz
        exact f8 (Numeric.eq_nil_of_value_zero _ f2 hz)
      · unfold Numeric.ok
        rw [f6, herr]
        rfl
  · unfold Numeric.rescale
    rcases hy with h1 | h1 | h1
    · rw [h1]
      rfl
    · by_cases c : (!y.ok) = true
      · rw [if_pos c]
      · rw [if_neg c, if_pos (Or.inl h1)]
    · by_cases c : (!y.ok) = true
      · rw [if_pos c]
      · rw [if_neg c, if_pos (Or.inr (by omega))]

/-- Witness for C25: `1.25` to one digit is `1.3` with `HalfUp`, `rescale` returns true on
it with `Trunc`, and `rescale(-1)` changes nothing. -/
theorem C25_rescale_value_witness :
    Numeric.limbs_value (Numeric.rescale ⟨[125], 2, false, Err.None⟩ 1 Rounding.HalfUp).2.mag_
      = (2 * Numeric.limbs_value [125] + 10 ^ ((2 : Int) - 1).toNat)
          / (2 * 10 ^ ((2 : Int) - 1).toNat) ∧
    (Numeric.rescale ⟨[125], 2, false, Err.None⟩ 1 Rounding.Trunc).1 = true ∧
    Numeric.rescale ⟨[125], 2, false, Err.None⟩ (-1) Rounding.HalfUp
      = (false, ⟨[125], 2, false, Err.None⟩) :=
  ⟨(((C25_rescale_value ⟨[125], 2, false, Err.None⟩ ⟨[125], 2, false, Err.None⟩ 1 (-1)
      Rounding.HalfUp (by decide) (by decide) (by decide)).2.1 (by decide)).2.2
        (by decide!)).2.1 rfl,
   ((C25_rescale_value ⟨[125], 2, false, Err.None⟩ ⟨[125], 2, false, Err.None⟩ 1 (-1)
      Rounding.Trunc (by decide) (by decide) (by decide)).2.1 (by decide)).2.1 rfl,
   (C25_rescale_value ⟨[125], 2, false, Err.None⟩ ⟨[125], 2, false, Err.None⟩ 1 (-1)
      Rounding.HalfUp (by decide) (by decide) (by decide)).2.2⟩

/-- C26: `uint256::operator*` computes the product modulo `2^256`.  For all `uint256`
values `a`, `b` the value of `a * b` is the exact product of the values reduced modulo
`2^256`; `int256::operator*` returns the bit pattern of the unsigned product of the two bit
patterns, so its signed value is congruent to the exact signed product modulo `2^256`. -/
theorem C26_mul256_is_product_mod (a b : uint256) (x y : int256)
    (hab : a.WF ∧ b.WF) (hxy : x.WF ∧ y.WF) :
    (uint256.mul a b).toNat = a.toNat * b.toNat % 2 ^ 256 ∧
    (⟨(int256.mul x y).hi_, (int256.mul x y).lo_⟩ : uint256)
      = uint256.mul ⟨x.hi_, x.lo_⟩ ⟨y.hi_, y.lo_⟩ ∧
    (int256.mul x y).toInt % 2 ^ 256 = x.toInt * y.toInt % 2 ^ 256 :=
  ⟨uint256.mul_toNat a b hab.1 hab.2, rfl, (int256.mul_emod x y hxy.1 hxy.2).2⟩

/-- Witness for C26: `(2^255 + 1) * 2` wraps to `2`, and `(-1) * 3` on `int256`. -/
theorem C26_mul256_is_product_mod_witness :
    (uint256.mul ⟨⟨2 ^ 63, 0⟩, ⟨0, 1⟩⟩ ⟨⟨0, 0⟩, ⟨0, 2⟩⟩).toNat
      = (⟨⟨2 ^ 63, 0⟩, ⟨0, 1⟩⟩ : uint256).toNat * (⟨⟨0, 0⟩, ⟨0, 2⟩⟩ : uint256).toNat % 2 ^ 256 ∧
    (⟨(int256.mul (int256.of_int64 (-1)) (int256.of_int64 3)).hi_,
      (int256.mul (int256.of_int64 (-1)) (int256.of_int64 3)).lo_⟩ : uint256)
      = uint256.mul ⟨(int256.of_int64 (-1)).hi_, (int256.of_int64 (-1)).lo_⟩
          ⟨(int256.of_int64 3).hi_, (int256.of_int64 3).lo_⟩ ∧
    (int256.mul (int256.of_int64 (-1)) (int256.of_int64 3)).toInt % 2 ^ 256
      = (int256.of_int64 (-1)).toInt * (int256.of_int64 3).toInt % 2 ^ 256 :=
  C26_mul256_is_product_mod _ _ _ _ (by decide) (by decide)

/-- C27: `uint256::div_mod` is division with remainder.  For all `uint256` values `a` and
`b ≠ 0` the returned pair is `q = a / b` and `r = a % b`, so `a = q * b + r` over the
integers and `r < b`.  The shift-and-subtract loop is entered only for `b < a`, with a shift
count `n - 1` where `n ≤ 256`; it returns the result after `n` iterations, whatever larger
iteration bound it is given. -/
theorem C27_div_mod_quotient_remainder (a b : uint256) (h : a.WF ∧ b.WF ∧ b.toNat ≠ 0) :
    (uint256.div_mod a b).1.toNat = a.toNat / b.toNat ∧
    (uint256.div_mod a b).2.toNat = a.toNat % b.toNat ∧
    a.toNat = (uint256.div_mod a b).1.toNat * b.toNat + (uint256.div_mod a b).2.toNat ∧
    (uint256.div_mod a b).2.toNat < b.toNat ∧
    (b.toNat < a.toNat → ∃ n : Nat, n ≤ 256 ∧ uint256.msb a - uint256.msb b = (n : Int) - 1 ∧
      ∀ fuel, n ≤ fuel →
        uint256.div_mod_loop fuel a (uint256.shl b (uint256.msb a - uint256.msb b))
          ⟨⟨0, 0⟩, ⟨0, 0⟩⟩ (uint256.msb a - uint256.msb b) = uint256.div_mod a b) := by
  obtain ⟨ha, hb, h0⟩ := h
  obtain ⟨q, r, _, _⟩ := uint256.div_mod_spec a b ha hb h0
  refine ⟨q, r, ?_, ?_, ?_⟩
  · rw [q, r, Nat.mul_comm]
    exact (Nat.div_add_mod _ _).symm
  · rw [r]
    exact Nat.mod_lt _ (by omega)
  · intro hlt
    obtain ⟨n, e, _, n2, _, _⟩ := uint256.div_mod_shift a b ha hb h0 hlt
    refine ⟨n, n2, e, ?_⟩
    intro fuel hf
    have hz0 : (⟨⟨0, 0⟩, ⟨0, 0⟩⟩ : uint256).toNat = 0 := by decide
    have c1 : ¬ b = ⟨⟨0, 0⟩, ⟨0, 0⟩⟩ := by
      intro hh
      rw [hh, hz0] at h0
      exact h0 rfl
    have c2 : ¬ uint256.lt a b = true := by
      intro hh
      have := (uint256.lt_iff_toNat a b ha hb).mp hh
      omega
    have c3 : ¬ a = b := by
      intro hh
      rw [hh] at hlt
      omega
    have hd : uint256.div_mod a b
        = uint256.div_mod_loop 257 a (uint256.shl b (uint256.msb a - uint256.msb b))
            ⟨⟨0, 0⟩, ⟨0, 0⟩⟩ (uint256.msb a - uint256.msb b) := by
      unfold uint256.div_mod
      simp only
      rw [if_neg c1, if_neg c2, if_neg c3]
    rw [hd, e]
    exact uint256.div_mod_loop_fuel n fuel 257 _ _ _ hf (by omega)

/-- Witness for C27: `(2^200 + 5) / 3`. -/
theorem C27_div_mod_quotient_remainder_witness :
    (uint256.div_mod ⟨⟨0, 2 ^ 8⟩, ⟨0, 5⟩⟩ ⟨⟨0, 0⟩, ⟨0, 3⟩⟩).1.toNat
      = (⟨⟨0, 2 ^ 8⟩, ⟨0, 5⟩⟩ : uint256).toNat / (⟨⟨0, 0⟩, ⟨0, 3⟩⟩ : uint256).toNat ∧
    (uint256.div_mod ⟨⟨0, 2 ^ 8⟩, ⟨0, 5⟩⟩ ⟨⟨0, 0⟩, ⟨0, 3⟩⟩).2.toNat
      = (⟨⟨0, 2 ^ 8⟩, ⟨0, 5⟩⟩ : uint256).toNat % (⟨⟨0, 0⟩, ⟨0, 3⟩⟩ : uint256).toNat :=
  ⟨(C27_div_mod_quotient_remainder ⟨⟨0, 2 ^ 8⟩, ⟨0, 5⟩⟩ ⟨⟨0, 0⟩, ⟨0, 3⟩⟩ (by decide)).1,
   (C27_div_mod_quotient_remainder ⟨⟨0, 2 ^ 8⟩, ⟨0, 5⟩⟩ ⟨⟨0, 0⟩, ⟨0, 3⟩⟩ (by decide)).2.1⟩

/-- C28: `int256` division and remainder.  For all `int256` values `a` and `b ≠ 0`: unless
`a = -2^255` and `b = -1`, the quotient `a / b` is the exact quotient truncated toward zero
and `a % b = a - (a / b) * b`; the remainder is smaller than `b` in absolute value and, if
non-zero, has the sign of `a`; and in every case `(a / b) * b + (a % b) == a` in the wrapping
arithmetic of `int256`. -/
theorem C28_int256_div_mod (a b : int256) (h : a.WF ∧ b.WF ∧ b.toInt ≠ 0) :
    (¬ (a.toInt = -2 ^ 255 ∧ b.toInt = -1) →
      (int256.div a b).toInt = Int.tdiv a.toInt b.toInt ∧
      (int256.mod a b).toInt = a.toInt - (int256.div a b).toInt * b.toInt) ∧
    |(int256.mod a b).toInt| < |b.toInt| ∧
    ((int256.mod a b).toInt ≠ 0 → ((int256.mod a b).toInt < 0 ↔ a.toInt < 0)) ∧
    int256.add (int256.mul (int256.div a b) b) (int256.mod a b) = a := by
  obtain ⟨ha, hb, h0⟩ := h
  obtain ⟨_, em⟩ := int256.mod_toInt a b ha hb h0
  have hlt : a.toInt.natAbs % b.toInt.natAbs < b.toInt.natAbs := Nat.mod_lt _ (by omega)
  refine ⟨?_, ?_, ?_, int256.div_mod_identity a b ha hb h0⟩
  · intro hex
    have ed := int256.div_toInt a b ha hb h0 hex
    refine ⟨ed, ?_⟩
    rw [em, ed, Int.tmod_def, Int.mul_comm]
  · rw [em, tmod_natAbs, Int.abs_eq_natAbs, Int.abs_eq_natAbs]
    generalize a.toInt.natAbs % b.toInt.natAbs = r at hlt
    split <;> omega
  · rw [em, tmod_natAbs]
    generalize a.toInt.natAbs % b.toInt.natAbs = r
    split <;> omega

/-- Witness for C28: `-42 / 5` and `-42 % 5`. -/
theorem C28_int256_div_mod_witness :
    (int256.div (int256.of_int64 (-42)) (int256.of_int64 5)).toInt
      = Int.tdiv (int256.of_int64 (-42)).toInt (int256.of_int64 5).toInt ∧
    int256.add (int256.mul (int256.div (int256.of_int64 (-42)) (int256.of_int64 5))
      (int256.of_int64 5)) (int256.mod (int256.of_int64 (-42)) (int256.of_int64 5))
      = int256.of_int64 (-42) :=
  ⟨((C28_int256_div_mod (int256.of_int64 (-42)) (int256.of_int64 5) (by decide!)).1
      (by decide!)).1,
   (C28_int256_div_mod (int256.of_int64 (-42)) (int256.of_int64 5) (by decide!)).2.2.2⟩

/-- C29: `int256::operator>>` is the arithmetic shift.  For every `int256` value `v` and shift
count `k ≥ 0` the value of `v >> k` is `⌊v / 2^k⌋` (the integer division of Lean rounds down
for a positive divisor); for `k ≥ 256` the result is all ones for negative `v` and zero
otherwise; for `k ≤ 0` the operand is returned unchanged; and `int256(-1) >> k` is
`int256(-1)` for every `k`. -/
theorem C29_int256_shift_right_is_floor (v : int256) (k : Int) (h : v.WF) :
    (0 ≤ k → (int256.shr v k).toInt = v.toInt / 2 ^ k.toNat) ∧
    (256 ≤ k → int256.shr v k = if v.toInt < 0
      then ⟨⟨2 ^ 64 - 1, 2 ^ 64 - 1⟩, ⟨2 ^ 64 - 1, 2 ^ 64 - 1⟩⟩ else ⟨⟨0, 0⟩, ⟨0, 0⟩⟩) ∧
    (k ≤ 0 → int256.shr v k = v) ∧
    int256.shr (int256.of_int64 (-1)) k = int256.of_int64 (-1) := by
  refine ⟨int256.shr_toInt v h k, ?_, ?_, ?_⟩
  · intro hk
    have e := int256.is_negative_eq v h
    unfold int256.shr
    rw [if_neg (by omega), if_pos hk, e]
    simp only [decide_eq_true_eq]
  · intro hk
    unfold int256.shr
    rw [if_pos hk]
  · have hw : (int256.of_int64 (-1)).WF := by decide
    have hv : (int256.of_int64 (-1)).toInt = -1 := by decide!
    by_cases c : k ≤ 0
    · unfold int256.shr
      rw [if_pos c]
    · apply int256.eq_of_toInt _ _ (int256.shr_WF_i256 _ hw k) hw
      rw [int256.shr_toInt _ hw k (by omega), hv]
      exact ediv_of_bounds _ _ _ (by positivity) (by
        have : (1 : Int) ≤ 2 ^ k.toNat := one_le_pow₀ (by decide)
        omega) (by omega)

/-- Witness for C29: `-3 >> 1` is `-2`. -/
theorem C29_int256_shift_right_is_floor_witness :
    (int256.shr (int256.of_int64 (-3)) 1).toInt = (int256.of_int64 (-3)).toInt / 2 ^ (1 : Int).toNat :=
  (C29_int256_shift_right_is_floor (int256.of_int64 (-3)) 1 (by decide)).1 (by decide)

/-- C30 (fails on the code): the defaulted `operator<=>` of `int128` compares the members
`hi_`, `lo_` as unsigned 64-bit words, so `int128(-1) < int128(0)` is false and
`int128(0) < int128(-1)` is true, although the signed values are `-1` and `0`; the second
example of the claim, `int128(-2) < int128(-1)`, holds. -/
theorem C30_int128_order_is_unsigned :
    (int128.of_int64 (-1)).to_wide = -1 ∧ (int128.of_int64 0).to_wide = 0 ∧
    int128.lt (int128.of_int64 (-1)) (int128.of_int64 0) = false ∧
    int128.lt (int128.of_int64 0) (int128.of_int64 (-1)) = true ∧
    int128.lt (int128.of_int64 (-2)) (int128.of_int64 (-1)) = true := by
  decide!

/-- C31 (fails on the code): `operator<=>` of `int256` reverses the order of two negative
values.  The signed values of `int256(-2)` and `int256(-1)` are `-2 < -1`, yet
`int256(-2) < int256(-1)` is false and `int256(-1) < int256(-2)` is true; with different
signs, as for `int256(-1) < int256(0)`, the result is right. -/
theorem C31_int256_order_reversed_for_negatives :
    (int256.of_int64 (-2)).toInt = -2 ∧ (int256.of_int64 (-1)).toInt = -1 ∧
    int256.lt (int256.of_int64 (-2)) (int256.of_int64 (-1)) = false ∧
    int256.lt (int256.of_int64 (-1)) (int256.of_int64 (-2)) = true ∧
    int256.lt (int256.of_int64 (-1)) (int256.of_int64 0) = true := by
  decide!

/-- C32: comparisons between a `uint256` `u` and an `int256` `s` (four 64-bit words each).
If `s` is negative then `s <=> u` is less, `u <=> s` is greater and `u == s`, `s == u` are
false.  If `s` is non-negative then `u <=> s`, `s <=> u` and `==` agree with the comparison
of the two integers. -/
theorem C32_mixed_comparison (u : uint256) (s : int256) (h : u.WF ∧ s.WF) :
    (s.toInt < 0 →
      int256.cmp_uint256 s u = Ordering.lt ∧ uint256.cmp_int256 u s = Ordering.gt ∧
      uint256.eq_int256 u s = false ∧ int256.eq_uint256 s u = false) ∧
    (0 ≤ s.toInt →
      (uint256.cmp_int256 u s = Ordering.lt ↔ (u.toNat : Int) < s.toInt) ∧
      (uint256.cmp_int256 u s = Ordering.eq ↔ (u.toNat : Int) = s.toInt) ∧
      (uint256.cmp_int256 u s = Ordering.gt ↔ s.toInt < (u.toNat : Int)) ∧
      (int256.cmp_uint256 s u = Ordering.lt ↔ s.toInt < (u.toNat : Int)) ∧
      (int256.cmp_uint256 s u = Ordering.eq ↔ s.toInt = (u.toNat : Int)) ∧
      (int256.cmp_uint256 s u = Ordering.gt ↔ (u.toNat : Int) < s.toInt) ∧
      (uint256.eq_int256 u s = true ↔ (u.toNat : Int) = s.toInt) ∧
      (int256.eq_uint256 s u = true ↔ s.toInt = (u.toNat : Int))) := by
  obtain ⟨hu, hs⟩ := h
  constructor
  · intro hneg
    have hn := (int256.toInt_neg_iff s hs).mpr hneg
    unfold int256.cmp_uint256 int256.eq_uint256 uint256.cmp_int256 uint256.eq_int256
    simp [hn]
  · intro hpos
    obtain ⟨w, hv, hn⟩ := int256.of_int256_toNat s hs hpos
    obtain ⟨c1, c2, c3⟩ := uint256.cmp_toNat u (uint256.of_int256 s) hu w
    have he := uint256.eq_iff_toNat u (uint256.of_int256 s) hu w
    rw [← hv]
    unfold int256.cmp_uint256 int256.eq_uint256 uint256.cmp_int256 uint256.eq_int256
    simp only [hn, Bool.false_eq_true, if_false, decide_eq_true_eq]
    rw [he]
    refine ⟨by rw [c1]; omega, by rw [c2]; omega, by rw [c3]; omega, ?_, ?_, ?_,
      by omega, by omega⟩
    · cases hh : uint256.cmp u (uint256.of_int256 s)
      · have := c1.mp hh
        simp only [false_iff, reduceCtorEq]
        omega
      · have := c2.mp hh
        simp only [false_iff, reduceCtorEq]
        omega
      · have := c3.mp hh
        simp only [true_iff]
        omega
    · cases hh : uint256.cmp u (uint256.of_int256 s)
      · have := c1.mp hh
        simp only [false_iff, reduceCtorEq]
        omega
      · have := c2.mp hh
        simp only [true_iff]
        omega
      · have := c3.mp hh
        simp only [false_iff, reduceCtorEq]
        omega
    · cases hh : uint256.cmp u (uint256.of_int256 s)
      · have := c1.mp hh
        simp only [true_iff]
        omega
      · have := c2.mp hh
        simp only [false_iff, reduceCtorEq]
        omega
      · have := c3.mp hh
        simp only [false_iff, reduceCtorEq]
        omega

/-- Witness for C32: `int256(-1)` is less than `uint256(0)`, and `uint256(7)` compared
with `int256(5)` is greater. -/
theorem C32_mixed_comparison_witness :
    int256.cmp_uint256 (int256.of_int64 (-1)) (uint256.of_u64 0) = Ordering.lt ∧
    uint256.cmp_int256 (uint256.of_u64 7) (int256.of_int64 5) = Ordering.gt :=
  ⟨((C32_mixed_comparison (uint256.of_u64 0) (int256.of_int64 (-1)) (by decide)).1
      (by decide!)).1,
   ((C32_mixed_comparison (uint256.of_u64 7) (int256.of_int64 5) (by decide)).2
      (by decide!)).2.2.1.mpr (by decide!)⟩

/-- C33: `to_string` of the 256-bit integers (four 64-bit words each).  For every `int256`
`v` the string is the canonical decimal numeral of the signed value: a leading `-` exactly
when `v` is negative, followed by the decimal digits of `|v|`, which do not begin with `0`
unless they are the single digit `0`; this includes `v = -2^255`, and zero gives `"0"`.
For every `uint256` `u` the string is the decimal numeral of `u` without a leading zero. -/
theorem C33_to_string_is_decimal_numeral (v : int256) (u : uint256) (h : v.WF ∧ u.WF) :
    (∃ ds : List Char, is_decimal_numeral ds v.toInt.natAbs ∧
      v.to_string = (if v.toInt < 0 then '-' :: ds else ds)) ∧
    (v.toInt = 0 → v.to_string = ['0']) ∧
    is_decimal_numeral u.to_string u.toNat := by
  obtain ⟨hv, hu⟩ := h
  obtain ⟨ds, d1, d2⟩ := int256.to_string_decimal_signed v hv
  refine ⟨⟨ds, d1, d2⟩, ?_, uint256.to_string_decimal u hu⟩
  intro hz
  exact int256.to_string_zero v hv hz

/-- Witness for C33: the smallest value `-2^255` and the largest `uint256` value. -/
theorem C33_to_string_is_decimal_numeral_witness :
    (∃ ds : List Char,
      is_decimal_numeral ds (⟨⟨2 ^ 63, 0⟩, ⟨0, 0⟩⟩ : int256).toInt.natAbs ∧
      (⟨⟨2 ^ 63, 0⟩, ⟨0, 0⟩⟩ : int256).to_string
        = (if (⟨⟨2 ^ 63, 0⟩, ⟨0, 0⟩⟩ : int256).toInt < 0 then '-' :: ds else ds)) ∧
    is_decimal_numeral numeric_limits_uint256.max.to_string numeric_limits_uint256.max.toNat :=
  ⟨(C33_to_string_is_decimal_numeral ⟨⟨2 ^ 63, 0⟩, ⟨0, 0⟩⟩ numeric_limits_uint256.max
      (by decide)).1,
   (C33_to_string_is_decimal_numeral ⟨⟨2 ^ 63, 0⟩, ⟨0, 0⟩⟩ numeric_limits_uint256.max
      (by decide)).2.2⟩

/-- C34: `uint256` addition and subtraction wrap modulo `2^256`.  For all `a`, `b` (four
64-bit words each), `a + b` stands for `(a + b) mod 2^256` and `a - b` for
`(a - b) mod 2^256`, so the carry and the borrow of the low halves reach the high halves;
and `max() + 1 = 0`, `0 - 1 = max()`. -/
theorem C34_uint256_add_sub_wrap (a b : uint256) (h : a.WF ∧ b.WF) :
    (uint256.add a b).toNat = (a.toNat + b.toNat) % 2 ^ 256 ∧
    ((uint256.sub a b).toNat : Int) = ((a.toNat : Int) - (b.toNat : Int)) % 2 ^ 256 ∧
    (uint256.add a b).WF ∧ (uint256.sub a b).WF ∧
    uint256.add numeric_limits_uint256.max (uint256.of_u64 1) = uint256.of_u64 0 ∧
    uint256.sub (uint256.of_u64 0) (uint256.of_u64 1) = numeric_limits_uint256.max := by
  obtain ⟨ha, hb⟩ := h
  obtain ⟨a1, a2⟩ := uint256.add_toNat a b ha hb
  obtain ⟨s1, s2⟩ := uint256.sub_toNat a b ha hb
  have hlt := uint256.toNat_lt b hb
  refine ⟨a1, ?_, a2, s2, by decide!, by decide!⟩
  rw [s1, int256.p256]
  omega

/-- Witness for C34: `(2^128 - 1) + 1` carries into the high half, and `2^128 - 1`
borrows from it. -/
theorem C34_uint256_add_sub_wrap_witness :
    (uint256.add ⟨⟨0, 0⟩, ⟨2 ^ 64 - 1, 2 ^ 64 - 1⟩⟩ ⟨⟨0, 0⟩, ⟨0, 1⟩⟩).toNat
      = ((⟨⟨0, 0⟩, ⟨2 ^ 64 - 1, 2 ^ 64 - 1⟩⟩ : uint256).toNat
          + (⟨⟨0, 0⟩, ⟨0, 1⟩⟩ : uint256).toNat) % 2 ^ 256 ∧
    (uint256.sub ⟨⟨0, 1⟩, ⟨0, 0⟩⟩ ⟨⟨0, 0⟩, ⟨0, 1⟩⟩).WF :=
  ⟨(C34_uint256_add_sub_wrap ⟨⟨0, 0⟩, ⟨2 ^ 64 - 1, 2 ^ 64 - 1⟩⟩ ⟨⟨0, 0⟩, ⟨0, 1⟩⟩
      (by decide)).1,
   (C34_uint256_add_sub_wrap ⟨⟨0, 1⟩, ⟨0, 0⟩⟩ ⟨⟨0, 0⟩, ⟨0, 1⟩⟩ (by decide)).2.2.2.1⟩

/-- C35: `operator==` of the decimal types on error values.  For `Numeric128`, `Numeric256`
and `Numeric`, `a == b` is false whenever `a` or `b` is in an error state; for two ok values
of `Numeric128` or `Numeric256`, `a == b` holds exactly when the raw values are the same
words, which for 64-bit words is exactly when they stand for the same integer. -/
theorem C35_error_values_are_unequal (a b : Numeric128) (c d : Numeric256) (x y : Numeric) :
    ((a.ok = false ∨ b.ok = false) → Numeric128.eq a b = false) ∧
    ((c.ok = false ∨ d.ok = false) → Numeric256.eq c d = false) ∧
    ((x.ok = false ∨ y.ok = false) → Numeric.eq x y = false) ∧
    (a.ok = true ∧ b.ok = true → (Numeric128.eq a b = true ↔ a.raw_ = b.raw_)) ∧
    (c.ok = true ∧ d.ok = true → (Numeric256.eq c d = true ↔ c.raw_ = d.raw_)) ∧
    (a.ok = true ∧ b.ok = true ∧ a.raw_.WF ∧ b.raw_.WF →
      (Numeric128.eq a b = true ↔ a.raw_.to_wide = b.raw_.to_wide)) ∧
    (c.ok = true ∧ d.ok = true ∧ c.raw_.WF ∧ d.raw_.WF →
      (Numeric256.eq c d = true ↔ c.raw_.toInt = d.raw_.toInt)) := by
  refine ⟨?_, ?_, ?_, ?_, ?_, ?_, ?_⟩
  · intro h
    unfold Numeric128.eq
    rcases h with h | h <;> simp [h]
  · intro h
    unfold Numeric256.eq
    rcases h with h | h <;> simp [h]
  · intro h
    unfold Numeric.eq
    rcases h with h | h <;> simp [h]
  · intro h
    unfold Numeric128.eq
    simp [h.1, h.2]
  · intro h
    unfold Numeric256.eq
    simp [h.1, h.2]
  · intro h
    unfold Numeric128.eq
    simp only [h.1, h.2.1, Bool.not_true, Bool.or_self, Bool.false_eq_true, if_false,
      decide_eq_true_eq]
    constructor
    · intro e
      rw [e]
    · intro e
      exact int128.eq_of_to_wide _ _ h.2.2.1 h.2.2.2 e
  · intro h
    unfold Numeric256.eq
    simp only [h.1, h.2.1, Bool.not_true, Bool.or_self, Bool.false_eq_true, if_false,
      decide_eq_true_eq]
    constructor
    · intro e
      rw [e]
    · intro e
      exact int256.eq_of_toInt _ _ h.2.2.1 h.2.2.2 e

/-- Witness for C35: the error value `Invalid` is not equal to itself in any of the three
types, and the ok values `1.50` and `1.50` of `Numeric128<10,2>` are equal. -/
theorem C35_error_values_are_unequal_witness :
    Numeric128.eq (Numeric128.init_error Err.Invalid) (Numeric128.init_error Err.Invalid)
      = false ∧
    Numeric256.eq (Numeric256.init_error Err.Invalid) (Numeric256.init_error Err.Invalid)
      = false ∧
    Numeric.eq (Numeric.set_error_ {} Err.Invalid) (Numeric.set_error_ {} Err.Invalid)
      = false ∧
    Numeric128.eq ⟨int128.of_int64 150, Err.None⟩ ⟨int128.of_int64 150, Err.None⟩ = true :=
  ⟨(C35_error_values_are_unequal (Numeric128.init_error Err.Invalid)
      (Numeric128.init_error Err.Invalid) (Numeric256.init_error Err.Invalid)
      (Numeric256.init_error Err.Invalid) (Numeric.set_error_ {} Err.Invalid)
      (Numeric.set_error_ {} Err.Invalid)).1 (Or.inl (by decide)),
   (C35_error_values_are_unequal (Numeric128.init_error Err.Invalid)
      (Numeric128.init_error Err.Invalid) (Numeric256.init_error Err.Invalid)
      (Numeric256.init_error Err.Invalid) (Numeric.set_error_ {} Err.Invalid)
      (Numeric.set_error_ {} Err.Invalid)).2.1 (Or.inl (by decide)),
   (C35_error_values_are_unequal (Numeric128.init_error Err.Invalid)
      (Numeric128.init_error Err.Invalid) (Numeric256.init_error Err.Invalid)
      (Numeric256.init_error Err.Invalid) (Numeric.set_error_ {} Err.Invalid)
      (Numeric.set_error_ {} Err.Invalid)).2.2.1 (Or.inl (by decide)),
   ((C35_error_values_are_unequal ⟨int128.of_int64 150, Err.None⟩
      ⟨int128.of_int64 150, Err.None⟩ (Numeric256.init_error Err.Invalid)
      (Numeric256.init_error Err.Invalid) (Numeric.set_error_ {} Err.Invalid)
      (Numeric.set_error_ {} Err.Invalid)).2.2.2.1 ⟨by decide, by decide⟩).mpr rfl⟩

/-- C36 (fails on the code): the `#else` branch of `uint128::operator*` does not return the
product modulo `2^128`.  For `a = b = 2^32` the partial product `a.lo * b.lo` is computed
correctly by `mul_64_64_128` as `(hi, lo) = (1, 0)`, but the branch returns the word
`a.hi * b.hi + cross1.hi + cross2.hi + carry` as the high word and drops the sum `tmp_lo`,
so the result is `0` where the `__int128` branch gives `2^64`; in the same way
`2^64 * 1` is `0`. -/
theorem C36_portable_mul128_drops_middle_word :
    uint128.mul_64_64_128 (2 ^ 32) (2 ^ 32) = (1, 0) ∧
    uint128.mul_portable ⟨0, 2 ^ 32⟩ ⟨0, 2 ^ 32⟩ = ⟨0, 0⟩ ∧
    uint128.mul ⟨0, 2 ^ 32⟩ ⟨0, 2 ^ 32⟩ = ⟨1, 0⟩ ∧
    (uint128.mul ⟨0, 2 ^ 32⟩ ⟨0, 2 ^ 32⟩).to_wide = 2 ^ 32 * 2 ^ 32 % 2 ^ 128 ∧
    uint128.mul_portable ⟨1, 0⟩ ⟨0, 1⟩ = ⟨0, 0⟩ ∧
    uint128.mul ⟨1, 0⟩ ⟨0, 1⟩ = ⟨1, 0⟩ := by
  decide!

/-- C37 (fails on the code): the `#else` branch of `int128::operator>>` rounds toward zero.
It gives `int128(-1) >> 1 = 0` and `int128(-3) >> 1 = -1`, where the `__int128` branch
gives the floors `-1` and `-2`; on the non-negative value `5` both branches give `2`. -/
theorem C37_portable_shr128_rounds_toward_zero :
    (int128.shr_portable (int128.of_int64 (-1)) 1).to_wide = 0 ∧
    (int128.shr (int128.of_int64 (-1)) 1).to_wide = -1 ∧
    (int128.shr_portable (int128.of_int64 (-3)) 1).to_wide = -1 ∧
    (int128.shr (int128.of_int64 (-3)) 1).to_wide = -2 ∧
    (int128.shr_portable (int128.of_int64 5) 1).to_wide = 2 ∧
    (int128.shr (int128.of_int64 5) 1).to_wide = 2 := by
  decide!

/-- C38: the representation invariant of the arbitrary-precision `Numeric`.  Every value
produced by the public constructors (default, `int64_t`, string), by `add`, `sub`, `mul`,
`div` on such values and by a `rescale` that returned true has every limb below
`1,000,000,000`, no zero most significant limb, no sign and scale 0 when it has no limbs,
and a scale in `[0, 16383]`; an error value has no limbs, scale 0 and no sign. -/
theorem C38_numeric_invariant (x : Numeric) (h : Numeric.Obtainable x) :
    (∀ l ∈ x.mag_, l < 1000000000) ∧ x.mag_.getLast? ≠ some 0 ∧
    (x.mag_ = [] → x.neg_ = false ∧ x.scale_ = 0) ∧
    0 ≤ x.scale_ ∧ x.scale_ ≤ 16383 ∧
    (x.ok = false → x.mag_ = [] ∧ x.scale_ = 0 ∧ x.neg_ = false) := by
  obtain ⟨⟨i1, i2, i3, i4⟩, he⟩ := Numeric.obtainable_inv x h
  obtain ⟨s0, s1⟩ := Numeric.check_limits_scale x i4
  refine ⟨i1, i2, i3, s0, s1, fun hf => ?_⟩
  have hm := he hf
  exact ⟨hm, (i3 hm).2, (i3 hm).1⟩

/-- Witness for C38: the quotient `1 / 3` at scale 5, rescaled to two digits, and the
error value of `1 / 0`. -/
theorem C38_numeric_invariant_witness :
    (Numeric.rescale (Numeric.div (Numeric.init_from_int64 1) (Numeric.init_from_int64 3) 5
      Rounding.HalfUp) 2 Rounding.Trunc).2.mag_.getLast? ≠ some 0 ∧
    (Numeric.div (Numeric.init_from_int64 1) (Numeric.init_from_int64 0) 5
      Rounding.HalfUp).mag_ = [] :=
  ⟨(C38_numeric_invariant _
      (Numeric.Obtainable.rescale _ 2 Rounding.Trunc
        (Numeric.Obtainable.div _ _ 5 Rounding.HalfUp
          (Numeric.Obtainable.of_int64 1 (by decide) (by decide))
          (Numeric.Obtainable.of_int64 3 (by decide) (by decide)))
        (by decide!))).2.1,
   ((C38_numeric_invariant _
      (Numeric.Obtainable.div _ _ 5 Rounding.HalfUp
        (Numeric.Obtainable.of_int64 1 (by decide) (by decide))
        (Numeric.Obtainable.of_int64 0 (by decide) (by decide)))).2.2.2.2.2
      (by decide!)).1⟩

/-- C39: `Numeric::div_mod_abs_(a, b)` on limb vectors in base `10^9` (limbs below `10^9`)
with `b` standing for a non-zero integer.  It returns `(q, r)` with
`value(a) = value(q) * value(b) + value(r)` and `value(r) < value(b)`, so `q` is the integer
quotient; the limbs of `q` and `r` are below `10^9`, and neither has a zero top limb.  Its
loops over the limbs are total; the correction loop on a divisor `d` without a zero top limb,
a partial remainder `p` and an estimate `e` that is not below the quotient digit leaves by
its own condition, with any counter that is at least `e`, and then holds the exact quotient
digit `⌊value(p) / value(d)⌋`. -/
theorem C39_div_mod_abs_long_division (a b d p : List Nat) (e fuel : Nat)
    (h : (∀ l ∈ a, l < Numeric.base) ∧ (∀ l ∈ b, l < Numeric.base) ∧
      Numeric.limbs_value b ≠ 0)
    (hd : (∀ l ∈ d, l < Numeric.base) ∧ d.getLast? ≠ some 0 ∧ d ≠ [] ∧
      (∀ l ∈ p, l < Numeric.base) ∧ p.getLast? ≠ some 0 ∧ e < Numeric.base ∧
      Numeric.limbs_value p / Numeric.limbs_value d ≤ e ∧ e ≤ fuel) :
    Numeric.limbs_value a
      = Numeric.limbs_value (Numeric.div_mod_abs_ a b).1 * Numeric.limbs_value b
        + Numeric.limbs_value (Numeric.div_mod_abs_ a b).2 ∧
    Numeric.limbs_value (Numeric.div_mod_abs_ a b).2 < Numeric.limbs_value b ∧
    Numeric.limbs_value (Numeric.div_mod_abs_ a b).1
      = Numeric.limbs_value a / Numeric.limbs_value b ∧
    (∀ l ∈ (Numeric.div_mod_abs_ a b).1, l < Numeric.base) ∧
    (∀ l ∈ (Numeric.div_mod_abs_ a b).2, l < Numeric.base) ∧
    (Numeric.div_mod_abs_ a b).1.getLast? ≠ some 0 ∧
    (Numeric.div_mod_abs_ a b).2.getLast? ≠ some 0 ∧
    (Numeric.div_mod_adjust d p fuel e
        (if e ≠ 0 then (Numeric.mul_small_ d (to_u32 e)).2 else [])).1
      = Numeric.limbs_value p / Numeric.limbs_value d := by
  obtain ⟨ha, hb, hb0⟩ := h
  obtain ⟨d1, d2, d3, p1, p2, he, hq, hf⟩ := hd
  obtain ⟨q1, q2, q3⟩ := Numeric.div_mod_abs_quot a b ha hb hb0
  obtain ⟨r1, r2, r3⟩ := Numeric.div_mod_abs_rem a b ha hb hb0
  have hbd : (if e ≠ 0 then (Numeric.mul_small_ d (to_u32 e)).2 else [])
      = (Numeric.mul_small_ d (to_u32 e)).2 := by
    by_cases c : e ≠ 0
    · rw [if_pos c]
    · rw [if_neg c]
      have : e = 0 := by omega
      rw [this]
      exact (Numeric.mul_small_zero d).symm
  obtain ⟨m1, m2, m3⟩ := Numeric.mul_small_digit d d1 d2 e he
  refine ⟨?_, ?_, q3, q1, r1, q2, r2, ?_⟩
  · rw [q3, r3]
    exact (Nat.div_add_mod' _ _).symm
  · rw [r3]
    exact Nat.mod_lt _ (by omega)
  · rw [hbd]
    exact (Numeric.div_mod_adjust_enough d p d1 d2 d3 p1 p2 fuel e _ hf he m1 m2 m3 hq).1

/-- Witness for C39: `10^18 + 5` divided by `3 * 10^9 + 7`, and the correction of the
estimate `9` for `25 / 7` with the counter `20`. -/
theorem C39_div_mod_abs_long_division_witness :
    Numeric.limbs_value [5, 0, 1]
      = Numeric.limbs_value (Numeric.div_mod_abs_ [5, 0, 1] [7, 3]).1
          * Numeric.limbs_value [7, 3]
        + Numeric.limbs_value (Numeric.div_mod_abs_ [5, 0, 1] [7, 3]).2 ∧
    (Numeric.div_mod_adjust [7] [25] 20 9
        (if 9 ≠ 0 then (Numeric.mul_small_ [7] (to_u32 9)).2 else [])).1
      = Numeric.limbs_value [25] / Numeric.limbs_value [7] :=
  ⟨(C39_div_mod_abs_long_division [5, 0, 1] [7, 3] [7] [25] 9 20 (by decide!)
      (by decide!)).1,
   (C39_div_mod_abs_long_division [5, 0, 1] [7, 3] [7] [25] 9 20 (by decide!)
      (by decide!)).2.2.2.2.2.2.2⟩

/-- C40 (fails on the code): `std::numeric_limits<int256>::min()` is not `-2^255`.  Its high
half has all 128 bits set and its low half is zero, which is the value `-2^128`; it differs
from `-max() - 1`, which is `-2^255`, and the value `int256(uint128(2^63, 0), uint128(0, 0))`
is smaller.  `max()` is `2^255 - 1`. -/
theorem C40_limits_min_is_not_smallest :
    numeric_limits_int256.min.toInt = -2 ^ 128 ∧
    numeric_limits_int256.max.toInt = 2 ^ 255 - 1 ∧
    (int256.sub (int256.neg numeric_limits_int256.max) (int256.of_int64 1)).toInt = -2 ^ 255 ∧
    int256.sub (int256.neg numeric_limits_int256.max) (int256.of_int64 1)
      ≠ numeric_limits_int256.min ∧
    (⟨⟨2 ^ 63, 0⟩, ⟨0, 0⟩⟩ : int256).WF ∧
    (⟨⟨2 ^ 63, 0⟩, ⟨0, 0⟩⟩ : int256).toInt < numeric_limits_int256.min.toInt := by
  decide!

end umath
